import Mathlib

namespace Datastructures

/-!
# The fibre network of `Datastructures`

A shallow embedding of the phase-2 part of `datastructures.hh` / `datastructures.cc`:
the cross-point graph (`xpoints_`, `fibres_`), its mutators and the four route queries
(`route_any`, `route_least_xpoints`, `route_fastest`, `route_fibre_cycle`) with the
traversals they run (`DFS`, `BFS`, `dijkstra`, `relax`, `collect_route`).

Modelling conventions.

* A value of type `int` (`Cost`, the members of `Coord`) is an `Int`.  Arithmetic on `int`
  is the arithmetic of the 32-bit two's-complement machine type: a sum or product is reduced
  modulo `2^32` into the range `INT_MIN .. INT_MAX` (`wrapInt`, `addInt`, `mulInt`).  The C++
  standard leaves signed overflow undefined; this is what the compiled program computes.
* A `std::unordered_map<Coord, V>` is an association list `List (Coord × V)` whose order is
  the iteration order of the map.  The standard leaves that order unspecified; statements
  about "every reachable state" therefore allow an arbitrary reordering of the maps between
  operations (`Reorder`).
* A `std::shared_ptr<Xpoint>` is modelled by the coordinate of the cross-point it points to;
  dereferencing it is a lookup in `xpoints_` (`deref`).  In every reachable state the
  pointer stored in a neighbour map under key `c` is the pointer stored in `xpoints_`
  under `c`, so the two readings agree.  `nullptr` is `none`.
* Loops whose termination is not syntactically evident carry a fuel argument; a result
  `none` means that the call does not return normally.
-/

/-- Coordinates `struct Coord { int x; int y; }`. -/
structure Coord where
  x : Int
  y : Int
deriving DecidableEq, Repr

/-- Cost type `using Cost = int`. -/
abbrev Cost := Int

/-- Largest `int`, the initial value of `Xpoint::d`. -/
def INT_MAX : Int := 2147483647

/-- Smallest `int`. -/
def INT_MIN : Int := -2147483648

/-- The `int` that holds the result `x` of an arithmetic operation on `int`s: `x` reduced
modulo `2^32` into the range `INT_MIN .. INT_MAX`. -/
def wrapInt (x : Int) : Int := (x + 2147483648) % 4294967296 - 2147483648

/-- The sum `a + b` of two `int`s. -/
def addInt (a b : Int) : Int := wrapInt (a + b)

/-- The product `a * b` of two `int`s. -/
def mulInt (a b : Int) : Int := wrapInt (a * b)

/-- Order on coordinates, `operator<(Coord c1, Coord c2)`: by `y`, then by `x`. -/
def Coord.lt (c1 c2 : Coord) : Bool :=
  if c1.y < c2.y then true
  else if c2.y < c1.y then false
  else decide (c1.x < c2.x)

/-- Visitation colour `enum State { WHITE, GRAY, BLACK }`. -/
inductive State where
  | WHITE
  | GRAY
  | BLACK
deriving DecidableEq, Repr

/-- Cross-point record `struct Xpoint`.  `fibres` lists `(neighbour, cost)` in the iteration
order of the neighbour map; `pi` is the predecessor pointer. -/
structure Xpoint where
  coords : Coord
  fibres : List (Coord × Cost)
  state : State
  pi : Option Coord
  route_cost : Cost
  d : Cost
deriving DecidableEq, Repr

/-- A freshly constructed cross-point `Xpoint{c}`: every other member has its default. -/
def Xpoint.fresh (c : Coord) : Xpoint :=
  { coords := c, fibres := [], state := State.WHITE, pi := none, route_cost := 0, d := INT_MAX }

/-- Lookup `unordered_map::find`. -/
def find {β : Type} : List (Coord × β) → Coord → Option β
  | [], _ => none
  | (k, v) :: t, c => if k = c then some v else find t c

/-- In-place update of the value stored under a key (a write through an iterator or pointer). -/
def modify {β : Type} (f : β → β) : List (Coord × β) → Coord → List (Coord × β)
  | [], _ => []
  | (k, v) :: t, c => if k = c then (k, f v) :: t else (k, v) :: modify f t c

/-- Removal `unordered_map::erase` of the entry with key `c` (keys of a map are unique). -/
def eraseKey {β : Type} (m : List (Coord × β)) (c : Coord) : List (Coord × β) :=
  m.filter (fun e => !decide (e.1 = c))

/-- Assignment `m[c] = v`: overwrite the entry of `c`, or create one. -/
def assign {β : Type} (m : List (Coord × β)) (c : Coord) (v : β) : List (Coord × β) :=
  if (find m c).isSome then modify (fun _ => v) m c else (c, v) :: m

/-- The map `xpoints_` (coordinate to cross-point). -/
abbrev XMap := List (Coord × Xpoint)

/-- Dereference the pointer to the cross-point with coordinate `c`. -/
def deref (m : XMap) (c : Coord) : Xpoint := (find m c).getD (Xpoint.fresh c)

/-- The phase-2 members of `class Datastructures`: `xpoints_` and the ordered set `fibres_`. -/
structure Network where
  xpoints_ : XMap
  fibres_ : List (Coord × Coord)
deriving DecidableEq, Repr

/-- The state built by the constructor. -/
def Network.empty : Network := { xpoints_ := [], fibres_ := [] }

/-- Non-strict order on coordinates: `c2 < c1` is false. -/
def Coord.le (c1 c2 : Coord) : Prop := Coord.lt c2 c1 = false

instance : DecidableRel Coord.le := fun a b => inferInstanceAs (Decidable (Coord.lt b a = false))

/-- Order `operator<` of `std::pair<Coord, Cost>`. -/
def fibreLt (p q : Coord × Cost) : Bool :=
  Coord.lt p.1 q.1 || (!Coord.lt q.1 p.1 && decide (p.2 < q.2))

/-- Non-strict companion of `fibreLt`. -/
def fibreLe (p q : Coord × Cost) : Prop := fibreLt q p = false

instance : DecidableRel fibreLe := fun a b => inferInstanceAs (Decidable (fibreLt b a = false))

/-- Order `operator<` of `std::pair<Coord, Coord>`, the order of the set `fibres_`. -/
def pairLt (p q : Coord × Coord) : Bool :=
  Coord.lt p.1 q.1 || (!Coord.lt q.1 p.1 && Coord.lt p.2 q.2)

/-- Insertion `std::set::insert` into the ordered set `fibres_`. -/
def setInsert (p : Coord × Coord) : List (Coord × Coord) → List (Coord × Coord)
  | [] => [p]
  | q :: t =>
    if pairLt p q then p :: q :: t
    else if pairLt q p then q :: setInsert p t
    else q :: t

/-- Removal of an element from the ordered set `fibres_`. -/
def setErase (p : Coord × Coord) (s : List (Coord × Coord)) : List (Coord × Coord) :=
  s.filter (fun q => !decide (q = p))

/-- Query `Datastructures::all_xpoints`: the stored coordinates, sorted. -/
def all_xpoints (g : Network) : List Coord :=
  (g.xpoints_.map Prod.fst).insertionSort Coord.le

/-- Mutator `Datastructures::add_fibre`. -/
def add_fibre (g : Network) (xpoint1 xpoint2 : Coord) (cost : Cost) : Bool × Network :=
  if xpoint1 = xpoint2 then (false, g)
  else
    let result1 := find g.xpoints_ xpoint1
    let result2 := find g.xpoints_ xpoint2
    let xs1 := if result1.isNone then assign g.xpoints_ xpoint1 (Xpoint.fresh xpoint1)
               else g.xpoints_
    let xs2 := if result2.isNone then assign xs1 xpoint2 (Xpoint.fresh xpoint2) else xs1
    if (find (deref xs2 xpoint1).fibres xpoint2).isSome then
      (false, { g with xpoints_ := xs2 })
    else
      let xs3 := modify (fun xp => { xp with fibres := assign xp.fibres xpoint2 cost }) xs2 xpoint1
      let xs4 := modify (fun xp => { xp with fibres := assign xp.fibres xpoint1 cost }) xs3 xpoint2
      let fs := if Coord.lt xpoint1 xpoint2 then setInsert (xpoint1, xpoint2) g.fibres_
                else setInsert (xpoint2, xpoint1) g.fibres_
      (true, { xpoints_ := xs4, fibres_ := fs })

/-- Query `Datastructures::get_fibres_from`. -/
def get_fibres_from (g : Network) (xpoint : Coord) : List (Coord × Cost) :=
  match find g.xpoints_ xpoint with
  | none => []
  | some xp =>
    if xp.fibres.length = 0 then []
    else xp.fibres.insertionSort fibreLe

/-- Query `Datastructures::all_fibres`: the set `fibres_` in its order. -/
def all_fibres (g : Network) : List (Coord × Coord) := g.fibres_

/-- Mutator `Datastructures::remove_fibre`. -/
def remove_fibre (g : Network) (xpoint1 xpoint2 : Coord) : Bool × Network :=
  match find g.xpoints_ xpoint1, find g.xpoints_ xpoint2 with
  | some xp1, some xp2 =>
    if (find xp1.fibres xpoint2).isNone ∨ (find xp2.fibres xpoint1).isNone then (false, g)
    else
      let xs1 := modify (fun xp => { xp with fibres := eraseKey xp.fibres xpoint2 })
        g.xpoints_ xpoint1
      let xs2 := modify (fun xp => { xp with fibres := eraseKey xp.fibres xpoint1 })
        xs1 xpoint2
      let xs3 := if (deref xs2 xpoint1).fibres.isEmpty then eraseKey xs2 xpoint1 else xs2
      let xs4 := if (deref xs2 xpoint2).fibres.isEmpty then eraseKey xs3 xpoint2 else xs3
      let to_be_removed := if Coord.lt xpoint1 xpoint2 then (xpoint1, xpoint2)
                           else (xpoint2, xpoint1)
      (true, { xpoints_ := xs4, fibres_ := setErase to_be_removed g.fibres_ })
  | _, _ => (false, g)

/-- Mutator `Datastructures::clear_fibres`. -/
def clear_fibres (_g : Network) : Network := { xpoints_ := [], fibres_ := [] }

/-- Helper `Datastructures::reset_xpoints`: clear the traversal fields of every cross-point. -/
def reset_xpoints (m : XMap) : XMap :=
  m.map (fun e => (e.1, { e.2 with state := State.WHITE, pi := none, d := INT_MAX,
                                   route_cost := 0 }))

/-- Outcome of the `for` loop over the fibres of `u` inside `DFS`: either the loop ran to its
end (`done`, with the stack), or the function returned `true` from inside it (`found`, with
the value of `cycle_begin`, `none` when it was left untouched). -/
inductive ForResult where
  | done (m : XMap) (stack : List Coord)
  | found (m : XMap) (cycle_begin : Option (Coord × Coord))
deriving DecidableEq, Repr

/-- The `for (auto& fibre : u->fibres)` loop of `Datastructures::DFS`.  The head of `stack`
is the top of the `std::stack`. -/
def DFS_for (to_ : Option Coord) (find_cycle : Bool) (u : Coord) :
    List (Coord × Cost) → XMap → List Coord → ForResult
  | [], m, stack => ForResult.done m stack
  | (v, w) :: rest, m, stack =>
    if (deref m v).state = State.WHITE then
      let m1 := modify
        (fun xv => { xv with pi := some u, route_cost := addInt (deref m u).route_cost w }) m v
      if some v = to_ then ForResult.found m1 none
      else DFS_for to_ find_cycle u rest m1 (v :: stack)
    else if (deref m v).state = State.GRAY then
      if find_cycle ∧ some v ≠ (deref m u).pi then ForResult.found m (some (u, v))
      else DFS_for to_ find_cycle u rest m stack
    else DFS_for to_ find_cycle u rest m stack

/-- The `while (!stack.empty())` loop of `Datastructures::DFS`.  The result is the returned
boolean, the value of `cycle_begin` and the final cross-points. -/
def DFS_while (to_ : Option Coord) (find_cycle : Bool) :
    Nat → XMap → List Coord → Option (Bool × Option (Coord × Coord) × XMap)
  | 0, _, _ => none
  | _ + 1, m, [] => some (false, none, m)
  | fuel + 1, m, u :: stack =>
    if (deref m u).state = State.WHITE then
      let m1 := modify (fun xu => { xu with state := State.GRAY }) m u
      match DFS_for to_ find_cycle u (deref m1 u).fibres m1 (u :: stack) with
      | ForResult.found m2 cyc => some (true, cyc, m2)
      | ForResult.done m2 stack2 => DFS_while to_ find_cycle fuel m2 stack2
    else
      DFS_while to_ find_cycle fuel (modify (fun xu => { xu with state := State.BLACK }) m u) stack

/-- Number of loop iterations granted to `DFS`: every cross-point is expanded at most once and
pushes at most one entry per fibre, so the stack sees at most `1 + Σ (deg + 1)` pops. -/
def dfsFuel (m : XMap) : Nat := (m.map (fun e => e.2.fibres.length + 1)).sum + 2

/-- Traversal `Datastructures::DFS(from, to, find_cycle, cycle_begin)`. -/
def DFS (m : XMap) (frm : Coord) (to_ : Option Coord) (find_cycle : Bool) :
    Option (Bool × Option (Coord × Coord) × XMap) :=
  DFS_while to_ find_cycle (dfsFuel m) (reset_xpoints m) [frm]

/-- The `for` loop of `Datastructures::BFS`; the queue grows at its back. -/
def BFS_for (u : Coord) : List (Coord × Cost) → XMap → List Coord → XMap × List Coord
  | [], m, queue => (m, queue)
  | (v, w) :: rest, m, queue =>
    if (deref m v).state = State.WHITE then
      BFS_for u rest
        (modify (fun xv => { xv with state := State.GRAY, pi := some u,
                                     route_cost := addInt (deref m u).route_cost w }) m v)
        (queue ++ [v])
    else BFS_for u rest m queue

/-- The `while (!queue.empty())` loop of `Datastructures::BFS`. -/
def BFS_while : Nat → XMap → List Coord → Option XMap
  | 0, _, _ => none
  | _ + 1, m, [] => some m
  | fuel + 1, m, u :: queue =>
    let r := BFS_for u (deref m u).fibres m queue
    BFS_while fuel (modify (fun xu => { xu with state := State.BLACK }) r.1 u) r.2

/-- Traversal `Datastructures::BFS(from)`. -/
def BFS (m : XMap) (frm : Coord) : Option XMap :=
  let m0 := reset_xpoints m
  let m1 := modify (fun xf => { xf with state := State.GRAY, d := 0 }) m0 frm
  BFS_while (m.length + 1) m1 [frm]

/-- Loop of `Datastructures::collect_route`: follow `pi` from `ptr`, pushing
`(coords, route_cost)` at the back of `route`. -/
def collect_loop (m : XMap) : Nat → Option Coord → List (Coord × Cost) →
    Option (List (Coord × Cost))
  | 0, _, _ => none
  | _ + 1, none, route => some route
  | fuel + 1, some p, route =>
    collect_loop m fuel (deref m p).pi (route ++ [((deref m p).coords, (deref m p).route_cost)])

/-- Helper `Datastructures::collect_route(route, to)`. -/
def collect_route (m : XMap) (route : List (Coord × Cost)) (to_ : Coord) :
    Option (List (Coord × Cost)) :=
  (collect_loop m (m.length + 1) (some to_) route).map List.reverse

/-- Query `Datastructures::route_any`. -/
def route_any (g : Network) (fromxpoint toxpoint : Coord) :
    Option (List (Coord × Cost) × Network) :=
  if (find g.xpoints_ fromxpoint).isNone ∨ (find g.xpoints_ toxpoint).isNone then some ([], g)
  else
    match DFS g.xpoints_ fromxpoint (some toxpoint) false with
    | none => none
    | some (false, _, m) => some ([], { g with xpoints_ := m })
    | some (true, _, m) =>
      (collect_route m [] toxpoint).map (fun route => (route, { g with xpoints_ := m }))

/-- Query `Datastructures::route_least_xpoints`. -/
def route_least_xpoints (g : Network) (fromxpoint toxpoint : Coord) :
    Option (List (Coord × Cost) × Network) :=
  if (find g.xpoints_ fromxpoint).isNone ∨ (find g.xpoints_ toxpoint).isNone then some ([], g)
  else
    match BFS g.xpoints_ fromxpoint with
    | none => none
    | some m =>
      if (deref m toxpoint).pi = none then some ([], { g with xpoints_ := m })
      else (collect_route m [] toxpoint).map (fun route => (route, { g with xpoints_ := m }))

/-- Comparison `Prio_que_op`: `lhs->d > rhs->d`, read from the cross-points as they are when
the comparison is made. -/
def Prio_que_op (m : XMap) (lhs rhs : Coord) : Bool := decide ((deref m lhs).d > (deref m rhs).d)

/-- Sift-up loop `std::__push_heap(first, holeIndex, topIndex, value, comp)`. -/
def push_heap_loop (comp : Coord → Coord → Bool) (value : Coord) :
    Nat → List Coord → Nat → Nat → List Coord
  | 0, c, holeIndex, _ => c.set holeIndex value
  | fuel + 1, c, holeIndex, topIndex =>
    let parent := (holeIndex - 1) / 2
    if topIndex < holeIndex ∧ comp (c.getD parent value) value = true then
      push_heap_loop comp value fuel (c.set holeIndex (c.getD parent value)) parent topIndex
    else c.set holeIndex value

/-- The descent loop of `std::__adjust_heap`: returns the container and the final hole index,
which equals the final `secondChild`. -/
def adjust_heap_loop (comp : Coord → Coord → Bool) (len : Nat) (dflt : Coord) :
    Nat → List Coord → Nat → List Coord × Nat
  | 0, c, holeIndex => (c, holeIndex)
  | fuel + 1, c, holeIndex =>
    if holeIndex < (len - 1) / 2 then
      let secondChild := 2 * (holeIndex + 1)
      let child := if comp (c.getD secondChild dflt) (c.getD (secondChild - 1) dflt) = true
                   then secondChild - 1 else secondChild
      adjust_heap_loop comp len dflt fuel (c.set holeIndex (c.getD child dflt)) child
    else (c, holeIndex)

/-- Sift-down `std::__adjust_heap(first, holeIndex, len, value, comp)` on the first `len`
slots of `c`.  (`(len - 2) / 2` is signed in C++, hence the guard `2 ≤ len`.) -/
def adjust_heap (comp : Coord → Coord → Bool) (c : List Coord) (holeIndex len : Nat)
    (value : Coord) : List Coord :=
  let r := adjust_heap_loop comp len value len c holeIndex
  let r2 : List Coord × Nat :=
    if len % 2 = 0 ∧ 2 ≤ len ∧ r.2 = (len - 2) / 2 then
      ((r.1).set r.2 ((r.1).getD (2 * (r.2 + 1) - 1) value), 2 * (r.2 + 1) - 1)
    else r
  push_heap_loop comp value len r2.1 r2.2 holeIndex

/-- Insertion `priority_queue::push`: `push_back` followed by `std::push_heap`. -/
def pq_push (comp : Coord → Coord → Bool) (c : List Coord) (x : Coord) : List Coord :=
  push_heap_loop comp x (c.length + 1) (c ++ [x]) c.length 0

/-- Removal `priority_queue::pop`: `std::pop_heap` followed by `pop_back`. -/
def pq_pop (comp : Coord → Coord → Bool) (c : List Coord) : List Coord :=
  match c with
  | [] => []
  | first :: _ =>
    if 1 < c.length then
      let last := c.length - 1
      let value := c.getD last first
      (adjust_heap comp (c.set last first) 0 last value).dropLast
    else c.dropLast

/-- Helper `Datastructures::relax(u, v, w)`. -/
def relax (m : XMap) (u v : Coord) (w : Cost) : XMap :=
  if (deref m v).d > addInt (deref m u).d w then
    modify (fun xv => { xv with d := addInt (deref m u).d w, pi := some u,
                                route_cost := addInt (deref m u).route_cost w }) m v
  else m

/-- The `for` loop of `Datastructures::dijkstra`. -/
def dijkstra_for (u : Coord) : List (Coord × Cost) → XMap → List Coord → XMap × List Coord
  | [], m, min_queue => (m, min_queue)
  | (v, w) :: rest, m, min_queue =>
    let m1 := relax m u v w
    if (deref m1 v).state = State.WHITE then
      let m2 := modify (fun xv => { xv with state := State.GRAY }) m1 v
      dijkstra_for u rest m2 (pq_push (Prio_que_op m2) min_queue v)
    else dijkstra_for u rest m1 min_queue

/-- The `while (!min_queue.empty())` loop of `Datastructures::dijkstra`; `top()` is the front
of the underlying vector. -/
def dijkstra_while : Nat → XMap → List Coord → Option XMap
  | 0, _, _ => none
  | _ + 1, m, [] => some m
  | fuel + 1, m, u :: rest =>
    let min_queue := pq_pop (Prio_que_op m) (u :: rest)
    let r := dijkstra_for u (deref m u).fibres m min_queue
    dijkstra_while fuel (modify (fun xu => { xu with state := State.BLACK }) r.1 u) r.2

/-- Traversal `Datastructures::dijkstra(from)`. -/
def dijkstra (m : XMap) (frm : Coord) : Option XMap :=
  let m0 := reset_xpoints m
  let m1 := modify (fun xf => { xf with state := State.GRAY, d := 0 }) m0 frm
  dijkstra_while (m.length + 1) m1 (pq_push (Prio_que_op m1) [] frm)

/-- Query `Datastructures::route_fastest`. -/
def route_fastest (g : Network) (fromxpoint toxpoint : Coord) :
    Option (List (Coord × Cost) × Network) :=
  if (find g.xpoints_ fromxpoint).isNone ∨ (find g.xpoints_ toxpoint).isNone then some ([], g)
  else
    match dijkstra g.xpoints_ fromxpoint with
    | none => none
    | some m =>
      if (deref m toxpoint).pi = none then some ([], { g with xpoints_ := m })
      else (collect_route m [] toxpoint).map (fun route => (route, { g with xpoints_ := m }))

/-- The loop of `Datastructures::route_fibre_cycle` that walks `pi` from `cycle_pair.first`
until it meets the coordinate `route.at(0)` again. -/
def cycle_loop (m : XMap) (first : Coord) : Nat → Option Coord → List Coord → Option (List Coord)
  | 0, _, _ => none
  | _ + 1, none, route => some route
  | fuel + 1, some p, route =>
    if (deref m p).coords = first then some (route ++ [(deref m p).coords])
    else cycle_loop m first fuel (deref m p).pi (route ++ [(deref m p).coords])

/-- Query `Datastructures::route_fibre_cycle`. -/
def route_fibre_cycle (g : Network) (startxpoint : Coord) : Option (List Coord × Network) :=
  if (find g.xpoints_ startxpoint).isNone then some ([], g)
  else
    match DFS g.xpoints_ startxpoint none true with
    | none => none
    | some (false, _, m) => some ([], { g with xpoints_ := m })
    | some (true, none, _) => none
    | some (true, some (u, v), m) =>
      (cycle_loop m (deref m v).coords (m.length + 1) (some u) [(deref m v).coords]).map
        (fun route => (route, { g with xpoints_ := m }))

/-!
## The beacon registry

The phase-1 members of `class Datastructures`: the map `beacons_` and the two order indexes
`alphabetical_order_` and `brightness_order_`, with the public beacon operations.

* A `std::string` is a `String`; `operator<` of strings is the lexicographic order of the
  characters (`strLt`), which for UTF-8 text is the order of the bytes that C++ compares.
* `int` is `Int` with the 32-bit arithmetic `addInt`, `mulInt` of the fibre network; `/` of
  `int` truncates towards zero (`Int.tdiv`).
* The size of a container is a natural number.  No vector holds `2^31 - 1` or more ids, so
  `static_cast<int>(sources.size()) + 1` is the exact number `sources.size() + 1`.
* A `std::multimap` is the list of its entries in key order; an insertion goes to the end of
  the range of equivalent keys, and `extract(key)` takes the first entry with an equivalent
  key.
* An operation returns `none` where the C++ code has no defined result: `unordered_map::at`
  on a missing key, a dereferenced end iterator, or a loop or recursion that does not end.
-/

/-- Beacon identifiers `using BeaconID = std::string`. -/
abbrev BeaconID := String

/-- Return value for a beacon that was not found. -/
def NO_ID : BeaconID := "----------"

/-- Return value `std::numeric_limits<int>::min()` for an integer that was not found. -/
def NO_VALUE : Int := -2147483648

/-- Return value for a name that was not found. -/
def NO_NAME : String := "-- unknown --"

/-- Return value for coordinates that were not found. -/
def NO_COORD : Coord := ⟨NO_VALUE, NO_VALUE⟩

/-- Colours `struct Color { int r; int g; int b; }`. -/
structure Color where
  r : Int
  g : Int
  b : Int
deriving DecidableEq, Repr

/-- Return value for a colour that was not found. -/
def NO_COLOR : Color := ⟨NO_VALUE, NO_VALUE, NO_VALUE⟩

/-- Beacon record `struct Beacon`. -/
structure Beacon where
  id : BeaconID
  name : String
  coords : Coord
  color : Color
  brightness : Int
  target : BeaconID
  sources : List BeaconID
deriving DecidableEq, Repr

/-- Lexicographic comparison of character sequences. -/
def lexLt : List Char → List Char → Bool
  | _, [] => false
  | [], _ :: _ => true
  | a :: as, b :: bs =>
    if a.toNat < b.toNat then true
    else if b.toNat < a.toNat then false
    else lexLt as bs

/-- Order `operator<` of `std::string`. -/
def strLt (a b : String) : Bool := lexLt a.data b.data

/-- Non-strict companion of `strLt`. -/
def strLe (a b : String) : Prop := strLt b a = false

instance : DecidableRel strLe := fun a b => inferInstanceAs (Decidable (strLt b a = false))

/-- Order `operator<` of `int`. -/
def intLt (a b : Int) : Bool := decide (a < b)

/-- Lookup `unordered_map::find` in a map keyed by beacon id. -/
def findB {β : Type} : List (BeaconID × β) → BeaconID → Option β
  | [], _ => none
  | (k, v) :: t, c => if k = c then some v else findB t c

/-- In-place update of the value stored under a beacon id. -/
def modifyB {β : Type} (f : β → β) : List (BeaconID × β) → BeaconID → List (BeaconID × β)
  | [], _ => []
  | (k, v) :: t, c => if k = c then (k, f v) :: t else (k, v) :: modifyB f t c

/-- Removal `unordered_map::erase` of the entry of a beacon id. -/
def eraseB {β : Type} (m : List (BeaconID × β)) (c : BeaconID) : List (BeaconID × β) :=
  m.filter (fun e => !decide (e.1 = c))

/-- Assignment `m[c] = v` in a map keyed by beacon id. -/
def assignB {β : Type} (m : List (BeaconID × β)) (c : BeaconID) (v : β) :
    List (BeaconID × β) :=
  if (findB m c).isSome then modifyB (fun _ => v) m c else (c, v) :: m

/-- Two keys are equivalent for the order `lt`: neither is less than the other. -/
def equivKey {κ : Type} (lt : κ → κ → Bool) (a b : κ) : Bool := !lt a b && !lt b a

/-- Insertion `std::multimap::insert`: after the entries whose key is not greater. -/
def mmInsert {κ ν : Type} (lt : κ → κ → Bool) (k : κ) (v : ν) : List (κ × ν) → List (κ × ν)
  | [] => [(k, v)]
  | e :: t => if lt k e.1 then (k, v) :: e :: t else e :: mmInsert lt k v t

/-- The range `std::multimap::equal_range(k)`. -/
def equal_range {κ ν : Type} (lt : κ → κ → Bool) (k : κ) (l : List (κ × ν)) : List (κ × ν) :=
  l.filter (fun e => equivKey lt e.1 k)

/-- Extraction `std::multimap::extract(k)` by key: the node handle of the first entry with a
key equivalent to `k` (empty if there is none), and the remaining entries. -/
def mmExtract {κ ν : Type} (lt : κ → κ → Bool) (k : κ) :
    List (κ × ν) → Option (κ × ν) × List (κ × ν)
  | [] => (none, [])
  | e :: t =>
    if equivKey lt e.1 k then (some e, t)
    else ((mmExtract lt k t).1, e :: (mmExtract lt k t).2)

/-- The loops of `remove_beacon` over an index: erase the first entry whose id is `id`. -/
def eraseFirst {κ : Type} (id : BeaconID) : List (κ × BeaconID) → List (κ × BeaconID)
  | [] => []
  | e :: t => if e.2 = id then t else e :: eraseFirst id t

/-- The phase-1 members of `class Datastructures`. -/
structure Registry where
  beacons_ : List (BeaconID × Beacon)
  alphabetical_order_ : List (String × BeaconID)
  brightness_order_ : List (Int × BeaconID)
deriving DecidableEq, Repr

/-- The state built by the constructor. -/
def Registry.empty : Registry :=
  { beacons_ := [], alphabetical_order_ := [], brightness_order_ := [] }

/-- Query `Datastructures::beacon_count`. -/
def beacon_count (g : Registry) : Int := g.beacons_.length

/-- Mutator `Datastructures::clear_beacons`. -/
def clear_beacons (_g : Registry) : Registry :=
  { beacons_ := [], alphabetical_order_ := [], brightness_order_ := [] }

/-- Query `Datastructures::all_beacons`. -/
def all_beacons (g : Registry) : List BeaconID := g.beacons_.map Prod.fst

/-- Helper `Datastructures::get_brightness`. -/
def get_brightness (color : Color) : Int :=
  addInt (addInt (mulInt 3 color.r) (mulInt 6 color.g)) color.b

/-- Mutator `Datastructures::add_beacon`. -/
def add_beacon (g : Registry) (id : BeaconID) (name : String) (xy : Coord) (color : Color) :
    Bool × Registry :=
  if (findB g.beacons_ id).isSome then (false, g)
  else
    let new_beacon_brightness := get_brightness color
    let new_beacon : Beacon :=
      { id := id, name := name, coords := xy, color := color,
        brightness := new_beacon_brightness, target := NO_ID, sources := [] }
    (true, { beacons_ := assignB g.beacons_ id new_beacon,
             alphabetical_order_ := mmInsert strLt name id g.alphabetical_order_,
             brightness_order_ := mmInsert intLt new_beacon_brightness id g.brightness_order_ })

/-- Query `Datastructures::get_name`. -/
def get_name (g : Registry) (id : BeaconID) : String :=
  match findB g.beacons_ id with
  | some b => b.name
  | none => NO_NAME

/-- Query `Datastructures::get_coordinates`. -/
def get_coordinates (g : Registry) (id : BeaconID) : Coord :=
  match findB g.beacons_ id with
  | some b => b.coords
  | none => NO_COORD

/-- Query `Datastructures::get_color`. -/
def get_color (g : Registry) (id : BeaconID) : Color :=
  match findB g.beacons_ id with
  | some b => b.color
  | none => NO_COLOR

/-- Query `Datastructures::beacons_alphabetically`. -/
def beacons_alphabetically (g : Registry) : List BeaconID := g.alphabetical_order_.map Prod.snd

/-- Query `Datastructures::beacons_brightness_increasing`. -/
def beacons_brightness_increasing (g : Registry) : List BeaconID :=
  g.brightness_order_.map Prod.snd

/-- Query `Datastructures::min_brightness`. -/
def min_brightness (g : Registry) : BeaconID :=
  if g.brightness_order_.length = 0 then NO_ID
  else (g.brightness_order_.head?.map Prod.snd).getD NO_ID

/-- Query `Datastructures::max_brightness`. -/
def max_brightness (g : Registry) : BeaconID :=
  if g.brightness_order_.length = 0 then NO_ID
  else (g.brightness_order_.getLast?.map Prod.snd).getD NO_ID

/-- Query `Datastructures::find_beacons`. -/
def find_beacons (g : Registry) (name : String) : List BeaconID :=
  ((g.beacons_.filter (fun beacon => decide (beacon.2.name = name))).map
    (fun beacon => beacon.2.id)).insertionSort strLe

/-- Mutator `Datastructures::change_beacon_name`: the name is written first; then the range of
the old name is searched for the entry of `id`, and when it is met `extract` is called with
its key, the node's key is set to `newname` and the node is inserted again. -/
def change_beacon_name (g : Registry) (id : BeaconID) (newname : String) : Bool × Registry :=
  match findB g.beacons_ id with
  | some result =>
    let oldname := result.name
    let beacons := modifyB (fun b => { b with name := newname }) g.beacons_ id
    match (equal_range strLt oldname g.alphabetical_order_).find? (fun i => decide (i.2 = id)) with
    | some i =>
      match mmExtract strLt i.1 g.alphabetical_order_ with
      | (some node_handler, rest) =>
        (true, { g with beacons_ := beacons,
                        alphabetical_order_ := mmInsert strLt newname node_handler.2 rest })
      | (none, rest) => (true, { g with beacons_ := beacons, alphabetical_order_ := rest })
    | none => (false, { g with beacons_ := beacons })
  | none => (false, g)

/-- Mutator `Datastructures::change_beacon_color`, built like `change_beacon_name` on the
brightness index. -/
def change_beacon_color (g : Registry) (id : BeaconID) (newcolor : Color) : Bool × Registry :=
  match findB g.beacons_ id with
  | some result =>
    let new_brightness := get_brightness newcolor
    let old_brightness := result.brightness
    let beacons := modifyB (fun b => { b with color := newcolor, brightness := new_brightness })
      g.beacons_ id
    match (equal_range intLt old_brightness g.brightness_order_).find?
        (fun i => decide (i.2 = id)) with
    | some i =>
      match mmExtract intLt i.1 g.brightness_order_ with
      | (some node_handler, rest) =>
        (true, { g with beacons_ := beacons,
                        brightness_order_ := mmInsert intLt new_brightness node_handler.2 rest })
      | (none, rest) => (true, { g with beacons_ := beacons, brightness_order_ := rest })
    | none => (false, { g with beacons_ := beacons })
  | none => (false, g)

/-- Mutator `Datastructures::add_lightbeam`. -/
def add_lightbeam (g : Registry) (sourceid targetid : BeaconID) : Bool × Registry :=
  match findB g.beacons_ sourceid, findB g.beacons_ targetid with
  | some source, some _ =>
    if source.target ≠ NO_ID then (false, g)
    else
      let bs1 := modifyB (fun b => { b with target := targetid }) g.beacons_ sourceid
      let bs2 := modifyB (fun b => { b with sources := b.sources ++ [sourceid] }) bs1 targetid
      (true, { g with beacons_ := bs2 })
  | _, _ => (false, g)

/-- Query `Datastructures::get_lightsources`. -/
def get_lightsources (g : Registry) (id : BeaconID) : List BeaconID :=
  match findB g.beacons_ id with
  | none => [NO_ID]
  | some result => result.sources.insertionSort strLe

/-- The `while (target != NO_ID)` loop of `Datastructures::path_outbeam`. -/
def path_outbeam_loop (m : List (BeaconID × Beacon)) :
    Nat → BeaconID → List BeaconID → Option (List BeaconID)
  | 0, _, _ => none
  | fuel + 1, target, ids =>
    if target ≠ NO_ID then
      match findB m target with
      | none => none
      | some t => path_outbeam_loop m fuel t.target (ids ++ [target])
    else some ids

/-- Query `Datastructures::path_outbeam`. -/
def path_outbeam (g : Registry) (id : BeaconID) : Option (List BeaconID) :=
  match findB g.beacons_ id with
  | none => some [NO_ID]
  | some result => path_outbeam_loop g.beacons_ (g.beacons_.length + 1) result.target [id]

/-- The statement `v.erase(std::remove_if(v.begin(), v.end(), [=](auto& s){ return s == id; }))`
of `remove_beacon`, with the one-iterator `erase`.  When `id` occurs once, `remove_if` moves
the other elements to the front and `erase` removes the last slot.  When `id` does not occur
the end iterator is erased, and when it occurs more than once the slots that remain hold
moved-from strings of unspecified value: the model has no result then. -/
def erase_remove_if (v : List BeaconID) (id : BeaconID) : Option (List BeaconID) :=
  if v.count id = 1 then some (v.filter (fun source => !decide (source = id))) else none

/-- The loop `for (source : result->second.sources) beacons_.at(source).target = NO_ID`. -/
def clear_targets : List BeaconID → List (BeaconID × Beacon) → Option (List (BeaconID × Beacon))
  | [], m => some m
  | source :: rest, m =>
    match findB m source with
    | none => none
    | some _ => clear_targets rest (modifyB (fun b => { b with target := NO_ID }) m source)

/-- Mutator `Datastructures::remove_beacon`. -/
def remove_beacon (g : Registry) (id : BeaconID) : Option (Bool × Registry) :=
  match findB g.beacons_ id with
  | none => some (false, g)
  | some result =>
    let unlinked : Option (List (BeaconID × Beacon)) :=
      if result.target ≠ NO_ID then
        match findB g.beacons_ result.target with
        | none => none
        | some t =>
          (erase_remove_if t.sources id).map
            (fun v => modifyB (fun b => { b with sources := v }) g.beacons_ result.target)
      else some g.beacons_
    match unlinked with
    | none => none
    | some bs1 =>
      match findB bs1 id with
      | none => none
      | some result1 =>
        match clear_targets result1.sources bs1 with
        | none => none
        | some bs2 =>
          some (true, { beacons_ := eraseB bs2 id,
                        alphabetical_order_ := eraseFirst id g.alphabetical_order_,
                        brightness_order_ := eraseFirst id g.brightness_order_ })

/-- Helper `Datastructures::path_inbeam_recursive(id, atm, longest)`; the result is the value
of the reference parameter `longest` on return. -/
def path_inbeam_recursive (m : List (BeaconID × Beacon)) :
    Nat → BeaconID → List BeaconID → List BeaconID → Option (List BeaconID)
  | 0, _, _, _ => none
  | fuel + 1, id, atm, longest =>
    match findB m id with
    | none => none
    | some result =>
      let atm1 := id :: atm
      let longest1 := if atm1.length > longest.length then atm1 else longest
      result.sources.foldlM (fun l source => path_inbeam_recursive m fuel source atm1 l) longest1

/-- Query `Datastructures::path_inbeam_longest`. -/
def path_inbeam_longest (g : Registry) (id : BeaconID) : Option (List BeaconID) :=
  match findB g.beacons_ id with
  | none => some [NO_ID]
  | some _ => path_inbeam_recursive g.beacons_ (g.beacons_.length + 1) id [] []

/-- The recursion of `Datastructures::total_color`: the channels of the sources are added
one after the other with `+=` on `int`, and each total is divided by the number of beacons
that were added up. -/
def total_color_rec (m : List (BeaconID × Beacon)) : Nat → BeaconID → Option Color
  | 0, _ => none
  | fuel + 1, id =>
    match findB m id with
    | none => some NO_COLOR
    | some result =>
      if result.sources.length > 0 then
        (result.sources.foldlM
          (fun (acc : Color) source =>
            (total_color_rec m fuel source).map
              (fun source_color => { r := addInt acc.r source_color.r,
                                     g := addInt acc.g source_color.g,
                                     b := addInt acc.b source_color.b }))
          result.color).map
          (fun acc =>
            let number_of_beacons : Int := (result.sources.length : Int) + 1
            { r := Int.tdiv acc.r number_of_beacons, g := Int.tdiv acc.g number_of_beacons,
              b := Int.tdiv acc.b number_of_beacons })
      else some result.color

/-- Query `Datastructures::total_color`. -/
def total_color (g : Registry) (id : BeaconID) : Option Color :=
  total_color_rec g.beacons_ (g.beacons_.length + 1) id

/-- The registry after `add_beacon` of `a`, `b` (both named `x`, both of colour `(1,1,1)`,
brightness 10) in this order. -/
def twins : Registry :=
  (add_beacon (add_beacon Registry.empty "a" "x" ⟨0, 0⟩ ⟨1, 1, 1⟩).2 "b" "x" ⟨1, 0⟩ ⟨1, 1, 1⟩).2

/-- The registry of the specification's scenario: beacons `A`, `B`, `C` with `A` wired to `B`
and `B` wired to `C`. -/
def beamChain : Registry :=
  (add_lightbeam (add_lightbeam (add_beacon (add_beacon (add_beacon Registry.empty
    "A" "first" ⟨0, 0⟩ ⟨10, 20, 30⟩).2 "B" "second" ⟨1, 0⟩ ⟨40, 50, 60⟩).2
    "C" "third" ⟨2, 0⟩ ⟨70, 80, 90⟩).2 "A" "B").2 "B" "C").2

/-! ## Vocabulary of the properties: connectivity, routes, cycles, target chains, reachable
states and the invariants of the traversals -/

/-- The coordinate `c` is a key of `xpoints_`. -/
def stored (m : XMap) (c : Coord) : Prop := (find m c).isSome = true

instance (m : XMap) (c : Coord) : Decidable (stored m c) :=
  inferInstanceAs (Decidable ((find m c).isSome = true))

/-- The cost recorded in the neighbour map of `a` for `b`, if `b` is a neighbour of `a`. -/
def nb (m : XMap) (a b : Coord) : Option Cost := find (deref m a).fibres b

/-- Two cross-points that differ only in the iteration order of the neighbour map. -/
def XpReorder (xp xp' : Xpoint) : Prop :=
  xp'.coords = xp.coords ∧ xp'.fibres.Perm xp.fibres ∧ xp'.state = xp.state ∧
    xp'.pi = xp.pi ∧ xp'.route_cost = xp.route_cost ∧ xp'.d = xp.d

/-- The state `g'` holds the same maps as `g`, iterated in another order: `xpoints_` is
permuted, and so is each neighbour map.  (`fibres_` is an ordered set and has one order.) -/
def Reorder (g g' : Network) : Prop :=
  g'.fibres_ = g.fibres_ ∧
    ∃ l : XMap, List.Forall₂ (fun e e' => e'.1 = e.1 ∧ XpReorder e.2 e'.2) g.xpoints_ l ∧
      l.Perm g'.xpoints_

/-- The states the class can be in: built from the constructor's state by the public
operations on the fibre network, with the unordered maps iterated in any order. -/
inductive Reachable : Network → Prop where
  | init : Reachable Network.empty
  | add_fibre (g : Network) (xpoint1 xpoint2 : Coord) (cost : Cost) :
      Reachable g → Reachable (add_fibre g xpoint1 xpoint2 cost).2
  | remove_fibre (g : Network) (xpoint1 xpoint2 : Coord) :
      Reachable g → Reachable (remove_fibre g xpoint1 xpoint2).2
  | clear_fibres (g : Network) : Reachable g → Reachable (clear_fibres g)
  | route_any (g g' : Network) (a b : Coord) (r : List (Coord × Cost)) :
      Reachable g → route_any g a b = some (r, g') → Reachable g'
  | route_least_xpoints (g g' : Network) (a b : Coord) (r : List (Coord × Cost)) :
      Reachable g → route_least_xpoints g a b = some (r, g') → Reachable g'
  | route_fastest (g g' : Network) (a b : Coord) (r : List (Coord × Cost)) :
      Reachable g → route_fastest g a b = some (r, g') → Reachable g'
  | route_fibre_cycle (g g' : Network) (a : Coord) (r : List Coord) :
      Reachable g → route_fibre_cycle g a = some (r, g') → Reachable g'
  | reorder (g g' : Network) : Reachable g → Reorder g g' → Reachable g'

/-- Representation invariant of `xpoints_`. -/
structure WFMap (m : XMap) : Prop where
  keys_nodup : (m.map Prod.fst).Nodup
  coords_eq : ∀ c xp, find m c = some xp → xp.coords = c
  fib_nodup : ∀ c xp, find m c = some xp → (xp.fibres.map Prod.fst).Nodup
  fib_ne : ∀ c xp, find m c = some xp → xp.fibres ≠ []
  no_loop : ∀ c, nb m c c = none
  sym : ∀ a b w, nb m a b = some w → nb m b a = some w

/-- Representation invariant of the fibre network: the neighbour maps are symmetric and
loop-free, every stored point has a fibre, and `fibres_` lists each fibre once, lesser
end first. -/
structure WF (g : Network) : Prop where
  map : WFMap g.xpoints_
  cat_iff : ∀ p q, (p, q) ∈ g.fibres_ ↔
    (Coord.lt p q = true ∧ (nb g.xpoints_ p q).isSome = true)

/-- The map `xpoints_` after a successful `add_fibre a b cost`. -/
def addX (m : XMap) (a b : Coord) (cost : Cost) : XMap :=
  let xs1 := if (find m a).isNone then assign m a (Xpoint.fresh a) else m
  let xs2 := if (find m b).isNone then assign xs1 b (Xpoint.fresh b) else xs1
  let xs3 := modify (fun xp => { xp with fibres := assign xp.fibres b cost }) xs2 a
  modify (fun xp => { xp with fibres := assign xp.fibres a cost }) xs3 b

/-- The set `fibres_` after a successful `add_fibre a b cost`. -/
def addCat (s : List (Coord × Coord)) (a b : Coord) : List (Coord × Coord) :=
  if Coord.lt a b then setInsert (a, b) s else setInsert (b, a) s

/-- The map `xpoints_` after a successful `remove_fibre a b`. -/
def removeX (m : XMap) (a b : Coord) : XMap :=
  let xs1 := modify (fun xp => { xp with fibres := eraseKey xp.fibres b }) m a
  let xs2 := modify (fun xp => { xp with fibres := eraseKey xp.fibres a }) xs1 b
  let xs3 := if (deref xs2 a).fibres.isEmpty then eraseKey xs2 a else xs2
  if (deref xs2 b).fibres.isEmpty then eraseKey xs3 b else xs3

/-- The pair that `remove_fibre a b` erases from `fibres_`. -/
def catKey (a b : Coord) : Coord × Coord := if Coord.lt a b then (a, b) else (b, a)

/-- The part of a cross-point that traversals never write. -/
def Xpoint.static (xp : Xpoint) : Coord × List (Coord × Cost) := (xp.coords, xp.fibres)

/-- The maps `m` and `m'` have the same keys in the same order and differ at most in the
traversal fields `state`, `pi`, `route_cost`, `d`. -/
def SameNet (m m' : XMap) : Prop :=
  m'.map Prod.fst = m.map Prod.fst ∧
    ∀ c, (find m' c).map Xpoint.static = (find m c).map Xpoint.static

/-- Pointwise correspondence of two maps that hold the same cross-points up to the order of
the neighbour maps. -/
def SameContent (m m' : XMap) : Prop :=
  (m'.map Prod.fst).Perm (m.map Prod.fst) ∧
    ∀ c, (find m c = none ∧ find m' c = none) ∨
      ∃ xp xp', find m c = some xp ∧ find m' c = some xp' ∧ XpReorder xp xp'

/-- The network of the specification's scenario: fibres `(0,0)-(1,1)` of cost 5, `(1,1)-(2,2)`
of cost 3 and `(0,0)-(2,2)` of cost 10, added in this order to the empty network. -/
def scenario : Network :=
  (add_fibre (add_fibre (add_fibre Network.empty ⟨0, 0⟩ ⟨1, 1⟩ 5).2 ⟨1, 1⟩ ⟨2, 2⟩ 3).2
    ⟨0, 0⟩ ⟨2, 2⟩ 10).2

/-- A fibre of cost `w` joins `a` and `b`: `get_fibres_from(a)` lists `(b, w)`. -/
def Fibre (g : Network) (a b : Coord) (w : Cost) : Prop := (b, w) ∈ get_fibres_from g a

/-- The points `a` and `b` are joined by a fibre. -/
def Joined (g : Network) (a b : Coord) : Prop := ∃ w, Fibre g a b w

/-- The list `p` is a walk from `a` to `b`: it starts at `a`, ends at `b`, and consecutive
points are joined by a fibre. -/
def IsWalk (g : Network) (a b : Coord) (p : List Coord) : Prop :=
  p.head? = some a ∧ p.getLast? = some b ∧ List.Chain' (Joined g) p

/-- Some path of fibres connects `a` to `b`. -/
def Connected (g : Network) (a b : Coord) : Prop := ∃ p, IsWalk g a b p

/-- The route `r` is a well-formed path from `frm` to `to_`: it starts with `(frm, 0)`, ends
at `to_`, consecutive points are joined by a fibre whose cost, added as an `int` to the reported cost
of the first, gives the reported cost of the second, and no coordinate occurs twice. -/
def RouteOK (g : Network) (frm to_ : Coord) (r : List (Coord × Cost)) : Prop :=
  r.head? = some (frm, 0) ∧ r.getLast?.map Prod.fst = some to_ ∧
    List.Chain' (fun e e' => ∃ w, Fibre g e.1 e'.1 w ∧ e'.2 = addInt e.2 w) r ∧
    (r.map Prod.fst).Nodup

/-- The list `l` follows the predecessor pointers from its head down to `frm`, along fibres of
the network `m0`, and each recorded cost is the `int` sum of the cost recorded for the
predecessor and the cost of the fibre. -/
inductive TreePath (m0 m : XMap) (frm : Coord) : List Coord → Prop where
  | root : (deref m frm).pi = none → (deref m frm).route_cost = 0 → TreePath m0 m frm [frm]
  | step (v u : Coord) (rest : List Coord) (w : Cost) :
      (deref m v).pi = some u → nb m0 u v = some w →
      (deref m v).route_cost = addInt (deref m u).route_cost w →
      TreePath m0 m frm (u :: rest) → TreePath m0 m frm (v :: u :: rest)

/-- Loop invariant of `BFS`.  `m0` is the network the traversal started from, `m` the current
cross-points, `cur` the point whose fibres are being scanned (`none` between two iterations of
the `while` loop), `q` the queue, `todo` the fibres of `cur` still to scan, and `lev` the
number of fibres on the predecessor chain of each discovered point. -/
structure BFSInv (m0 : XMap) (frm : Coord) (m : XMap) (cur : Option Coord) (q : List Coord)
    (lev : Coord → Nat) (todo : List (Coord × Cost)) : Prop where
  sn : SameNet m0 m
  gray_iff : ∀ c, (deref m c).state = State.GRAY ↔ (c ∈ q ∨ cur = some c)
  q_nodup : q.Nodup
  cur_not_q : ∀ u, cur = some u → u ∉ q
  frm_nw : (deref m frm).state ≠ State.WHITE
  frm_pi : (deref m frm).pi = none
  frm_rc : (deref m frm).route_cost = 0
  frm_lev : lev frm = 0
  tree : ∀ v, (deref m v).state ≠ State.WHITE → v ≠ frm →
    ∃ u w, (deref m v).pi = some u ∧ (deref m u).state ≠ State.WHITE ∧ nb m0 u v = some w ∧
      (deref m v).route_cost = addInt (deref m u).route_cost w ∧ lev v = lev u + 1
  white_pi : ∀ v, (deref m v).state = State.WHITE → (deref m v).pi = none
  nw_stored : ∀ v, (deref m v).state ≠ State.WHITE → stored m0 v
  sorted : q.Pairwise (fun a b => lev a ≤ lev b)
  span : ∀ c ∈ q, ∀ c' ∈ q, lev c' ≤ lev c + 1
  cur_lo : ∀ u, cur = some u → ∀ c ∈ q, lev u ≤ lev c ∧ lev c ≤ lev u + 1
  black_le : ∀ b, (deref m b).state = State.BLACK →
    (∀ c ∈ q, lev b ≤ lev c) ∧ (∀ u, cur = some u → lev b ≤ lev u)
  black_nb : ∀ b, (deref m b).state = State.BLACK → ∀ y w, nb m0 b y = some w →
    (deref m y).state ≠ State.WHITE ∧ lev y ≤ lev b + 1
  cur_nb : ∀ u, cur = some u → ∀ y w, nb m0 u y = some w →
    (y, w) ∈ todo ∨ ((deref m y).state ≠ State.WHITE ∧ lev y ≤ lev u + 1)
  todo_nb : ∀ u, cur = some u → ∀ y w, (y, w) ∈ todo → nb m0 u y = some w

/-- Number of stored cross-points that are still `WHITE`. -/
def whites (m : XMap) : Nat := m.countP (fun e => decide (e.2.state = State.WHITE))

/-- The stack of `DFS` is read as a list of frames: a frame `(P, g)` is the marker of the
`GRAY` point `g` with, on top of it, the entries `P` that the scan of the fibres of `g` pushed
and that have not been popped yet. -/
abbrev Frame := List Coord × Coord

/-- The stack that a list of frames stands for (head = top). -/
def flat : List Frame → List Coord
  | [] => []
  | f :: fr => f.1 ++ f.2 :: flat fr

/-- Entries pending on the stack: an entry of the frame of `g` is a neighbour of `g`, it is
none of the `GRAY` points from `g` downwards, and, as long as it is `WHITE` and no copy of it
lies higher on the stack (`above`), its predecessor is `g` and its cost is that of `g` plus
the cost of the fibre. -/
def FramesOK (m0 m : XMap) : List Coord → List Frame → Prop
  | _, [] => True
  | above, f :: fr =>
    (∀ x ∈ f.1, x ∉ f.2 :: fr.map Prod.snd ∧ ∃ w, nb m0 f.2 x = some w ∧
      ((deref m x).state = State.WHITE → x ∉ above →
        (deref m x).pi = some f.2 ∧
          (deref m x).route_cost = addInt (deref m f.2).route_cost w)) ∧
    FramesOK m0 m (above ++ f.1) fr

/-- Every `WHITE` neighbour of the `GRAY` point of a frame is pending in that frame. -/
def GrayNb (m0 m : XMap) (fr : List Frame) : Prop :=
  ∀ f ∈ fr, ∀ y w, nb m0 f.2 y = some w → (deref m y).state = State.WHITE → y ∈ f.1

/-- Loop invariant of `DFS`.  `frames` is the stack, `todo` the fibres of the top `GRAY` point
that its `for` loop has still to scan (empty between two iterations of the `while` loop), and
`rk` a rank that decreases along predecessor pointers. -/
structure DInv (m0 : XMap) (frm : Coord) (to_ : Option Coord) (fc : Bool) (m : XMap)
    (frames : List Frame) (todo : List (Coord × Cost)) (rk : Coord → Nat) : Prop where
  sn : SameNet m0 m
  gray_iff : ∀ c, (deref m c).state = State.GRAY ↔ c ∈ frames.map Prod.snd
  gamma_nodup : (frames.map Prod.snd).Nodup
  gamma_path : frames ≠ [] → TreePath m0 m frm (frames.map Prod.snd)
  frm_nw : (deref m frm).state ≠ State.WHITE
  frm_pi : (deref m frm).pi = none
  nw_stored : ∀ v, (deref m v).state ≠ State.WHITE → stored m0 v
  frames_ok : FramesOK m0 m [] frames
  black_nb : ∀ b, (deref m b).state = State.BLACK → ∀ y w, nb m0 b y = some w →
    (deref m y).state ≠ State.WHITE
  gray_nb_tail : GrayNb m0 m frames.tail
  gray_nb_top : ∀ P u fr, frames = (P, u) :: fr → ∀ y w, nb m0 u y = some w →
    (deref m y).state = State.WHITE → y ∈ P ∨ (y, w) ∈ todo
  todo_nb : ∀ P u fr, frames = (P, u) :: fr → ∀ y w, (y, w) ∈ todo → nb m0 u y = some w
  todo_nonblack : ∀ y w, (y, w) ∈ todo → (deref m y).state ≠ State.BLACK
  tree : ∀ v, (deref m v).state ≠ State.WHITE → v ≠ frm →
    ∃ u w, (deref m v).pi = some u ∧ (deref m u).state ≠ State.WHITE ∧ nb m0 u v = some w ∧
      (deref m v).route_cost = addInt (deref m u).route_cost w ∧ rk u < rk v
  edges : fc = true → ∀ a b w, (deref m a).state ≠ State.WHITE →
    (deref m b).state ≠ State.WHITE → nb m0 a b = some w →
    (deref m a).pi = some b ∨ (deref m b).pi = some a ∨
      (∃ P fr, frames = (P, a) :: fr ∧ (b, w) ∈ todo) ∨
      (∃ P fr, frames = (P, b) :: fr ∧ (a, w) ∈ todo)
  target : ∀ t, to_ = some t →
    (∀ f ∈ frames, t ∉ f.1) ∧ (t ≠ frm → (deref m t).state = State.WHITE)

/-- What holds when `DFS` returns `true`: either the target was discovered (`cycle_begin`
untouched) and heads a duplicate-free predecessor chain down to the start, or a fibre from
the point `a` being scanned to a `GRAY` point `b` other than its predecessor was met, and `b`
lies on the predecessor chain of `a`. -/
def FoundPost (m0 : XMap) (frm : Coord) (to_ : Option Coord) (fc : Bool) (m : XMap)
    (cyc : Option (Coord × Coord)) : Prop :=
  SameNet m0 m ∧
    match cyc with
    | none => ∃ t γ, to_ = some t ∧ TreePath m0 m frm (t :: γ) ∧ (t :: γ).Nodup ∧
        (∀ c ∈ t :: γ, stored m c) ∧ t ≠ frm
    | some (a, b) => fc = true ∧ ∃ γ w, TreePath m0 m frm (a :: γ) ∧ (a :: γ).Nodup ∧
        (∀ c ∈ a :: γ, stored m c) ∧ b ∈ γ ∧ (deref m a).pi ≠ some b ∧ nb m0 a b = some w

/-- Termination measure of `DFS`: every `WHITE` cross-point may still be expanded once and
then pushes at most one entry per fibre. -/
def dsum (m : XMap) : Nat :=
  (m.map (fun e => if e.2.state = State.WHITE then e.2.fibres.length + 1 else 0)).sum

/-- The network with the fibres `(0,0)-(1,0)` of cost `INT_MAX = 2147483647` and `(1,0)-(2,0)`
of cost 1, added in this order to the empty network. -/
def longHaul : Network :=
  (add_fibre (add_fibre Network.empty ⟨0, 0⟩ ⟨1, 0⟩ 2147483647).2 ⟨1, 0⟩ ⟨2, 0⟩ 1).2

/-- The list `c` is a cycle of the network: at least three distinct points, consecutive ones
joined by a fibre, and the last one joined to the first. -/
def IsCycle (g : Network) (c : List Coord) : Prop :=
  3 ≤ c.length ∧ c.Nodup ∧ List.Chain' (Joined g) c ∧
    ∃ a b, c.head? = some a ∧ c.getLast? = some b ∧ Joined g b a

/-- The connected component of `s` contains a cycle. -/
def CycleNear (g : Network) (s : Coord) : Prop :=
  ∃ c, IsCycle g c ∧ ∀ x ∈ c, Connected g s x

/-- The list `r` is a closed loop: it ends where it starts, consecutive points are joined by a
fibre, and the points before the last are at least three and pairwise distinct. -/
def LoopOK (g : Network) (r : List Coord) : Prop :=
  r ≠ [] ∧ r.head? = r.getLast? ∧ List.Chain' (Joined g) r ∧ r.dropLast.Nodup ∧
    3 ≤ r.dropLast.length

/-- A network with five points: fibres `(0,0)-(1,0)` of cost 1, `(0,0)-(0,1)` of cost 5,
`(0,0)-(2,0)` of cost 100, `(1,0)-(2,0)` of cost 1, `(2,0)-(0,1)` of cost 1 and
`(0,1)-(0,2)` of cost 1, added in this order to the empty network. -/
def detour : Network :=
  (add_fibre (add_fibre (add_fibre (add_fibre (add_fibre (add_fibre Network.empty
    ⟨0, 0⟩ ⟨1, 0⟩ 1).2 ⟨0, 0⟩ ⟨0, 1⟩ 5).2 ⟨0, 0⟩ ⟨2, 0⟩ 100).2 ⟨1, 0⟩ ⟨2, 0⟩ 1).2
    ⟨2, 0⟩ ⟨0, 1⟩ 1).2 ⟨0, 1⟩ ⟨0, 2⟩ 1).2

/-- The cross-point `xp` with its neighbour map in every iteration order. -/
def fibreOrders (xp : Xpoint) : List Xpoint :=
  (List.permutations' xp.fibres).map (fun f => { xp with fibres := f })

/-- The entries of `m`, in the order of `m`, with every neighbour map in every order. -/
def entryOrders : XMap → List XMap
  | [] => [[]]
  | (k, xp) :: t => (fibreOrders xp).flatMap (fun xp' => (entryOrders t).map (fun t' => (k, xp') :: t'))

/-- The state `g` with `xpoints_` and every neighbour map in every iteration order. -/
def networkOrders (g : Network) : List Network :=
  ((entryOrders g.xpoints_).flatMap List.permutations').map (fun m => { g with xpoints_ := m })

/-- The member `target` of the beacon `id`; `NO_ID` when `id` is absent. -/
def target_of (g : Registry) (id : BeaconID) : BeaconID :=
  match findB g.beacons_ id with
  | some b => b.target
  | none => NO_ID

/-- The member `sources` of the beacon `id`; empty when `id` is absent. -/
def sources_of (g : Registry) (id : BeaconID) : List BeaconID :=
  match findB g.beacons_ id with
  | some b => b.sources
  | none => []

/-- The beacon `a` has the target `b`: its member `target` is `b` and is not `NO_ID`. -/
def TargetStep (g : Registry) (a b : BeaconID) : Prop := target_of g a = b ∧ b ≠ NO_ID

/-- The target relation is acyclic: following targets from a beacon never returns to it. -/
def Acyclic (g : Registry) : Prop := ∀ a, ¬ Relation.TransGen (TargetStep g) a a

/-- The state `g'` is `g` with the unordered map `beacons_` iterated in another order. -/
def RegReorder (g g' : Registry) : Prop :=
  g'.beacons_.Perm g.beacons_ ∧ g'.alphabetical_order_ = g.alphabetical_order_ ∧
    g'.brightness_order_ = g.brightness_order_

/-- The states of the registry that are built from the constructor's state by the public
beacon operations, `beacons_` being iterated in any order; `idOK` restricts the ids given to
`add_beacon` and `beamOK` the successful calls of `add_lightbeam`. -/
inductive RegReach (idOK : BeaconID → Prop) (beamOK : Registry → BeaconID → BeaconID → Prop) :
    Registry → Prop where
  | init : RegReach idOK beamOK Registry.empty
  | add_beacon (g : Registry) (id : BeaconID) (name : String) (xy : Coord) (color : Color) :
      RegReach idOK beamOK g → idOK id → RegReach idOK beamOK (add_beacon g id name xy color).2
  | change_beacon_name (g : Registry) (id : BeaconID) (newname : String) :
      RegReach idOK beamOK g → RegReach idOK beamOK (change_beacon_name g id newname).2
  | change_beacon_color (g : Registry) (id : BeaconID) (newcolor : Color) :
      RegReach idOK beamOK g → RegReach idOK beamOK (change_beacon_color g id newcolor).2
  | add_lightbeam (g : Registry) (sourceid targetid : BeaconID) :
      RegReach idOK beamOK g →
      ((add_lightbeam g sourceid targetid).1 = true → beamOK g sourceid targetid) →
      RegReach idOK beamOK (add_lightbeam g sourceid targetid).2
  | remove_beacon (g g' : Registry) (id : BeaconID) (b : Bool) :
      RegReach idOK beamOK g → remove_beacon g id = some (b, g') → RegReach idOK beamOK g'
  | clear_beacons (g : Registry) : RegReach idOK beamOK g → RegReach idOK beamOK (clear_beacons g)
  | reorder (g g' : Registry) : RegReach idOK beamOK g → RegReorder g g' → RegReach idOK beamOK g'

/-- Every state reachable from the empty registry by the public beacon operations. -/
def RegReachable (g : Registry) : Prop := RegReach (fun _ => True) (fun _ _ _ => True) g

/-- The reachable states in which no beacon was ever given the reserved id `NO_ID`. -/
def RegProper (g : Registry) : Prop := RegReach (fun id => id ≠ NO_ID) (fun _ _ _ => True) g

/-- Following targets from `t` does not lead to `s` (so `s` is not `t` either). -/
def BeamGuard (g : Registry) (s t : BeaconID) : Prop :=
  ¬ Relation.ReflTransGen (TargetStep g) t s

/-- The reachable states in which every successful `add_lightbeam(s, t)` was called while
following targets from `t` did not lead to `s`. -/
def RegGuarded (g : Registry) : Prop := RegReach (fun _ => True) BeamGuard g

/-- Representation invariant of the registry in every reachable state. -/
structure RegInv (g : Registry) : Prop where
  keys_nodup : (g.beacons_.map Prod.fst).Nodup
  id_eq : ∀ k b, findB g.beacons_ k = some b → b.id = k
  tgt : ∀ s b, findB g.beacons_ s = some b → b.target ≠ NO_ID →
    ∃ t, findB g.beacons_ b.target = some t ∧ s ∈ t.sources
  alpha : (g.alphabetical_order_.map Prod.snd).Perm (g.beacons_.map Prod.fst)
  bright : (g.brightness_order_.map Prod.snd).Perm (g.beacons_.map Prod.fst)

/-- What holds in addition when no beacon has the id `NO_ID`: the members `sources` mirror
the members `target`. -/
structure RegInvP (g : Registry) : Prop where
  base : RegInv g
  no_id : findB g.beacons_ NO_ID = none
  src : ∀ t bt s, findB g.beacons_ t = some bt → s ∈ bt.sources →
    ∃ bs, findB g.beacons_ s = some bs ∧ bs.target = t
  src_nodup : ∀ t bt, findB g.beacons_ t = some bt → bt.sources.Nodup

/-- The map `beacons_` after a successful `add_lightbeam(s, t)`. -/
def wire (m : List (BeaconID × Beacon)) (s t : BeaconID) : List (BeaconID × Beacon) :=
  modifyB (fun b => { b with sources := b.sources ++ [s] })
    (modifyB (fun b => { b with target := t }) m s) t

/-- The vector `v` without the entries equal to `id`. -/
def withoutId (id : BeaconID) (v : List BeaconID) : List BeaconID :=
  v.filter (fun source => !decide (source = id))

/-- The member `sources` of the beacon being removed when the loop over it starts: the
beacon itself has just been taken out when it was its own target. -/
def sourcesAfterUnlink (bx : Beacon) (id : BeaconID) : List BeaconID :=
  if bx.target ≠ NO_ID ∧ bx.target = id then withoutId id bx.sources else bx.sources

/-- A beacon other than the removed one after `remove_beacon(id)`, where `bx` was the
removed beacon. -/
def unlinkB (bx : Beacon) (id k : BeaconID) (b : Beacon) : Beacon :=
  { b with target := if k ∈ sourcesAfterUnlink bx id then NO_ID else b.target,
           sources := if bx.target ≠ NO_ID ∧ k = bx.target then withoutId id b.sources
                      else b.sources }

/-- The maps `m` and `m'` hold the same beacons with the same ids, targets and sources. -/
def SameLinks (m m' : List (BeaconID × Beacon)) : Prop :=
  (m'.map Prod.fst).Perm (m.map Prod.fst) ∧
    ∀ k, (findB m k = none ∧ findB m' k = none) ∨
      ∃ b b', findB m k = some b ∧ findB m' k = some b' ∧ b'.id = b.id ∧
        b'.target = b.target ∧ b'.sources = b.sources

/-- The registry after `add_beacon` of `A` and `add_lightbeam(A, A)`. -/
def selfBeam : Registry :=
  (add_lightbeam (add_beacon Registry.empty "A" "first" ⟨0, 0⟩ ⟨10, 20, 30⟩).2 "A" "A").2

/-- The list `c` is a chain of targets that ends with `id`. -/
def InChain (g : Registry) (id : BeaconID) (c : List BeaconID) : Prop :=
  c.getLast? = some id ∧ List.Chain' (TargetStep g) c

/-- The registry after `add_beacon` of a beacon with the id `NO_ID` and of `s` and `t`,
`add_lightbeam(s, NO_ID)` and `add_lightbeam(s, t)`: the first call leaves the member
`target` of `s` at `NO_ID`, so the second call is accepted as well. -/
def staleSource : Registry :=
  (add_lightbeam (add_lightbeam (add_beacon (add_beacon (add_beacon Registry.empty
    NO_ID "n" ⟨0, 0⟩ ⟨10, 20, 30⟩).2 "s" "second" ⟨1, 0⟩ ⟨40, 50, 60⟩).2
    "t" "third" ⟨2, 0⟩ ⟨70, 80, 90⟩).2 "s" NO_ID).2 "s" "t").2

/-- The registry `staleSource` after `add_lightbeam(NO_ID, s)`: `s` is still listed in the
sources of the beacon `NO_ID`, which is now a source of `s`. -/
def staleLoop : Registry := (add_lightbeam staleSource NO_ID "s").2

/-- The registry with the beacons `t` and `u`, both of colour `(2000000000, 0, 0)`, and
`u` wired to `t`. -/
def glare : Registry :=
  (add_lightbeam (add_beacon (add_beacon Registry.empty "t" "first" ⟨0, 0⟩
    ⟨2000000000, 0, 0⟩).2 "u" "second" ⟨1, 0⟩ ⟨2000000000, 0, 0⟩).2 "u" "t").2

/-- Invariant of `dijkstra` from `frm` over the network `m0` while no sum of distances and
costs leaves the range of `int`: the network is unchanged, no distance is negative, the
distance of every point that is not `WHITE` is at most `B`, and the start keeps distance `0`
and no predecessor. -/
structure DjInv (m0 : XMap) (frm : Coord) (B : Int) (m : XMap) : Prop where
  same : SameNet m0 m
  d_nonneg : ∀ v, 0 ≤ (deref m v).d
  d_le : ∀ v, (deref m v).state ≠ State.WHITE → (deref m v).d ≤ B
  frm_d : (deref m frm).d = 0
  frm_pi : (deref m frm).pi = none

/-- The network with the single fibre `(0,0)-(1,0)` of cost `2^30 = 1073741824`. -/
def farPair : Network := (add_fibre Network.empty ⟨0, 0⟩ ⟨1, 0⟩ 1073741824).2

/-! ## Association lists -/

section AssocLemmas

variable {β : Type}

theorem find_modify (f : β → β) (m : List (Coord × β)) (c c' : Coord) :
    find (modify f m c) c' = if c = c' then (find m c).map f else find m c' := by
  induction m with
  | nil => simp [modify, find]
  | cons e t ih =>
    obtain ⟨k, v⟩ := e
    by_cases hk : k = c
    · subst hk
      by_cases hc : k = c' <;> simp [modify, find, hc]
    · by_cases hc : c = c'
      · subst hc
        simp [modify, find, hk, ih]
      · by_cases hk' : k = c'
        · subst hk'
          simp [modify, find, hk, hc]
        · simp [modify, find, hk, hk', hc, ih]

theorem find_modify_same (f : β → β) (m : List (Coord × β)) (c : Coord) :
    find (modify f m c) c = (find m c).map f := by
  simp [find_modify]

theorem find_modify_ne (f : β → β) (m : List (Coord × β)) {c c' : Coord} (h : c ≠ c') :
    find (modify f m c) c' = find m c' := by
  simp [find_modify, h]

theorem map_fst_modify (f : β → β) (m : List (Coord × β)) (c : Coord) :
    (modify f m c).map Prod.fst = m.map Prod.fst := by
  induction m with
  | nil => rfl
  | cons e t ih =>
    obtain ⟨k, v⟩ := e
    by_cases hk : k = c <;> simp [modify, hk, ih]

theorem length_modify (f : β → β) (m : List (Coord × β)) (c : Coord) :
    (modify f m c).length = m.length := by
  have := congrArg List.length (map_fst_modify f m c)
  simpa using this

theorem modify_of_find_none (f : β → β) (m : List (Coord × β)) (c : Coord)
    (h : find m c = none) : modify f m c = m := by
  induction m with
  | nil => rfl
  | cons e t ih =>
    obtain ⟨k, v⟩ := e
    by_cases hk : k = c
    · simp [find, hk] at h
    · simp only [find, hk, if_false] at h
      simp [modify, hk, ih h]

theorem find_eraseKey (m : List (Coord × β)) (c c' : Coord) :
    find (eraseKey m c) c' = if c = c' then none else find m c' := by
  induction m with
  | nil => simp [eraseKey, find]
  | cons e t ih =>
    obtain ⟨k, v⟩ := e
    unfold eraseKey at ih ⊢
    by_cases hk : k = c
    · subst hk
      by_cases hc : k = c'
      · subst hc
        simpa [List.filter] using ih
      · simpa [List.filter, find, hc] using ih
    · by_cases hc : c = c'
      · subst hc
        simpa [List.filter, find, hk] using ih
      · by_cases hk' : k = c'
        · subst hk'
          simp [List.filter, find, hk, hc]
        · simpa [List.filter, find, hk, hk', hc] using ih

theorem find_assign (m : List (Coord × β)) (c c' : Coord) (v : β) :
    find (assign m c v) c' = if c = c' then some v else find m c' := by
  unfold assign
  cases hf : find m c with
  | some x =>
    simp only [Option.isSome_some, if_true, find_modify, hf, Option.map_some']
  | none =>
    simp only [Option.isSome_none, Bool.false_eq_true, if_false, find]

theorem find_eq_none_iff (m : List (Coord × β)) (c : Coord) :
    find m c = none ↔ c ∉ m.map Prod.fst := by
  induction m with
  | nil => simp [find]
  | cons e t ih =>
    obtain ⟨k, v⟩ := e
    by_cases hk : k = c
    · simp [find, hk]
    · simp only [find, hk, if_false, ih, List.map_cons, List.mem_cons]
      constructor
      · intro h1 h2
        rcases h2 with h2 | h2
        · exact hk h2.symm
        · exact h1 h2
      · intro h1 h2
        exact h1 (Or.inr h2)

theorem find_isSome_iff (m : List (Coord × β)) (c : Coord) :
    (find m c).isSome ↔ c ∈ m.map Prod.fst := by
  rw [← not_iff_not, ← find_eq_none_iff]
  cases find m c <;> simp

theorem mem_of_find (m : List (Coord × β)) (c : Coord) (v : β) (h : find m c = some v) :
    (c, v) ∈ m := by
  induction m with
  | nil => simp [find] at h
  | cons e t ih =>
    obtain ⟨k, w⟩ := e
    by_cases hk : k = c
    · simp only [find, hk, if_true, Option.some.injEq] at h
      simp [hk, h]
    · simp only [find, hk, if_false] at h
      exact List.mem_cons_of_mem _ (ih h)

theorem find_of_mem (m : List (Coord × β)) (hnd : (m.map Prod.fst).Nodup) (c : Coord) (v : β)
    (h : (c, v) ∈ m) : find m c = some v := by
  induction m with
  | nil => simp at h
  | cons e t ih =>
    obtain ⟨k, w⟩ := e
    simp only [List.map_cons, List.nodup_cons] at hnd
    rcases List.mem_cons.mp h with h | h
    · simp only [Prod.mk.injEq] at h
      simp [find, h.1, h.2]
    · have hk : k ≠ c := by
        rintro rfl
        exact hnd.1 (List.mem_map.mpr ⟨(k, v), h, rfl⟩)
      simp only [find, hk, if_false]
      exact ih hnd.2 h

theorem mem_iff_find (m : List (Coord × β)) (hnd : (m.map Prod.fst).Nodup) (c : Coord) (v : β) :
    (c, v) ∈ m ↔ find m c = some v :=
  ⟨find_of_mem m hnd c v, mem_of_find m c v⟩

theorem map_fst_eraseKey (m : List (Coord × β)) (c : Coord) :
    (eraseKey m c).map Prod.fst = (m.map Prod.fst).filter (fun k => !decide (k = c)) := by
  induction m with
  | nil => rfl
  | cons e t ih =>
    obtain ⟨k, v⟩ := e
    unfold eraseKey at ih ⊢
    by_cases hk : k = c <;> simp [List.filter, hk, ih]

theorem eraseKey_of_find_none (m : List (Coord × β)) (c : Coord) (h : find m c = none) :
    eraseKey m c = m := by
  unfold eraseKey
  rw [List.filter_eq_self]
  intro e he
  have := (find_eq_none_iff m c).mp h
  simp only [Bool.not_eq_eq_eq_not, Bool.not_true, decide_eq_false_iff_not]
  rintro rfl
  exact this (List.mem_map.mpr ⟨e, he, rfl⟩)

theorem nodup_keys_eraseKey (m : List (Coord × β)) (c : Coord) (h : (m.map Prod.fst).Nodup) :
    ((eraseKey m c).map Prod.fst).Nodup := by
  rw [map_fst_eraseKey]
  exact h.filter _

theorem nodup_keys_assign (m : List (Coord × β)) (c : Coord) (v : β)
    (h : (m.map Prod.fst).Nodup) : ((assign m c v).map Prod.fst).Nodup := by
  unfold assign
  by_cases hs : (find m c).isSome
  · simp only [hs, if_true, map_fst_modify]
    exact h
  · simp only [hs]
    simp only [Bool.false_eq_true, if_false, List.map_cons, List.nodup_cons]
    refine ⟨?_, h⟩
    rw [← find_eq_none_iff]
    cases hf : find m c with
    | none => rfl
    | some x => simp [hf] at hs

end AssocLemmas

/-! ## The orders used by `std::sort` and `std::set` -/

theorem Coord.lt_iff (a b : Coord) :
    Coord.lt a b = true ↔ a.y < b.y ∨ (a.y = b.y ∧ a.x < b.x) := by
  unfold Coord.lt
  by_cases h1 : a.y < b.y
  · simp [h1]
  · by_cases h2 : b.y < a.y
    · simp only [h1, h2, if_false, if_true, Bool.false_eq_true, false_or, false_iff, not_and]
      intro h
      omega
    · have : a.y = b.y := by omega
      simp [h1, h2, this]

theorem Coord.lt_false_iff (a b : Coord) :
    Coord.lt a b = false ↔ b.y < a.y ∨ (a.y = b.y ∧ b.x ≤ a.x) := by
  rw [← Bool.not_eq_true, Coord.lt_iff]
  constructor
  · intro h
    by_contra hc
    apply h
    by_cases h1 : a.y < b.y
    · exact Or.inl h1
    · right
      constructor
      · by_contra h2
        exact hc (Or.inl (by omega))
      · by_contra h2
        exact hc (by
          by_cases h3 : b.y < a.y
          · exact Or.inl h3
          · exact Or.inr ⟨by omega, by omega⟩)
  · rintro (h | ⟨h1, h2⟩) (h' | ⟨h1', h2'⟩) <;> omega

theorem Coord.eq_of_not_lt {a b : Coord} (h1 : Coord.lt a b = false) (h2 : Coord.lt b a = false) :
    a = b := by
  rw [Coord.lt_false_iff] at h1 h2
  have hx : a.x = b.x := by
    rcases h1 with h1 | h1 <;> rcases h2 with h2 | h2 <;> omega
  have hy : a.y = b.y := by
    rcases h1 with h1 | h1 <;> rcases h2 with h2 | h2 <;> omega
  cases a
  cases b
  simp_all

theorem Coord.lt_irrefl (a : Coord) : Coord.lt a a = false := by
  rw [Coord.lt_false_iff]
  exact Or.inr ⟨rfl, le_refl _⟩

theorem Coord.lt_asymm {a b : Coord} (h : Coord.lt a b = true) : Coord.lt b a = false := by
  rw [Coord.lt_iff] at h
  rw [Coord.lt_false_iff]
  rcases h with h | ⟨h1, h2⟩
  · exact Or.inl h
  · exact Or.inr ⟨h1.symm, le_of_lt h2⟩

instance : IsTotal Coord Coord.le where
  total a b := by
    unfold Coord.le
    rw [Coord.lt_false_iff, Coord.lt_false_iff]
    by_cases h1 : a.y < b.y
    · exact Or.inl (Or.inl h1)
    · by_cases h2 : b.y < a.y
      · exact Or.inr (Or.inl h2)
      · have : a.y = b.y := by omega
        by_cases h3 : a.x ≤ b.x
        · exact Or.inl (Or.inr ⟨this.symm, h3⟩)
        · exact Or.inr (Or.inr ⟨this, by omega⟩)

instance : IsTrans Coord Coord.le where
  trans a b c := by
    unfold Coord.le
    rw [Coord.lt_false_iff, Coord.lt_false_iff, Coord.lt_false_iff]
    rintro (h | ⟨h1, h2⟩) (h' | ⟨h1', h2'⟩)
    · exact Or.inl (by omega)
    · exact Or.inl (by omega)
    · exact Or.inl (by omega)
    · exact Or.inr ⟨by omega, by omega⟩

instance : IsAntisymm Coord Coord.le where
  antisymm _ _ h1 h2 := Coord.eq_of_not_lt h2 h1

theorem fibreLt_false_iff (p q : Coord × Cost) :
    fibreLt p q = false ↔
      Coord.lt p.1 q.1 = false ∧ (Coord.lt q.1 p.1 = true ∨ q.2 ≤ p.2) := by
  unfold fibreLt
  cases h1 : Coord.lt p.1 q.1 <;> cases h2 : Coord.lt q.1 p.1 <;> simp

instance : IsTotal (Coord × Cost) fibreLe where
  total p q := by
    unfold fibreLe
    rw [fibreLt_false_iff, fibreLt_false_iff]
    cases h1 : Coord.lt p.1 q.1 <;> cases h2 : Coord.lt q.1 p.1
    · simp only [Bool.false_eq_true, false_or, true_and]
      exact le_total _ _
    · simp
    · simp
    · rw [Coord.lt_asymm h1] at h2
      exact absurd h2 (by simp)

theorem Coord.lt_trans {a b c : Coord} (h1 : Coord.lt a b = true) (h2 : Coord.lt b c = true) :
    Coord.lt a c = true := by
  rw [Coord.lt_iff] at *
  rcases h1 with h1 | ⟨h1, h1'⟩ <;> rcases h2 with h2 | ⟨h2, h2'⟩
  · exact Or.inl (by omega)
  · exact Or.inl (by omega)
  · exact Or.inl (by omega)
  · exact Or.inr ⟨by omega, by omega⟩

instance : IsTrans (Coord × Cost) fibreLe where
  trans p q r := by
    unfold fibreLe
    rw [fibreLt_false_iff, fibreLt_false_iff, fibreLt_false_iff]
    rintro ⟨h1, h2⟩ ⟨h3, h4⟩
    have hpq : Coord.le p.1 q.1 := h1
    have hqr : Coord.le q.1 r.1 := h3
    have hpr : Coord.le p.1 r.1 := IsTrans.trans _ _ _ hpq hqr
    refine ⟨hpr, ?_⟩
    rcases h2 with h2 | h2
    · left
      by_contra hc
      have hc' : Coord.lt p.1 r.1 = false := by simpa using hc
      have hrp : p.1 = r.1 := Coord.eq_of_not_lt hc' hpr
      rw [← hrp] at h3
      rw [h3] at h2
      exact absurd h2 (by simp)
    · rcases h4 with h4 | h4
      · left
        by_contra hc
        have hc' : Coord.lt p.1 r.1 = false := by simpa using hc
        have hrp : p.1 = r.1 := Coord.eq_of_not_lt hc' hpr
        rw [← hrp] at h4
        rw [h1] at h4
        exact absurd h4 (by simp)
      · right
        exact le_trans h2 h4

instance : IsAntisymm (Coord × Cost) fibreLe where
  antisymm p q := by
    unfold fibreLe
    rw [fibreLt_false_iff, fibreLt_false_iff]
    rintro ⟨h1, h2⟩ ⟨h3, h4⟩
    have h12 : p.1 = q.1 := Coord.eq_of_not_lt h3 h1
    rw [h1] at h4
    rw [h3] at h2
    simp only [Bool.false_eq_true, false_or] at h2 h4
    exact Prod.ext h12 (le_antisymm h2 h4)

theorem pairLt_false_iff (p q : Coord × Coord) :
    pairLt p q = false ↔
      Coord.lt p.1 q.1 = false ∧ (Coord.lt q.1 p.1 = true ∨ Coord.lt p.2 q.2 = false) := by
  unfold pairLt
  cases h1 : Coord.lt p.1 q.1 <;> cases h2 : Coord.lt q.1 p.1 <;> simp

theorem pair_eq_of_not_lt {p q : Coord × Coord} (h1 : pairLt p q = false)
    (h2 : pairLt q p = false) : p = q := by
  rw [pairLt_false_iff] at h1 h2
  have h12 : p.1 = q.1 := Coord.eq_of_not_lt h1.1 h2.1
  have a1 := h1.2
  have a2 := h2.2
  rw [h2.1] at a1
  rw [h1.1] at a2
  simp only [Bool.false_eq_true, false_or] at a1 a2
  exact Prod.ext h12 (Coord.eq_of_not_lt a1 a2)

theorem mem_setInsert (p x : Coord × Coord) (s : List (Coord × Coord)) :
    x ∈ setInsert p s ↔ x = p ∨ x ∈ s := by
  induction s with
  | nil => simp [setInsert]
  | cons q t ih =>
    unfold setInsert
    by_cases h1 : pairLt p q = true
    · simp [h1]
    · by_cases h2 : pairLt q p = true
      · simp only [h1, h2, if_false, if_true, List.mem_cons, ih, Bool.false_eq_true]
        tauto
      · have hpq : p = q := pair_eq_of_not_lt (by simpa using h1) (by simpa using h2)
        simp only [h1, h2, if_false, List.mem_cons, Bool.false_eq_true]
        subst hpq
        tauto

theorem mem_setErase (p x : Coord × Coord) (s : List (Coord × Coord)) :
    x ∈ setErase p s ↔ x ≠ p ∧ x ∈ s := by
  unfold setErase
  simp [List.mem_filter, and_comm]

theorem setErase_of_not_mem (p : Coord × Coord) (s : List (Coord × Coord)) (h : p ∉ s) :
    setErase p s = s := by
  unfold setErase
  rw [List.filter_eq_self]
  intro q hq
  simp only [Bool.not_eq_eq_eq_not, Bool.not_true, decide_eq_false_iff_not]
  rintro rfl
  exact h hq

theorem setErase_setInsert (p : Coord × Coord) (s : List (Coord × Coord)) (h : p ∉ s) :
    setErase p (setInsert p s) = s := by
  induction s with
  | nil => simp [setInsert, setErase]
  | cons q t ih =>
    have hq : q ≠ p := fun e => h (by simp [e])
    have ht : p ∉ t := fun e => h (List.mem_cons_of_mem _ e)
    unfold setInsert
    by_cases h1 : pairLt p q = true
    · simp only [h1, if_true]
      have := setErase_of_not_mem p (q :: t) h
      unfold setErase at this ⊢
      rw [List.filter_cons_of_neg (by simp)]
      exact this
    · by_cases h2 : pairLt q p = true
      · simp only [h1, h2, if_false, if_true, Bool.false_eq_true]
        have := ih ht
        unfold setErase at this ⊢
        rw [List.filter_cons_of_pos (by simp [hq]), this]
      · exact absurd (pair_eq_of_not_lt (by simpa using h1) (by simpa using h2)) (Ne.symm hq)

/-- Sorting two lists with the same elements (up to order) gives the same list. -/
theorem insertionSort_eq_of_perm {α : Type} (r : α → α → Prop) [DecidableRel r] [IsTotal α r]
    [IsTrans α r] [IsAntisymm α r] {l l' : List α} (h : l.Perm l') :
    l.insertionSort r = l'.insertionSort r := by
  apply List.eq_of_perm_of_sorted (r := r)
  · exact ((List.perm_insertionSort r l).trans h).trans (List.perm_insertionSort r l').symm
  · exact List.sorted_insertionSort r l
  · exact List.sorted_insertionSort r l'

/-! ## Reachable states and their representation invariant -/

theorem deref_of_find {m : XMap} {c : Coord} {xp : Xpoint} (h : find m c = some xp) :
    deref m c = xp := by
  simp [deref, h]

theorem deref_of_find_none {m : XMap} {c : Coord} (h : find m c = none) :
    deref m c = Xpoint.fresh c := by
  simp [deref, h]

theorem stored_iff_exists {m : XMap} {c : Coord} : stored m c ↔ ∃ xp, find m c = some xp := by
  unfold stored
  exact Option.isSome_iff_exists

theorem find_of_stored {m : XMap} {c : Coord} (h : stored m c) : find m c = some (deref m c) := by
  obtain ⟨xp, hxp⟩ := stored_iff_exists.mp h
  rw [deref_of_find hxp, hxp]

theorem not_stored_iff {m : XMap} {c : Coord} : ¬ stored m c ↔ find m c = none := by
  unfold stored
  cases find m c <;> simp

theorem nb_of_not_stored {m : XMap} {a : Coord} (h : ¬ stored m a) (b : Coord) :
    nb m a b = none := by
  unfold nb
  rw [deref_of_find_none (not_stored_iff.mp h)]
  rfl

theorem stored_of_nb {m : XMap} {a b : Coord} {w : Cost} (h : nb m a b = some w) :
    stored m a := by
  by_contra hc
  rw [nb_of_not_stored hc] at h
  exact absurd h (by simp)

theorem WFMap.deref_coords {m : XMap} (h : WFMap m) (c : Coord) : (deref m c).coords = c := by
  cases hf : find m c with
  | none => rw [deref_of_find_none hf]; rfl
  | some xp => rw [deref_of_find hf]; exact h.coords_eq c xp hf

theorem WFMap.deref_fib_nodup {m : XMap} (h : WFMap m) (c : Coord) :
    ((deref m c).fibres.map Prod.fst).Nodup := by
  cases hf : find m c with
  | none => rw [deref_of_find_none hf]; simp [Xpoint.fresh]
  | some xp => rw [deref_of_find hf]; exact h.fib_nodup c xp hf

theorem WFMap.stored_nb {m : XMap} (h : WFMap m) {a b : Coord} {w : Cost}
    (hab : nb m a b = some w) : stored m b :=
  stored_of_nb (h.sym a b w hab)

theorem WFMap.mem_fibres_iff {m : XMap} (h : WFMap m) (a b : Coord) (w : Cost) :
    (b, w) ∈ (deref m a).fibres ↔ nb m a b = some w :=
  mem_iff_find _ (h.deref_fib_nodup a) b w

theorem WFMap.ne_of_nb {m : XMap} (h : WFMap m) {a b : Coord} {w : Cost}
    (hab : nb m a b = some w) : a ≠ b := by
  rintro rfl
  rw [h.no_loop a] at hab
  exact absurd hab (by simp)

/-- The result of `get_fibres_from` is the sorted neighbour map (empty for an absent point). -/
theorem get_fibres_from_eq (g : Network) (c : Coord) :
    get_fibres_from g c = (deref g.xpoints_ c).fibres.insertionSort fibreLe := by
  unfold get_fibres_from
  cases hf : find g.xpoints_ c with
  | none => simp [deref_of_find_none hf, Xpoint.fresh]
  | some xp =>
    rw [deref_of_find hf]
    by_cases he : xp.fibres.length = 0
    · have : xp.fibres = [] := List.length_eq_zero.mp he
      simp [this]
    · simp [he]

theorem mem_get_fibres_from (g : Network) (h : WFMap g.xpoints_) (a b : Coord) (w : Cost) :
    (b, w) ∈ get_fibres_from g a ↔ nb g.xpoints_ a b = some w := by
  rw [get_fibres_from_eq, (List.perm_insertionSort fibreLe _).mem_iff]
  exact h.mem_fibres_iff a b w

theorem mem_all_xpoints (g : Network) (c : Coord) :
    c ∈ all_xpoints g ↔ stored g.xpoints_ c := by
  unfold all_xpoints stored
  rw [(List.perm_insertionSort Coord.le _).mem_iff, find_isSome_iff]

/-- Two key-duplicate-free association lists with the same lookups are permutations. -/
theorem perm_of_find_eq {β : Type} (l l' : List (Coord × β)) (h : (l.map Prod.fst).Nodup)
    (h' : (l'.map Prod.fst).Nodup) (he : ∀ c, find l c = find l' c) : l.Perm l' := by
  have n1 : l.Nodup := List.Nodup.of_map _ h
  have n2 : l'.Nodup := List.Nodup.of_map _ h'
  rw [List.perm_ext_iff_of_nodup n1 n2]
  rintro ⟨c, v⟩
  rw [mem_iff_find l h, mem_iff_find l' h', he]

/-- Lookups do not depend on the order of a key-duplicate-free association list. -/
theorem find_perm {β : Type} {l l' : List (Coord × β)} (hp : l.Perm l')
    (h : (l.map Prod.fst).Nodup) (c : Coord) : find l c = find l' c := by
  have h' : (l'.map Prod.fst).Nodup := (hp.map Prod.fst).nodup_iff.mp h
  cases hf : find l' c with
  | none =>
    rw [find_eq_none_iff] at hf ⊢
    intro hc
    exact hf ((hp.map Prod.fst).mem_iff.mp hc)
  | some v =>
    rw [← mem_iff_find l' h'] at hf
    rw [← mem_iff_find l h]
    exact hp.mem_iff.mpr hf

/-! ## `add_fibre` -/

theorem find_ensure (m : XMap) (a c : Coord) :
    find (if (find m a).isNone then assign m a (Xpoint.fresh a) else m) c =
      if a = c then some (deref m a) else find m c := by
  cases hf : find m a with
  | none =>
    simp only [Option.isNone_none, if_true, find_assign, deref_of_find_none hf]
  | some xp =>
    simp only [Option.isNone_some, Bool.false_eq_true, if_false]
    by_cases hc : a = c
    · subst hc
      simp [hf, deref_of_find hf]
    · simp [hc]

theorem find_addX (m : XMap) (a b : Coord) (cost : Cost) (hab : a ≠ b) (c : Coord) :
    find (addX m a b cost) c =
      if b = c then some { deref m b with fibres := assign (deref m b).fibres a cost }
      else if a = c then some { deref m a with fibres := assign (deref m a).fibres b cost }
      else find m c := by
  unfold addX
  have h1 := find_ensure m a
  have h2 : ∀ c, find (if (find m b).isNone then
        assign (if (find m a).isNone then assign m a (Xpoint.fresh a) else m) b (Xpoint.fresh b)
      else (if (find m a).isNone then assign m a (Xpoint.fresh a) else m)) c =
      if b = c then some (deref m b) else if a = c then some (deref m a) else find m c := by
    intro c
    cases hf : find m b with
    | none =>
      simp only [Option.isNone_none, if_true, find_assign, h1, deref_of_find_none hf]
    | some xp =>
      simp only [Option.isNone_some, Bool.false_eq_true, if_false, h1]
      by_cases hc : b = c
      · subst hc
        simp [hab, hf, deref_of_find hf]
      · simp [hc]
  simp only [find_modify, h2]
  by_cases hb : b = c
  · subst hb
    simp [hab]
  · by_cases ha : a = c
    · subst ha
      simp [hb, hab]
    · simp [hb, ha]

theorem add_fibre_eq (g : Network) (a b : Coord) (cost : Cost) (hab : a ≠ b)
    (h : nb g.xpoints_ a b = none) :
    add_fibre g a b cost = (true, { xpoints_ := addX g.xpoints_ a b cost,
                                    fibres_ := addCat g.fibres_ a b }) := by
  have h2 : ∀ c, find (if (find g.xpoints_ b).isNone then
        assign (if (find g.xpoints_ a).isNone then assign g.xpoints_ a (Xpoint.fresh a)
          else g.xpoints_) b (Xpoint.fresh b)
      else (if (find g.xpoints_ a).isNone then assign g.xpoints_ a (Xpoint.fresh a)
          else g.xpoints_)) c =
      if b = c then some (deref g.xpoints_ b) else if a = c then some (deref g.xpoints_ a)
      else find g.xpoints_ c := by
    intro c
    have h1 := find_ensure g.xpoints_ a
    cases hf : find g.xpoints_ b with
    | none =>
      simp only [Option.isNone_none, if_true, find_assign, h1, deref_of_find_none hf]
    | some xp =>
      simp only [Option.isNone_some, Bool.false_eq_true, if_false, h1]
      by_cases hc : b = c
      · subst hc
        simp [hab, hf, deref_of_find hf]
      · simp [hc]
  unfold add_fibre addX addCat
  simp only [hab, if_false]
  have hd : deref (if (find g.xpoints_ b).isNone then
        assign (if (find g.xpoints_ a).isNone then assign g.xpoints_ a (Xpoint.fresh a)
          else g.xpoints_) b (Xpoint.fresh b)
      else (if (find g.xpoints_ a).isNone then assign g.xpoints_ a (Xpoint.fresh a)
          else g.xpoints_)) a = deref g.xpoints_ a := by
    unfold deref
    rw [h2 a]
    simp [Ne.symm hab]
    rfl
  rw [hd]
  unfold nb at h
  simp [h]

theorem add_fibre_fst (g : Network) (a b : Coord) (cost : Cost) :
    (add_fibre g a b cost).1 = true → a ≠ b ∧ nb g.xpoints_ a b = none := by
  intro h
  have hab : a ≠ b := by
    rintro rfl
    simp [add_fibre] at h
  refine ⟨hab, ?_⟩
  have h2 : ∀ c, find (if (find g.xpoints_ b).isNone then
        assign (if (find g.xpoints_ a).isNone then assign g.xpoints_ a (Xpoint.fresh a)
          else g.xpoints_) b (Xpoint.fresh b)
      else (if (find g.xpoints_ a).isNone then assign g.xpoints_ a (Xpoint.fresh a)
          else g.xpoints_)) c =
      if b = c then some (deref g.xpoints_ b) else if a = c then some (deref g.xpoints_ a)
      else find g.xpoints_ c := by
    intro c
    have h1 := find_ensure g.xpoints_ a
    cases hf : find g.xpoints_ b with
    | none =>
      simp only [Option.isNone_none, if_true, find_assign, h1, deref_of_find_none hf]
    | some xp =>
      simp only [Option.isNone_some, Bool.false_eq_true, if_false, h1]
      by_cases hc : b = c
      · subst hc
        simp [hab, hf, deref_of_find hf]
      · simp [hc]
  have hd : deref (if (find g.xpoints_ b).isNone then
        assign (if (find g.xpoints_ a).isNone then assign g.xpoints_ a (Xpoint.fresh a)
          else g.xpoints_) b (Xpoint.fresh b)
      else (if (find g.xpoints_ a).isNone then assign g.xpoints_ a (Xpoint.fresh a)
          else g.xpoints_)) a = deref g.xpoints_ a := by
    unfold deref
    rw [h2 a]
    simp [Ne.symm hab]
    rfl
  unfold add_fibre at h
  simp only [hab, if_false] at h
  rw [hd] at h
  cases hn : nb g.xpoints_ a b with
  | none => rfl
  | some w =>
    unfold nb at hn
    simp [hn] at h

theorem stored_addX (m : XMap) (a b : Coord) (cost : Cost) (hab : a ≠ b) (c : Coord) :
    stored (addX m a b cost) c ↔ c = a ∨ c = b ∨ stored m c := by
  unfold stored
  rw [find_addX m a b cost hab]
  by_cases hb : b = c
  · simp [hb]
  · by_cases ha : a = c
    · subst ha
      simp [hb]
    · simp [hb, ha, Ne.symm hb, Ne.symm ha]

theorem deref_addX (m : XMap) (a b : Coord) (cost : Cost) (hab : a ≠ b) (c : Coord) :
    deref (addX m a b cost) c =
      if b = c then { deref m b with fibres := assign (deref m b).fibres a cost }
      else if a = c then { deref m a with fibres := assign (deref m a).fibres b cost }
      else deref m c := by
  rw [deref, find_addX m a b cost hab]
  by_cases hb : b = c
  · simp [hb]
  · by_cases ha : a = c
    · simp [ha, hb]
    · simp [hb, ha, deref]

theorem nb_addX (m : XMap) (a b : Coord) (cost : Cost) (hab : a ≠ b) (x y : Coord) :
    nb (addX m a b cost) x y =
      if (x = a ∧ y = b) ∨ (x = b ∧ y = a) then some cost else nb m x y := by
  unfold nb
  rw [deref_addX m a b cost hab]
  by_cases hb : b = x
  · subst hb
    simp only [if_true, find_assign]
    by_cases hy : a = y
    · subst hy
      simp
    · simp [hy, Ne.symm hy, Ne.symm hab]
  · by_cases ha : a = x
    · subst ha
      simp only [hb, if_false, if_true, find_assign]
      by_cases hy : b = y
      · subst hy
        simp
      · simp [hy, Ne.symm hy, hab]
    · simp [hb, ha, Ne.symm hb, Ne.symm ha]

theorem keys_nodup_addX (m : XMap) (a b : Coord) (cost : Cost) (h : (m.map Prod.fst).Nodup) :
    ((addX m a b cost).map Prod.fst).Nodup := by
  unfold addX
  simp only [map_fst_modify]
  have h1 : ((if (find m a).isNone then assign m a (Xpoint.fresh a) else m).map
      Prod.fst).Nodup := by
    split
    · exact nodup_keys_assign _ _ _ h
    · exact h
  split
  · exact nodup_keys_assign _ _ _ h1
  · exact h1

theorem WFMap.addX_wf {m : XMap} (h : WFMap m) (a b : Coord) (cost : Cost) (hab : a ≠ b)
    (hn : nb m a b = none) : WFMap (addX m a b cost) := by
  have hn' : nb m b a = none := by
    cases hx : nb m b a with
    | none => rfl
    | some w => rw [h.sym b a w hx] at hn; exact absurd hn (by simp)
  constructor
  · exact keys_nodup_addX m a b cost h.keys_nodup
  · intro c xp hf
    rw [find_addX m a b cost hab] at hf
    by_cases hb : b = c
    · simp only [hb, if_true, Option.some.injEq] at hf
      rw [← hf]
      exact h.deref_coords c
    · by_cases ha : a = c
      · simp only [hb, ha, if_false, if_true, Option.some.injEq] at hf
        rw [← hf]
        exact h.deref_coords c
      · simp only [hb, ha, if_false] at hf
        exact h.coords_eq c xp hf
  · intro c xp hf
    rw [find_addX m a b cost hab] at hf
    by_cases hb : b = c
    · simp only [hb, if_true, Option.some.injEq] at hf
      rw [← hf]
      exact nodup_keys_assign _ _ _ (h.deref_fib_nodup c)
    · by_cases ha : a = c
      · simp only [hb, ha, if_false, if_true, Option.some.injEq] at hf
        rw [← hf]
        exact nodup_keys_assign _ _ _ (h.deref_fib_nodup c)
      · simp only [hb, ha, if_false] at hf
        exact h.fib_nodup c xp hf
  · intro c xp hf
    have hnb : ∀ d, nb (Datastructures.addX m a b cost) c d = find xp.fibres d := by
      intro d
      unfold nb
      rw [deref_of_find hf]
    by_cases hb : b = c
    · intro he
      have := hnb a
      rw [nb_addX m a b cost hab, he] at this
      simp [hb.symm, find] at this
    · by_cases ha : a = c
      · intro he
        have := hnb b
        rw [nb_addX m a b cost hab, he] at this
        simp [ha.symm, find] at this
      · rw [find_addX m a b cost hab] at hf
        simp only [hb, ha, if_false] at hf
        exact h.fib_ne c xp hf
  · intro c
    rw [nb_addX m a b cost hab]
    have : ¬ ((c = a ∧ c = b) ∨ (c = b ∧ c = a)) := by
      rintro (⟨h1, h2⟩ | ⟨h1, h2⟩)
      · exact hab (h1.symm.trans h2)
      · exact hab (h2.symm.trans h1)
    simp only [this, if_false]
    exact h.no_loop c
  · intro x y w hxy
    rw [nb_addX m a b cost hab] at hxy ⊢
    by_cases hc : (x = a ∧ y = b) ∨ (x = b ∧ y = a)
    · have hc' : (y = a ∧ x = b) ∨ (y = b ∧ x = a) := by tauto
      simp only [hc, hc', if_true] at hxy ⊢
      exact hxy
    · have hc' : ¬ ((y = a ∧ x = b) ∨ (y = b ∧ x = a)) := by tauto
      simp only [hc, hc', if_false] at hxy ⊢
      exact h.sym x y w hxy

theorem mem_addCat (s : List (Coord × Coord)) (a b : Coord) (hab : a ≠ b) (p q : Coord) :
    (p, q) ∈ addCat s a b ↔
      (Coord.lt p q = true ∧ ((p = a ∧ q = b) ∨ (p = b ∧ q = a))) ∨ (p, q) ∈ s := by
  unfold addCat
  by_cases hlt : Coord.lt a b = true
  · simp only [hlt, if_true, mem_setInsert, Prod.mk.injEq]
    constructor
    · rintro (⟨rfl, rfl⟩ | h)
      · exact Or.inl ⟨hlt, Or.inl ⟨rfl, rfl⟩⟩
      · exact Or.inr h
    · rintro (⟨h1, ⟨rfl, rfl⟩ | ⟨rfl, rfl⟩⟩ | h)
      · exact Or.inl ⟨rfl, rfl⟩
      · rw [Coord.lt_asymm hlt] at h1
        exact absurd h1 (by simp)
      · exact Or.inr h
  · have hlt' : Coord.lt a b = false := by simpa using hlt
    simp only [hlt, if_false, mem_setInsert, Prod.mk.injEq, Bool.false_eq_true]
    constructor
    · rintro (⟨rfl, rfl⟩ | h)
      · refine Or.inl ⟨?_, Or.inr ⟨rfl, rfl⟩⟩
        by_contra hc
        exact hab (Coord.eq_of_not_lt hlt' (by simpa using hc))
      · exact Or.inr h
    · rintro (⟨h1, ⟨rfl, rfl⟩ | ⟨rfl, rfl⟩⟩ | h)
      · rw [hlt'] at h1
        exact absurd h1 (by simp)
      · exact Or.inl ⟨rfl, rfl⟩
      · exact Or.inr h

theorem WF.add_fibre_wf {g : Network} (h : WF g) (a b : Coord) (cost : Cost) :
    WF (add_fibre g a b cost).2 := by
  by_cases hab : a = b
  · simp only [Datastructures.add_fibre, hab, if_true]
    exact h
  · cases hn : nb g.xpoints_ a b with
    | none =>
      rw [add_fibre_eq g a b cost hab hn]
      constructor
      · exact h.map.addX_wf a b cost hab hn
      · intro p q
        simp only
        rw [mem_addCat _ _ _ hab, nb_addX _ _ _ _ hab, h.cat_iff]
        by_cases hc : (p = a ∧ q = b) ∨ (p = b ∧ q = a)
        · simp only [hc, if_true, Option.isSome_some, and_true]
          tauto
        · simp only [hc, if_false, and_false, false_or]
    | some w =>
      have hsa : stored g.xpoints_ a := stored_of_nb hn
      have hsb : stored g.xpoints_ b := h.map.stored_nb hn
      have ha := find_of_stored hsa
      have hb := find_of_stored hsb
      unfold nb at hn
      simp only [Datastructures.add_fibre, hab, if_false, ha, hb, Option.isNone_some,
        Bool.false_eq_true, hn, Option.isSome_some, if_true]
      exact h

/-! ## `remove_fibre` -/

theorem remove_fibre_eq (g : Network) (a b : Coord) (w w' : Cost)
    (h : nb g.xpoints_ a b = some w) (h' : nb g.xpoints_ b a = some w') :
    remove_fibre g a b = (true, { xpoints_ := removeX g.xpoints_ a b,
                                  fibres_ := setErase (catKey a b) g.fibres_ }) := by
  have ha := find_of_stored (stored_of_nb h)
  have hb := find_of_stored (stored_of_nb h')
  unfold nb at h h'
  unfold remove_fibre removeX catKey
  rw [ha, hb]
  simp only [h, h', Option.isNone_some, Bool.false_eq_true, or_self, if_false]

theorem remove_fibre_fst (g : Network) (a b : Coord) (h : (remove_fibre g a b).1 = true) :
    (nb g.xpoints_ a b).isSome = true ∧ (nb g.xpoints_ b a).isSome = true := by
  unfold remove_fibre at h
  cases ha : find g.xpoints_ a with
  | none => simp [ha] at h
  | some xa =>
    cases hb : find g.xpoints_ b with
    | none => simp [ha, hb] at h
    | some xb =>
      simp only [ha, hb] at h
      unfold nb
      rw [deref_of_find ha, deref_of_find hb]
      cases hx : find xa.fibres b with
      | none =>
        simp only [hx, Option.isNone_none, true_or, if_true] at h
        exact absurd h (by simp)
      | some x =>
        cases hy : find xb.fibres a with
        | none =>
          simp only [hy, Option.isNone_none, or_true, if_true] at h
          exact absurd h (by simp)
        | some y => simp

theorem remove_fibre_snd_of_not (g : Network) (a b : Coord)
    (h : ¬ (remove_fibre g a b).1 = true) : (remove_fibre g a b).2 = g := by
  unfold remove_fibre at h ⊢
  cases ha : find g.xpoints_ a with
  | none => rfl
  | some xa =>
    cases hb : find g.xpoints_ b with
    | none => rfl
    | some xb =>
      simp only [ha, hb] at h ⊢
      by_cases hc : (find xa.fibres b).isNone = true ∨ (find xb.fibres a).isNone = true
      · rw [if_pos hc]
      · rw [if_neg hc] at h
        exact absurd rfl h

theorem find_removeX (m : XMap) (a b : Coord) (hab : a ≠ b) (hsa : stored m a)
    (hsb : stored m b) (c : Coord) :
    find (removeX m a b) c =
      if a = c then
        (if (eraseKey (deref m a).fibres b).isEmpty then none
         else some { deref m a with fibres := eraseKey (deref m a).fibres b })
      else if b = c then
        (if (eraseKey (deref m b).fibres a).isEmpty then none
         else some { deref m b with fibres := eraseKey (deref m b).fibres a })
      else find m c := by
  have ha := find_of_stored hsa
  have hb := find_of_stored hsb
  have h2 : ∀ c, find (modify (fun xp => { xp with fibres := eraseKey xp.fibres a })
      (modify (fun xp => { xp with fibres := eraseKey xp.fibres b }) m a) b) c =
      if b = c then some { deref m b with fibres := eraseKey (deref m b).fibres a }
      else if a = c then some { deref m a with fibres := eraseKey (deref m a).fibres b }
      else find m c := by
    intro c
    simp only [find_modify]
    by_cases hbc : b = c
    · subst hbc
      simp [hab, hb]
    · by_cases hac : a = c
      · subst hac
        simp [hbc, ha]
      · simp [hbc, hac]
  have hda : deref (modify (fun xp => { xp with fibres := eraseKey xp.fibres a })
      (modify (fun xp => { xp with fibres := eraseKey xp.fibres b }) m a) b) a =
      { deref m a with fibres := eraseKey (deref m a).fibres b } := by
    rw [deref, h2 a]
    simp [Ne.symm hab]
  have hdb : deref (modify (fun xp => { xp with fibres := eraseKey xp.fibres a })
      (modify (fun xp => { xp with fibres := eraseKey xp.fibres b }) m a) b) b =
      { deref m b with fibres := eraseKey (deref m b).fibres a } := by
    rw [deref, h2 b]
    simp
  unfold removeX
  simp only [hda, hdb]
  by_cases hac : a = c
  · subst hac
    by_cases e1 : (eraseKey (deref m a).fibres b).isEmpty = true
    · by_cases e2 : (eraseKey (deref m b).fibres a).isEmpty = true
      · simp [e1, e2, find_eraseKey, Ne.symm hab]
      · simp [e1, e2, find_eraseKey]
    · by_cases e2 : (eraseKey (deref m b).fibres a).isEmpty = true
      · simp [e1, e2, find_eraseKey, h2, Ne.symm hab]
      · simp [e1, e2, h2, Ne.symm hab]
  · by_cases hbc : b = c
    · subst hbc
      by_cases e1 : (eraseKey (deref m a).fibres b).isEmpty = true
      · by_cases e2 : (eraseKey (deref m b).fibres a).isEmpty = true
        · simp [e1, e2, find_eraseKey, hac]
        · simp [e1, e2, find_eraseKey, hac, h2]
      · by_cases e2 : (eraseKey (deref m b).fibres a).isEmpty = true
        · simp [e1, e2, find_eraseKey, hac]
        · simp [e1, e2, h2, hac]
    · by_cases e1 : (eraseKey (deref m a).fibres b).isEmpty = true
      · by_cases e2 : (eraseKey (deref m b).fibres a).isEmpty = true
        · simp [e1, e2, find_eraseKey, hac, hbc, h2]
        · simp [e1, e2, find_eraseKey, hac, hbc, h2]
      · by_cases e2 : (eraseKey (deref m b).fibres a).isEmpty = true
        · simp [e1, e2, find_eraseKey, hac, hbc, h2]
        · simp [e1, e2, hac, hbc, h2]

theorem find_nil_of_isEmpty {β : Type} {l : List (Coord × β)} (h : l.isEmpty = true)
    (c : Coord) : find l c = none := by
  rw [List.isEmpty_iff] at h
  subst h
  rfl

theorem nb_removeX (m : XMap) (a b : Coord) (hab : a ≠ b) (hsa : stored m a)
    (hsb : stored m b) (x y : Coord) :
    nb (removeX m a b) x y =
      if (x = a ∧ y = b) ∨ (x = b ∧ y = a) then none else nb m x y := by
  have key : ∀ (p q : Coord) (e : Option Xpoint),
      e = (if (eraseKey (deref m p).fibres q).isEmpty then none
           else some { deref m p with fibres := eraseKey (deref m p).fibres q }) →
      find (e.getD (Xpoint.fresh p)).fibres y = if q = y then none else find (deref m p).fibres y := by
    intro p q e he
    by_cases e1 : (eraseKey (deref m p).fibres q).isEmpty = true
    · simp only [e1, if_true] at he
      subst he
      have := find_nil_of_isEmpty e1 y
      rw [find_eraseKey] at this
      simpa [Xpoint.fresh, find] using this.symm
    · simp only [e1, if_false, Bool.false_eq_true] at he
      subst he
      simp [find_eraseKey]
  unfold nb
  rw [deref, find_removeX m a b hab hsa hsb]
  by_cases hax : a = x
  · subst hax
    simp only [if_true]
    rw [key a b _ rfl]
    by_cases hy : b = y
    · subst hy
      simp
    · simp [hy, Ne.symm hy, hab]
  · by_cases hbx : b = x
    · subst hbx
      simp only [hax, if_false, if_true]
      rw [key b a _ rfl]
      by_cases hy : a = y
      · subst hy
        simp
      · simp [hy, Ne.symm hy, Ne.symm hab]
    · simp only [hax, hbx, if_false]
      simp [Ne.symm hax, Ne.symm hbx, deref]

theorem keys_nodup_removeX (m : XMap) (a b : Coord) (h : (m.map Prod.fst).Nodup) :
    ((removeX m a b).map Prod.fst).Nodup := by
  unfold removeX
  have h2 : ((modify (fun xp => { xp with fibres := eraseKey xp.fibres a })
      (modify (fun xp => { xp with fibres := eraseKey xp.fibres b }) m a) b).map
      Prod.fst).Nodup := by
    simp only [map_fst_modify]
    exact h
  simp only
  split
  · split
    · exact nodup_keys_eraseKey _ _ (nodup_keys_eraseKey _ _ h2)
    · exact nodup_keys_eraseKey _ _ h2
  · split
    · exact nodup_keys_eraseKey _ _ h2
    · exact h2

theorem WFMap.removeX_wf {m : XMap} (h : WFMap m) (a b : Coord) (w : Cost)
    (hn : nb m a b = some w) : WFMap (removeX m a b) := by
  have hab : a ≠ b := h.ne_of_nb hn
  have hsa : stored m a := stored_of_nb hn
  have hsb : stored m b := h.stored_nb hn
  have hfind := find_removeX m a b hab hsa hsb
  have hcase : ∀ c xp, find (Datastructures.removeX m a b) c = some xp →
      (xp.coords = (deref m c).coords ∧ stored m c ∧
        (xp.fibres = (deref m c).fibres ∨ ∃ q, xp.fibres = eraseKey (deref m c).fibres q) ∧
        xp.fibres ≠ []) := by
    intro c xp hf
    rw [hfind] at hf
    by_cases hac : a = c
    · subst hac
      by_cases e1 : (eraseKey (deref m a).fibres b).isEmpty = true
      · simp [e1] at hf
      · simp only [if_true, e1, if_false, Bool.false_eq_true, Option.some.injEq] at hf
        subst hf
        refine ⟨rfl, hsa, Or.inr ⟨b, rfl⟩, ?_⟩
        intro he
        have he' : eraseKey (deref m a).fibres b = [] := he
        exact e1 (by simp [he'])
    · by_cases hbc : b = c
      · subst hbc
        by_cases e1 : (eraseKey (deref m b).fibres a).isEmpty = true
        · simp [e1, hac] at hf
        · simp only [hac, if_true, e1, if_false, Bool.false_eq_true, Option.some.injEq] at hf
          subst hf
          refine ⟨rfl, hsb, Or.inr ⟨a, rfl⟩, ?_⟩
          intro he
          have he' : eraseKey (deref m b).fibres a = [] := he
          exact e1 (by simp [he'])
      · simp only [hac, hbc, if_false] at hf
        rw [deref_of_find hf]
        exact ⟨rfl, stored_iff_exists.mpr ⟨xp, hf⟩, Or.inl rfl, h.fib_ne c xp hf⟩
  constructor
  · exact keys_nodup_removeX m a b h.keys_nodup
  · intro c xp hf
    rw [(hcase c xp hf).1]
    exact h.deref_coords c
  · intro c xp hf
    rcases (hcase c xp hf).2.2.1 with e | ⟨q, e⟩
    · rw [e]
      exact h.deref_fib_nodup c
    · rw [e]
      exact nodup_keys_eraseKey _ _ (h.deref_fib_nodup c)
  · intro c xp hf
    exact (hcase c xp hf).2.2.2
  · intro c
    rw [nb_removeX m a b hab hsa hsb]
    split
    · rfl
    · exact h.no_loop c
  · intro x y w' hxy
    rw [nb_removeX m a b hab hsa hsb] at hxy ⊢
    by_cases hc : (x = a ∧ y = b) ∨ (x = b ∧ y = a)
    · simp [hc] at hxy
    · have hc' : ¬ ((y = a ∧ x = b) ∨ (y = b ∧ x = a)) := by tauto
      simp only [hc, hc', if_false] at hxy ⊢
      exact h.sym x y w' hxy

theorem ne_catKey_iff (a b : Coord) (hab : a ≠ b) (p q : Coord) (hpq : Coord.lt p q = true) :
    (p, q) ≠ catKey a b ↔ ¬ ((p = a ∧ q = b) ∨ (p = b ∧ q = a)) := by
  unfold catKey
  by_cases hlt : Coord.lt a b = true
  · simp only [hlt, if_true, ne_eq, Prod.mk.injEq, not_or]
    constructor
    · intro h
      refine ⟨h, ?_⟩
      rintro ⟨rfl, rfl⟩
      rw [Coord.lt_asymm hlt] at hpq
      exact absurd hpq (by simp)
    · intro h
      exact h.1
  · have hlt' : Coord.lt a b = false := by simpa using hlt
    simp only [hlt, if_false, ne_eq, Prod.mk.injEq, not_or, Bool.false_eq_true]
    constructor
    · intro h
      refine ⟨?_, h⟩
      rintro ⟨rfl, rfl⟩
      rw [hlt'] at hpq
      exact absurd hpq (by simp)
    · intro h
      exact h.2

theorem WF.remove_fibre_wf {g : Network} (h : WF g) (a b : Coord) :
    WF (remove_fibre g a b).2 := by
  by_cases hr : (Datastructures.remove_fibre g a b).1 = true
  · obtain ⟨h1, h2⟩ := remove_fibre_fst g a b hr
    obtain ⟨w, hw⟩ := Option.isSome_iff_exists.mp h1
    obtain ⟨w', hw'⟩ := Option.isSome_iff_exists.mp h2
    have hab : a ≠ b := h.map.ne_of_nb hw
    rw [remove_fibre_eq g a b w w' hw hw']
    constructor
    · exact h.map.removeX_wf a b w hw
    · intro p q
      simp only
      rw [mem_setErase, nb_removeX _ _ _ hab (stored_of_nb hw) (stored_of_nb hw'), h.cat_iff]
      constructor
      · rintro ⟨hne, hlt, hs⟩
        have := (ne_catKey_iff a b hab p q hlt).mp hne
        simp only [this, if_false]
        exact ⟨hlt, hs⟩
      · rintro ⟨hlt, hs⟩
        by_cases hc : (p = a ∧ q = b) ∨ (p = b ∧ q = a)
        · simp [hc] at hs
        · simp only [hc, if_false] at hs
          exact ⟨(ne_catKey_iff a b hab p q hlt).mpr hc, hlt, hs⟩
  · rw [remove_fibre_snd_of_not g a b hr]
    exact h

theorem WF.empty_wf : WF Network.empty := by
  constructor
  · constructor
    · simp [Network.empty]
    · intro c xp hf
      simp [Network.empty, find] at hf
    · intro c xp hf
      simp [Network.empty, find] at hf
    · intro c xp hf
      simp [Network.empty, find] at hf
    · intro c
      rfl
    · intro a b w hab
      simp [Network.empty, nb, deref, find, Xpoint.fresh] at hab
  · intro p q
    simp [Network.empty, nb, deref, find, Xpoint.fresh]

theorem WF.clear_fibres_wf (g : Network) : WF (clear_fibres g) := WF.empty_wf

/-! ## Traversals only touch the traversal fields -/

theorem SameNet.refl (m : XMap) : SameNet m m := ⟨rfl, fun _ => rfl⟩

theorem SameNet.trans {m m' m'' : XMap} (h : SameNet m m') (h' : SameNet m' m'') :
    SameNet m m'' :=
  ⟨h'.1.trans h.1, fun c => (h'.2 c).trans (h.2 c)⟩

theorem SameNet.after {m m' m'' : XMap} (h' : SameNet m' m'') (h : SameNet m m') :
    SameNet m m'' :=
  h.trans h'

theorem SameNet.modify_same (m : XMap) (c : Coord) (f : Xpoint → Xpoint)
    (hf : ∀ xp, (f xp).static = xp.static) : SameNet m (modify f m c) := by
  refine ⟨map_fst_modify f m c, fun c' => ?_⟩
  rw [find_modify]
  by_cases hc : c = c'
  · subst hc
    simp only [if_true, Option.map_map]
    congr 1
    funext xp
    exact hf xp
  · simp [hc]

theorem find_map_snd {β γ : Type} (f : β → γ) (m : List (Coord × β)) (c : Coord) :
    find (m.map (fun e => (e.1, f e.2))) c = (find m c).map f := by
  induction m with
  | nil => rfl
  | cons e t ih =>
    obtain ⟨k, v⟩ := e
    by_cases hk : k = c <;> simp [find, hk, ih]

theorem find_reset (m : XMap) (c : Coord) :
    find (reset_xpoints m) c = (find m c).map (fun xp =>
      { xp with state := State.WHITE, pi := none, d := INT_MAX, route_cost := 0 }) := by
  induction m with
  | nil => rfl
  | cons e t ih =>
    obtain ⟨k, v⟩ := e
    have ht : reset_xpoints ((k, v) :: t) =
        (k, { v with state := State.WHITE, pi := none, d := INT_MAX, route_cost := 0 }) ::
          reset_xpoints t := rfl
    rw [ht]
    by_cases hk : k = c <;> simp [find, hk, ih]

theorem SameNet.reset_same (m : XMap) : SameNet m (reset_xpoints m) := by
  refine ⟨?_, fun c => ?_⟩
  · simp [reset_xpoints, List.map_map, Function.comp_def]
  · rw [find_reset]
    cases find m c <;> rfl

theorem SameNet.stored_same {m m' : XMap} (h : SameNet m m') (c : Coord) :
    stored m' c ↔ stored m c := by
  unfold Datastructures.stored
  have := h.2 c
  cases h1 : find m' c <;> cases h2 : find m c <;> simp [h1, h2] at this ⊢

theorem SameNet.deref_static {m m' : XMap} (h : SameNet m m') (c : Coord) :
    (deref m' c).static = (deref m c).static := by
  unfold deref
  have := h.2 c
  cases h1 : find m' c <;> cases h2 : find m c <;> simp [h1, h2] at this ⊢
  exact this

theorem SameNet.fibres {m m' : XMap} (h : SameNet m m') (c : Coord) :
    (deref m' c).fibres = (deref m c).fibres :=
  congrArg Prod.snd (h.deref_static c)

theorem SameNet.coords {m m' : XMap} (h : SameNet m m') (c : Coord) :
    (deref m' c).coords = (deref m c).coords :=
  congrArg Prod.fst (h.deref_static c)

theorem SameNet.nb_same {m m' : XMap} (h : SameNet m m') (a b : Coord) : nb m' a b = nb m a b := by
  unfold Datastructures.nb
  rw [h.fibres a]

theorem SameNet.length {m m' : XMap} (h : SameNet m m') : m'.length = m.length := by
  simpa using congrArg List.length h.1

theorem SameNet.symm {m m' : XMap} (h : SameNet m m') : SameNet m' m :=
  ⟨h.1.symm, fun c => (h.2 c).symm⟩

theorem WFMap.transfer {m m' : XMap} (h : WFMap m) (hs : SameNet m m') : WFMap m' := by
  have hfind : ∀ c xp', find m' c = some xp' →
      ∃ xp, find m c = some xp ∧ xp'.coords = xp.coords ∧ xp'.fibres = xp.fibres := by
    intro c xp' hf
    have := hs.2 c
    rw [hf] at this
    cases h2 : find m c with
    | none => simp [h2] at this
    | some xp =>
      simp only [h2, Option.map_some', Option.some.injEq, Xpoint.static, Prod.mk.injEq] at this
      exact ⟨xp, rfl, this.1, this.2⟩
  constructor
  · rw [hs.1]
    exact h.keys_nodup
  · intro c xp' hf
    obtain ⟨xp, h1, h2, _⟩ := hfind c xp' hf
    rw [h2]
    exact h.coords_eq c xp h1
  · intro c xp' hf
    obtain ⟨xp, h1, _, h3⟩ := hfind c xp' hf
    rw [h3]
    exact h.fib_nodup c xp h1
  · intro c xp' hf
    obtain ⟨xp, h1, _, h3⟩ := hfind c xp' hf
    rw [h3]
    exact h.fib_ne c xp h1
  · intro c
    rw [hs.nb_same]
    exact h.no_loop c
  · intro a b w hab
    rw [hs.nb_same] at hab ⊢
    exact h.sym a b w hab

theorem WF.with_xpoints {g : Network} (h : WF g) (m' : XMap) (hs : SameNet g.xpoints_ m') :
    WF { g with xpoints_ := m' } := by
  constructor
  · exact h.map.transfer hs
  · intro p q
    show (p, q) ∈ g.fibres_ ↔ _
    rw [h.cat_iff]
    show _ ↔ (Coord.lt p q = true ∧ (nb m' p q).isSome = true)
    rw [hs.nb_same]

theorem sameNet_DFS_for (to_ : Option Coord) (fc : Bool) (u : Coord) (fs : List (Coord × Cost)) :
    ∀ (m : XMap) (stack : List Coord),
      (∀ m2 st2, DFS_for to_ fc u fs m stack = ForResult.done m2 st2 → SameNet m m2) ∧
      (∀ m2 cyc, DFS_for to_ fc u fs m stack = ForResult.found m2 cyc → SameNet m m2) := by
  induction fs with
  | nil =>
    intro m stack
    simp only [DFS_for]
    constructor
    · intro m2 st2 h
      injection h with h1 h2
      rw [← h1]
      exact SameNet.refl m
    · intro m2 cyc h
      exact absurd h (by simp)
  | cons e rest ih =>
    obtain ⟨v, w⟩ := e
    intro m stack
    have hmod : SameNet m (modify
        (fun xv => { xv with pi := some u, route_cost := addInt (deref m u).route_cost w }) m v) :=
      SameNet.modify_same m v _ (fun _ => rfl)
    simp only [DFS_for]
    by_cases hw : (deref m v).state = State.WHITE
    · simp only [hw, if_true]
      by_cases ht : some v = to_
      · simp only [ht, if_true]
        constructor
        · intro m2 st2 h
          exact absurd h (by simp)
        · intro m2 cyc h
          injection h with h1 h2
          rw [← h1]
          exact hmod
      · simp only [ht, if_false]
        exact ⟨fun m2 st2 h => hmod.trans ((ih _ _).1 m2 st2 h),
          fun m2 cyc h => hmod.trans ((ih _ _).2 m2 cyc h)⟩
    · simp only [hw, if_false]
      by_cases hg : (deref m v).state = State.GRAY
      · simp only [hg, if_true]
        by_cases hc : fc = true ∧ some v ≠ (deref m u).pi
        · rw [if_pos hc]
          constructor
          · intro m2 st2 h
            exact absurd h (by simp)
          · intro m2 cyc h
            injection h with h1 h2
            rw [← h1]
            exact SameNet.refl m
        · rw [if_neg hc]
          exact ih m stack
      · simp only [hg, if_false]
        exact ih m stack

theorem sameNet_DFS_while (to_ : Option Coord) (fc : Bool) :
    ∀ (fuel : Nat) (m : XMap) (stack : List Coord) (r : Bool × Option (Coord × Coord) × XMap),
      DFS_while to_ fc fuel m stack = some r → SameNet m r.2.2 := by
  intro fuel
  induction fuel with
  | zero =>
    intro m stack r h
    simp [DFS_while] at h
  | succ n ih =>
    intro m stack r h
    cases stack with
    | nil =>
      simp only [DFS_while, Option.some.injEq] at h
      rw [← h]
      exact SameNet.refl m
    | cons u stack =>
      simp only [DFS_while] at h
      by_cases hw : (deref m u).state = State.WHITE
      · simp only [hw, if_true] at h
        have hmod : SameNet m (modify (fun xu => { xu with state := State.GRAY }) m u) :=
          SameNet.modify_same m u _ (fun _ => rfl)
        have hfor := sameNet_DFS_for to_ fc u
          (deref (modify (fun xu => { xu with state := State.GRAY }) m u) u).fibres
          (modify (fun xu => { xu with state := State.GRAY }) m u) (u :: stack)
        cases hres : DFS_for to_ fc u
          (deref (modify (fun xu => { xu with state := State.GRAY }) m u) u).fibres
          (modify (fun xu => { xu with state := State.GRAY }) m u) (u :: stack) with
        | done m2 st2 =>
          rw [hres] at h
          exact (hmod.trans (hfor.1 m2 st2 hres)).trans (ih m2 st2 r h)
        | found m2 cyc =>
          rw [hres] at h
          simp only [Option.some.injEq] at h
          rw [← h]
          exact hmod.trans (hfor.2 m2 cyc hres)
      · simp only [hw, if_false] at h
        exact SameNet.after (ih _ _ r h) (SameNet.modify_same m u _ (fun _ => rfl))

theorem sameNet_DFS (m : XMap) (frm : Coord) (to_ : Option Coord) (fc : Bool)
    (r : Bool × Option (Coord × Coord) × XMap) (h : DFS m frm to_ fc = some r) :
    SameNet m r.2.2 :=
  (SameNet.reset_same m).trans (sameNet_DFS_while to_ fc _ _ _ r h)

theorem sameNet_BFS_for (u : Coord) (fs : List (Coord × Cost)) :
    ∀ (m : XMap) (q : List Coord), SameNet m (BFS_for u fs m q).1 := by
  induction fs with
  | nil =>
    intro m q
    exact SameNet.refl m
  | cons e rest ih =>
    obtain ⟨v, w⟩ := e
    intro m q
    simp only [BFS_for]
    split
    · exact SameNet.after (ih _ _) (SameNet.modify_same m v _ (fun _ => rfl))
    · exact ih m q

theorem sameNet_BFS_while :
    ∀ (fuel : Nat) (m : XMap) (q : List Coord) (m' : XMap),
      BFS_while fuel m q = some m' → SameNet m m' := by
  intro fuel
  induction fuel with
  | zero =>
    intro m q m' h
    simp [BFS_while] at h
  | succ n ih =>
    intro m q m' h
    cases q with
    | nil =>
      simp only [BFS_while, Option.some.injEq] at h
      rw [← h]
      exact SameNet.refl m
    | cons u q =>
      simp only [BFS_while] at h
      exact SameNet.after (ih _ _ m' h)
        (SameNet.after (SameNet.modify_same _ u _ (fun _ => rfl)) (sameNet_BFS_for u _ m q))

theorem sameNet_BFS (m : XMap) (frm : Coord) (m' : XMap) (h : BFS m frm = some m') :
    SameNet m m' :=
  SameNet.after (sameNet_BFS_while _ _ _ m' h)
    (SameNet.after (SameNet.modify_same _ frm _ (fun _ => rfl)) (SameNet.reset_same m))

theorem sameNet_relax (m : XMap) (u v : Coord) (w : Cost) : SameNet m (relax m u v w) := by
  unfold relax
  split
  · exact SameNet.modify_same m v _ (fun _ => rfl)
  · exact SameNet.refl m

theorem sameNet_dijkstra_for (u : Coord) (fs : List (Coord × Cost)) :
    ∀ (m : XMap) (q : List Coord), SameNet m (dijkstra_for u fs m q).1 := by
  induction fs with
  | nil =>
    intro m q
    exact SameNet.refl m
  | cons e rest ih =>
    obtain ⟨v, w⟩ := e
    intro m q
    simp only [dijkstra_for]
    split
    · exact SameNet.after (ih _ _)
        (SameNet.after (SameNet.modify_same _ v _ (fun _ => rfl)) (sameNet_relax m u v w))
    · exact (sameNet_relax m u v w).trans (ih _ _)

theorem sameNet_dijkstra_while :
    ∀ (fuel : Nat) (m : XMap) (q : List Coord) (m' : XMap),
      dijkstra_while fuel m q = some m' → SameNet m m' := by
  intro fuel
  induction fuel with
  | zero =>
    intro m q m' h
    simp [dijkstra_while] at h
  | succ n ih =>
    intro m q m' h
    cases q with
    | nil =>
      simp only [dijkstra_while, Option.some.injEq] at h
      rw [← h]
      exact SameNet.refl m
    | cons u q =>
      simp only [dijkstra_while] at h
      exact SameNet.after (ih _ _ m' h)
        (SameNet.after (SameNet.modify_same _ u _ (fun _ => rfl)) (sameNet_dijkstra_for u _ m _))

theorem sameNet_dijkstra (m : XMap) (frm : Coord) (m' : XMap) (h : dijkstra m frm = some m') :
    SameNet m m' :=
  SameNet.after (sameNet_dijkstra_while _ _ _ m' h)
    (SameNet.after (SameNet.modify_same _ frm _ (fun _ => rfl)) (SameNet.reset_same m))

/-! ## Reordering the unordered maps -/

theorem forall₂_reorder_find {m l : XMap}
    (h : List.Forall₂ (fun e e' => e'.1 = e.1 ∧ XpReorder e.2 e'.2) m l) (c : Coord) :
    (find m c = none ∧ find l c = none) ∨
      ∃ xp xp', find m c = some xp ∧ find l c = some xp' ∧ XpReorder xp xp' := by
  induction m generalizing l with
  | nil =>
    cases h
    exact Or.inl ⟨rfl, rfl⟩
  | cons e t ih =>
    cases h with
    | cons hd htl =>
      rename_i e' t'
      obtain ⟨k, v⟩ := e
      obtain ⟨k', v'⟩ := e'
      obtain ⟨hk, hv⟩ := hd
      simp only at hk hv
      subst hk
      by_cases hc : k' = c
      · right
        exact ⟨v, v', by simp [find, hc], by simp [find, hc], hv⟩
      · simpa [find, hc] using ih htl

theorem forall₂_reorder_keys {m l : XMap}
    (h : List.Forall₂ (fun e e' => e'.1 = e.1 ∧ XpReorder e.2 e'.2) m l) :
    l.map Prod.fst = m.map Prod.fst := by
  induction h with
  | nil => rfl
  | cons hd _ ih =>
    simp only [List.map_cons, ih, hd.1]

theorem Reorder.toSameContent {g g' : Network} (hwf : WFMap g.xpoints_) (h : Reorder g g') :
    SameContent g.xpoints_ g'.xpoints_ := by
  obtain ⟨_, l, hl, hp⟩ := h
  have hk := forall₂_reorder_keys hl
  have hnd : (l.map Prod.fst).Nodup := by
    rw [hk]
    exact hwf.keys_nodup
  constructor
  · rw [← hk]
    exact (hp.map Prod.fst).symm
  · intro c
    rw [← find_perm hp hnd c]
    exact forall₂_reorder_find hl c

theorem XpReorder.find_fibres {xp xp' : Xpoint} (h : XpReorder xp xp')
    (hnd : (xp.fibres.map Prod.fst).Nodup) (c : Coord) :
    find xp'.fibres c = find xp.fibres c := by
  have hp := h.2.1
  exact find_perm hp ((hp.map Prod.fst).nodup_iff.mpr hnd) c

theorem SameContent.stored_reorder {m m' : XMap} (h : SameContent m m') (c : Coord) :
    stored m' c ↔ stored m c := by
  unfold Datastructures.stored
  rcases h.2 c with ⟨h1, h2⟩ | ⟨xp, xp', h1, h2, _⟩ <;> simp [h1, h2]

theorem SameContent.deref_reorder {m m' : XMap} (h : SameContent m m') (c : Coord) :
    XpReorder (deref m c) (deref m' c) := by
  rcases h.2 c with ⟨h1, h2⟩ | ⟨xp, xp', h1, h2, h3⟩
  · rw [deref_of_find_none h1, deref_of_find_none h2]
    exact ⟨rfl, List.Perm.refl _, rfl, rfl, rfl, rfl⟩
  · rw [deref_of_find h1, deref_of_find h2]
    exact h3

theorem SameContent.nb_reorder {m m' : XMap} (hwf : WFMap m) (h : SameContent m m') (a b : Coord) :
    nb m' a b = nb m a b := by
  unfold Datastructures.nb
  exact (h.deref_reorder a).find_fibres (hwf.deref_fib_nodup a) b

theorem WFMap.of_sameContent {m m' : XMap} (h : WFMap m) (hs : SameContent m m') : WFMap m' := by
  have hfind : ∀ c xp', find m' c = some xp' →
      ∃ xp, find m c = some xp ∧ XpReorder xp xp' := by
    intro c xp' hf
    rcases hs.2 c with ⟨_, h2⟩ | ⟨xp, xp'', h1, h2, h3⟩
    · rw [h2] at hf
      exact absurd hf (by simp)
    · rw [h2] at hf
      injection hf with hf
      subst hf
      exact ⟨xp, h1, h3⟩
  constructor
  · exact hs.1.nodup_iff.mpr h.keys_nodup
  · intro c xp' hf
    obtain ⟨xp, h1, h2⟩ := hfind c xp' hf
    rw [h2.1]
    exact h.coords_eq c xp h1
  · intro c xp' hf
    obtain ⟨xp, h1, h2⟩ := hfind c xp' hf
    exact (h2.2.1.map Prod.fst).nodup_iff.mpr (h.fib_nodup c xp h1)
  · intro c xp' hf
    obtain ⟨xp, h1, h2⟩ := hfind c xp' hf
    intro he
    have hp := h2.2.1
    rw [he] at hp
    exact h.fib_ne c xp h1 (List.nil_perm.mp hp)
  · intro c
    rw [hs.nb_reorder h]
    exact h.no_loop c
  · intro a b w hab
    rw [hs.nb_reorder h] at hab ⊢
    exact h.sym a b w hab

theorem WF.reorder_wf {g g' : Network} (h : WF g) (hr : Reorder g g') : WF g' := by
  have hs := hr.toSameContent h.map
  constructor
  · exact h.map.of_sameContent hs
  · intro p q
    rw [hr.1, h.cat_iff, hs.nb_reorder h.map]

/-! ## The queries keep the network -/

theorem route_any_sameNet (g g' : Network) (a b : Coord) (r : List (Coord × Cost))
    (h : route_any g a b = some (r, g')) :
    g'.fibres_ = g.fibres_ ∧ SameNet g.xpoints_ g'.xpoints_ := by
  unfold route_any at h
  split at h
  · injection h with h
    injection h with _ h2
    subst h2
    exact ⟨rfl, SameNet.refl _⟩
  · cases hd : DFS g.xpoints_ a (some b) false with
    | none => simp [hd] at h
    | some res =>
      obtain ⟨fnd, cyc, m⟩ := res
      have hs := sameNet_DFS _ _ _ _ _ hd
      rw [hd] at h
      cases fnd with
      | false =>
        simp only [Option.some.injEq, Prod.mk.injEq] at h
        rw [← h.2]
        exact ⟨rfl, hs⟩
      | true =>
        simp only [Option.map_eq_some'] at h
        obtain ⟨route, _, h2⟩ := h
        injection h2 with _ h3
        rw [← h3]
        exact ⟨rfl, hs⟩

theorem route_least_xpoints_sameNet (g g' : Network) (a b : Coord) (r : List (Coord × Cost))
    (h : route_least_xpoints g a b = some (r, g')) :
    g'.fibres_ = g.fibres_ ∧ SameNet g.xpoints_ g'.xpoints_ := by
  unfold route_least_xpoints at h
  split at h
  · injection h with h
    injection h with _ h2
    subst h2
    exact ⟨rfl, SameNet.refl _⟩
  · cases hd : BFS g.xpoints_ a with
    | none => simp [hd] at h
    | some m =>
      have hs := sameNet_BFS _ _ _ hd
      rw [hd] at h
      simp only at h
      split at h
      · simp only [Option.some.injEq, Prod.mk.injEq] at h
        rw [← h.2]
        exact ⟨rfl, hs⟩
      · simp only [Option.map_eq_some'] at h
        obtain ⟨route, _, h2⟩ := h
        injection h2 with _ h3
        rw [← h3]
        exact ⟨rfl, hs⟩

theorem route_fastest_sameNet (g g' : Network) (a b : Coord) (r : List (Coord × Cost))
    (h : route_fastest g a b = some (r, g')) :
    g'.fibres_ = g.fibres_ ∧ SameNet g.xpoints_ g'.xpoints_ := by
  unfold route_fastest at h
  split at h
  · injection h with h
    injection h with _ h2
    subst h2
    exact ⟨rfl, SameNet.refl _⟩
  · cases hd : dijkstra g.xpoints_ a with
    | none => simp [hd] at h
    | some m =>
      have hs := sameNet_dijkstra _ _ _ hd
      rw [hd] at h
      simp only at h
      split at h
      · simp only [Option.some.injEq, Prod.mk.injEq] at h
        rw [← h.2]
        exact ⟨rfl, hs⟩
      · simp only [Option.map_eq_some'] at h
        obtain ⟨route, _, h2⟩ := h
        injection h2 with _ h3
        rw [← h3]
        exact ⟨rfl, hs⟩

theorem route_fibre_cycle_sameNet (g g' : Network) (a : Coord) (r : List Coord)
    (h : route_fibre_cycle g a = some (r, g')) :
    g'.fibres_ = g.fibres_ ∧ SameNet g.xpoints_ g'.xpoints_ := by
  unfold route_fibre_cycle at h
  split at h
  · injection h with h
    injection h with _ h2
    subst h2
    exact ⟨rfl, SameNet.refl _⟩
  · cases hd : DFS g.xpoints_ a none true with
    | none => simp [hd] at h
    | some res =>
      obtain ⟨fnd, cyc, m⟩ := res
      have hs := sameNet_DFS _ _ _ _ _ hd
      rw [hd] at h
      cases fnd with
      | false =>
        simp only [Option.some.injEq, Prod.mk.injEq] at h
        rw [← h.2]
        exact ⟨rfl, hs⟩
      | true =>
        cases cyc with
        | none => simp at h
        | some uv =>
          obtain ⟨u, v⟩ := uv
          simp only [Option.map_eq_some'] at h
          obtain ⟨route, _, h2⟩ := h
          injection h2 with _ h3
          rw [← h3]
          exact ⟨rfl, hs⟩

theorem WF.of_sameNet {g g' : Network} (h : WF g)
    (hs : g'.fibres_ = g.fibres_ ∧ SameNet g.xpoints_ g'.xpoints_) : WF g' := by
  have := h.with_xpoints g'.xpoints_ hs.2
  have e : g' = { g with xpoints_ := g'.xpoints_ } := by
    cases g'
    cases g
    simp only at hs
    simp [hs.1]
  rw [e]
  exact this

/-- Every reachable state satisfies the representation invariant. -/
theorem Reachable.wf {g : Network} (h : Reachable g) : WF g := by
  induction h with
  | init => exact WF.empty_wf
  | add_fibre g a b c _ ih => exact ih.add_fibre_wf a b c
  | remove_fibre g a b _ ih => exact ih.remove_fibre_wf a b
  | clear_fibres g _ _ => exact WF.clear_fibres_wf g
  | route_any g g' a b r _ hq ih => exact ih.of_sameNet (route_any_sameNet g g' a b r hq)
  | route_least_xpoints g g' a b r _ hq ih =>
    exact ih.of_sameNet (route_least_xpoints_sameNet g g' a b r hq)
  | route_fastest g g' a b r _ hq ih => exact ih.of_sameNet (route_fastest_sameNet g g' a b r hq)
  | route_fibre_cycle g g' a r _ hq ih =>
    exact ih.of_sameNet (route_fibre_cycle_sameNet g g' a r hq)
  | reorder g g' _ hr ih => exact ih.reorder_wf hr

/-! ## Observing the network: `all_xpoints`, `get_fibres_from`, `all_fibres` -/

theorem Reorder.self (g : Network) : Reorder g g := by
  refine ⟨rfl, g.xpoints_, ?_, List.Perm.refl _⟩
  apply List.forall₂_same.mpr
  intro e _
  exact ⟨rfl, rfl, List.Perm.refl _, rfl, rfl, rfl, rfl⟩

theorem all_xpoints_congr (g g' : Network) (h : (g.xpoints_.map Prod.fst).Nodup)
    (h' : (g'.xpoints_.map Prod.fst).Nodup)
    (he : ∀ c, stored g.xpoints_ c ↔ stored g'.xpoints_ c) : all_xpoints g = all_xpoints g' := by
  unfold all_xpoints
  apply insertionSort_eq_of_perm
  rw [List.perm_ext_iff_of_nodup h h']
  intro c
  rw [← find_isSome_iff, ← find_isSome_iff]
  exact he c

theorem get_fibres_from_congr (g g' : Network) (h : WFMap g.xpoints_) (h' : WFMap g'.xpoints_)
    (c : Coord) (he : ∀ d, nb g.xpoints_ c d = nb g'.xpoints_ c d) :
    get_fibres_from g c = get_fibres_from g' c := by
  rw [get_fibres_from_eq, get_fibres_from_eq]
  apply insertionSort_eq_of_perm
  exact perm_of_find_eq _ _ (h.deref_fib_nodup c) (h'.deref_fib_nodup c) he

theorem WFMap.stored_iff {m : XMap} (h : WFMap m) (c : Coord) :
    stored m c ↔ ∃ d w, nb m c d = some w := by
  constructor
  · intro hs
    have hf := find_of_stored hs
    have hne := h.fib_ne c _ hf
    obtain ⟨e, he⟩ := List.exists_mem_of_ne_nil _ hne
    exact ⟨e.1, e.2, (h.mem_fibres_iff c e.1 e.2).mp he⟩
  · rintro ⟨d, w, hd⟩
    exact stored_of_nb hd

theorem addCat_eq (s : List (Coord × Coord)) (a b : Coord) :
    addCat s a b = setInsert (catKey a b) s := by
  unfold addCat catKey
  split <;> rfl

theorem catKey_nb (a b : Coord) : catKey a b = (a, b) ∨ catKey a b = (b, a) := by
  unfold catKey
  split
  · exact Or.inl rfl
  · exact Or.inr rfl

theorem count_eq_one_of_nodup_mem {α : Type} [BEq α] [LawfulBEq α] (a : α) (l : List α)
    (hn : l.Nodup) (hm : a ∈ l) : l.count a = 1 := by
  induction l with
  | nil => simp at hm
  | cons b t ih =>
    rw [List.nodup_cons] at hn
    rw [List.count_cons]
    rcases List.mem_cons.mp hm with h | h
    · subst h
      have : List.count a t = 0 := List.count_eq_zero.mpr hn.1
      simp [this]
    · have hne : (b == a) = false := by
        rw [beq_eq_false_iff_ne]
        rintro rfl
        exact hn.1 h
      simp [hne, ih hn.2 h]

/-- The state after a successful `add_fibre`, in whatever order its maps are iterated. -/
theorem add_fibre_content (g : Network) (hwf : WF g) (a b : Coord) (cost : Cost)
    (h : (add_fibre g a b cost).1 = true) (g1 : Network)
    (hro : Reorder (add_fibre g a b cost).2 g1) :
    a ≠ b ∧ nb g.xpoints_ a b = none ∧ nb g.xpoints_ b a = none ∧ WF g1 ∧
      g1.fibres_ = setInsert (catKey a b) g.fibres_ ∧
      ∀ x y, nb g1.xpoints_ x y =
        if (x = a ∧ y = b) ∨ (x = b ∧ y = a) then some cost else nb g.xpoints_ x y := by
  obtain ⟨hab, hn⟩ := add_fibre_fst g a b cost h
  have hn' : nb g.xpoints_ b a = none := by
    cases hx : nb g.xpoints_ b a with
    | none => rfl
    | some w => rw [hwf.map.sym b a w hx] at hn; exact absurd hn (by simp)
  have hwa : WF (add_fibre g a b cost).2 := hwf.add_fibre_wf a b cost
  have hsc := hro.toSameContent hwa.map
  refine ⟨hab, hn, hn', hwa.reorder_wf hro, ?_, ?_⟩
  · rw [hro.1, add_fibre_eq g a b cost hab hn, addCat_eq]
  · intro x y
    rw [hsc.nb_reorder hwa.map]
    rw [add_fibre_eq g a b cost hab hn]
    exact nb_addX g.xpoints_ a b cost hab x y

/-- **C9.** In every reachable state, after an `add_fibre(a, b, cost)` that returns `true`,
`get_fibres_from(a)` contains the pair `(b, cost)` exactly once and `get_fibres_from(b)`
contains `(a, cost)` exactly once, in whatever order the unordered maps are iterated. -/
theorem C9_add_fibre_listed_once (g : Network) (hr : Reachable g) (a b : Coord) (cost : Cost)
    (h : (add_fibre g a b cost).1 = true) (g1 : Network)
    (hro : Reorder (add_fibre g a b cost).2 g1) :
    (get_fibres_from g1 a).count (b, cost) = 1 ∧ (get_fibres_from g1 b).count (a, cost) = 1 := by
  obtain ⟨hab, _, _, hw1, _, hnb⟩ := add_fibre_content g hr.wf a b cost h g1 hro
  have key : ∀ x y, nb g1.xpoints_ x y = some cost → (get_fibres_from g1 x).count (y, cost) = 1 := by
    intro x y hxy
    rw [get_fibres_from_eq]
    apply count_eq_one_of_nodup_mem
    · exact (List.perm_insertionSort fibreLe _).nodup_iff.mpr
        (List.Nodup.of_map _ (hw1.map.deref_fib_nodup x))
    · exact (List.perm_insertionSort fibreLe _).mem_iff.mpr
        ((hw1.map.mem_fibres_iff x y cost).mpr hxy)
  constructor
  · apply key
    rw [hnb]
    simp
  · apply key
    rw [hnb]
    simp

/-- **C10.** In every reachable state `g`, after an `add_fibre(a, b, cost)` that returns `true`
(the maps then being iterated in any order), `remove_fibre(a, b)` returns `true` and restores
what `all_xpoints`, `all_fibres` and `get_fibres_from` of every point return for `g`; in
particular a point that was not stored in `g` is not stored afterwards. -/
theorem C10_remove_undoes_add (g : Network) (hr : Reachable g) (a b : Coord) (cost : Cost)
    (h : (add_fibre g a b cost).1 = true) (g1 : Network)
    (hro : Reorder (add_fibre g a b cost).2 g1) :
    (remove_fibre g1 a b).1 = true ∧
      all_xpoints (remove_fibre g1 a b).2 = all_xpoints g ∧
      all_fibres (remove_fibre g1 a b).2 = all_fibres g ∧
      (∀ p, get_fibres_from (remove_fibre g1 a b).2 p = get_fibres_from g p) ∧
      (∀ p, p ∉ all_xpoints g → p ∉ all_xpoints (remove_fibre g1 a b).2) := by
  have hwf := hr.wf
  obtain ⟨hab, hn, hn', hw1, hcat, hnb⟩ := add_fibre_content g hwf a b cost h g1 hro
  have h1 : nb g1.xpoints_ a b = some cost := by rw [hnb]; simp
  have h2 : nb g1.xpoints_ b a = some cost := by rw [hnb]; simp
  have hw2 : WF (remove_fibre g1 a b).2 := hw1.remove_fibre_wf a b
  rw [remove_fibre_eq g1 a b cost cost h1 h2] at hw2 ⊢
  have hnb2 : ∀ x y, nb (removeX g1.xpoints_ a b) x y = nb g.xpoints_ x y := by
    intro x y
    rw [nb_removeX _ _ _ hab (stored_of_nb h1) (stored_of_nb h2), hnb]
    by_cases hc : (x = a ∧ y = b) ∨ (x = b ∧ y = a)
    · rw [if_pos hc]
      rcases hc with ⟨rfl, rfl⟩ | ⟨rfl, rfl⟩
      · exact hn.symm
      · exact hn'.symm
    · rw [if_neg hc, if_neg hc]
  have hst : ∀ c, stored (removeX g1.xpoints_ a b) c ↔ stored g.xpoints_ c := by
    intro c
    rw [hw2.map.stored_iff, hwf.map.stored_iff]
    simp only [hnb2]
  have hxp : all_xpoints
      { xpoints_ := removeX g1.xpoints_ a b, fibres_ := setErase (catKey a b) g1.fibres_ } =
      all_xpoints g :=
    all_xpoints_congr _ _ hw2.map.keys_nodup hwf.map.keys_nodup hst
  refine ⟨rfl, hxp, ?_, ?_, ?_⟩
  · show setErase (catKey a b) g1.fibres_ = g.fibres_
    rw [hcat]
    apply setErase_setInsert
    intro hmem
    rcases catKey_nb a b with e | e
    · rw [e, hwf.cat_iff, hn] at hmem
      exact absurd hmem.2 (by simp)
    · rw [e, hwf.cat_iff, hn'] at hmem
      exact absurd hmem.2 (by simp)
  · intro p
    exact get_fibres_from_congr _ _ hw2.map hwf.map p (fun d => hnb2 p d)
  · intro p hp
    simp only
    rw [hxp]
    exact hp

theorem scenario_reachable : Reachable scenario :=
  Reachable.add_fibre _ _ _ _ (Reachable.add_fibre _ _ _ _
    (Reachable.add_fibre _ _ _ _ Reachable.init))

/-- Instance of C9: adding the fibre `(2,2)-(3,3)` of cost 7 to the scenario network. -/
theorem C9_add_fibre_listed_once_witness :
    (add_fibre scenario ⟨2, 2⟩ ⟨3, 3⟩ 7).1 = true ∧
      (get_fibres_from (add_fibre scenario ⟨2, 2⟩ ⟨3, 3⟩ 7).2 ⟨2, 2⟩).count (⟨3, 3⟩, 7) = 1 ∧
      (get_fibres_from (add_fibre scenario ⟨2, 2⟩ ⟨3, 3⟩ 7).2 ⟨3, 3⟩).count (⟨2, 2⟩, 7) = 1 :=
  ⟨by decide, C9_add_fibre_listed_once scenario scenario_reachable ⟨2, 2⟩ ⟨3, 3⟩ 7 (by decide)
    _ (Reorder.self _)⟩

/-- Instance of C10: adding the fibre `(2,2)-(3,3)` to the scenario network and removing it
again; the point `(3,3)` created by `add_fibre` is gone. -/
theorem C10_remove_undoes_add_witness :
    (add_fibre scenario ⟨2, 2⟩ ⟨3, 3⟩ 7).1 = true ∧
    ((remove_fibre (add_fibre scenario ⟨2, 2⟩ ⟨3, 3⟩ 7).2 ⟨2, 2⟩ ⟨3, 3⟩).1 = true ∧
      all_xpoints (remove_fibre (add_fibre scenario ⟨2, 2⟩ ⟨3, 3⟩ 7).2 ⟨2, 2⟩ ⟨3, 3⟩).2 =
        all_xpoints scenario ∧
      all_fibres (remove_fibre (add_fibre scenario ⟨2, 2⟩ ⟨3, 3⟩ 7).2 ⟨2, 2⟩ ⟨3, 3⟩).2 =
        all_fibres scenario ∧
      (∀ p, get_fibres_from (remove_fibre (add_fibre scenario ⟨2, 2⟩ ⟨3, 3⟩ 7).2
          ⟨2, 2⟩ ⟨3, 3⟩).2 p = get_fibres_from scenario p) ∧
      (∀ p, p ∉ all_xpoints scenario →
        p ∉ all_xpoints (remove_fibre (add_fibre scenario ⟨2, 2⟩ ⟨3, 3⟩ 7).2
          ⟨2, 2⟩ ⟨3, 3⟩).2)) :=
  ⟨by decide, C10_remove_undoes_add scenario scenario_reachable ⟨2, 2⟩ ⟨3, 3⟩ 7 (by decide)
    _ (Reorder.self _)⟩

/-! ## Routes, and the predecessor chains that `collect_route` follows -/

theorem fibre_iff (g : Network) (h : WFMap g.xpoints_) (a b : Coord) (w : Cost) :
    Fibre g a b w ↔ nb g.xpoints_ a b = some w :=
  mem_get_fibres_from g h a b w

theorem deref_modify_ne (f : Xpoint → Xpoint) (m : XMap) {c c' : Coord} (h : c ≠ c') :
    deref (modify f m c) c' = deref m c' := by
  unfold deref
  rw [find_modify_ne f m h]

theorem deref_modify_same (f : Xpoint → Xpoint) (m : XMap) {c : Coord} (h : stored m c) :
    deref (modify f m c) c = f (deref m c) := by
  unfold deref
  rw [find_modify_same, find_of_stored h]
  rfl

theorem stored_modify (f : Xpoint → Xpoint) (m : XMap) (c c' : Coord) :
    stored (modify f m c) c' ↔ stored m c' := by
  unfold stored
  rw [find_modify]
  by_cases h : c = c'
  · subst h
    cases find m c <;> simp
  · simp [h]

theorem deref_reset (m : XMap) (c : Coord) :
    deref (reset_xpoints m) c =
      { deref m c with state := State.WHITE, pi := none, d := INT_MAX, route_cost := 0 } := by
  unfold deref
  rw [find_reset]
  cases find m c <;> rfl

theorem TreePath.ne_nil {m0 m : XMap} {frm : Coord} {l : List Coord}
    (h : TreePath m0 m frm l) : l ≠ [] := by
  cases h <;> simp

theorem TreePath.getLast {m0 m : XMap} {frm : Coord} {l : List Coord}
    (h : TreePath m0 m frm l) : l.getLast? = some frm := by
  induction h with
  | root _ _ => rfl
  | step v u rest w _ _ _ _ ih =>
    rw [List.getLast?_cons_cons]
    exact ih

theorem TreePath.last_cost {m0 m : XMap} {frm : Coord} {l : List Coord}
    (h : TreePath m0 m frm l) : (deref m frm).route_cost = 0 := by
  induction h with
  | root _ h0 => exact h0
  | step v u rest w _ _ _ _ ih => exact ih

theorem TreePath.chain {m0 m : XMap} {frm : Coord} {l : List Coord}
    (h : TreePath m0 m frm l) :
    List.Chain' (fun a b => ∃ w, nb m0 b a = some w ∧
      (deref m a).route_cost = addInt (deref m b).route_cost w) l := by
  induction h with
  | root _ _ => exact List.chain'_singleton _
  | step v u rest w _ hn hc _ ih =>
    exact List.Chain'.cons ⟨w, hn, hc⟩ ih

/-- Running the loop of `collect_route` along a predecessor chain, with enough fuel. -/
theorem collect_loop_treePath {m0 m : XMap} {frm : Coord} {l : List Coord}
    (h : TreePath m0 m frm l) :
    ∀ (fuel : Nat) (acc : List (Coord × Cost)), l.length < fuel →
      collect_loop m fuel (l.head?) acc =
        some (acc ++ l.map (fun c => ((deref m c).coords, (deref m c).route_cost))) := by
  induction h with
  | root hp _ =>
    intro fuel acc hf
    match fuel, hf with
    | n + 2, _ =>
      simp only [List.head?_cons, collect_loop, hp, List.map_cons, List.map_nil]
  | step v u rest w hp _ _ _ ih =>
    intro fuel acc hf
    match fuel, hf with
    | n + 1, hf =>
      simp only [List.head?_cons, collect_loop, hp]
      have := ih n (acc ++ [((deref m v).coords, (deref m v).route_cost)])
        (by simp only [List.length_cons] at hf ⊢; omega)
      simp only [List.head?_cons] at this
      rw [this]
      simp

/-- A duplicate-free list of stored coordinates is no longer than the map. -/
theorem length_le_of_nodup_stored (m : XMap) (l : List Coord) (hn : l.Nodup)
    (hs : ∀ c ∈ l, stored m c) : l.length ≤ m.length := by
  have hsub : l ⊆ m.map Prod.fst := by
    intro c hc
    exact (find_isSome_iff m c).mp (hs c hc)
  have := (List.subperm_of_subset hn hsub).length_le
  simpa using this

/-- The route that `collect_route` returns for a duplicate-free predecessor chain of stored
points. -/
theorem collect_route_treePath {m0 m : XMap} {frm : Coord} {l : List Coord}
    (h : TreePath m0 m frm l) (hn : l.Nodup) (hs : ∀ c ∈ l, stored m c) (v : Coord)
    (hv : l.head? = some v) :
    collect_route m [] v =
      some ((l.map (fun c => ((deref m c).coords, (deref m c).route_cost))).reverse) := by
  unfold collect_route
  have hlen := length_le_of_nodup_stored m l hn hs
  have := collect_loop_treePath h (m.length + 1) [] (by omega)
  rw [hv] at this
  rw [this]
  simp

/-- The route read off a duplicate-free predecessor chain is a well-formed path. -/
theorem routeOK_of_treePath (g : Network) (hwf : WFMap g.xpoints_) {m : XMap}
    (hsn : SameNet g.xpoints_ m) {frm v : Coord} {l : List Coord}
    (h : TreePath g.xpoints_ m frm l) (hn : l.Nodup) (hv : l.head? = some v) :
    RouteOK g frm v
      ((l.map (fun c => ((deref m c).coords, (deref m c).route_cost))).reverse) := by
  have hco : ∀ c, (deref m c).coords = c := fun c => by
    rw [hsn.coords c]
    exact hwf.deref_coords c
  have hmap : l.map (fun c => ((deref m c).coords, (deref m c).route_cost)) =
      l.map (fun c => (c, (deref m c).route_cost)) := by
    apply List.map_congr_left
    intro c _
    rw [hco c]
  rw [hmap]
  refine ⟨?_, ?_, ?_, ?_⟩
  · rw [List.head?_reverse, List.getLast?_map, h.getLast]
    simp [h.last_cost]
  · rw [List.getLast?_reverse, List.head?_map, hv]
    rfl
  · rw [List.chain'_reverse, List.chain'_map]
    refine List.Chain'.imp ?_ h.chain
    intro a b
    rintro ⟨w, hw, hc⟩
    exact ⟨w, (fibre_iff g hwf b a w).mpr hw, hc⟩
  · rw [List.map_reverse, List.map_map]
    have : (Prod.fst ∘ fun c => (c, (deref m c).route_cost)) = id := by
      funext c
      rfl
    rw [this, List.map_id, List.nodup_reverse]
    exact hn

/-! ## Breadth-first search -/

theorem whites_modify (m : XMap) (v : Coord) (f : Xpoint → Xpoint) (hs : stored m v)
    (hw : (deref m v).state = State.WHITE) (hf : ∀ xp, (f xp).state ≠ State.WHITE) :
    whites (modify f m v) + 1 = whites m := by
  induction m with
  | nil => simp [stored, find] at hs
  | cons e t ih =>
    obtain ⟨k, xp⟩ := e
    by_cases hk : k = v
    · subst hk
      have hx : xp.state = State.WHITE := by simpa [deref, find] using hw
      simp [whites, modify, List.countP_cons, hx, hf xp]
    · have hs' : stored t v := by simpa [stored, find, hk] using hs
      have hw' : (deref t v).state = State.WHITE := by simpa [deref, find, hk] using hw
      have := ih hs' hw'
      simp only [whites, modify, hk, if_false, List.countP_cons] at this ⊢
      omega

theorem whites_modify_le (m : XMap) (v : Coord) (f : Xpoint → Xpoint)
    (hf : ∀ xp, (f xp).state = xp.state ∨ (f xp).state ≠ State.WHITE) :
    whites (modify f m v) ≤ whites m := by
  induction m with
  | nil => simp [whites, modify]
  | cons e t ih =>
    obtain ⟨k, xp⟩ := e
    by_cases hk : k = v
    · subst hk
      simp only [whites, modify, if_true, List.countP_cons]
      rcases hf xp with h | h
      · rw [h]
      · simp only [h, decide_False, Bool.false_eq_true, if_false]
        omega
    · simp only [whites, modify, hk, if_false, List.countP_cons] at ih ⊢
      omega

theorem whites_le_length (m : XMap) : whites m ≤ m.length := List.countP_le_length _

theorem whites_reset (m : XMap) : whites (reset_xpoints m) = m.length := by
  have h : whites (reset_xpoints m) = (reset_xpoints m).length := by
    unfold whites
    rw [List.countP_eq_length]
    intro e he
    unfold reset_xpoints at he
    obtain ⟨e', _, rfl⟩ := List.mem_map.mp he
    simp
  rw [h]
  simp [reset_xpoints]

/-- Entering an iteration of the `while` loop: the head of the queue becomes current. -/
theorem BFSInv.start {m0 m : XMap} {frm u : Coord} {q : List Coord} {lev : Coord → Nat}
    (hwf : WFMap m0) (h : BFSInv m0 frm m none (u :: q) lev []) :
    BFSInv m0 frm m (some u) q lev (deref m u).fibres := by
  have hnd := List.nodup_cons.mp h.q_nodup
  have hso := List.pairwise_cons.mp h.sorted
  constructor
  · exact h.sn
  · intro c
    rw [h.gray_iff c]
    simp only [List.mem_cons, Option.some.injEq, reduceCtorEq, or_false]
    constructor
    · rintro (rfl | hc)
      · exact Or.inr rfl
      · exact Or.inl hc
    · rintro (hc | rfl)
      · exact Or.inr hc
      · exact Or.inl rfl
  · exact hnd.2
  · intro u' hu'
    injection hu' with hu'
    subst hu'
    exact hnd.1
  · exact h.frm_nw
  · exact h.frm_pi
  · exact h.frm_rc
  · exact h.frm_lev
  · exact h.tree
  · exact h.white_pi
  · exact h.nw_stored
  · exact hso.2
  · intro c hc c' hc'
    exact h.span c (List.mem_cons_of_mem _ hc) c' (List.mem_cons_of_mem _ hc')
  · intro u' hu' c hc
    injection hu' with hu'
    subst hu'
    exact ⟨hso.1 c hc, h.span u (List.mem_cons_self _ _) c (List.mem_cons_of_mem _ hc)⟩
  · intro b hb
    refine ⟨fun c hc => (h.black_le b hb).1 c (List.mem_cons_of_mem _ hc), ?_⟩
    intro u' hu'
    injection hu' with hu'
    subst hu'
    exact (h.black_le b hb).1 u (List.mem_cons_self _ _)
  · exact h.black_nb
  · intro u' hu' y w hy
    injection hu' with hu'
    subst hu'
    left
    rw [h.sn.fibres u]
    exact (hwf.mem_fibres_iff u y w).mpr hy
  · intro u' hu' y w hy
    injection hu' with hu'
    subst hu'
    rw [h.sn.fibres u] at hy
    exact (hwf.mem_fibres_iff u y w).mp hy

/-- Leaving an iteration of the `while` loop: the current point turns `BLACK`. -/
theorem BFSInv.finish {m0 m : XMap} {frm u : Coord} {q : List Coord} {lev : Coord → Nat}
    (h : BFSInv m0 frm m (some u) q lev []) :
    BFSInv m0 frm (modify (fun xu => { xu with state := State.BLACK }) m u) none q lev [] := by
  have hug : (deref m u).state = State.GRAY := (h.gray_iff u).mpr (Or.inr rfl)
  have hus : stored m u := (h.sn.stored_same u).mpr (h.nw_stored u (by rw [hug]; simp))
  have hdu : deref (modify (fun xu => { xu with state := State.BLACK }) m u) u =
      { deref m u with state := State.BLACK } := deref_modify_same _ m hus
  have hdn : ∀ c, c ≠ u → deref (modify (fun xu => { xu with state := State.BLACK }) m u) c =
      deref m c := fun c hc => deref_modify_ne _ m (Ne.symm hc)
  have hnw : ∀ c, (deref (modify (fun xu => { xu with state := State.BLACK }) m u) c).state ≠
      State.WHITE ↔ (deref m c).state ≠ State.WHITE := by
    intro c
    by_cases hc : c = u
    · subst hc
      rw [hdu, hug]
      simp
    · rw [hdn c hc]
  have hpi : ∀ c, (deref (modify (fun xu => { xu with state := State.BLACK }) m u) c).pi =
      (deref m c).pi := by
    intro c
    by_cases hc : c = u
    · subst hc
      rw [hdu]
    · rw [hdn c hc]
  have hrc : ∀ c, (deref (modify (fun xu => { xu with state := State.BLACK }) m u) c).route_cost =
      (deref m c).route_cost := by
    intro c
    by_cases hc : c = u
    · subst hc
      rw [hdu]
    · rw [hdn c hc]
  constructor
  · exact SameNet.after (SameNet.modify_same m u _ (fun _ => rfl)) h.sn
  · intro c
    simp only [reduceCtorEq, or_false]
    by_cases hc : c = u
    · subst hc
      rw [hdu]
      simp only [reduceCtorEq, false_iff]
      exact h.cur_not_q c rfl
    · rw [hdn c hc, h.gray_iff c]
      simp [Ne.symm hc]
  · exact h.q_nodup
  · intro u' hu'
    exact absurd hu' (by simp)
  · exact (hnw frm).mpr h.frm_nw
  · rw [hpi]
    exact h.frm_pi
  · rw [hrc]
    exact h.frm_rc
  · exact h.frm_lev
  · intro v hv hvf
    obtain ⟨p, w, h1, h2, h3, h4, h5⟩ := h.tree v ((hnw v).mp hv) hvf
    exact ⟨p, w, by rw [hpi]; exact h1, (hnw p).mpr h2, h3, by rw [hrc, hrc]; exact h4, h5⟩
  · intro v hv
    have hvu : v ≠ u := by
      rintro rfl
      rw [hdu] at hv
      exact absurd hv (by simp)
    rw [hdn v hvu] at hv ⊢
    exact h.white_pi v hv
  · intro v hv
    exact h.nw_stored v ((hnw v).mp hv)
  · exact h.sorted
  · intro c hc c' hc'
    have h1 := h.cur_lo u rfl c hc
    have h2 := h.cur_lo u rfl c' hc'
    omega
  · intro u' hu'
    exact absurd hu' (by simp)
  · intro b hb
    refine ⟨?_, fun u' hu' => absurd hu' (by simp)⟩
    intro c hc
    by_cases hbu : b = u
    · subst hbu
      exact (h.cur_lo b rfl c hc).1
    · rw [hdn b hbu] at hb
      exact (h.black_le b hb).1 c hc
  · intro b hb y w hy
    by_cases hbu : b = u
    · subst hbu
      rcases h.cur_nb b rfl y w hy with hmem | hr
      · exact absurd hmem (by simp)
      · exact ⟨(hnw y).mpr hr.1, hr.2⟩
    · rw [hdn b hbu] at hb
      have := h.black_nb b hb y w hy
      exact ⟨(hnw y).mpr this.1, this.2⟩
  · intro u' hu'
    exact absurd hu' (by simp)
  · intro u' hu'
    exact absurd hu' (by simp)

/-- One pass of the `for` loop of `BFS` over a fibre whose far end is `WHITE`. -/
theorem BFSInv.discover {m0 m : XMap} {frm u v : Coord} {w : Cost} {q : List Coord}
    {lev : Coord → Nat} {rest : List (Coord × Cost)} (hwf : WFMap m0)
    (h : BFSInv m0 frm m (some u) q lev ((v, w) :: rest))
    (hw : (deref m v).state = State.WHITE) :
    BFSInv m0 frm
      (modify (fun xv => { xv with state := State.GRAY, pi := some u,
                                   route_cost := addInt (deref m u).route_cost w }) m v)
      (some u) (q ++ [v]) (Function.update lev v (lev u + 1)) rest := by
  have huv : nb m0 u v = some w := h.todo_nb u rfl v w (List.mem_cons_self _ _)
  have hvs0 : stored m0 v := hwf.stored_nb huv
  have hvs : stored m v := (h.sn.stored_same v).mpr hvs0
  have hug : (deref m u).state = State.GRAY := (h.gray_iff u).mpr (Or.inr rfl)
  have hne : u ≠ v := by
    rintro rfl
    rw [hw] at hug
    exact absurd hug (by simp)
  have hkey : ∀ c, (deref m c).state ≠ State.WHITE → c ≠ v := by
    rintro c hc rfl
    exact hc hw
  have hvq : v ∉ q := by
    intro hv
    have := (h.gray_iff v).mpr (Or.inl hv)
    rw [hw] at this
    exact absurd this (by simp)
  generalize hm' : modify (fun xv =>
    { xv with state := State.GRAY, pi := some u, route_cost := addInt (deref m u).route_cost w })
    m v = m'
  have hdv : deref m' v =
      { deref m v with state := State.GRAY, pi := some u,
                       route_cost := addInt (deref m u).route_cost w } := by
    rw [← hm']
    exact deref_modify_same _ m hvs
  have hdn : ∀ c, c ≠ v → deref m' c = deref m c := by
    intro c hc
    rw [← hm']
    exact deref_modify_ne _ m (Ne.symm hc)
  have hlv : Function.update lev v (lev u + 1) v = lev u + 1 := Function.update_same _ _ _
  have hln : ∀ c, c ≠ v → Function.update lev v (lev u + 1) c = lev c :=
    fun c hc => Function.update_noteq hc _ _
  have hnw : ∀ c, (deref m' c).state ≠ State.WHITE ↔ ((deref m c).state ≠ State.WHITE ∨ c = v) := by
    intro c
    by_cases hc : c = v
    · subst hc
      rw [hdv]
      simp
    · rw [hdn c hc]
      simp [hc]
  constructor
  · rw [← hm']
    exact SameNet.after (SameNet.modify_same m v _ (fun _ => rfl)) h.sn
  · intro c
    by_cases hc : c = v
    · subst hc
      rw [hdv]
      simp
    · rw [hdn c hc, h.gray_iff c]
      simp [hc]
  · exact List.Nodup.append h.q_nodup (List.nodup_singleton v)
      (by simpa [List.disjoint_singleton] using hvq)
  · intro u' hu'
    injection hu' with hu'
    subst hu'
    simp only [List.mem_append, List.mem_singleton, not_or]
    exact ⟨h.cur_not_q u rfl, hne⟩
  · exact (hnw frm).mpr (Or.inl h.frm_nw)
  · rw [hdn frm (hkey frm h.frm_nw)]
    exact h.frm_pi
  · rw [hdn frm (hkey frm h.frm_nw)]
    exact h.frm_rc
  · rw [hln frm (hkey frm h.frm_nw)]
    exact h.frm_lev
  · intro x hx hxf
    by_cases hxv : x = v
    · subst hxv
      refine ⟨u, w, ?_, ?_, huv, ?_, ?_⟩
      · rw [hdv]
      · exact (hnw u).mpr (Or.inl (by rw [hug]; simp))
      · rw [hdv, hdn u hne]
      · rw [hlv, hln u hne]
    · have hx' : (deref m x).state ≠ State.WHITE := by
        rcases (hnw x).mp hx with h1 | h1
        · exact h1
        · exact absurd h1 hxv
      obtain ⟨p, w', h1, h2, h3, h4, h5⟩ := h.tree x hx' hxf
      have hpv : p ≠ v := hkey p h2
      refine ⟨p, w', ?_, (hnw p).mpr (Or.inl h2), h3, ?_, ?_⟩
      · rw [hdn x hxv]
        exact h1
      · rw [hdn x hxv, hdn p hpv]
        exact h4
      · rw [hln x hxv, hln p hpv]
        exact h5
  · intro x hx
    have hxv : x ≠ v := by
      rintro rfl
      rw [hdv] at hx
      exact absurd hx (by simp)
    rw [hdn x hxv] at hx ⊢
    exact h.white_pi x hx
  · intro x hx
    rcases (hnw x).mp hx with h1 | h1
    · exact h.nw_stored x h1
    · rw [h1]
      exact hvs0
  · rw [List.pairwise_append]
    refine ⟨?_, List.pairwise_singleton _ _, ?_⟩
    · refine List.Pairwise.imp_of_mem ?_ h.sorted
      intro a b ha hb hab
      have hav : a ≠ v := fun e => hvq (e ▸ ha)
      have hbv : b ≠ v := fun e => hvq (e ▸ hb)
      rw [hln a hav, hln b hbv]
      exact hab
    · intro a ha b hb
      rw [List.mem_singleton] at hb
      subst hb
      have hav : a ≠ b := fun e => hvq (e ▸ ha)
      rw [hln a hav, hlv]
      exact (h.cur_lo u rfl a ha).2
  · intro c hc c' hc'
    rw [List.mem_append, List.mem_singleton] at hc hc'
    rcases hc with hc | rfl <;> rcases hc' with hc' | rfl
    · have hcv : c ≠ v := fun e => hvq (e ▸ hc)
      have hcv' : c' ≠ v := fun e => hvq (e ▸ hc')
      rw [hln c hcv, hln c' hcv']
      exact h.span c hc c' hc'
    · have hcv : c ≠ c' := fun e => hvq (e ▸ hc)
      rw [hln c hcv, hlv]
      have := (h.cur_lo u rfl c hc).1
      omega
    · have hcv' : c' ≠ c := fun e => hvq (e ▸ hc')
      rw [hln c' hcv', hlv]
      have := (h.cur_lo u rfl c' hc').2
      omega
    · omega
  · intro u' hu' c hc
    injection hu' with hu'
    subst hu'
    rw [List.mem_append, List.mem_singleton] at hc
    rw [hln u hne]
    rcases hc with hc | rfl
    · have hcv : c ≠ v := fun e => hvq (e ▸ hc)
      rw [hln c hcv]
      exact h.cur_lo u rfl c hc
    · rw [hlv]
      omega
  · intro b hb
    have hbv : b ≠ v := by
      rintro rfl
      rw [hdv] at hb
      exact absurd hb (by simp)
    rw [hdn b hbv] at hb
    rw [hln b hbv]
    constructor
    · intro c hc
      rw [List.mem_append, List.mem_singleton] at hc
      rcases hc with hc | rfl
      · have hcv : c ≠ v := fun e => hvq (e ▸ hc)
        rw [hln c hcv]
        exact (h.black_le b hb).1 c hc
      · rw [hlv]
        have := (h.black_le b hb).2 u rfl
        omega
    · intro u' hu'
      injection hu' with hu'
      subst hu'
      rw [hln u hne]
      exact (h.black_le b hb).2 u rfl
  · intro b hb y w' hy
    have hbv : b ≠ v := by
      rintro rfl
      rw [hdv] at hb
      exact absurd hb (by simp)
    rw [hdn b hbv] at hb
    have := h.black_nb b hb y w' hy
    have hyv : y ≠ v := hkey y this.1
    rw [hln b hbv, hln y hyv]
    exact ⟨(hnw y).mpr (Or.inl this.1), this.2⟩
  · intro u' hu' y w' hy
    injection hu' with hu'
    subst hu'
    rw [hln u hne]
    rcases h.cur_nb u rfl y w' hy with hmem | hr
    · rcases List.mem_cons.mp hmem with e | hmem
      · injection e with e1 e2
        subst e1
        right
        rw [hlv]
        exact ⟨(hnw y).mpr (Or.inr rfl), le_refl _⟩
      · exact Or.inl hmem
    · right
      have hyv : y ≠ v := hkey y hr.1
      rw [hln y hyv]
      exact ⟨(hnw y).mpr (Or.inl hr.1), hr.2⟩
  · intro u' hu' y w' hy
    exact h.todo_nb u' hu' y w' (List.mem_cons_of_mem _ hy)

/-- One pass of the `for` loop of `BFS` over a fibre whose far end is not `WHITE`. -/
theorem BFSInv.skip {m0 m : XMap} {frm u v : Coord} {w : Cost} {q : List Coord}
    {lev : Coord → Nat} {rest : List (Coord × Cost)}
    (h : BFSInv m0 frm m (some u) q lev ((v, w) :: rest))
    (hw : (deref m v).state ≠ State.WHITE) :
    BFSInv m0 frm m (some u) q lev rest := by
  have hlv : lev v ≤ lev u + 1 := by
    cases hs : (deref m v).state with
    | WHITE => exact absurd hs hw
    | GRAY =>
      rcases (h.gray_iff v).mp hs with hq | hc
      · exact (h.cur_lo u rfl v hq).2
      · injection hc with hc
        subst hc
        omega
    | BLACK =>
      have := (h.black_le v hs).2 u rfl
      omega
  refine { h with cur_nb := ?_, todo_nb := ?_ }
  · intro u' hu' y w' hy
    injection hu' with hu'
    subst hu'
    rcases h.cur_nb u rfl y w' hy with hmem | hr
    · rcases List.mem_cons.mp hmem with e | hmem
      · injection e with e1 e2
        subst e1
        exact Or.inr ⟨hw, hlv⟩
      · exact Or.inl hmem
    · exact Or.inr hr
  · intro u' hu' y w' hy
    exact h.todo_nb u' hu' y w' (List.mem_cons_of_mem _ hy)

/-- The whole `for` loop of `BFS` keeps the invariant and the termination measure. -/
theorem BFS_for_inv {m0 : XMap} {frm u : Coord} (hwf : WFMap m0) :
    ∀ (todo : List (Coord × Cost)) (m : XMap) (q : List Coord) (lev : Coord → Nat),
      BFSInv m0 frm m (some u) q lev todo →
      ∃ lev', BFSInv m0 frm (BFS_for u todo m q).1 (some u) (BFS_for u todo m q).2 lev' [] ∧
        whites (BFS_for u todo m q).1 + (BFS_for u todo m q).2.length =
          whites m + q.length := by
  intro todo
  induction todo with
  | nil =>
    intro m q lev h
    exact ⟨lev, h, rfl⟩
  | cons e rest ih =>
    obtain ⟨v, w⟩ := e
    intro m q lev h
    by_cases hw : (deref m v).state = State.WHITE
    · have hstep := h.discover hwf hw
      have huv : nb m0 u v = some w := h.todo_nb u rfl v w (List.mem_cons_self _ _)
      have hvs : stored m v := (h.sn.stored_same v).mpr (hwf.stored_nb huv)
      obtain ⟨lev', h1, h2⟩ := ih _ _ _ hstep
      refine ⟨lev', ?_, ?_⟩
      · simp only [BFS_for, hw, if_true]
        exact h1
      · simp only [BFS_for, hw, if_true]
        rw [h2]
        have := whites_modify m v (fun xv =>
          { xv with state := State.GRAY, pi := some u, route_cost := addInt (deref m u).route_cost w })
          hvs hw (fun _ => by simp)
        simp only [List.length_append, List.length_singleton]
        omega
    · obtain ⟨lev', h1, h2⟩ := ih _ _ _ (h.skip hw)
      refine ⟨lev', ?_, ?_⟩
      · simp only [BFS_for, hw, if_false]
        exact h1
      · simp only [BFS_for, hw, if_false]
        exact h2

/-- The `while` loop of `BFS` terminates within its fuel and establishes the invariant with an
empty queue. -/
theorem BFS_while_inv {m0 : XMap} {frm : Coord} (hwf : WFMap m0) :
    ∀ (fuel : Nat) (m : XMap) (q : List Coord) (lev : Coord → Nat),
      BFSInv m0 frm m none q lev [] → whites m + q.length < fuel →
      ∃ m' lev', BFS_while fuel m q = some m' ∧ BFSInv m0 frm m' none [] lev' [] := by
  intro fuel
  induction fuel with
  | zero =>
    intro m q lev _ hf
    exact absurd hf (by omega)
  | succ n ih =>
    intro m q lev h hf
    cases q with
    | nil => exact ⟨m, lev, rfl, h⟩
    | cons u q =>
      obtain ⟨lev', h1, h2⟩ := BFS_for_inv hwf _ _ _ _ (h.start hwf)
      have h3 := h1.finish
      have hle := whites_modify_le (BFS_for u (deref m u).fibres m q).1 u
        (fun xu => { xu with state := State.BLACK }) (fun _ => Or.inr (by simp))
      obtain ⟨m', lev'', h4, h5⟩ := ih _ _ lev' h3 (by
        simp only [List.length_cons] at hf
        omega)
      exact ⟨m', lev'', by simp only [BFS_while]; exact h4, h5⟩

/-- The invariant holds when `BFS` enters its `while` loop. -/
theorem BFSInv.init {m0 : XMap} {frm : Coord} (hs : stored m0 frm) :
    BFSInv m0 frm
      (modify (fun xf => { xf with state := State.GRAY, d := 0 }) (reset_xpoints m0) frm)
      none [frm] (fun _ => 0) [] := by
  have hsr : stored (reset_xpoints m0) frm := ((SameNet.reset_same m0).stored_same frm).mpr hs
  generalize hm' : modify (fun xf => { xf with state := State.GRAY, d := 0 })
    (reset_xpoints m0) frm = m'
  have hdf : deref m' frm = { deref (reset_xpoints m0) frm with state := State.GRAY, d := 0 } := by
    rw [← hm']
    exact deref_modify_same _ _ hsr
  have hdn : ∀ c, c ≠ frm → deref m' c = deref (reset_xpoints m0) c := by
    intro c hc
    rw [← hm']
    exact deref_modify_ne _ _ (Ne.symm hc)
  have hst : ∀ c, c ≠ frm → (deref m' c).state = State.WHITE := by
    intro c hc
    rw [hdn c hc, deref_reset]
  have hpi : ∀ c, (deref m' c).pi = none := by
    intro c
    by_cases hc : c = frm
    · subst hc
      rw [hdf, deref_reset]
    · rw [hdn c hc, deref_reset]
  have hnw : ∀ c, (deref m' c).state ≠ State.WHITE → c = frm := by
    intro c hc
    by_contra hne
    exact hc (hst c hne)
  constructor
  · rw [← hm']
    exact SameNet.after (SameNet.modify_same _ frm _ (fun _ => rfl)) (SameNet.reset_same m0)
  · intro c
    by_cases hc : c = frm
    · subst hc
      rw [hdf]
      simp
    · rw [hst c hc]
      simp [hc]
  · exact List.nodup_singleton frm
  · intro u hu
    exact absurd hu (by simp)
  · rw [hdf]
    simp
  · exact hpi frm
  · rw [hdf, deref_reset]
  · rfl
  · intro v hv hvf
    exact absurd (hnw v hv) hvf
  · intro v _
    exact hpi v
  · intro v hv
    rw [hnw v hv]
    exact hs
  · exact List.pairwise_singleton _ _
  · intro c _ c' _
    omega
  · intro u hu
    exact absurd hu (by simp)
  · intro b hb
    exfalso
    by_cases hc : b = frm
    · subst hc
      rw [hdf] at hb
      exact absurd hb (by simp)
    · rw [hst b hc] at hb
      exact absurd hb (by simp)
  · intro b hb
    exfalso
    by_cases hc : b = frm
    · subst hc
      rw [hdf] at hb
      exact absurd hb (by simp)
    · rw [hst b hc] at hb
      exact absurd hb (by simp)
  · intro u hu
    exact absurd hu (by simp)
  · intro u hu
    exact absurd hu (by simp)

/-- `BFS` returns, and the invariant holds for the returned cross-points with an empty queue. -/
theorem BFS_spec {m0 : XMap} {frm : Coord} (hwf : WFMap m0) (hs : stored m0 frm) :
    ∃ m' lev, BFS m0 frm = some m' ∧ BFSInv m0 frm m' none [] lev [] := by
  unfold BFS
  have hsr : stored (reset_xpoints m0) frm := ((SameNet.reset_same m0).stored_same frm).mpr hs
  have hwhite : (deref (reset_xpoints m0) frm).state = State.WHITE := by rw [deref_reset]
  have hm := whites_modify (reset_xpoints m0) frm
    (fun xf => { xf with state := State.GRAY, d := 0 }) hsr hwhite (fun _ => by simp)
  rw [whites_reset] at hm
  exact BFS_while_inv hwf _ _ _ _ (BFSInv.init hs) (by
    simp only [List.length_singleton]
    omega)

/-- After `BFS`, every point at the end of a walk from the start is `BLACK`, and its level is at
most the number of fibres of the walk. -/
theorem BFSInv.walk_le {m0 m : XMap} {frm : Coord} {lev : Coord → Nat}
    (h : BFSInv m0 frm m none [] lev []) :
    ∀ (l : List Coord) (a b : Coord),
      List.Chain' (fun x y => ∃ w, nb m0 x y = some w) (a :: l) →
      (deref m a).state = State.BLACK → (a :: l).getLast? = some b →
      (deref m b).state = State.BLACK ∧ lev b ≤ lev a + l.length := by
  intro l
  induction l with
  | nil =>
    intro a b _ ha hb
    simp only [List.getLast?_singleton, Option.some.injEq] at hb
    subst hb
    exact ⟨ha, by simp⟩
  | cons c l ih =>
    intro a b hch ha hb
    rw [List.chain'_cons] at hch
    obtain ⟨w, hw⟩ := hch.1
    have hc := h.black_nb a ha c w hw
    have hcb : (deref m c).state = State.BLACK := by
      cases hs : (deref m c).state with
      | WHITE => exact absurd hs hc.1
      | GRAY =>
        have := (h.gray_iff c).mp hs
        simp at this
      | BLACK => rfl
    rw [List.getLast?_cons_cons] at hb
    have := ih c b hch.2 hcb hb
    refine ⟨this.1, ?_⟩
    simp only [List.length_cons]
    omega

/-- After `BFS`, every discovered point heads a duplicate-free predecessor chain down to the
start, with as many fibres as its level. -/
theorem BFSInv.treePath {m0 m : XMap} {frm : Coord} {lev : Coord → Nat}
    (h : BFSInv m0 frm m none [] lev []) :
    ∀ (n : Nat) (v : Coord), lev v = n → (deref m v).state ≠ State.WHITE →
      ∃ l, TreePath m0 m frm (v :: l) ∧ l.length = n ∧ (∀ c ∈ l, lev c < n) ∧
        (v :: l).Nodup ∧ ∀ c ∈ v :: l, stored m c := by
  intro n
  induction n with
  | zero =>
    intro v hv hnw
    have hvf : v = frm := by
      by_contra hne
      obtain ⟨u, w, _, _, _, _, h5⟩ := h.tree v hnw hne
      omega
    subst hvf
    refine ⟨[], TreePath.root h.frm_pi h.frm_rc, rfl, by simp, List.nodup_singleton _, ?_⟩
    intro c hc
    rw [List.mem_singleton] at hc
    subst hc
    exact (h.sn.stored_same c).mpr (h.nw_stored c hnw)
  | succ n ih =>
    intro v hv hnw
    have hvf : v ≠ frm := by
      rintro rfl
      rw [h.frm_lev] at hv
      omega
    obtain ⟨u, w, h1, h2, h3, h4, h5⟩ := h.tree v hnw hvf
    obtain ⟨l, hl1, hl2, hl3, hl4, hl5⟩ := ih u (by omega) h2
    refine ⟨u :: l, TreePath.step v u l w h1 h3 h4 hl1, by simp [hl2], ?_, ?_, ?_⟩
    · intro c hc
      rcases List.mem_cons.mp hc with rfl | hc
      · omega
      · have := hl3 c hc
        omega
    · rw [List.nodup_cons]
      refine ⟨?_, hl4⟩
      intro hc
      rcases List.mem_cons.mp hc with rfl | hc
      · omega
      · have := hl3 v hc
        omega
    · intro c hc
      rcases List.mem_cons.mp hc with rfl | hc
      · exact (h.sn.stored_same c).mpr (h.nw_stored c hnw)
      · exact hl5 c hc

/-- A well-formed route is in particular a walk. -/
theorem RouteOK.isWalk {g : Network} {frm to_ : Coord} {r : List (Coord × Cost)}
    (h : RouteOK g frm to_ r) : IsWalk g frm to_ (r.map Prod.fst) := by
  obtain ⟨h1, h2, h3, _⟩ := h
  refine ⟨?_, ?_, ?_⟩
  · rw [List.head?_map, h1]
    rfl
  · rw [List.getLast?_map]
    exact h2
  · rw [List.chain'_map]
    refine List.Chain'.imp ?_ h3
    rintro a b ⟨w, hw, _⟩
    exact ⟨w, hw⟩

theorem mem_all_xpoints_iff (g : Network) (c : Coord) :
    c ∈ all_xpoints g ↔ (find g.xpoints_ c).isNone = false := by
  rw [mem_all_xpoints]
  unfold stored
  cases find g.xpoints_ c <;> simp

/-- What `route_least_xpoints` returns in a well-formed state, for stored end points: it
returns; the route is empty or a well-formed path; and when a walk joins two distinct end
points the route is not empty and has at most as many points as the walk. -/
theorem route_least_xpoints_spec (g : Network) (hwf : WF g) (frm to_ : Coord)
    (hf : stored g.xpoints_ frm) (ht : stored g.xpoints_ to_) :
    ∃ r g', route_least_xpoints g frm to_ = some (r, g') ∧
      (r = [] ∨ RouteOK g frm to_ r) ∧
      (∀ p, IsWalk g frm to_ p → frm ≠ to_ → r ≠ [] ∧ r.length ≤ p.length) := by
  obtain ⟨m', lev, hB, hinv⟩ := BFS_spec hwf.map hf
  have hfb : (deref m' frm).state = State.BLACK := by
    cases hs : (deref m' frm).state with
    | WHITE => exact absurd hs hinv.frm_nw
    | GRAY =>
      have := (hinv.gray_iff frm).mp hs
      simp at this
    | BLACK => rfl
  have hwalk : ∀ p, IsWalk g frm to_ p →
      (deref m' to_).state = State.BLACK ∧ lev to_ + 1 ≤ p.length := by
    rintro p ⟨hp1, hp2, hp3⟩
    cases p with
    | nil => simp at hp1
    | cons a l =>
      simp only [List.head?_cons, Option.some.injEq] at hp1
      subst hp1
      have hch : List.Chain' (fun x y => ∃ w, nb g.xpoints_ x y = some w) (a :: l) := by
        refine List.Chain'.imp ?_ hp3
        rintro x y ⟨w, hw⟩
        exact ⟨w, (fibre_iff g hwf.map x y w).mp hw⟩
      have := hinv.walk_le l a to_ hch hfb hp2
      rw [hinv.frm_lev] at this
      simp only [List.length_cons]
      exact ⟨this.1, by omega⟩
  have hcond : ¬ ((find g.xpoints_ frm).isNone = true ∨ (find g.xpoints_ to_).isNone = true) := by
    unfold stored at hf ht
    cases h1 : find g.xpoints_ frm <;> cases h2 : find g.xpoints_ to_ <;> simp [h1, h2] at hf ht ⊢
  unfold route_least_xpoints
  rw [if_neg hcond, hB]
  by_cases hpi : (deref m' to_).pi = none
  · refine ⟨[], { g with xpoints_ := m' }, by simp only [hpi, if_true], Or.inl rfl, ?_⟩
    intro p hp hne
    exfalso
    have hb := (hwalk p hp).1
    obtain ⟨u, w, h1, _⟩ := hinv.tree to_ (by rw [hb]; simp) (Ne.symm hne)
    rw [hpi] at h1
    exact absurd h1 (by simp)
  · have hnw : (deref m' to_).state ≠ State.WHITE := fun hw => hpi (hinv.white_pi to_ hw)
    obtain ⟨l, hl1, hl2, _, hl4, hl5⟩ := hinv.treePath (lev to_) to_ rfl hnw
    have hcr := collect_route_treePath hl1 hl4 hl5 to_ rfl
    have hok := routeOK_of_treePath g hwf.map hinv.sn hl1 hl4 (v := to_) rfl
    refine ⟨_, { g with xpoints_ := m' },
      by simp only [hpi, if_false, hcr, Option.map_some'], Or.inr hok, ?_⟩
    intro p hp _
    constructor
    · simp
    · have := (hwalk p hp).2
      simp only [List.length_reverse, List.length_map, List.length_cons]
      omega

/-- **C2.** In every reachable state, for distinct stored points `frm` and `to_`,
`route_least_xpoints(frm, to_)` returns; when the points are connected the route is a
well-formed path from `frm` to `to_` that has no more points (hence no more fibres) than any
walk from `frm` to `to_`; when they are not connected the route is empty. -/
theorem C2_route_least_xpoints_fewest_fibres (g : Network) (hr : Reachable g) (frm to_ : Coord)
    (hf : frm ∈ all_xpoints g) (ht : to_ ∈ all_xpoints g) (hne : frm ≠ to_) :
    ∃ r g', route_least_xpoints g frm to_ = some (r, g') ∧
      (Connected g frm to_ →
        RouteOK g frm to_ r ∧ ∀ p, IsWalk g frm to_ p → r.length ≤ p.length) ∧
      (¬ Connected g frm to_ → r = []) := by
  obtain ⟨r, g', h1, h2, h3⟩ := route_least_xpoints_spec g hr.wf frm to_
    ((mem_all_xpoints g frm).mp hf) ((mem_all_xpoints g to_).mp ht)
  refine ⟨r, g', h1, ?_, ?_⟩
  · rintro ⟨p, hp⟩
    have hr' := (h3 p hp hne).1
    rcases h2 with h2 | h2
    · exact absurd h2 hr'
    · exact ⟨h2, fun p' hp' => (h3 p' hp' hne).2⟩
  · intro hnc
    rcases h2 with h2 | h2
    · exact h2
    · exact absurd ⟨_, h2.isWalk⟩ hnc

/-- Instance of C2 on the scenario network: the route from `(0,0)` to `(2,2)` with the fewest
fibres is the direct fibre of cost 10. -/
theorem C2_route_least_xpoints_fewest_fibres_witness :
    (route_least_xpoints scenario ⟨0, 0⟩ ⟨2, 2⟩).map Prod.fst =
        some [(⟨0, 0⟩, 0), (⟨2, 2⟩, 10)] ∧
      ∃ r g', route_least_xpoints scenario ⟨0, 0⟩ ⟨2, 2⟩ = some (r, g') ∧
        (Connected scenario ⟨0, 0⟩ ⟨2, 2⟩ →
          RouteOK scenario ⟨0, 0⟩ ⟨2, 2⟩ r ∧
            ∀ p, IsWalk scenario ⟨0, 0⟩ ⟨2, 2⟩ p → r.length ≤ p.length) ∧
        (¬ Connected scenario ⟨0, 0⟩ ⟨2, 2⟩ → r = []) :=
  ⟨by decide, C2_route_least_xpoints_fewest_fibres scenario scenario_reachable ⟨0, 0⟩ ⟨2, 2⟩
    (by decide) (by decide) (by decide)⟩

/-! ## Depth-first search -/

theorem dsum_modify_le (m : XMap) (c : Coord) (f : Xpoint → Xpoint)
    (hf : ∀ xp, (f xp).fibres = xp.fibres ∧
      ((f xp).state = xp.state ∨ (f xp).state ≠ State.WHITE)) :
    dsum (modify f m c) ≤ dsum m := by
  induction m with
  | nil => simp [dsum, modify]
  | cons e t ih =>
    obtain ⟨k, xp⟩ := e
    by_cases hk : k = c
    · subst hk
      simp only [dsum, modify, if_true, List.map_cons, List.sum_cons]
      rcases (hf xp).2 with h | h
      · rw [h, (hf xp).1]
      · simp only [h, if_false]
        omega
    · simp only [dsum, modify, hk, if_false, List.map_cons, List.sum_cons] at ih ⊢
      omega

theorem dsum_modify_same (m : XMap) (c : Coord) (f : Xpoint → Xpoint)
    (hf : ∀ xp, (f xp).fibres = xp.fibres ∧ (f xp).state = xp.state) :
    dsum (modify f m c) = dsum m := by
  induction m with
  | nil => simp [dsum, modify]
  | cons e t ih =>
    obtain ⟨k, xp⟩ := e
    by_cases hk : k = c
    · subst hk
      simp only [dsum, modify, if_true, List.map_cons, List.sum_cons]
      rw [(hf xp).1, (hf xp).2]
    · simp only [dsum, modify, hk, if_false, List.map_cons, List.sum_cons] at ih ⊢
      omega

theorem dsum_modify_gray (m : XMap) (x : Coord) (f : Xpoint → Xpoint) (hs : stored m x)
    (hw : (deref m x).state = State.WHITE) (hf : ∀ xp, (f xp).state ≠ State.WHITE) :
    dsum (modify f m x) + (deref m x).fibres.length + 1 = dsum m := by
  induction m with
  | nil => simp [stored, find] at hs
  | cons e t ih =>
    obtain ⟨k, xp⟩ := e
    by_cases hk : k = x
    · subst hk
      have hx : xp.state = State.WHITE := by simpa [deref, find] using hw
      have hd : deref ((k, xp) :: t) k = xp := by simp [deref, find]
      simp only [dsum, modify, if_true, List.map_cons, List.sum_cons, hx, hf xp, if_false, hd]
      omega
    · have hs' : stored t x := by simpa [stored, find, hk] using hs
      have hd : deref ((k, xp) :: t) x = deref t x := by simp [deref, find, hk]
      rw [hd] at hw ⊢
      have := ih hs' hw
      simp only [dsum, modify, hk, if_false, List.map_cons, List.sum_cons] at this ⊢
      omega

theorem dsum_reset (m : XMap) : dsum (reset_xpoints m) + 2 = dfsFuel m := by
  unfold dsum dfsFuel reset_xpoints
  simp [List.map_map, Function.comp_def]

theorem TreePath.congr {m0 m m' : XMap} {frm : Coord} {l : List Coord}
    (h : TreePath m0 m frm l)
    (he : ∀ c ∈ l, (deref m' c).pi = (deref m c).pi ∧
      (deref m' c).route_cost = (deref m c).route_cost) : TreePath m0 m' frm l := by
  induction h with
  | root h1 h2 =>
    have := he frm (List.mem_singleton_self _)
    exact TreePath.root (by rw [this.1]; exact h1) (by rw [this.2]; exact h2)
  | step v u rest w h1 h2 h3 _ ih =>
    have hv := he v (List.mem_cons_self _ _)
    have hu := he u (List.mem_cons_of_mem _ (List.mem_cons_self _ _))
    exact TreePath.step v u rest w (by rw [hv.1]; exact h1) h2 (by rw [hv.2, hu.2]; exact h3)
      (ih (fun c hc => he c (List.mem_cons_of_mem _ hc)))

theorem TreePath.tail {m0 m : XMap} {frm : Coord} {v : Coord} {l : List Coord}
    (h : TreePath m0 m frm (v :: l)) (hl : l ≠ []) : TreePath m0 m frm l := by
  cases h with
  | root _ _ => exact absurd rfl hl
  | step _ _ _ _ _ _ _ h4 => exact h4

/-- `FramesOK` survives a change of the cross-points that keeps every point outside the new
`above` as it was, when the `WHITE` points outside the new `above` were outside the old one. -/
theorem FramesOK.mono {m0 m m' : XMap} :
    ∀ (fr : List Frame) (above above' : List Coord),
      FramesOK m0 m above fr →
      (∀ x, (deref m' x).state = State.WHITE → x ∉ above' →
        x ∉ above ∧ deref m' x = deref m x) →
      (∀ f ∈ fr, (deref m' f.2).route_cost = (deref m f.2).route_cost) →
      FramesOK m0 m' above' fr := by
  intro fr
  induction fr with
  | nil =>
    intro _ _ _ _ _
    exact True.intro
  | cons f fr ih =>
    intro above above' h hx hg
    obtain ⟨h1, h2⟩ := h
    refine ⟨?_, ?_⟩
    · intro x hxP
      obtain ⟨a1, w, a2, a3⟩ := h1 x hxP
      refine ⟨a1, w, a2, ?_⟩
      intro hw hna
      obtain ⟨b1, b2⟩ := hx x hw hna
      rw [b2] at hw ⊢
      rw [hg f (List.mem_cons_self _ _)]
      exact a3 hw b1
    · apply ih (above ++ f.1) (above' ++ f.1) h2
      · intro x hw hna
        rw [List.mem_append, not_or] at hna
        obtain ⟨b1, b2⟩ := hx x hw hna.1
        refine ⟨?_, b2⟩
        rw [List.mem_append, not_or]
        exact ⟨b1, hna.2⟩
      · intro f' hf'
        exact hg f' (List.mem_cons_of_mem _ hf')

theorem nb_unique {m0 : XMap} {a b : Coord} {w w' : Cost} (h : nb m0 a b = some w)
    (h' : nb m0 a b = some w') : w' = w := by
  rw [h] at h'
  injection h' with h'
  exact h'.symm

/-- The `for` loop of `DFS` meets a `WHITE` point that is not the target: it records the
predecessor and the cost, and pushes the point. -/
theorem DInv.push {m0 m : XMap} {frm u v : Coord} {to_ : Option Coord} {fc : Bool} {w : Cost}
    {P : List Coord} {fr : List Frame} {rest : List (Coord × Cost)} {rk : Coord → Nat}
    (hwf : WFMap m0) (h : DInv m0 frm to_ fc m ((P, u) :: fr) ((v, w) :: rest) rk)
    (hw : (deref m v).state = State.WHITE) (ht : some v ≠ to_) :
    DInv m0 frm to_ fc
      (modify (fun xv => { xv with pi := some u, route_cost := addInt (deref m u).route_cost w }) m v)
      ((v :: P, u) :: fr) rest rk := by
  have huv : nb m0 u v = some w := h.todo_nb P u fr rfl v w (List.mem_cons_self _ _)
  have hvs : stored m v := (h.sn.stored_same v).mpr (hwf.stored_nb huv)
  have hug : (deref m u).state = State.GRAY := (h.gray_iff u).mpr (by simp)
  have hne : u ≠ v := by
    rintro rfl
    rw [hw] at hug
    exact absurd hug (by simp)
  have hkey : ∀ c, (deref m c).state ≠ State.WHITE → c ≠ v := by
    rintro c hc rfl
    exact hc hw
  generalize hm' : modify
    (fun xv => { xv with pi := some u, route_cost := addInt (deref m u).route_cost w }) m v = m'
  have hdv : deref m' v =
      { deref m v with pi := some u, route_cost := addInt (deref m u).route_cost w } := by
    rw [← hm']
    exact deref_modify_same _ m hvs
  have hdn : ∀ c, c ≠ v → deref m' c = deref m c := by
    intro c hc
    rw [← hm']
    exact deref_modify_ne _ m (Ne.symm hc)
  have hst : ∀ c, (deref m' c).state = (deref m c).state := by
    intro c
    by_cases hc : c = v
    · subst hc
      rw [hdv]
    · rw [hdn c hc]
  have hgam : ∀ c ∈ (((P, u) :: fr).map Prod.snd : List Coord), c ≠ v := by
    intro c hc
    apply hkey
    rw [(h.gray_iff c).mpr hc]
    simp
  constructor
  · rw [← hm']
    exact SameNet.after (SameNet.modify_same m v _ (fun _ => rfl)) h.sn
  · intro c
    rw [hst c]
    exact h.gray_iff c
  · exact h.gamma_nodup
  · intro _
    refine (h.gamma_path (by simp)).congr ?_
    intro c hc
    rw [hdn c (hgam c hc)]
    exact ⟨rfl, rfl⟩
  · rw [hst]
    exact h.frm_nw
  · rw [hdn frm (hkey frm h.frm_nw)]
    exact h.frm_pi
  · intro x hx
    rw [hst] at hx
    exact h.nw_stored x hx
  · obtain ⟨h1, h2⟩ := h.frames_ok
    refine ⟨?_, ?_⟩
    · intro x hx
      have hnew : (deref m' v).pi = some u ∧
          (deref m' v).route_cost = addInt (deref m' u).route_cost w := by
        rw [hdv, hdn u hne]
        exact ⟨rfl, rfl⟩
      by_cases hxv : x = v
      · subst hxv
        refine ⟨?_, w, huv, fun _ _ => hnew⟩
        intro hmem
        exact hgam x hmem rfl
      · have hxP : x ∈ P := by
          rcases List.mem_cons.mp hx with e | e
          · exact absurd e hxv
          · exact e
        obtain ⟨a1, w', a2, a3⟩ := h1 x hxP
        refine ⟨a1, w', a2, ?_⟩
        intro hwx hna
        rw [hst] at hwx
        rw [hdn x hxv, hdn u hne]
        exact a3 hwx hna
    · refine FramesOK.mono fr _ _ h2 ?_ ?_
      · intro x _ hna
        simp only [List.nil_append, List.mem_cons, not_or] at hna ⊢
        exact ⟨hna.2, hdn x hna.1⟩
      · intro f hf
        have : f.2 ≠ v := hgam f.2 (List.mem_cons_of_mem _ (List.mem_map_of_mem _ hf))
        rw [hdn f.2 this]
  · intro b hb y w' hy
    rw [hst] at hb ⊢
    exact h.black_nb b hb y w' hy
  · intro f hf y w' hy hyw
    rw [hst] at hyw
    exact h.gray_nb_tail f hf y w' hy hyw
  · intro P' u' fr' he y w' hy hyw
    injection he with he1 he2
    injection he1 with he3 he4
    subst he3 he4 he2
    rw [hst] at hyw
    rcases h.gray_nb_top P u fr rfl y w' hy hyw with hm | hm
    · exact Or.inl (List.mem_cons_of_mem _ hm)
    · rcases List.mem_cons.mp hm with e | e
      · injection e with e1 e2
        subst e1
        exact Or.inl (List.mem_cons_self _ _)
      · exact Or.inr e
  · intro P' u' fr' he y w' hy
    injection he with he1 he2
    injection he1 with he3 he4
    subst he3 he4 he2
    exact h.todo_nb P u fr rfl y w' (List.mem_cons_of_mem _ hy)
  · intro y w' hy
    rw [hst]
    exact h.todo_nonblack y w' (List.mem_cons_of_mem _ hy)
  · intro x hx hxf
    rw [hst] at hx
    obtain ⟨p, w', a1, a2, a3, a4, a5⟩ := h.tree x hx hxf
    have hxv := hkey x hx
    have hpv := hkey p a2
    refine ⟨p, w', ?_, ?_, a3, ?_, a5⟩
    · rw [hdn x hxv]
      exact a1
    · rw [hst]
      exact a2
    · rw [hdn x hxv, hdn p hpv]
      exact a4
  · intro hfc a b w' ha hb hab
    rw [hst] at ha hb
    have hav := hkey a ha
    have hbv := hkey b hb
    rw [hdn a hav, hdn b hbv]
    rcases h.edges hfc a b w' ha hb hab with e | e | ⟨P', fr', e1, e2⟩ | ⟨P', fr', e1, e2⟩
    · exact Or.inl e
    · exact Or.inr (Or.inl e)
    · injection e1 with e3 e4
      injection e3 with e5 e6
      subst e5 e6 e4
      rcases List.mem_cons.mp e2 with e | e
      · injection e with e7 e8
        exact absurd e7 hbv
      · exact Or.inr (Or.inr (Or.inl ⟨_, _, rfl, e⟩))
    · injection e1 with e3 e4
      injection e3 with e5 e6
      subst e5 e6 e4
      rcases List.mem_cons.mp e2 with e | e
      · injection e with e7 e8
        exact absurd e7 hav
      · exact Or.inr (Or.inr (Or.inr ⟨_, _, rfl, e⟩))
  · intro t htt
    obtain ⟨a1, a2⟩ := h.target t htt
    refine ⟨?_, ?_⟩
    · intro f hf
      rcases List.mem_cons.mp hf with e | e
      · subst e
        simp only [List.mem_cons, not_or]
        refine ⟨?_, a1 (P, u) (List.mem_cons_self _ _)⟩
        rintro rfl
        exact ht htt.symm
      · exact a1 f (List.mem_cons_of_mem _ e)
    · intro htf
      rw [hst]
      exact a2 htf

/-- The `for` loop of `DFS` discovers the target. -/
theorem DInv.found_target {m0 m : XMap} {frm u v : Coord} {to_ : Option Coord} {fc : Bool}
    {w : Cost} {P : List Coord} {fr : List Frame} {rest : List (Coord × Cost)} {rk : Coord → Nat}
    (hwf : WFMap m0) (h : DInv m0 frm to_ fc m ((P, u) :: fr) ((v, w) :: rest) rk)
    (hw : (deref m v).state = State.WHITE) (ht : some v = to_) :
    FoundPost m0 frm to_ fc
      (modify (fun xv => { xv with pi := some u, route_cost := addInt (deref m u).route_cost w }) m v)
      none := by
  have huv : nb m0 u v = some w := h.todo_nb P u fr rfl v w (List.mem_cons_self _ _)
  have hvs : stored m v := (h.sn.stored_same v).mpr (hwf.stored_nb huv)
  have hug : (deref m u).state = State.GRAY := (h.gray_iff u).mpr (by simp)
  have hne : u ≠ v := by
    rintro rfl
    rw [hw] at hug
    exact absurd hug (by simp)
  have hkey : ∀ c, (deref m c).state ≠ State.WHITE → c ≠ v := by
    rintro c hc rfl
    exact hc hw
  generalize hm' : modify
    (fun xv => { xv with pi := some u, route_cost := addInt (deref m u).route_cost w }) m v = m'
  have hdv : deref m' v =
      { deref m v with pi := some u, route_cost := addInt (deref m u).route_cost w } := by
    rw [← hm']
    exact deref_modify_same _ m hvs
  have hdn : ∀ c, c ≠ v → deref m' c = deref m c := by
    intro c hc
    rw [← hm']
    exact deref_modify_ne _ m (Ne.symm hc)
  have hgam : ∀ c ∈ (((P, u) :: fr).map Prod.snd : List Coord), c ≠ v := by
    intro c hc
    apply hkey
    rw [(h.gray_iff c).mpr hc]
    simp
  have hsn : SameNet m0 m' := by
    rw [← hm']
    exact SameNet.after (SameNet.modify_same m v _ (fun _ => rfl)) h.sn
  have hpath : TreePath m0 m' frm (u :: fr.map Prod.snd) := by
    refine (h.gamma_path (by simp)).congr ?_
    intro c hc
    rw [hdn c (hgam c hc)]
    exact ⟨rfl, rfl⟩
  refine ⟨hsn, v, u :: fr.map Prod.snd, ht.symm, ?_, ?_, ?_, ?_⟩
  · refine TreePath.step v u _ w ?_ huv ?_ hpath
    · rw [hdv]
    · rw [hdv, hdn u hne]
  · rw [List.nodup_cons]
    exact ⟨fun hmem => hgam v hmem rfl, h.gamma_nodup⟩
  · intro c hc
    rcases List.mem_cons.mp hc with e | e
    · rw [e]
      exact (hsn.stored_same v).mpr (hwf.stored_nb huv)
    · apply (hsn.stored_same c).mpr
      apply h.nw_stored
      rw [(h.gray_iff c).mpr e]
      simp
  · exact (hkey frm h.frm_nw).symm

/-- The `for` loop of `DFS`, in cycle mode, meets a `GRAY` point other than the predecessor. -/
theorem DInv.found_cycle {m0 m : XMap} {frm u v : Coord} {to_ : Option Coord} {fc : Bool}
    {w : Cost} {P : List Coord} {fr : List Frame} {rest : List (Coord × Cost)} {rk : Coord → Nat}
    (hwf : WFMap m0) (h : DInv m0 frm to_ fc m ((P, u) :: fr) ((v, w) :: rest) rk)
    (hg : (deref m v).state = State.GRAY) (hc : fc = true ∧ some v ≠ (deref m u).pi) :
    FoundPost m0 frm to_ fc m (some (u, v)) := by
  have huv : nb m0 u v = some w := h.todo_nb P u fr rfl v w (List.mem_cons_self _ _)
  have hne : u ≠ v := hwf.ne_of_nb huv
  refine ⟨h.sn, hc.1, fr.map Prod.snd, w, h.gamma_path (by simp), h.gamma_nodup, ?_, ?_, ?_, huv⟩
  · intro c hcm
    apply (h.sn.stored_same c).mpr
    apply h.nw_stored
    rw [(h.gray_iff c).mpr hcm]
    simp
  · have := (h.gray_iff v).mp hg
    rcases List.mem_cons.mp this with e | e
    · exact absurd e.symm hne
    · exact e
  · intro e
    exact hc.2 e.symm

/-- The `for` loop of `DFS` passes over a `GRAY` point without reporting a cycle. -/
theorem DInv.skip_gray {m0 m : XMap} {frm u v : Coord} {to_ : Option Coord} {fc : Bool}
    {w : Cost} {P : List Coord} {fr : List Frame} {rest : List (Coord × Cost)} {rk : Coord → Nat}
    (h : DInv m0 frm to_ fc m ((P, u) :: fr) ((v, w) :: rest) rk)
    (hg : (deref m v).state = State.GRAY) (hc : ¬ (fc = true ∧ some v ≠ (deref m u).pi)) :
    DInv m0 frm to_ fc m ((P, u) :: fr) rest rk := by
  refine { h with gray_nb_top := ?_, todo_nb := ?_, todo_nonblack := ?_, edges := ?_ }
  · intro P' u' fr' he y w' hy hyw
    rcases h.gray_nb_top P' u' fr' he y w' hy hyw with hm | hm
    · exact Or.inl hm
    · rcases List.mem_cons.mp hm with e | e
      · injection e with e1 e2
        subst e1
        rw [hg] at hyw
        exact absurd hyw (by simp)
      · exact Or.inr e
  · intro P' u' fr' he y w' hy
    exact h.todo_nb P' u' fr' he y w' (List.mem_cons_of_mem _ hy)
  · intro y w' hy
    exact h.todo_nonblack y w' (List.mem_cons_of_mem _ hy)
  · intro hfc a b w' ha hb hab
    have hpi : (deref m u).pi = some v := by
      by_contra hne
      exact hc ⟨hfc, fun e => hne e.symm⟩
    rcases h.edges hfc a b w' ha hb hab with e | e | ⟨P', fr', e1, e2⟩ | ⟨P', fr', e1, e2⟩
    · exact Or.inl e
    · exact Or.inr (Or.inl e)
    · injection e1 with e3 e4
      injection e3 with e5 e6
      subst e5 e6 e4
      rcases List.mem_cons.mp e2 with e | e
      · injection e with e7 e8
        subst e7
        exact Or.inl hpi
      · exact Or.inr (Or.inr (Or.inl ⟨_, _, rfl, e⟩))
    · injection e1 with e3 e4
      injection e3 with e5 e6
      subst e5 e6 e4
      rcases List.mem_cons.mp e2 with e | e
      · injection e with e7 e8
        subst e7
        exact Or.inr (Or.inl hpi)
      · exact Or.inr (Or.inr (Or.inr ⟨_, _, rfl, e⟩))

/-- The `while` loop of `DFS` pops a `WHITE` point: it turns `GRAY`, its marker is pushed, and
the scan of its fibres begins. -/
theorem DInv.expand {m0 m : XMap} {frm x g : Coord} {to_ : Option Coord} {fc : Bool}
    {P : List Coord} {fr : List Frame} {rk : Coord → Nat}
    (hwf : WFMap m0) (h : DInv m0 frm to_ fc m ((x :: P, g) :: fr) [] rk)
    (hw : (deref m x).state = State.WHITE) :
    DInv m0 frm to_ fc (modify (fun xu => { xu with state := State.GRAY }) m x)
      (([], x) :: (P, g) :: fr)
      (deref (modify (fun xu => { xu with state := State.GRAY }) m x) x).fibres
      (Function.update rk x (rk g + 1)) := by
  obtain ⟨htop, hrest⟩ := h.frames_ok
  obtain ⟨hxg, w, hgx, hx3⟩ := htop x (List.mem_cons_self _ _)
  obtain ⟨hxpi, hxrc⟩ := hx3 hw (by simp)
  have hxs0 : stored m0 x := hwf.stored_nb hgx
  have hxs : stored m x := (h.sn.stored_same x).mpr hxs0
  have hkey : ∀ c, (deref m c).state ≠ State.WHITE → c ≠ x := by
    rintro c hc rfl
    exact hc hw
  generalize hm' : modify (fun xu => { xu with state := State.GRAY }) m x = m'
  have hsn : SameNet m0 m' := by
    rw [← hm']
    exact SameNet.after (SameNet.modify_same m x _ (fun _ => rfl)) h.sn
  have hdx : deref m' x = { deref m x with state := State.GRAY } := by
    rw [← hm']
    exact deref_modify_same _ m hxs
  have hdn : ∀ c, c ≠ x → deref m' c = deref m c := by
    intro c hc
    rw [← hm']
    exact deref_modify_ne _ m (Ne.symm hc)
  have hpi : ∀ c, (deref m' c).pi = (deref m c).pi := by
    intro c
    by_cases hc : c = x
    · subst hc
      rw [hdx]
    · rw [hdn c hc]
  have hrc : ∀ c, (deref m' c).route_cost = (deref m c).route_cost := by
    intro c
    by_cases hc : c = x
    · subst hc
      rw [hdx]
    · rw [hdn c hc]
  have hnw : ∀ c, (deref m' c).state ≠ State.WHITE ↔ ((deref m c).state ≠ State.WHITE ∨ c = x) := by
    intro c
    by_cases hc : c = x
    · subst hc
      rw [hdx]
      simp
    · rw [hdn c hc]
      simp [hc]
  have hwh : ∀ c, (deref m' c).state = State.WHITE → (deref m c).state = State.WHITE ∧ c ≠ x := by
    intro c hc
    have hcx : c ≠ x := by
      rintro rfl
      rw [hdx] at hc
      exact absurd hc (by simp)
    rw [hdn c hcx] at hc
    exact ⟨hc, hcx⟩
  have hfib : ∀ y w', (y, w') ∈ (deref m' x).fibres ↔ nb m0 x y = some w' := by
    intro y w'
    rw [hsn.fibres x]
    exact hwf.mem_fibres_iff x y w'
  have hrkx : Function.update rk x (rk g + 1) x = rk g + 1 := Function.update_same _ _ _
  have hrkn : ∀ c, c ≠ x → Function.update rk x (rk g + 1) c = rk c :=
    fun c hc => Function.update_noteq hc _ _
  have hgg : (deref m g).state = State.GRAY := (h.gray_iff g).mpr (by simp)
  have hgx' : g ≠ x := hkey g (by rw [hgg]; simp)
  constructor
  · exact hsn
  · intro c
    by_cases hc : c = x
    · subst hc
      rw [hdx]
      simp
    · rw [hdn c hc, h.gray_iff c]
      simp [hc]
  · show (x :: (((x :: P, g) :: fr).map Prod.snd)).Nodup
    rw [List.nodup_cons]
    exact ⟨hxg, h.gamma_nodup⟩
  · intro _
    refine TreePath.step x g _ w ?_ hgx ?_ ?_
    · rw [hpi]
      exact hxpi
    · rw [hrc, hrc]
      exact hxrc
    · exact (h.gamma_path (by simp)).congr (fun c _ => ⟨hpi c, hrc c⟩)
  · exact (hnw frm).mpr (Or.inl h.frm_nw)
  · rw [hpi]
    exact h.frm_pi
  · intro v hv
    rcases (hnw v).mp hv with e | e
    · exact h.nw_stored v e
    · rw [e]
      exact hxs0
  · refine ⟨by simp, ?_, ?_⟩
    · intro y hy
      obtain ⟨a1, w', a2, a3⟩ := htop y (List.mem_cons_of_mem _ hy)
      refine ⟨a1, w', a2, ?_⟩
      intro hyw _
      obtain ⟨b1, b2⟩ := hwh y hyw
      rw [hpi, hrc, hrc]
      exact a3 b1 (by simp)
    · refine FramesOK.mono fr _ _ hrest ?_ (fun f _ => hrc f.2)
      intro y hyw hna
      obtain ⟨b1, b2⟩ := hwh y hyw
      simp only [List.nil_append, List.append_nil, List.mem_cons, not_or] at hna ⊢
      exact ⟨⟨b2, hna⟩, hdn y b2⟩
  · intro b hb y w' hy
    have hbx : b ≠ x := by
      rintro rfl
      rw [hdx] at hb
      exact absurd hb (by simp)
    rw [hdn b hbx] at hb
    exact (hnw y).mpr (Or.inl (h.black_nb b hb y w' hy))
  · intro f hf y w' hy hyw
    obtain ⟨b1, b2⟩ := hwh y hyw
    rcases List.mem_cons.mp hf with e | e
    · subst e
      rcases h.gray_nb_top (x :: P) g fr rfl y w' hy b1 with hm | hm
      · rcases List.mem_cons.mp hm with e' | e'
        · exact absurd e' b2
        · exact e'
      · exact absurd hm (by simp)
    · exact h.gray_nb_tail f e y w' hy b1
  · intro P' u' fr' he y w' hy _
    injection he with he1 he2
    injection he1 with he3 he4
    subst he4
    exact Or.inr ((hfib y w').mpr hy)
  · intro P' u' fr' he y w' hy
    injection he with he1 he2
    injection he1 with he3 he4
    subst he4
    exact (hfib y w').mp hy
  · intro y w' hy hyb
    have hxy := (hfib y w').mp hy
    have hyx : y ≠ x := by
      rintro rfl
      rw [hdx] at hyb
      exact absurd hyb (by simp)
    rw [hdn y hyx] at hyb
    exact h.black_nb y hyb x w' (hwf.sym x y w' hxy) hw
  · intro v hv hvf
    by_cases hvx : v = x
    · subst hvx
      refine ⟨g, w, ?_, ?_, hgx, ?_, ?_⟩
      · rw [hpi]
        exact hxpi
      · exact (hnw g).mpr (Or.inl (by rw [hgg]; simp))
      · rw [hrc, hrc]
        exact hxrc
      · rw [hrkx, hrkn g hgx']
        omega
    · have hv' : (deref m v).state ≠ State.WHITE := by
        rcases (hnw v).mp hv with e | e
        · exact e
        · exact absurd e hvx
      obtain ⟨p, w', a1, a2, a3, a4, a5⟩ := h.tree v hv' hvf
      refine ⟨p, w', ?_, (hnw p).mpr (Or.inl a2), a3, ?_, ?_⟩
      · rw [hpi]
        exact a1
      · rw [hrc, hrc]
        exact a4
      · rw [hrkn v hvx, hrkn p (hkey p a2)]
        exact a5
  · intro hfc a b w' ha hb hab
    by_cases hax : a = x
    · subst hax
      exact Or.inr (Or.inr (Or.inl ⟨_, _, rfl, (hfib b w').mpr hab⟩))
    · by_cases hbx : b = x
      · subst hbx
        exact Or.inr (Or.inr (Or.inr ⟨_, _, rfl, (hfib a w').mpr (hwf.sym a b w' hab)⟩))
      · have ha' : (deref m a).state ≠ State.WHITE := by
          rcases (hnw a).mp ha with e | e
          · exact e
          · exact absurd e hax
        have hb' : (deref m b).state ≠ State.WHITE := by
          rcases (hnw b).mp hb with e | e
          · exact e
          · exact absurd e hbx
        rw [hpi, hpi]
        rcases h.edges hfc a b w' ha' hb' hab with e | e | ⟨_, _, _, e2⟩ | ⟨_, _, _, e2⟩
        · exact Or.inl e
        · exact Or.inr (Or.inl e)
        · exact absurd e2 (by simp)
        · exact absurd e2 (by simp)
  · intro t htt
    obtain ⟨a1, a2⟩ := h.target t htt
    have htP := a1 (x :: P, g) (List.mem_cons_self _ _)
    simp only [List.mem_cons, not_or] at htP
    refine ⟨?_, ?_⟩
    · intro f hf
      rcases List.mem_cons.mp hf with e | e
      · subst e
        simp
      · rcases List.mem_cons.mp e with e' | e'
        · subst e'
          exact htP.2
        · exact a1 f (List.mem_cons_of_mem _ e')
    · intro htf
      rw [hdn t htP.1]
      exact a2 htf

/-- Dropping the top pending entry of the stack when it is not `WHITE`. -/
theorem DInv.drop_pending {m0 m : XMap} {frm x g : Coord} {to_ : Option Coord} {fc : Bool}
    {P : List Coord} {fr : List Frame} {rk : Coord → Nat}
    (h : DInv m0 frm to_ fc m ((x :: P, g) :: fr) [] rk)
    (hw : (deref m x).state ≠ State.WHITE) :
    DInv m0 frm to_ fc m ((P, g) :: fr) [] rk := by
  obtain ⟨htop, hrest⟩ := h.frames_ok
  refine { h with gamma_path := fun _ => h.gamma_path (by simp), frames_ok := ?_,
                  gray_nb_top := ?_, todo_nb := ?_, edges := ?_, target := ?_ }
  · refine ⟨fun y hy => htop y (List.mem_cons_of_mem _ hy), ?_⟩
    refine FramesOK.mono fr _ _ hrest ?_ (fun _ _ => rfl)
    intro y hyw hna
    have hyx : y ≠ x := by
      rintro rfl
      exact hw hyw
    simp only [List.nil_append, List.mem_cons, not_or] at hna ⊢
    exact ⟨⟨hyx, hna⟩, trivial⟩
  · intro P' u' fr' he y w' hy hyw
    injection he with he1 he2
    injection he1 with he3 he4
    subst he3 he4 he2
    rcases h.gray_nb_top (x :: P) g fr rfl y w' hy hyw with hm | hm
    · rcases List.mem_cons.mp hm with e | e
      · subst e
        exact absurd hyw hw
      · exact Or.inl e
    · exact absurd hm (by simp)
  · intro P' u' fr' _ y w' hy
    exact absurd hy (by simp)
  · intro hfc a b w' ha hb hab
    rcases h.edges hfc a b w' ha hb hab with e | e | ⟨_, _, _, e2⟩ | ⟨_, _, _, e2⟩
    · exact Or.inl e
    · exact Or.inr (Or.inl e)
    · exact absurd e2 (by simp)
    · exact absurd e2 (by simp)
  · intro t htt
    obtain ⟨a1, a2⟩ := h.target t htt
    refine ⟨?_, a2⟩
    intro f hf
    rcases List.mem_cons.mp hf with e | e
    · subst e
      have := a1 (x :: P, g) (List.mem_cons_self _ _)
      simp only [List.mem_cons, not_or] at this
      exact this.2
    · exact a1 f (List.mem_cons_of_mem _ e)

theorem deref_modify_black (m : XMap) (x : Coord) (hb : (deref m x).state = State.BLACK)
    (c : Coord) : deref (modify (fun xu => { xu with state := State.BLACK }) m x) c = deref m c := by
  by_cases hc : c = x
  · subst hc
    by_cases hs : stored m c
    · rw [deref_modify_same _ m hs]
      cases hxp : deref m c with
      | mk co fi st p rc d =>
        rw [hxp] at hb
        simp only at hb
        subst hb
        rfl
    · rw [modify_of_find_none _ m c (not_stored_iff.mp hs)]
  · exact deref_modify_ne _ m (Ne.symm hc)

/-- The invariant only reads the cross-points through `deref`. -/
theorem DInv.congr_deref {m0 m m' : XMap} {frm : Coord} {to_ : Option Coord} {fc : Bool}
    {frames : List Frame} {todo : List (Coord × Cost)} {rk : Coord → Nat}
    (h : DInv m0 frm to_ fc m frames todo rk) (hd : ∀ c, deref m' c = deref m c)
    (hsn : SameNet m0 m') : DInv m0 frm to_ fc m' frames todo rk := by
  constructor
  · exact hsn
  · simpa only [hd] using h.gray_iff
  · exact h.gamma_nodup
  · intro hne
    exact (h.gamma_path hne).congr (fun c _ => by rw [hd c]; exact ⟨rfl, rfl⟩)
  · simpa only [hd] using h.frm_nw
  · simpa only [hd] using h.frm_pi
  · simpa only [hd] using h.nw_stored
  · exact FramesOK.mono frames _ _ h.frames_ok (fun x _ hx => ⟨hx, hd x⟩)
      (fun f _ => by rw [hd])
  · simpa only [hd] using h.black_nb
  · have := h.gray_nb_tail
    unfold GrayNb at this ⊢
    simpa only [hd] using this
  · simpa only [hd] using h.gray_nb_top
  · exact h.todo_nb
  · simpa only [hd] using h.todo_nonblack
  · simpa only [hd] using h.tree
  · simpa only [hd] using h.edges
  · simpa only [hd] using h.target

/-- The `while` loop of `DFS` pops an entry that is not `WHITE` and lies above the top marker:
it is `BLACK` already, and stays so. -/
theorem DInv.pop_black {m0 m : XMap} {frm x g : Coord} {to_ : Option Coord} {fc : Bool}
    {P : List Coord} {fr : List Frame} {rk : Coord → Nat}
    (h : DInv m0 frm to_ fc m ((x :: P, g) :: fr) [] rk)
    (hw : (deref m x).state ≠ State.WHITE) :
    DInv m0 frm to_ fc (modify (fun xu => { xu with state := State.BLACK }) m x)
      ((P, g) :: fr) [] rk := by
  have hxb : (deref m x).state = State.BLACK := by
    cases hs : (deref m x).state with
    | WHITE => exact absurd hs hw
    | GRAY =>
      have h1 := (h.gray_iff x).mp hs
      have h2 := (h.frames_ok.1 x (List.mem_cons_self _ _)).1
      exact absurd h1 h2
    | BLACK => rfl
  exact (h.drop_pending hw).congr_deref (deref_modify_black m x hxb)
    (SameNet.after (SameNet.modify_same m x _ (fun _ => rfl)) h.sn)

/-- The `while` loop of `DFS` pops the marker of the top `GRAY` point, which turns `BLACK`. -/
theorem DInv.pop_marker {m0 m : XMap} {frm g : Coord} {to_ : Option Coord} {fc : Bool}
    {fr : List Frame} {rk : Coord → Nat}
    (h : DInv m0 frm to_ fc m (([], g) :: fr) [] rk) :
    DInv m0 frm to_ fc (modify (fun xu => { xu with state := State.BLACK }) m g) fr [] rk := by
  have hgg : (deref m g).state = State.GRAY := (h.gray_iff g).mpr (by simp)
  have hgs : stored m g := (h.sn.stored_same g).mpr (h.nw_stored g (by rw [hgg]; simp))
  have hnd := List.nodup_cons.mp h.gamma_nodup
  generalize hm' : modify (fun xu => { xu with state := State.BLACK }) m g = m'
  have hsn : SameNet m0 m' := by
    rw [← hm']
    exact SameNet.after (SameNet.modify_same m g _ (fun _ => rfl)) h.sn
  have hdg : deref m' g = { deref m g with state := State.BLACK } := by
    rw [← hm']
    exact deref_modify_same _ m hgs
  have hdn : ∀ c, c ≠ g → deref m' c = deref m c := by
    intro c hc
    rw [← hm']
    exact deref_modify_ne _ m (Ne.symm hc)
  have hpi : ∀ c, (deref m' c).pi = (deref m c).pi := by
    intro c
    by_cases hc : c = g
    · subst hc
      rw [hdg]
    · rw [hdn c hc]
  have hrc : ∀ c, (deref m' c).route_cost = (deref m c).route_cost := by
    intro c
    by_cases hc : c = g
    · subst hc
      rw [hdg]
    · rw [hdn c hc]
  have hnw : ∀ c, (deref m' c).state ≠ State.WHITE ↔ (deref m c).state ≠ State.WHITE := by
    intro c
    by_cases hc : c = g
    · subst hc
      rw [hdg, hgg]
      simp
    · rw [hdn c hc]
  have hwh : ∀ c, (deref m' c).state = State.WHITE → (deref m c).state = State.WHITE ∧ c ≠ g := by
    intro c hc
    have hcg : c ≠ g := by
      rintro rfl
      rw [hdg] at hc
      exact absurd hc (by simp)
    rw [hdn c hcg] at hc
    exact ⟨hc, hcg⟩
  constructor
  · exact hsn
  · intro c
    by_cases hc : c = g
    · subst hc
      rw [hdg]
      simp only [reduceCtorEq, false_iff]
      exact hnd.1
    · rw [hdn c hc, h.gray_iff c]
      simp [hc]
  · exact hnd.2
  · intro hne
    have hne' : fr.map Prod.snd ≠ [] := by
      intro e
      exact hne (List.map_eq_nil_iff.mp e)
    exact ((h.gamma_path (by simp)).tail hne').congr (fun c _ => ⟨hpi c, hrc c⟩)
  · exact (hnw frm).mpr h.frm_nw
  · rw [hpi]
    exact h.frm_pi
  · intro v hv
    exact h.nw_stored v ((hnw v).mp hv)
  · refine FramesOK.mono fr _ _ h.frames_ok.2 ?_ (fun f _ => hrc f.2)
    intro y hyw _
    obtain ⟨_, b2⟩ := hwh y hyw
    exact ⟨by simp, hdn y b2⟩
  · intro b hb y w' hy
    apply (hnw y).mpr
    by_cases hbg : b = g
    · subst hbg
      intro hyw
      rcases h.gray_nb_top [] b fr rfl y w' hy hyw with hm | hm
      · exact absurd hm (by simp)
      · exact absurd hm (by simp)
    · rw [hdn b hbg] at hb
      exact h.black_nb b hb y w' hy
  · intro f hf y w' hy hyw
    exact h.gray_nb_tail f (List.mem_of_mem_tail hf) y w' hy (hwh y hyw).1
  · intro P' u' fr' he y w' hy hyw
    left
    have hmem : (P', u') ∈ fr := by
      rw [he]
      exact List.mem_cons_self _ _
    exact h.gray_nb_tail (P', u') hmem y w' hy (hwh y hyw).1
  · intro P' u' fr' _ y w' hy
    exact absurd hy (by simp)
  · intro y w' hy
    exact absurd hy (by simp)
  · intro v hv hvf
    obtain ⟨p, w', a1, a2, a3, a4, a5⟩ := h.tree v ((hnw v).mp hv) hvf
    exact ⟨p, w', by rw [hpi]; exact a1, (hnw p).mpr a2, a3, by rw [hrc, hrc]; exact a4, a5⟩
  · intro hfc a b w' ha hb hab
    rw [hpi, hpi]
    rcases h.edges hfc a b w' ((hnw a).mp ha) ((hnw b).mp hb) hab with
      e | e | ⟨_, _, _, e2⟩ | ⟨_, _, _, e2⟩
    · exact Or.inl e
    · exact Or.inr (Or.inl e)
    · exact absurd e2 (by simp)
    · exact absurd e2 (by simp)
  · intro t htt
    obtain ⟨a1, a2⟩ := h.target t htt
    refine ⟨fun f hf => a1 f (List.mem_cons_of_mem _ hf), ?_⟩
    intro htf
    have := a2 htf
    have htg : t ≠ g := by
      rintro rfl
      rw [hgg] at this
      exact absurd this (by simp)
    rw [hdn t htg]
    exact this

/-- The invariant holds when `DFS` starts to scan the fibres of the start point. -/
theorem DInv.initial {m0 : XMap} {frm : Coord} (to_ : Option Coord) (fc : Bool) (hwf : WFMap m0)
    (hs : stored m0 frm) :
    DInv m0 frm to_ fc
      (modify (fun xu => { xu with state := State.GRAY }) (reset_xpoints m0) frm)
      [([], frm)]
      (deref (modify (fun xu => { xu with state := State.GRAY }) (reset_xpoints m0) frm) frm).fibres
      (fun _ => 0) := by
  have hsr : stored (reset_xpoints m0) frm := ((SameNet.reset_same m0).stored_same frm).mpr hs
  generalize hm' : modify (fun xu => { xu with state := State.GRAY }) (reset_xpoints m0) frm = m'
  have hsn : SameNet m0 m' := by
    rw [← hm']
    exact SameNet.after (SameNet.modify_same _ frm _ (fun _ => rfl)) (SameNet.reset_same m0)
  have hdf : deref m' frm = { deref (reset_xpoints m0) frm with state := State.GRAY } := by
    rw [← hm']
    exact deref_modify_same _ _ hsr
  have hdn : ∀ c, c ≠ frm → deref m' c = deref (reset_xpoints m0) c := by
    intro c hc
    rw [← hm']
    exact deref_modify_ne _ _ (Ne.symm hc)
  have hst : ∀ c, c ≠ frm → (deref m' c).state = State.WHITE := by
    intro c hc
    rw [hdn c hc, deref_reset]
  have hnw : ∀ c, (deref m' c).state ≠ State.WHITE → c = frm := by
    intro c hc
    by_contra hne
    exact hc (hst c hne)
  have hnb : ∀ b, (deref m' b).state ≠ State.BLACK := by
    intro b hb
    by_cases hc : b = frm
    · subst hc
      rw [hdf] at hb
      exact absurd hb (by simp)
    · rw [hst b hc] at hb
      exact absurd hb (by simp)
  have hfib : ∀ y w', (y, w') ∈ (deref m' frm).fibres ↔ nb m0 frm y = some w' := by
    intro y w'
    rw [hsn.fibres frm]
    exact hwf.mem_fibres_iff frm y w'
  constructor
  · exact hsn
  · intro c
    by_cases hc : c = frm
    · subst hc
      rw [hdf]
      simp
    · rw [hst c hc]
      simp [hc]
  · simp
  · intro _
    refine TreePath.root ?_ ?_
    · rw [hdf, deref_reset]
    · rw [hdf, deref_reset]
  · rw [hdf]
    simp
  · rw [hdf, deref_reset]
  · intro v hv
    rw [hnw v hv]
    exact hs
  · exact ⟨by simp, True.intro⟩
  · intro b hb
    exact absurd hb (hnb b)
  · intro f hf
    exact absurd hf (by simp)
  · intro P' u' fr' he y w' hy _
    injection he with he1 he2
    injection he1 with he3 he4
    subst he4
    exact Or.inr ((hfib y w').mpr hy)
  · intro P' u' fr' he y w' hy
    injection he with he1 he2
    injection he1 with he3 he4
    subst he4
    exact (hfib y w').mp hy
  · intro y w' _
    exact hnb y
  · intro v hv hvf
    exact absurd (hnw v hv) hvf
  · intro _ a b w' ha hb hab
    exfalso
    have e1 := hnw a ha
    have e2 := hnw b hb
    rw [e1, e2, hwf.no_loop] at hab
    exact absurd hab (by simp)
  · intro t _
    refine ⟨?_, fun htf => hst t htf⟩
    intro f hf
    rw [List.mem_singleton] at hf
    subst hf
    simp

/-- The `for` loop of `DFS`: if it runs to its end the invariant holds again with nothing left
to scan, and the termination measure has not grown; if it returns `true` the result is as
described by `FoundPost`. -/
theorem DFS_for_inv {m0 : XMap} {frm u : Coord} {to_ : Option Coord} {fc : Bool}
    {fr : List Frame} {rk : Coord → Nat} (hwf : WFMap m0) :
    ∀ (todo : List (Coord × Cost)) (m : XMap) (P : List Coord),
      DInv m0 frm to_ fc m ((P, u) :: fr) todo rk →
      (∀ m2 st2, DFS_for to_ fc u todo m (flat ((P, u) :: fr)) = ForResult.done m2 st2 →
        ∃ P2, st2 = flat ((P2, u) :: fr) ∧ DInv m0 frm to_ fc m2 ((P2, u) :: fr) [] rk ∧
          dsum m2 + st2.length ≤ dsum m + (flat ((P, u) :: fr)).length + todo.length) ∧
      (∀ m2 cyc, DFS_for to_ fc u todo m (flat ((P, u) :: fr)) = ForResult.found m2 cyc →
        FoundPost m0 frm to_ fc m2 cyc) := by
  intro todo
  induction todo with
  | nil =>
    intro m P h
    simp only [DFS_for]
    constructor
    · intro m2 st2 he
      injection he with he1 he2
      subst he1 he2
      exact ⟨P, rfl, h, by simp⟩
    · intro m2 cyc he
      exact absurd he (by simp)
  | cons e rest ih =>
    obtain ⟨v, w⟩ := e
    intro m P h
    simp only [DFS_for]
    by_cases hw : (deref m v).state = State.WHITE
    · rw [if_pos hw]
      by_cases ht : some v = to_
      · rw [if_pos ht]
        constructor
        · intro m2 st2 he
          exact absurd he (by simp)
        · intro m2 cyc he
          injection he with he1 he2
          subst he1 he2
          exact h.found_target hwf hw ht
      · rw [if_neg ht]
        have hstep := h.push hwf hw ht
        have hds := dsum_modify_same m v
          (fun xv => { xv with pi := some u, route_cost := addInt (deref m u).route_cost w })
          (fun _ => ⟨rfl, rfl⟩)
        obtain ⟨i1, i2⟩ := ih _ (v :: P) hstep
        constructor
        · intro m2 st2 he
          obtain ⟨P2, a1, a2, a3⟩ := i1 m2 st2 he
          refine ⟨P2, a1, a2, ?_⟩
          rw [hds] at a3
          simp only [flat, List.length_cons, List.cons_append] at a3 ⊢
          omega
        · exact i2
    · rw [if_neg hw]
      by_cases hg : (deref m v).state = State.GRAY
      · rw [if_pos hg]
        by_cases hc : fc = true ∧ some v ≠ (deref m u).pi
        · rw [if_pos hc]
          constructor
          · intro m2 st2 he
            exact absurd he (by simp)
          · intro m2 cyc he
            injection he with he1 he2
            subst he1 he2
            exact h.found_cycle hwf hg hc
        · rw [if_neg hc]
          obtain ⟨i1, i2⟩ := ih m P (h.skip_gray hg hc)
          constructor
          · intro m2 st2 he
            obtain ⟨P2, a1, a2, a3⟩ := i1 m2 st2 he
            refine ⟨P2, a1, a2, ?_⟩
            simp only [List.length_cons]
            omega
          · exact i2
      · exfalso
        have hb : (deref m v).state = State.BLACK := by
          cases hs : (deref m v).state with
          | WHITE => exact absurd hs hw
          | GRAY => exact absurd hs hg
          | BLACK => rfl
        exact h.todo_nonblack v w (List.mem_cons_self _ _) hb

/-- The `while` loop of `DFS` terminates within its fuel.  If it returns `true` the result is
as described by `FoundPost`; if it returns `false` the invariant holds with an empty stack. -/
theorem DFS_while_inv {m0 : XMap} {frm : Coord} {to_ : Option Coord} {fc : Bool}
    (hwf : WFMap m0) :
    ∀ (fuel : Nat) (m : XMap) (frames : List Frame) (rk : Coord → Nat),
      DInv m0 frm to_ fc m frames [] rk → dsum m + (flat frames).length < fuel →
      ∃ b cyc m2, DFS_while to_ fc fuel m (flat frames) = some (b, cyc, m2) ∧
        (b = true → FoundPost m0 frm to_ fc m2 cyc) ∧
        (b = false → ∃ rk', DInv m0 frm to_ fc m2 [] [] rk') := by
  intro fuel
  induction fuel with
  | zero =>
    intro m frames rk _ hf
    exact absurd hf (by omega)
  | succ n ih =>
    intro m frames rk h hf
    cases frames with
    | nil =>
      exact ⟨false, none, m, rfl, fun e => absurd e (by simp), fun _ => ⟨rk, h⟩⟩
    | cons f fr =>
      obtain ⟨P, g⟩ := f
      cases P with
      | nil =>
        have hgg : (deref m g).state = State.GRAY := (h.gray_iff g).mpr (by simp)
        have hnw : (deref m g).state ≠ State.WHITE := by rw [hgg]; simp
        have hle := dsum_modify_le m g (fun xu => { xu with state := State.BLACK })
          (fun _ => ⟨rfl, Or.inr (by simp)⟩)
        obtain ⟨b, cyc, m2, a1, a2, a3⟩ := ih _ fr rk h.pop_marker (by
          simp only [flat, List.nil_append, List.length_cons] at hf
          omega)
        refine ⟨b, cyc, m2, ?_, a2, a3⟩
        simp only [flat, List.nil_append, DFS_while]
        rw [if_neg hnw]
        exact a1
      | cons x P =>
        by_cases hw : (deref m x).state = State.WHITE
        · have hexp := h.expand hwf hw
          have htop := (h.frames_ok.1 x (List.mem_cons_self _ _)).2
          obtain ⟨w, hgx, _⟩ := htop
          have hxs : stored m x := (h.sn.stored_same x).mpr (hwf.stored_nb hgx)
          have hds := dsum_modify_gray m x (fun xu => { xu with state := State.GRAY }) hxs hw
            (fun _ => by simp)
          have hfl : (deref (modify (fun xu => { xu with state := State.GRAY }) m x) x).fibres =
              (deref m x).fibres :=
            (SameNet.modify_same m x (fun xu => { xu with state := State.GRAY })
              (fun _ => rfl)).fibres x
          obtain ⟨i1, i2⟩ := DFS_for_inv hwf _ _ [] hexp
          have hstack : flat ((x :: P, g) :: fr) = x :: (P ++ g :: flat fr) := rfl
          have hstack2 : flat (([], x) :: (P, g) :: fr) = x :: (P ++ g :: flat fr) := rfl
          rw [hstack] at hf ⊢
          rw [hstack2] at i1 i2
          simp only [DFS_while]
          rw [if_pos hw]
          cases hres : DFS_for to_ fc x
              (deref (modify (fun xu => { xu with state := State.GRAY }) m x) x).fibres
              (modify (fun xu => { xu with state := State.GRAY }) m x)
              (x :: (P ++ g :: flat fr)) with
          | done m2 st2 =>
            obtain ⟨P2, a1, a2, a3⟩ := i1 m2 st2 hres
            rw [hfl] at a3
            obtain ⟨b, cyc, m3, c1, c2, c3⟩ := ih m2 _ _ a2 (by
              rw [← a1]
              simp only [List.length_cons] at hf a3 ⊢
              omega)
            refine ⟨b, cyc, m3, ?_, c2, c3⟩
            simp only
            rw [a1]
            exact c1
          | found m2 cyc =>
            exact ⟨true, cyc, m2, rfl, fun _ => i2 m2 cyc hres, fun e => absurd e (by simp)⟩
        · have hle := dsum_modify_le m x (fun xu => { xu with state := State.BLACK })
            (fun _ => ⟨rfl, Or.inr (by simp)⟩)
          obtain ⟨b, cyc, m2, a1, a2, a3⟩ := ih _ ((P, g) :: fr) rk (h.pop_black hw) (by
            simp only [flat, List.cons_append, List.length_cons] at hf ⊢
            omega)
          refine ⟨b, cyc, m2, ?_, a2, a3⟩
          have hstack : flat ((x :: P, g) :: fr) = x :: flat ((P, g) :: fr) := rfl
          rw [hstack]
          simp only [DFS_while]
          rw [if_neg hw]
          exact a1

/-- `DFS` from a stored point returns.  If it returns `true` the result is as described by
`FoundPost`; if it returns `false` the invariant holds with an empty stack. -/
theorem DFS_spec {m0 : XMap} {frm : Coord} (to_ : Option Coord) (fc : Bool) (hwf : WFMap m0)
    (hs : stored m0 frm) :
    ∃ b cyc m2, DFS m0 frm to_ fc = some (b, cyc, m2) ∧
      (b = true → FoundPost m0 frm to_ fc m2 cyc) ∧
      (b = false → ∃ rk', DInv m0 frm to_ fc m2 [] [] rk') := by
  have hsr : stored (reset_xpoints m0) frm := ((SameNet.reset_same m0).stored_same frm).mpr hs
  have hw : (deref (reset_xpoints m0) frm).state = State.WHITE := by rw [deref_reset]
  have hinit := DInv.initial to_ fc hwf hs
  have hds := dsum_modify_gray (reset_xpoints m0) frm (fun xu => { xu with state := State.GRAY })
    hsr hw (fun _ => by simp)
  have hfl : (deref (modify (fun xu => { xu with state := State.GRAY }) (reset_xpoints m0) frm)
      frm).fibres = (deref (reset_xpoints m0) frm).fibres :=
    (SameNet.modify_same (reset_xpoints m0) frm (fun xu => { xu with state := State.GRAY })
      (fun _ => rfl)).fibres frm
  have hfuel := dsum_reset m0
  obtain ⟨i1, i2⟩ := DFS_for_inv hwf _ _ [] hinit
  have hstack : flat [(([] : List Coord), frm)] = [frm] := rfl
  rw [hstack] at i1 i2
  unfold DFS
  obtain ⟨n, hn⟩ : ∃ n, dfsFuel m0 = n + 1 := ⟨dsum (reset_xpoints m0) + 1, by omega⟩
  rw [hn]
  simp only [DFS_while]
  rw [if_pos hw]
  cases hres : DFS_for to_ fc frm
      (deref (modify (fun xu => { xu with state := State.GRAY }) (reset_xpoints m0) frm)
        frm).fibres
      (modify (fun xu => { xu with state := State.GRAY }) (reset_xpoints m0) frm) [frm] with
  | done m2 st2 =>
    obtain ⟨P2, a1, a2, a3⟩ := i1 m2 st2 hres
    rw [hfl] at a3
    obtain ⟨b, cyc, m3, c1, c2, c3⟩ := DFS_while_inv hwf n m2 _ _ a2 (by
      rw [← a1]
      simp only [List.length_singleton] at a3
      omega)
    refine ⟨b, cyc, m3, ?_, c2, c3⟩
    simp only
    rw [a1]
    exact c1
  | found m2 cyc =>
    exact ⟨true, cyc, m2, rfl, fun _ => i2 m2 cyc hres, fun e => absurd e (by simp)⟩

/-! ### Arithmetic of `int` -/

theorem wrapInt_of_range {x : Int} (h1 : INT_MIN ≤ x) (h2 : x ≤ INT_MAX) : wrapInt x = x := by
  unfold INT_MIN at h1
  unfold INT_MAX at h2
  unfold wrapInt
  omega

theorem wrapInt_range (x : Int) : INT_MIN ≤ wrapInt x ∧ wrapInt x ≤ INT_MAX := by
  unfold INT_MIN INT_MAX wrapInt
  omega

theorem wrapInt_add_left (a b : Int) : wrapInt (wrapInt a + b) = wrapInt (a + b) := by
  unfold wrapInt
  omega

theorem addInt_of_range {a b : Int} (h1 : INT_MIN ≤ a + b) (h2 : a + b ≤ INT_MAX) :
    addInt a b = a + b :=
  wrapInt_of_range h1 h2

/-- After a `DFS` that returned `false`, every point at the end of a walk from a `BLACK` point
is `BLACK`. -/
theorem DInv.walk_black {m0 m : XMap} {frm : Coord} {to_ : Option Coord} {fc : Bool}
    {rk : Coord → Nat} (h : DInv m0 frm to_ fc m [] [] rk) :
    ∀ (l : List Coord) (a b : Coord),
      List.Chain' (fun x y => ∃ w, nb m0 x y = some w) (a :: l) →
      (deref m a).state = State.BLACK → (a :: l).getLast? = some b →
      (deref m b).state = State.BLACK := by
  intro l
  induction l with
  | nil =>
    intro a b _ ha hb
    simp only [List.getLast?_singleton, Option.some.injEq] at hb
    subst hb
    exact ha
  | cons c l ih =>
    intro a b hch ha hb
    rw [List.chain'_cons] at hch
    obtain ⟨w, hw⟩ := hch.1
    have hc := h.black_nb a ha c w hw
    have hcb : (deref m c).state = State.BLACK := by
      cases hs : (deref m c).state with
      | WHITE => exact absurd hs hc
      | GRAY =>
        have := (h.gray_iff c).mp hs
        simp at this
      | BLACK => rfl
    rw [List.getLast?_cons_cons] at hb
    exact ih c b hch.2 hcb hb

theorem DInv.frm_black {m0 m : XMap} {frm : Coord} {to_ : Option Coord} {fc : Bool}
    {rk : Coord → Nat} (h : DInv m0 frm to_ fc m [] [] rk) :
    (deref m frm).state = State.BLACK := by
  cases hs : (deref m frm).state with
  | WHITE => exact absurd hs h.frm_nw
  | GRAY =>
    have := (h.gray_iff frm).mp hs
    simp at this
  | BLACK => rfl

/-- After a `DFS` that returned `false`, every point connected to the start is `BLACK`. -/
theorem DInv.connected_black {g : Network} (hwf : WFMap g.xpoints_) {m : XMap} {frm : Coord}
    {to_ : Option Coord} {fc : Bool} {rk : Coord → Nat}
    (h : DInv g.xpoints_ frm to_ fc m [] [] rk) (x : Coord) (hx : Connected g frm x) :
    (deref m x).state = State.BLACK := by
  obtain ⟨p, hp1, hp2, hp3⟩ := hx
  cases p with
  | nil => simp at hp1
  | cons a l =>
    simp only [List.head?_cons, Option.some.injEq] at hp1
    subst hp1
    have hch : List.Chain' (fun x y => ∃ w, nb g.xpoints_ x y = some w) (a :: l) := by
      refine List.Chain'.imp ?_ hp3
      rintro x y ⟨w, hw⟩
      exact ⟨w, (fibre_iff g hwf x y w).mp hw⟩
    exact h.walk_black l a x hch h.frm_black hp2

theorem route_cond_of_stored {m : XMap} {a b : Coord} (ha : stored m a) (hb : stored m b) :
    ¬ ((find m a).isNone = true ∨ (find m b).isNone = true) := by
  unfold stored at ha hb
  cases h1 : find m a <;> cases h2 : find m b <;> simp [h1, h2] at ha hb ⊢

theorem route_cond_of_not_stored {m : XMap} {a b : Coord} (h : ¬ (stored m a ∧ stored m b)) :
    (find m a).isNone = true ∨ (find m b).isNone = true := by
  unfold stored at h
  cases h1 : find m a <;> cases h2 : find m b <;> simp [h1, h2] at h ⊢

/-- What `route_any` returns in a well-formed state, for stored end points: it returns; the
route is empty or a well-formed path; and for distinct end points it is non-empty exactly
when the points are connected. -/
theorem route_any_spec (g : Network) (hwf : WF g) (frm to_ : Coord)
    (hf : stored g.xpoints_ frm) (ht : stored g.xpoints_ to_) :
    ∃ r g', route_any g frm to_ = some (r, g') ∧
      (r = [] ∨ RouteOK g frm to_ r) ∧
      (frm ≠ to_ → (r ≠ [] ↔ Connected g frm to_)) := by
  obtain ⟨b, cyc, m2, hD, hT, hF⟩ := DFS_spec (some to_) false hwf.map hf
  unfold route_any
  rw [if_neg (route_cond_of_stored hf ht), hD]
  cases b with
  | false =>
    obtain ⟨rk, hinv⟩ := hF rfl
    refine ⟨[], { g with xpoints_ := m2 }, rfl, Or.inl rfl, ?_⟩
    intro hne
    constructor
    · intro h
      exact absurd rfl h
    · intro hc
      exfalso
      have hb := hinv.connected_black hwf.map to_ hc
      have hw := (hinv.target to_ rfl).2 (Ne.symm hne)
      rw [hw] at hb
      exact absurd hb (by simp)
  | true =>
    obtain ⟨hsn, hpost⟩ := hT rfl
    cases cyc with
    | some ab =>
      obtain ⟨a, b'⟩ := ab
      simp only at hpost
      exact absurd hpost.1 (by simp)
    | none =>
      simp only at hpost
      obtain ⟨t, γ, e1, e2, e3, e4, _⟩ := hpost
      injection e1 with e1
      subst e1
      have hcr := collect_route_treePath e2 e3 e4 to_ rfl
      have hok := routeOK_of_treePath g hwf.map hsn e2 e3 (v := to_) rfl
      refine ⟨_, { g with xpoints_ := m2 }, by simp only [hcr, Option.map_some'],
        Or.inr hok, ?_⟩
      intro _
      constructor
      · intro _
        exact ⟨_, hok.isWalk⟩
      · intro _
        simp

/-- **C4.** In every reachable state, for distinct stored points `frm` and `to_`,
`route_any(frm, to_)` returns, and its route is non-empty if and only if some path of fibres
connects `frm` to `to_`. -/
theorem C4_route_any_iff_connected (g : Network) (hr : Reachable g) (frm to_ : Coord)
    (hf : frm ∈ all_xpoints g) (ht : to_ ∈ all_xpoints g) (hne : frm ≠ to_) :
    ∃ r g', route_any g frm to_ = some (r, g') ∧ (r ≠ [] ↔ Connected g frm to_) := by
  obtain ⟨r, g', h1, _, h3⟩ := route_any_spec g hr.wf frm to_
    ((mem_all_xpoints g frm).mp hf) ((mem_all_xpoints g to_).mp ht)
  exact ⟨r, g', h1, h3 hne⟩

/-- **C5**, amended. In every reachable state, `route_any(frm, to_)` and
`route_least_xpoints(frm, to_)` return, and a non-empty route returned by either is a
well-formed path: its first element is `(frm, 0)`, its last element has coordinate `to_`,
consecutive coordinates are joined by a fibre, no coordinate occurs twice, and the cost of
each element is the `int` sum (reduced modulo `2^32` into the range of `int`) of the cost of
the previous element and the cost of that fibre; it is their exact sum whenever that sum lies
in the range of `int`. -/
theorem C5_routes_well_formed (g : Network) (hr : Reachable g) (frm to_ : Coord) :
    (∃ r g', route_any g frm to_ = some (r, g') ∧
      (r ≠ [] → RouteOK g frm to_ r ∧
        List.Chain' (fun e e' => ∃ w, Fibre g e.1 e'.1 w ∧
          (INT_MIN ≤ e.2 + w → e.2 + w ≤ INT_MAX → e'.2 = e.2 + w)) r)) ∧
    (∃ r g', route_least_xpoints g frm to_ = some (r, g') ∧
      (r ≠ [] → RouteOK g frm to_ r ∧
        List.Chain' (fun e e' => ∃ w, Fibre g e.1 e'.1 w ∧
          (INT_MIN ≤ e.2 + w → e.2 + w ≤ INT_MAX → e'.2 = e.2 + w)) r)) := by
  have hex : ∀ r, RouteOK g frm to_ r →
      List.Chain' (fun e e' => ∃ w, Fibre g e.1 e'.1 w ∧
        (INT_MIN ≤ e.2 + w → e.2 + w ≤ INT_MAX → e'.2 = e.2 + w)) r := by
    intro r hok
    refine List.Chain'.imp ?_ hok.2.2.1
    rintro e e' ⟨w, hw, he⟩
    exact ⟨w, hw, fun h1 h2 => he.trans (addInt_of_range h1 h2)⟩
  by_cases hs : stored g.xpoints_ frm ∧ stored g.xpoints_ to_
  · obtain ⟨r, g', h1, h2, _⟩ := route_any_spec g hr.wf frm to_ hs.1 hs.2
    obtain ⟨r', g'', h1', h2', _⟩ := route_least_xpoints_spec g hr.wf frm to_ hs.1 hs.2
    refine ⟨⟨r, g', h1, ?_⟩, ⟨r', g'', h1', ?_⟩⟩
    · intro hne
      rcases h2 with e | e
      · exact absurd e hne
      · exact ⟨e, hex r e⟩
    · intro hne
      rcases h2' with e | e
      · exact absurd e hne
      · exact ⟨e, hex r' e⟩
  · have hc := route_cond_of_not_stored hs
    refine ⟨⟨[], g, ?_, fun h => absurd rfl h⟩, ⟨[], g, ?_, fun h => absurd rfl h⟩⟩
    · unfold route_any
      rw [if_pos hc]
    · unfold route_least_xpoints
      rw [if_pos hc]

/-- Instance of C4 on the scenario network: `(0,0)` and `(2,2)` are connected and `route_any`
finds a route. -/
theorem C4_route_any_iff_connected_witness :
    (route_any scenario ⟨0, 0⟩ ⟨2, 2⟩).map Prod.fst = some [(⟨0, 0⟩, 0), (⟨2, 2⟩, 10)] ∧
      ∃ r g', route_any scenario ⟨0, 0⟩ ⟨2, 2⟩ = some (r, g') ∧
        (r ≠ [] ↔ Connected scenario ⟨0, 0⟩ ⟨2, 2⟩) :=
  ⟨by decide, C4_route_any_iff_connected scenario scenario_reachable ⟨0, 0⟩ ⟨2, 2⟩
    (by decide) (by decide) (by decide)⟩

/-- Instance of the amended C5 on the scenario network, from `(0,0)` to `(2,2)`. -/
theorem C5_routes_well_formed_witness :
    (∃ r g', route_any scenario ⟨0, 0⟩ ⟨2, 2⟩ = some (r, g') ∧
      (r ≠ [] → RouteOK scenario ⟨0, 0⟩ ⟨2, 2⟩ r ∧
        List.Chain' (fun e e' => ∃ w, Fibre scenario e.1 e'.1 w ∧
          (INT_MIN ≤ e.2 + w → e.2 + w ≤ INT_MAX → e'.2 = e.2 + w)) r)) ∧
    (∃ r g', route_least_xpoints scenario ⟨0, 0⟩ ⟨2, 2⟩ = some (r, g') ∧
      (r ≠ [] → RouteOK scenario ⟨0, 0⟩ ⟨2, 2⟩ r ∧
        List.Chain' (fun e e' => ∃ w, Fibre scenario e.1 e'.1 w ∧
          (INT_MIN ≤ e.2 + w → e.2 + w ≤ INT_MAX → e'.2 = e.2 + w)) r)) :=
  C5_routes_well_formed scenario scenario_reachable ⟨0, 0⟩ ⟨2, 2⟩

/-- **C5**, as stated, fails when a sum of costs leaves the range of `int`: on `longHaul`
both `route_any` and `route_least_xpoints` from `(0,0)` to `(2,0)` report `(1,0)` with the
cost 2147483647 and the next point `(2,0)` with the cost -2147483648, while the fibre between
the two has the cost 1, so the reported cost is not the previous cost plus the cost of the
fibre. -/
theorem C5_cost_overflow_counterexample :
    Reachable longHaul ∧
    (route_any longHaul ⟨0, 0⟩ ⟨2, 0⟩).map Prod.fst =
      some [(⟨0, 0⟩, 0), (⟨1, 0⟩, 2147483647), (⟨2, 0⟩, -2147483648)] ∧
    (route_least_xpoints longHaul ⟨0, 0⟩ ⟨2, 0⟩).map Prod.fst =
      some [(⟨0, 0⟩, 0), (⟨1, 0⟩, 2147483647), (⟨2, 0⟩, -2147483648)] ∧
    get_fibres_from longHaul ⟨1, 0⟩ = [(⟨0, 0⟩, 2147483647), (⟨2, 0⟩, 1)] ∧
    ¬ List.Chain' (fun e e' => ∃ w, Fibre longHaul e.1 e'.1 w ∧ e'.2 = e.2 + w)
      [(⟨0, 0⟩, 0), (⟨1, 0⟩, 2147483647), (⟨2, 0⟩, -2147483648)] := by
  refine ⟨Reachable.add_fibre _ _ _ _ (Reachable.add_fibre _ _ _ _ Reachable.init),
    by decide, by decide, by decide, ?_⟩
  intro h
  obtain ⟨w, hw, he⟩ := (List.chain'_cons.mp (List.chain'_cons.mp h).2).1
  have hl : ∀ e ∈ get_fibres_from longHaul ⟨1, 0⟩, e.1 = ⟨2, 0⟩ → e.2 = 1 := by decide
  have hw1 : w = 1 := hl (_, w) hw rfl
  subst hw1
  exact absurd he (by decide)

/-! ## Cycles -/

theorem connected_self (g : Network) (a : Coord) : Connected g a a :=
  ⟨[a], rfl, rfl, List.chain'_singleton _⟩

theorem connected_snoc {g : Network} {a u v : Coord} (h : Connected g a u) (hj : Joined g u v) :
    Connected g a v := by
  obtain ⟨p, h1, h2, h3⟩ := h
  refine ⟨p ++ [v], ?_, ?_, ?_⟩
  · cases p with
    | nil => simp at h1
    | cons x l => simpa using h1
  · simp
  · rw [List.chain'_append]
    refine ⟨h3, List.chain'_singleton _, ?_⟩
    intro x hx y hy
    rw [h2] at hx
    simp only [Option.mem_def, Option.some.injEq, List.head?_cons] at hx hy
    subst hx hy
    exact hj

theorem joined_iff (g : Network) (h : WFMap g.xpoints_) (a b : Coord) :
    Joined g a b ↔ ∃ w, nb g.xpoints_ a b = some w := by
  unfold Joined
  constructor
  · rintro ⟨w, hw⟩
    exact ⟨w, (fibre_iff g h a b w).mp hw⟩
  · rintro ⟨w, hw⟩
    exact ⟨w, (fibre_iff g h a b w).mpr hw⟩

theorem joined_symm (g : Network) (h : WFMap g.xpoints_) {a b : Coord} (hj : Joined g a b) :
    Joined g b a := by
  rw [joined_iff g h] at hj ⊢
  obtain ⟨w, hw⟩ := hj
  exact ⟨w, h.sym a b w hw⟩

/-- Every point of a predecessor chain is connected to the start. -/
theorem TreePath.connected {g : Network} (hwf : WFMap g.xpoints_) {m : XMap} {frm : Coord}
    {l : List Coord} (h : TreePath g.xpoints_ m frm l) : ∀ x ∈ l, Connected g frm x := by
  induction h with
  | root _ _ =>
    intro x hx
    rw [List.mem_singleton] at hx
    subst hx
    exact connected_self g x
  | step v u rest w _ hn _ _ ih =>
    intro x hx
    rcases List.mem_cons.mp hx with e | e
    · subst e
      exact connected_snoc (ih u (List.mem_cons_self _ _))
        ((joined_iff g hwf u x).mpr ⟨w, hn⟩)
    · exact ih x e

theorem TreePath.pi_head {m0 m : XMap} {frm v u : Coord} {rest : List Coord}
    (h : TreePath m0 m frm (v :: u :: rest)) : (deref m v).pi = some u := by
  cases h with
  | step _ _ _ _ h1 _ _ _ => exact h1

/-- Consecutive points of a predecessor chain are joined by a fibre. -/
theorem TreePath.joined {g : Network} (hwf : WFMap g.xpoints_) {m : XMap} {frm : Coord}
    {l : List Coord} (h : TreePath g.xpoints_ m frm l) : List.Chain' (Joined g) l := by
  refine List.Chain'.imp ?_ h.chain
  rintro a b ⟨w, hw, _⟩
  exact (joined_iff g hwf a b).mpr ⟨w, hwf.sym b a w hw⟩

/-- Running the loop of `route_fibre_cycle` along a predecessor chain that contains `b`. -/
theorem cycle_loop_treePath {m0 m : XMap} {frm : Coord} (hco : ∀ c, (deref m c).coords = c)
    (b : Coord) (post : List Coord) :
    ∀ (pre : List Coord), TreePath m0 m frm (pre ++ b :: post) → (∀ c ∈ pre, c ≠ b) →
      ∀ (fuel : Nat) (acc : List Coord), pre.length < fuel →
        cycle_loop m b fuel ((pre ++ b :: post).head?) acc = some (acc ++ pre ++ [b]) := by
  intro pre
  induction pre with
  | nil =>
    intro _ _ fuel acc hf
    match fuel, hf with
    | n + 1, _ =>
      simp only [List.nil_append, List.head?_cons, cycle_loop, hco, if_true, List.append_nil]
  | cons c pre ih =>
    intro h hne fuel acc hf
    match fuel, hf with
    | n + 1, hf =>
      obtain ⟨u, rest, hur⟩ : ∃ u rest, pre ++ b :: post = u :: rest := by
        cases pre with
        | nil => exact ⟨b, post, rfl⟩
        | cons x l => exact ⟨x, l ++ b :: post, rfl⟩
      have h' : TreePath m0 m frm (c :: u :: rest) := by
        rw [← hur]
        exact h
      have hpi := h'.pi_head
      have hcb : c ≠ b := hne c (List.mem_cons_self _ _)
      have htl : TreePath m0 m frm (pre ++ b :: post) := by
        rw [hur]
        exact h'.tail (by simp)
      have := ih htl (fun x hx => hne x (List.mem_cons_of_mem _ hx)) n (acc ++ [c])
        (by simp only [List.length_cons] at hf; omega)
      simp only [List.cons_append, List.head?_cons, cycle_loop, hco, hcb, if_false, hpi]
      rw [hur] at this
      simp only [List.head?_cons] at this
      rw [this]
      simp

/-- What `route_fibre_cycle` returns when `DFS` reported a cycle: a closed loop, and the
component of the start point contains a cycle. -/
theorem cycle_of_foundPost (g : Network) (hwf : WF g) {m : XMap} {s a b : Coord}
    (h : FoundPost g.xpoints_ s none true m (some (a, b))) :
    ∃ r, cycle_loop m (deref m b).coords (m.length + 1) (some a) [(deref m b).coords] = some r ∧
      LoopOK g r ∧ CycleNear g s := by
  obtain ⟨hsn, _, γ, w, hpath, hnd, hst, hbγ, hpi, hab⟩ := h
  have hco : ∀ c, (deref m c).coords = c := fun c => by
    rw [hsn.coords c]
    exact hwf.map.deref_coords c
  obtain ⟨pre', post, hγ⟩ := List.append_of_mem hbγ
  subst hγ
  have hnd' : (a :: pre' ++ b :: post).Nodup := hnd
  have hbpre : ∀ c ∈ a :: pre', c ≠ b := by
    intro c hc hcb
    subst hcb
    have hdis := (List.nodup_append.mp hnd').2.2
    exact hdis hc (List.mem_cons_self _ _) 
  have hprend : (a :: pre').Nodup := (List.nodup_append.mp hnd').1
  have hlen : (a :: pre').length ≤ m.length := by
    apply length_le_of_nodup_stored m _ hprend
    intro c hc
    exact hst c (by
      rcases List.mem_cons.mp hc with e | e
      · rw [e]
        exact List.mem_cons_self _ _
      · exact List.mem_cons_of_mem _ (List.mem_append_left _ e))
  have hloop := cycle_loop_treePath hco b post (a :: pre') hpath hbpre (m.length + 1) [b]
    (by omega)
  simp only [List.cons_append, List.head?_cons] at hloop
  obtain ⟨a2, pre'', hpre⟩ : ∃ a2 pre'', pre' = a2 :: pre'' := by
    cases pre' with
    | nil =>
      exfalso
      exact hpi hpath.pi_head
    | cons x l => exact ⟨x, l, rfl⟩
  have hjpath := hpath.joined hwf.map
  have hjab : Joined g b a := (joined_iff g hwf.map b a).mpr ⟨w, hwf.map.sym a b w hab⟩
  have hchain : List.Chain' (Joined g) ((b :: a :: pre') ++ [b]) := by
    have h1 : List.Chain' (Joined g) ((a :: pre' ++ [b]) ++ post) := by
      simpa using hjpath
    have h2 := h1.left_of_append
    exact List.Chain'.cons hjab h2
  have hcnd : (b :: a :: pre').Nodup := by
    rw [List.nodup_cons]
    exact ⟨fun hmem => hbpre b hmem rfl, hprend⟩
  have hclen : 3 ≤ (b :: a :: pre').length := by
    rw [hpre]
    simp
  refine ⟨(b :: a :: pre') ++ [b], ?_, ⟨by simp, ?_, hchain, ?_, ?_⟩, ?_⟩
  · rw [hco b]
    simpa using hloop
  · rw [List.getLast?_concat]
    rfl
  · rw [List.dropLast_concat]
    exact hcnd
  · rw [List.dropLast_concat]
    exact hclen
  · refine ⟨b :: a :: pre', ⟨hclen, hcnd, hchain.left_of_append, ?_⟩, ?_⟩
    · obtain ⟨y, hy⟩ : ∃ y, (b :: a :: pre').getLast? = some y := by
        cases hl : (b :: a :: pre').getLast? with
        | none => simp at hl
        | some y => exact ⟨y, rfl⟩
      refine ⟨b, y, rfl, hy, ?_⟩
      have := (List.chain'_append.mp hchain).2.2 y hy b (by simp)
      exact this
    · intro x hx
      apply hpath.connected hwf.map
      rcases List.mem_cons.mp hx with e | e
      · rw [e]
        exact List.mem_cons_of_mem _ (List.mem_append_right _ (List.mem_cons_self _ _))
      · rcases List.mem_cons.mp e with e' | e'
        · rw [e']
          exact List.mem_cons_self _ _
        · exact List.mem_cons_of_mem _ (List.mem_append_left _ e')

/-! ## A forest of predecessors has no cycle -/

theorem chain_getElem_opt {R : Coord → Coord → Prop} :
    ∀ (l : List Coord), List.Chain' R l → ∀ (i : Nat) (x y : Coord),
      l[i]? = some x → l[i + 1]? = some y → R x y := by
  intro l
  induction l with
  | nil =>
    intro _ i x y hx _
    simp at hx
  | cons a t ih =>
    intro h i x y hx hy
    cases t with
    | nil => simp at hy
    | cons b t' =>
      rw [List.chain'_cons] at h
      cases i with
      | zero =>
        simp only [List.getElem?_cons_zero, Option.some.injEq, zero_add,
          List.getElem?_cons_succ] at hx hy
        subst hx hy
        exact h.1
      | succ k =>
        simp only [List.getElem?_cons_succ] at hx hy
        exact ih h.2 k x y hx (by simpa using hy)

theorem exists_max_rank (rk : Coord → Nat) :
    ∀ (l : List Coord), l ≠ [] → ∃ v ∈ l, ∀ x ∈ l, rk x ≤ rk v := by
  intro l
  induction l with
  | nil =>
    intro h
    exact absurd rfl h
  | cons a t ih =>
    intro _
    by_cases ht : t = []
    · subst ht
      exact ⟨a, List.mem_cons_self _ _, fun x hx => by
        rw [List.mem_singleton] at hx
        rw [hx]⟩
    · obtain ⟨v, hv, hmax⟩ := ih ht
      by_cases hc : rk a ≤ rk v
      · refine ⟨v, List.mem_cons_of_mem _ hv, ?_⟩
        intro x hx
        rcases List.mem_cons.mp hx with e | e
        · rw [e]
          exact hc
        · exact hmax x e
      · refine ⟨a, List.mem_cons_self _ _, ?_⟩
        intro x hx
        rcases List.mem_cons.mp hx with e | e
        · rw [e]
        · have := hmax x e
          omega

theorem getElem_opt_inj_of_nodup {l : List Coord} (h : l.Nodup) {i j : Nat} {x : Coord}
    (hi : l[i]? = some x) (hj : l[j]? = some x) : i = j := by
  obtain ⟨hi1, hi2⟩ := List.getElem?_eq_some_iff.mp hi
  obtain ⟨hj1, hj2⟩ := List.getElem?_eq_some_iff.mp hj
  exact (List.Nodup.getElem_inj_iff h).mp (hi2.trans hj2.symm)

/-- If every edge of `E` inside `cy` joins a point to its predecessor, which has a smaller
rank, then `cy` is not a cycle of `E`. -/
theorem no_cycle_of_parent (par : Coord → Option Coord) (rk : Coord → Nat)
    (E : Coord → Coord → Prop) (cy : List Coord)
    (hE : ∀ a b, a ∈ cy → b ∈ cy → E a b →
      (par a = some b ∧ rk b < rk a) ∨ (par b = some a ∧ rk a < rk b))
    (h3 : 3 ≤ cy.length) (hnd : cy.Nodup) (hch : List.Chain' E cy) (a b : Coord)
    (ha : cy.head? = some a) (hb : cy.getLast? = some b) (hba : E b a) : False := by
  have hne : cy ≠ [] := by
    intro e
    rw [e] at h3
    simp at h3
  obtain ⟨v, hv, hmax⟩ := exists_max_rank rk cy hne
  obtain ⟨i, hi, hiv⟩ := List.getElem_of_mem hv
  have hiv' : cy[i]? = some v := by
    rw [List.getElem?_eq_getElem hi, hiv]
  have ha' : cy[0]? = some a := by
    rw [← List.head?_eq_getElem?]
    exact ha
  have hb' : cy[cy.length - 1]? = some b := by
    rw [← List.getLast?_eq_getElem?]
    exact hb
  have hmem : ∀ j x, cy[j]? = some x → x ∈ cy := fun j x hx => by
    obtain ⟨h1, h2⟩ := List.getElem?_eq_some_iff.mp hx
    rw [← h2]
    exact List.getElem_mem h1
  -- the successor of `v` on the cycle
  have hsucc : ∃ s x, cy[s]? = some x ∧ E v x ∧ s = (if i + 1 < cy.length then i + 1 else 0) := by
    by_cases hlt : i + 1 < cy.length
    · refine ⟨i + 1, cy[i + 1], List.getElem?_eq_getElem hlt, ?_, by rw [if_pos hlt]⟩
      exact chain_getElem_opt cy hch i v _ hiv' (List.getElem?_eq_getElem hlt)
    · have e : cy.length - 1 = i := by omega
      rw [e, hiv'] at hb'
      injection hb' with hb'
      subst hb'
      exact ⟨0, a, ha', hba, by rw [if_neg hlt]⟩
  -- the predecessor of `v` on the cycle
  have hpred : ∃ p y, cy[p]? = some y ∧ E y v ∧ p = (if i = 0 then cy.length - 1 else i - 1) := by
    by_cases h0 : i = 0
    · rw [h0, ha'] at hiv'
      injection hiv' with hiv'
      subst hiv'
      exact ⟨cy.length - 1, b, hb', hba, by rw [if_pos h0]⟩
    · have hlt : i - 1 < cy.length := by omega
      refine ⟨i - 1, cy[i - 1], List.getElem?_eq_getElem hlt, ?_, by rw [if_neg h0]⟩
      apply chain_getElem_opt cy hch (i - 1) _ v (List.getElem?_eq_getElem hlt)
      have e : i - 1 + 1 = i := by omega
      rw [e]
      exact hiv'
  obtain ⟨s, x, hsx, hvx, hs⟩ := hsucc
  obtain ⟨p, y, hpy, hyv, hp⟩ := hpred
  have hx : par v = some x := by
    rcases hE v x hv (hmem s x hsx) hvx with h | h
    · exact h.1
    · have := hmax x (hmem s x hsx)
      omega
  have hy : par v = some y := by
    rcases hE y v (hmem p y hpy) hv hyv with h | h
    · have := hmax y (hmem p y hpy)
      omega
    · exact h.1
  rw [hx] at hy
  injection hy with hy
  subst hy
  have hsp := getElem_opt_inj_of_nodup hnd hsx hpy
  rw [hs, hp] at hsp
  split at hsp <;> split at hsp <;> omega

/-- After a `DFS` in cycle mode that returned `false`, the component of the start point
contains no cycle. -/
theorem DInv.no_cycle {g : Network} (hwf : WFMap g.xpoints_) {m : XMap} {s : Coord}
    {rk : Coord → Nat} (h : DInv g.xpoints_ s none true m [] [] rk) : ¬ CycleNear g s := by
  rintro ⟨c, ⟨h3, hnd, hch, a, b, ha, hb, hba⟩, hconn⟩
  have hbl : ∀ x ∈ c, (deref m x).state ≠ State.WHITE := by
    intro x hx
    rw [h.connected_black hwf x (hconn x hx)]
    simp
  have hpar : ∀ x y, (deref m x).state ≠ State.WHITE → (deref m x).pi = some y →
      rk y < rk x := by
    intro x y hx hxy
    have hne : x ≠ s := by
      intro e
      rw [e, h.frm_pi] at hxy
      exact absurd hxy (by simp)
    obtain ⟨u, _, h1, _, _, _, h5⟩ := h.tree x hx hne
    rw [h1] at hxy
    injection hxy with hxy
    rw [← hxy]
    exact h5
  refine no_cycle_of_parent (fun x => (deref m x).pi) rk (Joined g) c ?_ h3 hnd hch a b ha hb hba
  intro x y hx hy hxy
  obtain ⟨w, hw⟩ := (joined_iff g hwf x y).mp hxy
  rcases h.edges rfl x y w (hbl x hx) (hbl y hy) hw with e | e | ⟨_, _, e, _⟩ | ⟨_, _, e, _⟩
  · exact Or.inl ⟨e, hpar x y (hbl x hx) e⟩
  · exact Or.inr ⟨e, hpar y x (hbl y hy) e⟩
  · exact absurd e (by simp)
  · exact absurd e (by simp)

/-- What `route_fibre_cycle` returns in a well-formed state for a stored point: it returns;
the list is empty and the component of the point has no cycle, or the list is a closed loop
and the component has a cycle. -/
theorem route_fibre_cycle_spec (g : Network) (hwf : WF g) (s : Coord)
    (hs : stored g.xpoints_ s) :
    ∃ r g', route_fibre_cycle g s = some (r, g') ∧
      ((r = [] ∧ ¬ CycleNear g s) ∨ (LoopOK g r ∧ CycleNear g s)) := by
  obtain ⟨b, cyc, m2, hD, hT, hF⟩ := DFS_spec none true hwf.map hs
  have hcond : ¬ ((find g.xpoints_ s).isNone = true) := by
    unfold stored at hs
    cases h1 : find g.xpoints_ s <;> simp [h1] at hs ⊢
  unfold route_fibre_cycle
  rw [if_neg hcond, hD]
  cases b with
  | false =>
    obtain ⟨rk, hinv⟩ := hF rfl
    exact ⟨[], { g with xpoints_ := m2 }, rfl, Or.inl ⟨rfl, hinv.no_cycle hwf.map⟩⟩
  | true =>
    have hpost := hT rfl
    cases cyc with
    | none =>
      obtain ⟨_, t, _, e1, _⟩ := hpost
      exact absurd e1 (by simp)
    | some ab =>
      obtain ⟨a, b'⟩ := ab
      obtain ⟨r, h1, h2, h3⟩ := cycle_of_foundPost g hwf hpost
      exact ⟨r, { g with xpoints_ := m2 }, by simp only [h1, Option.map_some'],
        Or.inr ⟨h2, h3⟩⟩

/-- **C3.** In every reachable state and for every stored point `s`, `route_fibre_cycle(s)`
returns, and its list is non-empty if and only if the connected component of `s` in the
undirected fibre graph contains a cycle. -/
theorem C3_route_fibre_cycle_iff_cycle (g : Network) (hr : Reachable g) (s : Coord)
    (hs : s ∈ all_xpoints g) :
    ∃ r g', route_fibre_cycle g s = some (r, g') ∧
      (r ≠ [] ↔ ∃ c, IsCycle g c ∧ ∀ x ∈ c, Connected g s x) := by
  obtain ⟨r, g', h1, h2⟩ := route_fibre_cycle_spec g hr.wf s ((mem_all_xpoints g s).mp hs)
  refine ⟨r, g', h1, ?_⟩
  rcases h2 with ⟨e, hn⟩ | ⟨hl, hc⟩
  · constructor
    · intro h
      exact absurd e h
    · intro h
      exact absurd h hn
  · constructor
    · intro _
      exact hc
    · intro _
      exact hl.1

/-- **C7.** In every reachable state and for every stored point `s`, `route_fibre_cycle(s)`
returns, and whenever its list is non-empty it is a closed loop: the first and last
coordinates are equal, every two consecutive coordinates are joined by a fibre, the
coordinates other than the last are pairwise distinct, and there are at least three of them. -/
theorem C7_route_fibre_cycle_closed_loop (g : Network) (hr : Reachable g) (s : Coord)
    (hs : s ∈ all_xpoints g) :
    ∃ r g', route_fibre_cycle g s = some (r, g') ∧
      (r ≠ [] → r.head? = r.getLast? ∧ List.Chain' (Joined g) r ∧ r.dropLast.Nodup ∧
        3 ≤ r.dropLast.length) := by
  obtain ⟨r, g', h1, h2⟩ := route_fibre_cycle_spec g hr.wf s ((mem_all_xpoints g s).mp hs)
  refine ⟨r, g', h1, ?_⟩
  intro hne
  rcases h2 with ⟨e, _⟩ | ⟨hl, _⟩
  · exact absurd e hne
  · exact hl.2

/-- Instance of C3 on the scenario network, whose three fibres form a triangle. -/
theorem C3_route_fibre_cycle_iff_cycle_witness :
    (⟨0, 0⟩ : Coord) ∈ all_xpoints scenario ∧
      (route_fibre_cycle scenario ⟨0, 0⟩).map Prod.fst =
        some [⟨0, 0⟩, ⟨2, 2⟩, ⟨1, 1⟩, ⟨0, 0⟩] ∧
      ∃ r g', route_fibre_cycle scenario ⟨0, 0⟩ = some (r, g') ∧
        (r ≠ [] ↔ ∃ c, IsCycle scenario c ∧ ∀ x ∈ c, Connected scenario ⟨0, 0⟩ x) :=
  ⟨by decide, by decide,
    C3_route_fibre_cycle_iff_cycle scenario scenario_reachable ⟨0, 0⟩ (by decide)⟩

/-- Instance of C7 on the scenario network. -/
theorem C7_route_fibre_cycle_closed_loop_witness :
    (⟨1, 1⟩ : Coord) ∈ all_xpoints scenario ∧
      ∃ r g', route_fibre_cycle scenario ⟨1, 1⟩ = some (r, g') ∧
        (r ≠ [] → r.head? = r.getLast? ∧ List.Chain' (Joined scenario) r ∧ r.dropLast.Nodup ∧
          3 ≤ r.dropLast.length) :=
  ⟨by decide,
    C7_route_fibre_cycle_closed_loop scenario scenario_reachable ⟨1, 1⟩ (by decide)⟩

/-! ## `route_fastest`: the priority queue is keyed on a member that `relax` changes -/

theorem detour_reachable : Reachable detour :=
  Reachable.add_fibre _ _ _ _ (Reachable.add_fibre _ _ _ _ (Reachable.add_fibre _ _ _ _
    (Reachable.add_fibre _ _ _ _ (Reachable.add_fibre _ _ _ _
      (Reachable.add_fibre _ _ _ _ Reachable.init)))))

theorem detour_route_fastest :
    (route_fastest detour ⟨0, 0⟩ ⟨0, 2⟩).map Prod.fst =
      some [(⟨0, 0⟩, 0), (⟨1, 0⟩, 1), (⟨2, 0⟩, 2), (⟨0, 1⟩, 3), (⟨0, 2⟩, 6)] := by
  decide

theorem detour_costs_nonneg :
    ∀ a ∈ all_xpoints detour, ∀ e ∈ get_fibres_from detour a, 0 ≤ e.2 := by
  decide

/-- **C1.** `route_fastest` does not always report the least cost. The network `detour` is
built by `add_fibre` alone and has positive costs only; for its connected stored points
`(0,0)` and `(0,2)`, `route_fastest` returns a non-empty route whose last element is
`((0,2), 6)`, while `(0,0), (1,0), (2,0), (0,1), (0,2)` is a path of total fibre cost 4. -/
theorem C1_route_fastest_not_cheapest :
    Reachable detour ∧
      (∀ a ∈ all_xpoints detour, ∀ e ∈ get_fibres_from detour a, 0 ≤ e.2) ∧
      (⟨0, 0⟩ : Coord) ∈ all_xpoints detour ∧ (⟨0, 2⟩ : Coord) ∈ all_xpoints detour ∧
      ((route_fastest detour ⟨0, 0⟩ ⟨0, 2⟩).map Prod.fst).bind List.getLast? =
        some (⟨0, 2⟩, 6) ∧
      RouteOK detour ⟨0, 0⟩ ⟨0, 2⟩
        [(⟨0, 0⟩, 0), (⟨1, 0⟩, 1), (⟨2, 0⟩, 2), (⟨0, 1⟩, 3), (⟨0, 2⟩, 4)] := by
  refine ⟨detour_reachable, detour_costs_nonneg, by decide, by decide, ?_, rfl, rfl, ?_,
    by decide⟩
  · rw [detour_route_fastest]
    rfl
  · refine List.Chain'.cons ⟨1, ?_, rfl⟩ (List.Chain'.cons ⟨1, ?_, rfl⟩
      (List.Chain'.cons ⟨1, ?_, rfl⟩ (List.Chain'.cons ⟨1, ?_, rfl⟩
        (List.chain'_singleton _)))) <;> unfold Fibre <;> decide

/-- **C6.** The costs that `route_fastest` reports need not be the sums of the fibre costs
along the returned route. On the network `detour`, `route_fastest` from `(0,0)` to `(0,2)`
returns a non-empty route that starts with `((0,0), 0)` and whose consecutive points are
joined by fibres, but not every reported cost is the previous one plus the cost of the fibre
between the two points: `(0,1)` is reported with 3 and the next point `(0,2)` with 6, while
the fibre `(0,1)-(0,2)` has the cost 1. -/
theorem C6_route_fastest_costs_do_not_add_up :
    Reachable detour ∧
      (∀ a ∈ all_xpoints detour, ∀ e ∈ get_fibres_from detour a, 0 ≤ e.2) ∧
      ∃ r g', route_fastest detour ⟨0, 0⟩ ⟨0, 2⟩ = some (r, g') ∧ r ≠ [] ∧
        r.head? = some (⟨0, 0⟩, 0) ∧ List.Chain' (Joined detour) (r.map Prod.fst) ∧
        ¬ List.Chain' (fun e e' => ∃ w, Fibre detour e.1 e'.1 w ∧ e'.2 = e.2 + w) r := by
  refine ⟨detour_reachable, detour_costs_nonneg, ?_⟩
  obtain ⟨⟨r, g'⟩, h1, h2⟩ := Option.map_eq_some'.mp detour_route_fastest
  simp only at h2
  subst h2
  refine ⟨_, g', h1, by simp, rfl, ?_, ?_⟩
  · refine List.Chain'.cons ⟨1, ?_⟩ (List.Chain'.cons ⟨1, ?_⟩
      (List.Chain'.cons ⟨1, ?_⟩ (List.Chain'.cons ⟨1, ?_⟩
        (List.chain'_singleton _)))) <;> unfold Fibre <;> decide
  · intro h
    have h4 := (List.chain'_cons.mp (List.chain'_cons.mp (List.chain'_cons.mp h).2).2).2
    obtain ⟨w, hw, he⟩ := (List.chain'_cons.mp h4).1
    have hl : ∀ e ∈ get_fibres_from detour ⟨0, 1⟩, e.1 = ⟨0, 2⟩ → e.2 = 1 := by decide
    have hw1 : w = 1 := hl (_, w) hw rfl
    subst hw1
    exact absurd he (by decide)

/-! ## The scenario of the specification under every iteration order -/

theorem mem_fibreOrders {xp xp' : Xpoint} (h : XpReorder xp xp') : xp' ∈ fibreOrders xp := by
  obtain ⟨h1, h2, h3, h4, h5, h6⟩ := h
  unfold fibreOrders
  rw [List.mem_map]
  refine ⟨xp'.fibres, List.mem_permutations'.mpr h2, ?_⟩
  cases xp
  cases xp'
  simp only at h1 h3 h4 h5 h6
  simp [h1, h3, h4, h5, h6]

theorem mem_entryOrders {m l : XMap}
    (h : List.Forall₂ (fun e e' => e'.1 = e.1 ∧ XpReorder e.2 e'.2) m l) :
    l ∈ entryOrders m := by
  induction m generalizing l with
  | nil =>
    cases h
    simp [entryOrders]
  | cons e t ih =>
    cases h with
    | cons hd htl =>
      rename_i e' t'
      obtain ⟨k, xp⟩ := e
      obtain ⟨k', xp'⟩ := e'
      obtain ⟨hk, hx⟩ := hd
      simp only at hk hx
      subst hk
      simp only [entryOrders, List.mem_flatMap, List.mem_map]
      exact ⟨xp', mem_fibreOrders hx, t', ih htl, rfl⟩

theorem mem_networkOrders {g g' : Network} (h : Reorder g g') : g' ∈ networkOrders g := by
  obtain ⟨h1, l, h2, h3⟩ := h
  unfold networkOrders
  rw [List.mem_map]
  refine ⟨g'.xpoints_, ?_, ?_⟩
  · rw [List.mem_flatMap]
    exact ⟨l, mem_entryOrders h2, List.mem_permutations'.mpr h3.symm⟩
  · cases g
    cases g'
    simp only at h1
    simp [h1]

set_option maxRecDepth 100000 in
theorem scenario_route_fastest_all_orders :
    ∀ g1 ∈ networkOrders (add_fibre Network.empty ⟨0, 0⟩ ⟨1, 1⟩ 5).2,
      ∀ g2 ∈ networkOrders (add_fibre g1 ⟨1, 1⟩ ⟨2, 2⟩ 3).2,
        ∀ g3 ∈ networkOrders (add_fibre g2 ⟨0, 0⟩ ⟨2, 2⟩ 10).2,
          (route_fastest g3 ⟨0, 0⟩ ⟨2, 2⟩).map Prod.fst =
            some [(⟨0, 0⟩, 0), (⟨1, 1⟩, 5), (⟨2, 2⟩, 8)] := by
  decide!

/-- **C8.** Starting from the empty network, after `add_fibre((0,0),(1,1),5)`,
`add_fibre((1,1),(2,2),3)` and `add_fibre((0,0),(2,2),10)`, with the unordered maps iterated
in any order after each call, `route_fastest((0,0),(2,2))` returns exactly
`[((0,0),0), ((1,1),5), ((2,2),8)]`. -/
theorem C8_scenario_route_fastest (g1 g2 g3 : Network)
    (h1 : Reorder (add_fibre Network.empty ⟨0, 0⟩ ⟨1, 1⟩ 5).2 g1)
    (h2 : Reorder (add_fibre g1 ⟨1, 1⟩ ⟨2, 2⟩ 3).2 g2)
    (h3 : Reorder (add_fibre g2 ⟨0, 0⟩ ⟨2, 2⟩ 10).2 g3) :
    (route_fastest g3 ⟨0, 0⟩ ⟨2, 2⟩).map Prod.fst =
      some [(⟨0, 0⟩, 0), (⟨1, 1⟩, 5), (⟨2, 2⟩, 8)] :=
  scenario_route_fastest_all_orders g1 (mem_networkOrders h1) g2 (mem_networkOrders h2)
    g3 (mem_networkOrders h3)

/-- Instance of C8 with the maps iterated in the order of the model: the state is `scenario`. -/
theorem C8_scenario_route_fastest_witness :
    (route_fastest scenario ⟨0, 0⟩ ⟨2, 2⟩).map Prod.fst =
      some [(⟨0, 0⟩, 0), (⟨1, 1⟩, 5), (⟨2, 2⟩, 8)] :=
  C8_scenario_route_fastest _ _ scenario (Reorder.self _) (Reorder.self _) (Reorder.self _)

/-! ## When `add_fibre` and `remove_fibre` refuse -/

theorem add_fibre_of_nb (g : Network) (hwf : WFMap g.xpoints_) (a b : Coord) (cost w : Cost)
    (h : nb g.xpoints_ a b = some w) : add_fibre g a b cost = (false, g) := by
  have hab : a ≠ b := hwf.ne_of_nb h
  have ha := find_of_stored (stored_of_nb h)
  have hb := find_of_stored (stored_of_nb (hwf.sym a b w h))
  have hn : (find (deref g.xpoints_ a).fibres b).isSome = true := by
    unfold nb at h
    rw [h]
    rfl
  unfold add_fibre
  simp only [hab, if_false, ha, hb, Option.isNone_some, Bool.false_eq_true, hn, if_true]

theorem add_fibre_false_iff (g : Network) (hwf : WFMap g.xpoints_) (a b : Coord) (cost : Cost) :
    (add_fibre g a b cost).1 = false ↔ (a = b ∨ Joined g a b) := by
  constructor
  · intro h
    by_cases hab : a = b
    · exact Or.inl hab
    · right
      cases hn : nb g.xpoints_ a b with
      | none =>
        rw [add_fibre_eq g a b cost hab hn] at h
        exact absurd h (by simp)
      | some w => exact (joined_iff g hwf a b).mpr ⟨w, hn⟩
  · rintro (hab | hj)
    · subst hab
      simp [add_fibre]
    · obtain ⟨w, hw⟩ := (joined_iff g hwf a b).mp hj
      rw [add_fibre_of_nb g hwf a b cost w hw]

theorem remove_fibre_false_iff (g : Network) (hwf : WFMap g.xpoints_) (a b : Coord) :
    (remove_fibre g a b).1 = false ↔ ¬ Joined g a b := by
  constructor
  · intro h hj
    obtain ⟨w, hw⟩ := (joined_iff g hwf a b).mp hj
    rw [remove_fibre_eq g a b w w hw (hwf.sym a b w hw)] at h
    exact absurd h (by simp)
  · intro hj
    cases hf : (remove_fibre g a b).1 with
    | false => rfl
    | true =>
      exfalso
      apply hj
      have := (remove_fibre_fst g a b hf).1
      cases hn : nb g.xpoints_ a b with
      | none =>
        rw [hn] at this
        exact absurd this (by simp)
      | some w => exact (joined_iff g hwf a b).mpr ⟨w, hn⟩

/-- **C11.** In every reachable state, `add_fibre(a, b, cost)` returns `false` exactly when
`a == b` or a fibre between `a` and `b` exists, `remove_fibre(a, b)` returns `false` exactly
when no fibre between `a` and `b` exists (so also when `a` or `b` is not stored), and an
operation that returns `false` leaves what `all_xpoints`, `all_fibres` and `get_fibres_from`
return unchanged. -/
theorem C11_fibre_mutators_refuse (g : Network) (hr : Reachable g) (a b : Coord) (cost : Cost) :
    ((add_fibre g a b cost).1 = false ↔ (a = b ∨ Joined g a b)) ∧
    ((remove_fibre g a b).1 = false ↔ ¬ Joined g a b) ∧
    ((a ∉ all_xpoints g ∨ b ∉ all_xpoints g) → (remove_fibre g a b).1 = false) ∧
    ((add_fibre g a b cost).1 = false →
      all_xpoints (add_fibre g a b cost).2 = all_xpoints g ∧
      all_fibres (add_fibre g a b cost).2 = all_fibres g ∧
      ∀ p, get_fibres_from (add_fibre g a b cost).2 p = get_fibres_from g p) ∧
    ((remove_fibre g a b).1 = false →
      all_xpoints (remove_fibre g a b).2 = all_xpoints g ∧
      all_fibres (remove_fibre g a b).2 = all_fibres g ∧
      ∀ p, get_fibres_from (remove_fibre g a b).2 p = get_fibres_from g p) := by
  have hwf := hr.wf.map
  refine ⟨add_fibre_false_iff g hwf a b cost, remove_fibre_false_iff g hwf a b, ?_, ?_, ?_⟩
  · intro h
    rw [remove_fibre_false_iff g hwf a b]
    intro hj
    obtain ⟨w, hw⟩ := (joined_iff g hwf a b).mp hj
    rcases h with h | h
    · exact h ((mem_all_xpoints g a).mpr (stored_of_nb hw))
    · exact h ((mem_all_xpoints g b).mpr (stored_of_nb (hwf.sym a b w hw)))
  · intro h
    have e : (add_fibre g a b cost).2 = g := by
      rcases (add_fibre_false_iff g hwf a b cost).mp h with hab | hj
      · subst hab
        simp [add_fibre]
      · obtain ⟨w, hw⟩ := (joined_iff g hwf a b).mp hj
        rw [add_fibre_of_nb g hwf a b cost w hw]
    rw [e]
    exact ⟨rfl, rfl, fun _ => rfl⟩
  · intro h
    have e : (remove_fibre g a b).2 = g :=
      remove_fibre_snd_of_not g a b (by rw [h]; simp)
    rw [e]
    exact ⟨rfl, rfl, fun _ => rfl⟩

/-- Instance of C11 on the scenario network: the fibre `(0,0)-(1,1)` exists, so adding it
again is refused. -/
theorem C11_fibre_mutators_refuse_witness :
    (add_fibre scenario ⟨0, 0⟩ ⟨1, 1⟩ 4).1 = false ∧
    (remove_fibre scenario ⟨0, 0⟩ ⟨3, 3⟩).1 = false ∧
    (((add_fibre scenario ⟨0, 0⟩ ⟨1, 1⟩ 4).1 = false ↔
      ((⟨0, 0⟩ : Coord) = ⟨1, 1⟩ ∨ Joined scenario ⟨0, 0⟩ ⟨1, 1⟩)) ∧
    ((remove_fibre scenario ⟨0, 0⟩ ⟨1, 1⟩).1 = false ↔ ¬ Joined scenario ⟨0, 0⟩ ⟨1, 1⟩) ∧
    (((⟨0, 0⟩ : Coord) ∉ all_xpoints scenario ∨ (⟨1, 1⟩ : Coord) ∉ all_xpoints scenario) →
      (remove_fibre scenario ⟨0, 0⟩ ⟨1, 1⟩).1 = false) ∧
    ((add_fibre scenario ⟨0, 0⟩ ⟨1, 1⟩ 4).1 = false →
      all_xpoints (add_fibre scenario ⟨0, 0⟩ ⟨1, 1⟩ 4).2 = all_xpoints scenario ∧
      all_fibres (add_fibre scenario ⟨0, 0⟩ ⟨1, 1⟩ 4).2 = all_fibres scenario ∧
      ∀ p, get_fibres_from (add_fibre scenario ⟨0, 0⟩ ⟨1, 1⟩ 4).2 p =
        get_fibres_from scenario p) ∧
    ((remove_fibre scenario ⟨0, 0⟩ ⟨1, 1⟩).1 = false →
      all_xpoints (remove_fibre scenario ⟨0, 0⟩ ⟨1, 1⟩).2 = all_xpoints scenario ∧
      all_fibres (remove_fibre scenario ⟨0, 0⟩ ⟨1, 1⟩).2 = all_fibres scenario ∧
      ∀ p, get_fibres_from (remove_fibre scenario ⟨0, 0⟩ ⟨1, 1⟩).2 p =
        get_fibres_from scenario p)) :=
  ⟨by decide, by decide, C11_fibre_mutators_refuse scenario scenario_reachable ⟨0, 0⟩ ⟨1, 1⟩ 4⟩

/-! ## Maps keyed by beacon id -/

section BeaconMapLemmas

variable {β : Type}

theorem findB_modifyB (f : β → β) (m : List (BeaconID × β)) (c c' : BeaconID) :
    findB (modifyB f m c) c' = if c = c' then (findB m c).map f else findB m c' := by
  induction m with
  | nil => simp [modifyB, findB]
  | cons e t ih =>
    obtain ⟨k, v⟩ := e
    by_cases hk : k = c
    · subst hk
      by_cases hc : k = c' <;> simp [modifyB, findB, hc]
    · by_cases hc : c = c'
      · subst hc
        simp [modifyB, findB, hk, ih]
      · by_cases hk' : k = c'
        · subst hk'
          simp [modifyB, findB, hk, hc]
        · simp [modifyB, findB, hk, hk', hc, ih]

theorem findB_modifyB_same (f : β → β) (m : List (BeaconID × β)) (c : BeaconID) :
    findB (modifyB f m c) c = (findB m c).map f := by
  simp [findB_modifyB]

theorem findB_modifyB_ne (f : β → β) (m : List (BeaconID × β)) {c c' : BeaconID} (h : c ≠ c') :
    findB (modifyB f m c) c' = findB m c' := by
  simp [findB_modifyB, h]

theorem map_fst_modifyB (f : β → β) (m : List (BeaconID × β)) (c : BeaconID) :
    (modifyB f m c).map Prod.fst = m.map Prod.fst := by
  induction m with
  | nil => rfl
  | cons e t ih =>
    obtain ⟨k, v⟩ := e
    by_cases hk : k = c <;> simp [modifyB, hk, ih]

theorem length_modifyB (f : β → β) (m : List (BeaconID × β)) (c : BeaconID) :
    (modifyB f m c).length = m.length := by
  have := congrArg List.length (map_fst_modifyB f m c)
  simpa using this

theorem modifyB_of_findB_none (f : β → β) (m : List (BeaconID × β)) (c : BeaconID)
    (h : findB m c = none) : modifyB f m c = m := by
  induction m with
  | nil => rfl
  | cons e t ih =>
    obtain ⟨k, v⟩ := e
    by_cases hk : k = c
    · simp [findB, hk] at h
    · simp only [findB, hk, if_false] at h
      simp [modifyB, hk, ih h]

theorem findB_eraseB (m : List (BeaconID × β)) (c c' : BeaconID) :
    findB (eraseB m c) c' = if c = c' then none else findB m c' := by
  induction m with
  | nil => simp [eraseB, findB]
  | cons e t ih =>
    obtain ⟨k, v⟩ := e
    unfold eraseB at ih ⊢
    by_cases hk : k = c
    · subst hk
      by_cases hc : k = c'
      · subst hc
        simpa [List.filter] using ih
      · simpa [List.filter, findB, hc] using ih
    · by_cases hc : c = c'
      · subst hc
        simpa [List.filter, findB, hk] using ih
      · by_cases hk' : k = c'
        · subst hk'
          simp [List.filter, findB, hk, hc]
        · simpa [List.filter, findB, hk, hk', hc] using ih

theorem findB_assignB (m : List (BeaconID × β)) (c c' : BeaconID) (v : β) :
    findB (assignB m c v) c' = if c = c' then some v else findB m c' := by
  unfold assignB
  cases hf : findB m c with
  | some x =>
    simp only [Option.isSome_some, if_true, findB_modifyB, hf, Option.map_some']
  | none =>
    simp only [Option.isSome_none, Bool.false_eq_true, if_false, findB]

theorem findB_eq_none_iff (m : List (BeaconID × β)) (c : BeaconID) :
    findB m c = none ↔ c ∉ m.map Prod.fst := by
  induction m with
  | nil => simp [findB]
  | cons e t ih =>
    obtain ⟨k, v⟩ := e
    by_cases hk : k = c
    · simp [findB, hk]
    · simp only [findB, hk, if_false, ih, List.map_cons, List.mem_cons]
      constructor
      · intro h1 h2
        rcases h2 with h2 | h2
        · exact hk h2.symm
        · exact h1 h2
      · intro h1 h2
        exact h1 (Or.inr h2)

theorem findB_isSome_iff (m : List (BeaconID × β)) (c : BeaconID) :
    (findB m c).isSome ↔ c ∈ m.map Prod.fst := by
  rw [← not_iff_not, ← findB_eq_none_iff]
  cases findB m c <;> simp

theorem mem_of_findB (m : List (BeaconID × β)) (c : BeaconID) (v : β) (h : findB m c = some v) :
    (c, v) ∈ m := by
  induction m with
  | nil => simp [findB] at h
  | cons e t ih =>
    obtain ⟨k, w⟩ := e
    by_cases hk : k = c
    · simp only [findB, hk, if_true, Option.some.injEq] at h
      simp [hk, h]
    · simp only [findB, hk, if_false] at h
      exact List.mem_cons_of_mem _ (ih h)

theorem findB_of_mem (m : List (BeaconID × β)) (hnd : (m.map Prod.fst).Nodup) (c : BeaconID) (v : β)
    (h : (c, v) ∈ m) : findB m c = some v := by
  induction m with
  | nil => simp at h
  | cons e t ih =>
    obtain ⟨k, w⟩ := e
    simp only [List.map_cons, List.nodup_cons] at hnd
    rcases List.mem_cons.mp h with h | h
    · simp only [Prod.mk.injEq] at h
      simp [findB, h.1, h.2]
    · have hk : k ≠ c := by
        rintro rfl
        exact hnd.1 (List.mem_map.mpr ⟨(k, v), h, rfl⟩)
      simp only [findB, hk, if_false]
      exact ih hnd.2 h

theorem mem_iff_findB (m : List (BeaconID × β)) (hnd : (m.map Prod.fst).Nodup) (c : BeaconID) (v : β) :
    (c, v) ∈ m ↔ findB m c = some v :=
  ⟨findB_of_mem m hnd c v, mem_of_findB m c v⟩

theorem map_fst_eraseB (m : List (BeaconID × β)) (c : BeaconID) :
    (eraseB m c).map Prod.fst = (m.map Prod.fst).filter (fun k => !decide (k = c)) := by
  induction m with
  | nil => rfl
  | cons e t ih =>
    obtain ⟨k, v⟩ := e
    unfold eraseB at ih ⊢
    by_cases hk : k = c <;> simp [List.filter, hk, ih]

theorem eraseB_of_findB_none (m : List (BeaconID × β)) (c : BeaconID) (h : findB m c = none) :
    eraseB m c = m := by
  unfold eraseB
  rw [List.filter_eq_self]
  intro e he
  have := (findB_eq_none_iff m c).mp h
  simp only [Bool.not_eq_eq_eq_not, Bool.not_true, decide_eq_false_iff_not]
  rintro rfl
  exact this (List.mem_map.mpr ⟨e, he, rfl⟩)

theorem nodup_keys_eraseB (m : List (BeaconID × β)) (c : BeaconID) (h : (m.map Prod.fst).Nodup) :
    ((eraseB m c).map Prod.fst).Nodup := by
  rw [map_fst_eraseB]
  exact h.filter _

theorem nodup_keys_assignB (m : List (BeaconID × β)) (c : BeaconID) (v : β)
    (h : (m.map Prod.fst).Nodup) : ((assignB m c v).map Prod.fst).Nodup := by
  unfold assignB
  by_cases hs : (findB m c).isSome
  · simp only [hs, if_true, map_fst_modifyB]
    exact h
  · simp only [hs]
    simp only [Bool.false_eq_true, if_false, List.map_cons, List.nodup_cons]
    refine ⟨?_, h⟩
    rw [← findB_eq_none_iff]
    cases hf : findB m c with
    | none => rfl
    | some x => simp [hf] at hs

end BeaconMapLemmas

/-! ## Reachable registry states and the target relation -/

theorem RegReach.weaken {p p' : BeaconID → Prop} {q q' : Registry → BeaconID → BeaconID → Prop}
    (hp : ∀ i, p i → p' i) (hq : ∀ g s t, q g s t → q' g s t) {g : Registry}
    (h : RegReach p q g) : RegReach p' q' g := by
  induction h with
  | init => exact RegReach.init
  | add_beacon g id name xy color _ hid ih => exact RegReach.add_beacon g id name xy color ih (hp id hid)
  | change_beacon_name g id n _ ih => exact RegReach.change_beacon_name g id n ih
  | change_beacon_color g id c _ ih => exact RegReach.change_beacon_color g id c ih
  | add_lightbeam g s t _ hb ih => exact RegReach.add_lightbeam g s t ih (fun e => hq g s t (hb e))
  | remove_beacon g g' id b _ hrm ih => exact RegReach.remove_beacon g g' id b ih hrm
  | clear_beacons g _ ih => exact RegReach.clear_beacons g ih
  | reorder g g' _ hro ih => exact RegReach.reorder g g' ih hro

theorem RegProper.reachable {g : Registry} (h : RegProper g) : RegReachable g :=
  RegReach.weaken (fun _ _ => trivial) (fun _ _ _ _ => trivial) h

theorem RegGuarded.toReachable {g : Registry} (h : RegGuarded g) : RegReachable g :=
  RegReach.weaken (fun _ h => h) (fun _ _ _ _ => trivial) h

theorem findB_perm {β : Type} {l l' : List (BeaconID × β)} (hp : l.Perm l')
    (h : (l.map Prod.fst).Nodup) (c : BeaconID) : findB l c = findB l' c := by
  have h' : (l'.map Prod.fst).Nodup := (hp.map Prod.fst).nodup_iff.mp h
  cases hf : findB l' c with
  | none =>
    rw [findB_eq_none_iff] at hf ⊢
    intro hc
    exact hf ((hp.map Prod.fst).mem_iff.mp hc)
  | some v =>
    rw [← mem_iff_findB l' h'] at hf
    rw [← mem_iff_findB l h]
    exact hp.mem_iff.mpr hf

theorem mem_all_beacons (g : Registry) (id : BeaconID) :
    id ∈ all_beacons g ↔ (findB g.beacons_ id).isSome = true := by
  unfold all_beacons
  rw [findB_isSome_iff]

/-! ### The order indexes keep their ids -/

theorem mmInsert_perm {κ ν : Type} (lt : κ → κ → Bool) (k : κ) (v : ν) (l : List (κ × ν)) :
    (mmInsert lt k v l).Perm ((k, v) :: l) := by
  induction l with
  | nil => exact List.Perm.refl _
  | cons e t ih =>
    unfold mmInsert
    split
    · exact List.Perm.refl _
    · exact ((List.Perm.cons e ih).trans (List.Perm.swap _ _ _))

theorem mmExtract_perm {κ ν : Type} (lt : κ → κ → Bool) (k : κ) (l : List (κ × ν)) :
    ((mmExtract lt k l).1.toList ++ (mmExtract lt k l).2).Perm l := by
  induction l with
  | nil => simp [mmExtract]
  | cons e t ih =>
    unfold mmExtract
    split
    · simp
    · simp only
      exact (List.perm_middle).trans (List.Perm.cons e ih)

theorem map_snd_eraseFirst {κ : Type} (id : BeaconID) (l : List (κ × BeaconID)) :
    (eraseFirst id l).map Prod.snd = (l.map Prod.snd).erase id := by
  induction l with
  | nil => rfl
  | cons e t ih =>
    unfold eraseFirst
    by_cases he : e.2 = id
    · simp [he]
    · simp only [he, if_false, List.map_cons, ih]
      rw [List.erase_cons_tail]
      simpa using he

/-! ### What the mutators do to `beacons_` and to the indexes -/

theorem add_beacon_of_present (g : Registry) (id : BeaconID) (name : String) (xy : Coord)
    (color : Color) (h : (findB g.beacons_ id).isSome = true) :
    add_beacon g id name xy color = (false, g) := by
  unfold add_beacon
  rw [if_pos h]

theorem add_beacon_of_absent (g : Registry) (id : BeaconID) (name : String) (xy : Coord)
    (color : Color) (h : findB g.beacons_ id = none) :
    add_beacon g id name xy color =
      (true, { beacons_ := (id, { id := id, name := name, coords := xy, color := color,
                                  brightness := get_brightness color, target := NO_ID,
                                  sources := [] }) :: g.beacons_,
               alphabetical_order_ := mmInsert strLt name id g.alphabetical_order_,
               brightness_order_ := mmInsert intLt (get_brightness color) id
                 g.brightness_order_ }) := by
  unfold add_beacon assignB
  simp [h]

theorem change_beacon_name_beacons (g : Registry) (id : BeaconID) (newname : String) :
    (change_beacon_name g id newname).2.beacons_ =
      modifyB (fun b => { b with name := newname }) g.beacons_ id := by
  unfold change_beacon_name
  cases hf : findB g.beacons_ id with
  | none => simp only [modifyB_of_findB_none _ _ _ hf]
  | some result =>
    simp only
    split
    · split <;> rfl
    · rfl

theorem change_beacon_name_bright (g : Registry) (id : BeaconID) (newname : String) :
    (change_beacon_name g id newname).2.brightness_order_ = g.brightness_order_ := by
  unfold change_beacon_name
  cases hf : findB g.beacons_ id with
  | none => rfl
  | some result =>
    simp only
    split
    · split <;> rfl
    · rfl

theorem change_beacon_name_alpha (g : Registry) (id : BeaconID) (newname : String) :
    ((change_beacon_name g id newname).2.alphabetical_order_.map Prod.snd).Perm
      (g.alphabetical_order_.map Prod.snd) := by
  unfold change_beacon_name
  cases hf : findB g.beacons_ id with
  | none => exact List.Perm.refl _
  | some result =>
    simp only
    split
    · rename_i i _
      have hp := mmExtract_perm strLt i.1 g.alphabetical_order_
      split
      · rename_i nh rest he
        rw [he] at hp
        simp only [Option.toList_some, List.singleton_append] at hp
        have h1 := (mmInsert_perm strLt newname nh.2 rest).map Prod.snd
        have h2 := hp.map Prod.snd
        simp only [List.map_cons] at h1 h2
        exact h1.trans h2
      · rename_i rest he
        rw [he] at hp
        simp only [Option.toList_none, List.nil_append] at hp
        exact hp.map Prod.snd
    · exact List.Perm.refl _

theorem change_beacon_color_beacons (g : Registry) (id : BeaconID) (newcolor : Color) :
    (change_beacon_color g id newcolor).2.beacons_ =
      modifyB (fun b => { b with color := newcolor, brightness := get_brightness newcolor })
        g.beacons_ id := by
  unfold change_beacon_color
  cases hf : findB g.beacons_ id with
  | none => simp only [modifyB_of_findB_none _ _ _ hf]
  | some result =>
    simp only
    split
    · split <;> rfl
    · rfl

theorem change_beacon_color_alpha (g : Registry) (id : BeaconID) (newcolor : Color) :
    (change_beacon_color g id newcolor).2.alphabetical_order_ = g.alphabetical_order_ := by
  unfold change_beacon_color
  cases hf : findB g.beacons_ id with
  | none => rfl
  | some result =>
    simp only
    split
    · split <;> rfl
    · rfl

theorem change_beacon_color_bright (g : Registry) (id : BeaconID) (newcolor : Color) :
    ((change_beacon_color g id newcolor).2.brightness_order_.map Prod.snd).Perm
      (g.brightness_order_.map Prod.snd) := by
  unfold change_beacon_color
  cases hf : findB g.beacons_ id with
  | none => exact List.Perm.refl _
  | some result =>
    simp only
    split
    · rename_i i _
      have hp := mmExtract_perm intLt i.1 g.brightness_order_
      split
      · rename_i nh rest he
        rw [he] at hp
        simp only [Option.toList_some, List.singleton_append] at hp
        have h1 := (mmInsert_perm intLt (get_brightness newcolor) nh.2 rest).map Prod.snd
        have h2 := hp.map Prod.snd
        simp only [List.map_cons] at h1 h2
        exact h1.trans h2
      · rename_i rest he
        rw [he] at hp
        simp only [Option.toList_none, List.nil_append] at hp
        exact hp.map Prod.snd
    · exact List.Perm.refl _

theorem add_lightbeam_true (g : Registry) (s t : BeaconID)
    (h : (add_lightbeam g s t).1 = true) :
    (∃ bs, findB g.beacons_ s = some bs ∧ bs.target = NO_ID) ∧
      (findB g.beacons_ t).isSome = true ∧
      (add_lightbeam g s t).2 = { g with beacons_ := wire g.beacons_ s t } := by
  unfold add_lightbeam at h ⊢
  cases hs : findB g.beacons_ s with
  | none => simp [hs] at h
  | some bs =>
    cases ht : findB g.beacons_ t with
    | none => simp [hs, ht] at h
    | some bt =>
      simp only [hs, ht] at h ⊢
      by_cases hc : bs.target ≠ NO_ID
      · simp [hc] at h
      · simp only [hc, if_false]
        refine ⟨⟨bs, rfl, not_not.mp hc⟩, rfl, rfl⟩

theorem add_lightbeam_false (g : Registry) (s t : BeaconID)
    (h : (add_lightbeam g s t).1 = false) : (add_lightbeam g s t).2 = g := by
  unfold add_lightbeam at h ⊢
  cases hs : findB g.beacons_ s with
  | none => rfl
  | some bs =>
    cases ht : findB g.beacons_ t with
    | none => rfl
    | some bt =>
      simp only [hs, ht] at h ⊢
      by_cases hc : bs.target ≠ NO_ID
      · simp [hc]
      · simp [hc] at h

theorem add_lightbeam_of (g : Registry) (s t : BeaconID) (bs : Beacon)
    (hs : findB g.beacons_ s = some bs) (ht : (findB g.beacons_ t).isSome = true)
    (hn : bs.target = NO_ID) :
    add_lightbeam g s t = (true, { g with beacons_ := wire g.beacons_ s t }) := by
  unfold add_lightbeam
  cases hf : findB g.beacons_ t with
  | none => simp [hf] at ht
  | some bt => simp [hs, hn, wire]

theorem findB_wire (m : List (BeaconID × Beacon)) (s t k : BeaconID) :
    findB (wire m s t) k = (findB m k).map (fun b =>
      { b with target := if k = s then t else b.target,
               sources := if k = t then b.sources ++ [s] else b.sources }) := by
  unfold wire
  simp only [findB_modifyB]
  by_cases h1 : t = k
  · by_cases h2 : s = k
    · subst h1
      subst h2
      cases findB m s <;> simp
    · subst h1
      have h2' : ¬ t = s := fun e => h2 e.symm
      cases findB m t <;> simp [h2, h2']
  · have h1' : ¬ k = t := fun e => h1 e.symm
    by_cases h2 : s = k
    · subst h2
      cases findB m s <;> simp [h1, h1']
    · have h2' : ¬ k = s := fun e => h2 e.symm
      cases findB m k <;> simp [h1, h2, h1', h2']

theorem map_fst_wire (m : List (BeaconID × Beacon)) (s t : BeaconID) :
    (wire m s t).map Prod.fst = m.map Prod.fst := by
  unfold wire
  rw [map_fst_modifyB, map_fst_modifyB]

/-! ### `remove_beacon` -/

theorem clear_targets_spec (L : List BeaconID) :
    ∀ (m : List (BeaconID × Beacon)), (∀ s ∈ L, (findB m s).isSome = true) →
      ∃ m', clear_targets L m = some m' ∧ m'.map Prod.fst = m.map Prod.fst ∧
        ∀ k, findB m' k = (findB m k).map
          (fun b => { b with target := if k ∈ L then NO_ID else b.target }) := by
  induction L with
  | nil =>
    intro m _
    refine ⟨m, rfl, rfl, ?_⟩
    intro k
    cases findB m k <;> simp
  | cons s rest ih =>
    intro m h
    have hs := h s (List.mem_cons_self _ _)
    obtain ⟨bs, hbs⟩ := Option.isSome_iff_exists.mp hs
    have hrest : ∀ x ∈ rest,
        (findB (modifyB (fun b => { b with target := NO_ID }) m s) x).isSome = true := by
      intro x hx
      rw [findB_isSome_iff, map_fst_modifyB, ← findB_isSome_iff]
      exact h x (List.mem_cons_of_mem _ hx)
    obtain ⟨m', h1, h2, h3⟩ := ih _ hrest
    refine ⟨m', ?_, ?_, ?_⟩
    · simp only [clear_targets, hbs]
      exact h1
    · rw [h2, map_fst_modifyB]
    · intro k
      rw [h3, findB_modifyB]
      by_cases hk : s = k
      · subst hk
        cases findB m s <;> simp
      · have hk' : ¬ k = s := fun e => hk e.symm
        cases findB m k <;> simp [hk, hk']

theorem clear_targets_some (L : List BeaconID) :
    ∀ (m m' : List (BeaconID × Beacon)), clear_targets L m = some m' →
      ∀ s ∈ L, (findB m s).isSome = true := by
  induction L with
  | nil =>
    intro _ _ _ s hs
    simp at hs
  | cons x rest ih =>
    intro m m' h s hs
    cases hx : findB m x with
    | none => simp [clear_targets, hx] at h
    | some bx =>
      simp only [clear_targets, hx] at h
      rcases List.mem_cons.mp hs with e | e
      · rw [e, hx]
        rfl
      · have := ih _ _ h s e
        rw [findB_isSome_iff, map_fst_modifyB, ← findB_isSome_iff] at this
        exact this

theorem erase_remove_if_eq_some (v w : List BeaconID) (id : BeaconID) :
    erase_remove_if v id = some w ↔
      v.count id = 1 ∧ w = withoutId id v := by
  unfold erase_remove_if withoutId
  by_cases h : v.count id = 1
  · simp [h, eq_comm]
  · simp [h]

theorem remove_beacon_absent (g : Registry) (id : BeaconID) (h : findB g.beacons_ id = none) :
    remove_beacon g id = some (false, g) := by
  unfold remove_beacon
  rw [h]

theorem modifyB_congr {β : Type} (f f' : β → β) (m : List (BeaconID × β)) (c : BeaconID)
    (h : ∀ v, findB m c = some v → f v = f' v) : modifyB f m c = modifyB f' m c := by
  induction m with
  | nil => rfl
  | cons e t ih =>
    obtain ⟨k, v⟩ := e
    by_cases hk : k = c
    · have := h v (by simp [findB, hk])
      simp [modifyB, hk, this]
    · have h' : ∀ v, findB t c = some v → f v = f' v := by
        intro v hv
        exact h v (by simp [findB, hk, hv])
      simp [modifyB, hk, ih h']

/-- The first step of `remove_beacon`: the removed beacon leaves the sources of its target. -/
theorem unlink_step (m : List (BeaconID × Beacon)) (id : BeaconID) (bx : Beacon)
    (bs1 : List (BeaconID × Beacon)) :
    (if bx.target ≠ NO_ID then
        match findB m bx.target with
        | none => none
        | some t =>
          (erase_remove_if t.sources id).map
            (fun v => modifyB (fun b => { b with sources := v }) m bx.target)
      else some m) = some bs1 ↔
    ((bx.target ≠ NO_ID → ∃ t, findB m bx.target = some t ∧ t.sources.count id = 1) ∧
      bs1 = if bx.target ≠ NO_ID then
              modifyB (fun b => { b with sources := withoutId id b.sources }) m bx.target
            else m) := by
  by_cases hT : bx.target ≠ NO_ID
  · simp only [hT, if_true, ne_eq, not_false_eq_true, true_implies]
    cases ht : findB m bx.target with
    | none => simp
    | some t =>
      simp only [Option.map_eq_some', erase_remove_if_eq_some, Option.some.injEq,
        exists_eq_left']
      constructor
      · rintro ⟨v, ⟨hc, hv⟩, hb⟩
        refine ⟨hc, ?_⟩
        rw [← hb, hv]
        apply modifyB_congr
        intro w hw
        rw [ht] at hw
        injection hw with hw
        rw [hw]
      · rintro ⟨hc, hb⟩
        refine ⟨_, ⟨hc, rfl⟩, ?_⟩
        rw [hb]
        apply modifyB_congr
        intro w hw
        rw [ht] at hw
        injection hw with hw
        rw [hw]
  · simp only [hT, if_false, Option.some.injEq, false_implies, true_and]
    exact eq_comm

theorem findB_unlinked (m : List (BeaconID × Beacon)) (id : BeaconID) (bx : Beacon)
    (k : BeaconID) :
    findB (if bx.target ≠ NO_ID then
        modifyB (fun b => { b with sources := withoutId id b.sources }) m bx.target
      else m) k =
    (findB m k).map (fun b => { b with sources :=
      if bx.target ≠ NO_ID ∧ k = bx.target then withoutId id b.sources else b.sources }) := by
  by_cases hT : bx.target ≠ NO_ID
  · rw [if_pos hT, findB_modifyB]
    by_cases hk : bx.target = k
    · subst hk
      rw [if_pos rfl]
      cases findB m bx.target with
      | none => rfl
      | some bk =>
        have hc : bx.target ≠ NO_ID ∧ bx.target = bx.target := ⟨hT, rfl⟩
        rw [Option.map_some', Option.map_some', if_pos hc]
    · have hc : ¬ (bx.target ≠ NO_ID ∧ k = bx.target) := fun e => hk e.2.symm
      rw [if_neg hk]
      cases findB m k with
      | none => rfl
      | some bk =>
        rw [Option.map_some', if_neg hc]
  · rw [if_neg hT]
    have hc : ¬ (bx.target ≠ NO_ID ∧ k = bx.target) := fun e => hT e.1
    cases findB m k with
    | none => rfl
    | some bk =>
      rw [Option.map_some', if_neg hc]

/-- What a call of `remove_beacon` on a present id that returns has done. -/
theorem remove_beacon_some (g g' : Registry) (id : BeaconID) (bx : Beacon) (b : Bool)
    (hx : findB g.beacons_ id = some bx) (h : remove_beacon g id = some (b, g')) :
    b = true ∧
    g'.alphabetical_order_ = eraseFirst id g.alphabetical_order_ ∧
    g'.brightness_order_ = eraseFirst id g.brightness_order_ ∧
    (bx.target ≠ NO_ID → ∃ t, findB g.beacons_ bx.target = some t ∧ t.sources.count id = 1) ∧
    (∀ s ∈ sourcesAfterUnlink bx id, (findB g.beacons_ s).isSome = true) ∧
    g'.beacons_.map Prod.fst = (g.beacons_.map Prod.fst).filter (fun k => !decide (k = id)) ∧
    ∀ k, findB g'.beacons_ k =
      if id = k then none else (findB g.beacons_ k).map (unlinkB bx id k) := by
  unfold remove_beacon at h
  rw [hx] at h
  simp only at h
  split at h
  · exact absurd h (by simp)
  · rename_i bs1 hU
    obtain ⟨hcond, hbs1⟩ := (unlink_step g.beacons_ id bx bs1).mp hU
    have hfind := findB_unlinked g.beacons_ id bx
    rw [← hbs1] at hfind
    have hid : findB bs1 id = some { bx with sources := sourcesAfterUnlink bx id } := by
      rw [hfind id, hx]
      simp only [Option.map_some', sourcesAfterUnlink, Option.some.injEq]
      congr 1
      by_cases hc : bx.target ≠ NO_ID ∧ id = bx.target
      · have hc' : bx.target ≠ NO_ID ∧ bx.target = id := ⟨hc.1, hc.2.symm⟩
        rw [if_pos hc, if_pos hc']
      · have hc' : ¬ (bx.target ≠ NO_ID ∧ bx.target = id) := fun e => hc ⟨e.1, e.2.symm⟩
        rw [if_neg hc, if_neg hc']
    rw [hid] at h
    simp only at h
    split at h
    · exact absurd h (by simp)
    · rename_i bs2 hC
      have hpres := clear_targets_some _ _ _ hC
      obtain ⟨m', e1, e2, e3⟩ := clear_targets_spec _ _ hpres
      rw [hC] at e1
      injection e1 with e1
      subst e1
      simp only [Option.some.injEq, Prod.mk.injEq] at h
      obtain ⟨hb, hg⟩ := h
      have hkeys : bs1.map Prod.fst = g.beacons_.map Prod.fst := by
        rw [hbs1]
        split
        · rw [map_fst_modifyB]
        · rfl
      refine ⟨hb.symm, by rw [← hg], by rw [← hg], hcond, ?_, ?_, ?_⟩
      · intro s hs
        have := hpres s hs
        rw [findB_isSome_iff, hkeys, ← findB_isSome_iff] at this
        exact this
      · rw [← hg]
        simp only
        rw [map_fst_eraseB, e2, hkeys]
      · intro k
        rw [← hg]
        simp only
        rw [findB_eraseB]
        by_cases hk : id = k
        · rw [if_pos hk, if_pos hk]
        · rw [if_neg hk, if_neg hk, e3, hfind]
          cases findB g.beacons_ k with
          | none => rfl
          | some bk => simp [unlinkB]

theorem findB_unlinked_self (m : List (BeaconID × Beacon)) (id : BeaconID) (bx : Beacon)
    (hx : findB m id = some bx) :
    findB (if bx.target ≠ NO_ID then
        modifyB (fun b => { b with sources := withoutId id b.sources }) m bx.target
      else m) id = some { bx with sources := sourcesAfterUnlink bx id } := by
  rw [findB_unlinked, hx]
  simp only [Option.map_some', sourcesAfterUnlink, Option.some.injEq]
  congr 1
  by_cases hc : bx.target ≠ NO_ID ∧ id = bx.target
  · have hc' : bx.target ≠ NO_ID ∧ bx.target = id := ⟨hc.1, hc.2.symm⟩
    rw [if_pos hc, if_pos hc']
  · have hc' : ¬ (bx.target ≠ NO_ID ∧ bx.target = id) := fun e => hc ⟨e.1, e.2.symm⟩
    rw [if_neg hc, if_neg hc']

/-- A call of `remove_beacon` on a present id returns `true` when the target of the beacon is
present and lists it once, and its own sources are present. -/
theorem remove_beacon_ok (g : Registry) (id : BeaconID) (bx : Beacon)
    (hx : findB g.beacons_ id = some bx)
    (hT : bx.target ≠ NO_ID →
      ∃ t, findB g.beacons_ bx.target = some t ∧ t.sources.count id = 1)
    (hL : ∀ s ∈ sourcesAfterUnlink bx id, (findB g.beacons_ s).isSome = true) :
    ∃ g', remove_beacon g id = some (true, g') := by
  have hU := (unlink_step g.beacons_ id bx _).mpr ⟨hT, rfl⟩
  have hid := findB_unlinked_self g.beacons_ id bx hx
  have hkeys : (if bx.target ≠ NO_ID then
        modifyB (fun b => { b with sources := withoutId id b.sources }) g.beacons_ bx.target
      else g.beacons_).map Prod.fst = g.beacons_.map Prod.fst := by
    split
    · rw [map_fst_modifyB]
    · rfl
  have hpres : ∀ s ∈ sourcesAfterUnlink bx id, (findB (if bx.target ≠ NO_ID then
        modifyB (fun b => { b with sources := withoutId id b.sources }) g.beacons_ bx.target
      else g.beacons_) s).isSome = true := by
    intro s hs
    rw [findB_isSome_iff, hkeys, ← findB_isSome_iff]
    exact hL s hs
  obtain ⟨m', e1, _, _⟩ := clear_targets_spec _ _ hpres
  unfold remove_beacon
  rw [hx]
  simp only
  split
  · rename_i heq
    exact absurd (hU.symm.trans heq) (by simp)
  · rename_i bs1 heq
    have hbs1 := ((unlink_step g.beacons_ id bx bs1).mp heq).2
    subst hbs1
    rw [hid]
    simp only
    rw [e1]
    exact ⟨_, rfl⟩

/-! ### States with the same links -/

theorem SameLinks.of_perm {m m' : List (BeaconID × Beacon)} (hnd : (m.map Prod.fst).Nodup)
    (hp : m'.Perm m) : SameLinks m m' := by
  refine ⟨hp.map Prod.fst, ?_⟩
  intro k
  have e := findB_perm hp.symm hnd k
  cases hf : findB m k with
  | none =>
    left
    exact ⟨rfl, by rw [← e, hf]⟩
  | some b =>
    right
    exact ⟨b, b, rfl, by rw [← e, hf], rfl, rfl, rfl⟩

theorem SameLinks.of_modifyB (m : List (BeaconID × Beacon)) (id : BeaconID)
    (f : Beacon → Beacon)
    (hf : ∀ b, (f b).id = b.id ∧ (f b).target = b.target ∧ (f b).sources = b.sources) :
    SameLinks m (modifyB f m id) := by
  refine ⟨by rw [map_fst_modifyB], ?_⟩
  intro k
  rw [findB_modifyB]
  by_cases hk : id = k
  · subst hk
    cases hx : findB m id with
    | none =>
      left
      simp
    | some b =>
      right
      exact ⟨b, f b, rfl, by simp, (hf b).1, (hf b).2.1, (hf b).2.2⟩
  · rw [if_neg hk]
    cases hx : findB m k with
    | none =>
      left
      exact ⟨rfl, rfl⟩
    | some b =>
      right
      exact ⟨b, b, rfl, rfl, rfl, rfl, rfl⟩

theorem SameLinks.find_some {m m' : List (BeaconID × Beacon)} (h : SameLinks m m')
    {k : BeaconID} {b' : Beacon} (hk : findB m' k = some b') :
    ∃ b, findB m k = some b ∧ b'.id = b.id ∧ b'.target = b.target ∧
      b'.sources = b.sources := by
  rcases h.2 k with ⟨_, h2⟩ | ⟨b, b'', h1, h2, h3, h4, h5⟩
  · rw [h2] at hk
    exact absurd hk (by simp)
  · rw [h2] at hk
    injection hk with hk
    subst hk
    exact ⟨b, h1, h3, h4, h5⟩

theorem SameLinks.find_some_rev {m m' : List (BeaconID × Beacon)} (h : SameLinks m m')
    {k : BeaconID} {b : Beacon} (hk : findB m k = some b) :
    ∃ b', findB m' k = some b' ∧ b'.id = b.id ∧ b'.target = b.target ∧
      b'.sources = b.sources := by
  rcases h.2 k with ⟨h1, _⟩ | ⟨b0, b', h1, h2, h3, h4, h5⟩
  · rw [h1] at hk
    exact absurd hk (by simp)
  · rw [h1] at hk
    injection hk with hk
    subst hk
    exact ⟨b', h2, h3, h4, h5⟩

theorem SameLinks.find_none {m m' : List (BeaconID × Beacon)} (h : SameLinks m m')
    {k : BeaconID} (hk : findB m k = none) : findB m' k = none := by
  rcases h.2 k with ⟨_, h2⟩ | ⟨b0, b', h1, _, _, _, _⟩
  · exact h2
  · rw [h1] at hk
    exact absurd hk (by simp)

theorem RegInv.transfer_links {g g' : Registry} (h : RegInv g)
    (hs : SameLinks g.beacons_ g'.beacons_)
    (ha : (g'.alphabetical_order_.map Prod.snd).Perm (g.alphabetical_order_.map Prod.snd))
    (hb : (g'.brightness_order_.map Prod.snd).Perm (g.brightness_order_.map Prod.snd)) :
    RegInv g' := by
  constructor
  · exact hs.1.nodup_iff.mpr h.keys_nodup
  · intro k b' hk
    obtain ⟨b, h1, h2, _, _⟩ := hs.find_some hk
    rw [h2]
    exact h.id_eq k b h1
  · intro s b' hk hT
    obtain ⟨b, h1, _, h3, _⟩ := hs.find_some hk
    rw [h3] at hT ⊢
    obtain ⟨t, ht, hmem⟩ := h.tgt s b h1 hT
    obtain ⟨t', ht', _, _, h5⟩ := hs.find_some_rev ht
    exact ⟨t', ht', by rw [h5]; exact hmem⟩
  · exact (ha.trans h.alpha).trans hs.1.symm
  · exact (hb.trans h.bright).trans hs.1.symm

theorem RegInvP.transfer_linksP {g g' : Registry} (h : RegInvP g)
    (hs : SameLinks g.beacons_ g'.beacons_)
    (ha : (g'.alphabetical_order_.map Prod.snd).Perm (g.alphabetical_order_.map Prod.snd))
    (hb : (g'.brightness_order_.map Prod.snd).Perm (g.brightness_order_.map Prod.snd)) :
    RegInvP g' := by
  constructor
  · exact h.base.transfer_links hs ha hb
  · exact hs.find_none h.no_id
  · intro t bt' s ht hmem
    obtain ⟨bt, h1, _, _, h4⟩ := hs.find_some ht
    rw [h4] at hmem
    obtain ⟨bs, hbs, htg⟩ := h.src t bt s h1 hmem
    obtain ⟨bs', hbs', _, h6, _⟩ := hs.find_some_rev hbs
    exact ⟨bs', hbs', by rw [h6]; exact htg⟩
  · intro t bt' ht
    obtain ⟨bt, h1, _, _, h4⟩ := hs.find_some ht
    rw [h4]
    exact h.src_nodup t bt h1

/-! ### The representation invariant holds in every reachable state -/

theorem RegInv.empty_reg : RegInv Registry.empty := by
  constructor
  · exact List.nodup_nil
  · intro k b h
    simp [Registry.empty, findB] at h
  · intro s b h
    simp [Registry.empty, findB] at h
  · exact List.Perm.refl _
  · exact List.Perm.refl _

theorem RegInv.add_beacon_inv {g : Registry} (h : RegInv g) (id : BeaconID) (name : String)
    (xy : Coord) (color : Color) : RegInv (add_beacon g id name xy color).2 := by
  cases hf : findB g.beacons_ id with
  | some b =>
    rw [add_beacon_of_present g id name xy color (by rw [hf]; rfl)]
    exact h
  | none =>
    rw [add_beacon_of_absent g id name xy color hf]
    have hnot : id ∉ g.beacons_.map Prod.fst := (findB_eq_none_iff _ _).mp hf
    constructor
    · simp only [List.map_cons, List.nodup_cons]
      exact ⟨hnot, h.keys_nodup⟩
    · intro k b hk
      simp only [findB] at hk
      by_cases hc : id = k
      · rw [if_pos hc] at hk
        injection hk with hk
        rw [← hk]
        exact hc
      · rw [if_neg hc] at hk
        exact h.id_eq k b hk
    · intro s b hk hT
      simp only [findB] at hk
      by_cases hc : id = s
      · rw [if_pos hc] at hk
        injection hk with hk
        rw [← hk] at hT
        exact absurd rfl hT
      · rw [if_neg hc] at hk
        obtain ⟨t, ht, hmem⟩ := h.tgt s b hk hT
        refine ⟨t, ?_, hmem⟩
        simp only [findB]
        have hne : ¬ id = b.target := by
          intro e
          rw [← e, hf] at ht
          exact absurd ht (by simp)
        rw [if_neg hne]
        exact ht
    · have := (mmInsert_perm strLt name id g.alphabetical_order_).map Prod.snd
      simp only [List.map_cons] at this ⊢
      exact this.trans (List.Perm.cons id h.alpha)
    · have := (mmInsert_perm intLt (get_brightness color) id g.brightness_order_).map Prod.snd
      simp only [List.map_cons] at this ⊢
      exact this.trans (List.Perm.cons id h.bright)

theorem change_beacon_name_links (g : Registry) (id : BeaconID) (newname : String) :
    SameLinks g.beacons_ (change_beacon_name g id newname).2.beacons_ := by
  rw [change_beacon_name_beacons]
  exact SameLinks.of_modifyB _ _ _ (fun _ => ⟨rfl, rfl, rfl⟩)

theorem change_beacon_color_links (g : Registry) (id : BeaconID) (newcolor : Color) :
    SameLinks g.beacons_ (change_beacon_color g id newcolor).2.beacons_ := by
  rw [change_beacon_color_beacons]
  exact SameLinks.of_modifyB _ _ _ (fun _ => ⟨rfl, rfl, rfl⟩)

theorem RegInv.change_name_inv {g : Registry} (h : RegInv g) (id : BeaconID) (newname : String) :
    RegInv (change_beacon_name g id newname).2 :=
  h.transfer_links (change_beacon_name_links g id newname) (change_beacon_name_alpha g id newname)
    (by rw [change_beacon_name_bright])

theorem RegInv.change_color_inv {g : Registry} (h : RegInv g) (id : BeaconID)
    (newcolor : Color) : RegInv (change_beacon_color g id newcolor).2 :=
  h.transfer_links (change_beacon_color_links g id newcolor)
    (by rw [change_beacon_color_alpha]) (change_beacon_color_bright g id newcolor)

theorem RegInv.add_lightbeam_inv {g : Registry} (h : RegInv g) (s t : BeaconID) :
    RegInv (add_lightbeam g s t).2 := by
  cases hr : (add_lightbeam g s t).1 with
  | false =>
    rw [add_lightbeam_false g s t hr]
    exact h
  | true =>
    obtain ⟨⟨bs, hbs, hn⟩, ht, he⟩ := add_lightbeam_true g s t hr
    obtain ⟨bt, hbt⟩ := Option.isSome_iff_exists.mp ht
    rw [he]
    constructor
    · simp only [map_fst_wire]
      exact h.keys_nodup
    · intro k b hk
      simp only [findB_wire] at hk
      cases hf : findB g.beacons_ k with
      | none => simp [hf] at hk
      | some b0 =>
        rw [hf] at hk
        simp only [Option.map_some', Option.some.injEq] at hk
        rw [← hk]
        exact h.id_eq k b0 hf
    · intro s' b hk hT
      simp only [findB_wire] at hk ⊢
      cases hf : findB g.beacons_ s' with
      | none => simp [hf] at hk
      | some b0 =>
        rw [hf] at hk
        simp only [Option.map_some', Option.some.injEq] at hk
        subst hk
        simp only at hT ⊢
        by_cases hc : s' = s
        · subst hc
          simp only [if_true]
          rw [hbt]
          refine ⟨_, rfl, ?_⟩
          simp
        · simp only [hc, if_false] at hT ⊢
          obtain ⟨t0, ht0, hmem⟩ := h.tgt s' b0 hf hT
          rw [ht0]
          refine ⟨_, rfl, ?_⟩
          simp only
          split
          · exact List.mem_append_left _ hmem
          · exact hmem
    · simp only [map_fst_wire]
      exact h.alpha
    · simp only [map_fst_wire]
      exact h.bright

theorem mem_sourcesAfterUnlink {bx : Beacon} {id s : BeaconID} (hs : s ∈ bx.sources)
    (hne : s ≠ id) : s ∈ sourcesAfterUnlink bx id := by
  unfold sourcesAfterUnlink withoutId
  split
  · rw [List.mem_filter]
    exact ⟨hs, by simpa using hne⟩
  · exact hs

theorem sourcesAfterUnlink_subset {bx : Beacon} {id s : BeaconID}
    (hs : s ∈ sourcesAfterUnlink bx id) : s ∈ bx.sources := by
  unfold sourcesAfterUnlink withoutId at hs
  split at hs
  · exact (List.mem_filter.mp hs).1
  · exact hs

theorem index_eraseFirst {κ : Type} (idx : List (κ × BeaconID)) (keys : List BeaconID)
    (id : BeaconID) (hnd : keys.Nodup) (hp : (idx.map Prod.snd).Perm keys) :
    ((eraseFirst id idx).map Prod.snd).Perm (keys.filter (fun k => !decide (k = id))) := by
  rw [map_snd_eraseFirst]
  have h1 := hp.erase id
  have h2 : keys.erase id = keys.filter (fun k => !decide (k = id)) := by
    rw [hnd.erase_eq_filter]
    congr 1
  rw [h2] at h1
  exact h1

theorem RegInv.remove_beacon_inv {g g' : Registry} (h : RegInv g) (id : BeaconID) (b : Bool)
    (hr : remove_beacon g id = some (b, g')) : RegInv g' := by
  cases hx : findB g.beacons_ id with
  | none =>
    rw [remove_beacon_absent g id hx] at hr
    simp only [Option.some.injEq, Prod.mk.injEq] at hr
    rw [← hr.2]
    exact h
  | some bx =>
    obtain ⟨_, ha, hb, _, _, hkeys, hfind⟩ := remove_beacon_some g g' id bx b hx hr
    constructor
    · rw [hkeys]
      exact h.keys_nodup.filter _
    · intro k bk hk
      rw [hfind] at hk
      by_cases hc : id = k
      · rw [if_pos hc] at hk
        exact absurd hk (by simp)
      · rw [if_neg hc] at hk
        cases hf : findB g.beacons_ k with
        | none => simp [hf] at hk
        | some b0 =>
          rw [hf] at hk
          simp only [Option.map_some', Option.some.injEq] at hk
          rw [← hk]
          exact h.id_eq k b0 hf
    · intro s bs hk hT
      rw [hfind] at hk
      by_cases hc : id = s
      · rw [if_pos hc] at hk
        exact absurd hk (by simp)
      · rw [if_neg hc] at hk
        cases hf : findB g.beacons_ s with
        | none => simp [hf] at hk
        | some b0 =>
          rw [hf] at hk
          simp only [Option.map_some', Option.some.injEq] at hk
          subst hk
          simp only [unlinkB] at hT ⊢
          by_cases hL : s ∈ sourcesAfterUnlink bx id
          · rw [if_pos hL] at hT
            exact absurd rfl hT
          · rw [if_neg hL] at hT ⊢
            obtain ⟨t0, ht0, hmem⟩ := h.tgt s b0 hf hT
            have hne : ¬ id = b0.target := by
              intro e
              rw [← e, hx] at ht0
              injection ht0 with ht0
              subst ht0
              exact hL (mem_sourcesAfterUnlink hmem (fun e' => hc e'.symm))
            rw [hfind, if_neg hne, ht0]
            refine ⟨_, rfl, ?_⟩
            simp only [Option.map_some', unlinkB]
            split
            · unfold withoutId
              rw [List.mem_filter]
              exact ⟨hmem, by simpa using (fun e' : s = id => hc e'.symm)⟩
            · exact hmem
    · rw [ha, hkeys]
      exact index_eraseFirst _ _ id h.keys_nodup h.alpha
    · rw [hb, hkeys]
      exact index_eraseFirst _ _ id h.keys_nodup h.bright

theorem RegInv.reorder_inv {g g' : Registry} (h : RegInv g) (hr : RegReorder g g') :
    RegInv g' :=
  h.transfer_links (SameLinks.of_perm h.keys_nodup hr.1) (by rw [hr.2.1]) (by rw [hr.2.2])

/-- Every reachable state of the registry satisfies the representation invariant. -/
theorem RegReach.inv {p : BeaconID → Prop} {q : Registry → BeaconID → BeaconID → Prop}
    {g : Registry} (h : RegReach p q g) : RegInv g := by
  induction h with
  | init => exact RegInv.empty_reg
  | add_beacon g id name xy color _ _ ih => exact ih.add_beacon_inv id name xy color
  | change_beacon_name g id n _ ih => exact ih.change_name_inv id n
  | change_beacon_color g id c _ ih => exact ih.change_color_inv id c
  | add_lightbeam g s t _ _ ih => exact ih.add_lightbeam_inv s t
  | remove_beacon g g' id b _ hrm ih => exact ih.remove_beacon_inv id b hrm
  | clear_beacons g _ _ => exact RegInv.empty_reg
  | reorder g g' _ hro ih => exact ih.reorder_inv hro

/-! ### The order of strings -/

theorem lexLt_total (a : List Char) : ∀ b, lexLt a b = false ∨ lexLt b a = false := by
  induction a with
  | nil =>
    intro b
    right
    cases b <;> rfl
  | cons x xs ih =>
    intro b
    cases b with
    | nil =>
      left
      rfl
    | cons y ys =>
      simp only [lexLt]
      by_cases h1 : x.toNat < y.toNat
      · right
        have h2 : ¬ y.toNat < x.toNat := by omega
        simp [h1, h2]
      · by_cases h2 : y.toNat < x.toNat
        · left
          simp [h1, h2]
        · simp only [h1, h2, if_false]
          exact ih ys

theorem lexLt_trans_le (a : List Char) :
    ∀ b c, lexLt b a = false → lexLt c b = false → lexLt c a = false := by
  induction a with
  | nil =>
    intro b c _ _
    cases c <;> rfl
  | cons x xs ih =>
    intro b c h1 h2
    cases b with
    | nil => simp [lexLt] at h1
    | cons y ys =>
      cases c with
      | nil => simp [lexLt] at h2
      | cons z zs =>
        simp only [lexLt] at h1 h2 ⊢
        by_cases e1 : y.toNat < x.toNat
        · simp [e1] at h1
        · rw [if_neg e1] at h1
          by_cases e2 : z.toNat < y.toNat
          · simp [e2] at h2
          · rw [if_neg e2] at h2
            have e3 : ¬ z.toNat < x.toNat := by omega
            rw [if_neg e3]
            by_cases e4 : x.toNat < z.toNat
            · rw [if_pos e4]
            · rw [if_neg e4]
              have e5 : ¬ x.toNat < y.toNat := by omega
              have e6 : ¬ y.toNat < z.toNat := by omega
              rw [if_neg e5] at h1
              rw [if_neg e6] at h2
              exact ih ys zs h1 h2

instance : IsTotal String strLe where
  total a b := by
    unfold strLe strLt
    exact (lexLt_total b.data a.data)

instance : IsTrans String strLe where
  trans a b c h1 h2 := by
    unfold strLe strLt at *
    exact lexLt_trans_le a.data b.data c.data h1 h2

theorem find_beacons_sorted (g : Registry) (name : String) :
    (find_beacons g name).Sorted strLe := by
  unfold find_beacons
  exact List.sorted_insertionSort strLe _

theorem mem_find_beacons (g : Registry) (hnd : (g.beacons_.map Prod.fst).Nodup)
    (hid : ∀ k b, findB g.beacons_ k = some b → b.id = k) (name : String) (id : BeaconID) :
    id ∈ find_beacons g name ↔ ∃ b, findB g.beacons_ id = some b ∧ b.name = name := by
  unfold find_beacons
  rw [(List.perm_insertionSort strLe _).mem_iff, List.mem_map]
  constructor
  · rintro ⟨⟨k, b⟩, hmem, he⟩
    rw [List.mem_filter] at hmem
    simp only at he
    have hf := findB_of_mem _ hnd k b hmem.1
    have := hid k b hf
    rw [he] at this
    subst this
    exact ⟨b, hf, by simpa using hmem.2⟩
  · rintro ⟨b, hf, hn⟩
    refine ⟨(id, b), ?_, hid id b hf⟩
    rw [List.mem_filter]
    exact ⟨mem_of_findB _ _ _ hf, by simpa using hn⟩

/-- **C16.** In every reachable state of the registry, for a present `id` whose name is `old`
and a `newname` different from `old`: after `change_beacon_name(id, newname)` the id is still
present, `get_coordinates(id)` and `get_color(id)` are unchanged, `find_beacons(old)` does
not contain `id`, `find_beacons(newname)` contains `id`, and the results of `find_beacons`
are in ascending order. -/
theorem C16_rename_keeps_beacon (g : Registry) (hr : RegReachable g) (id : BeaconID)
    (newname : String) (hp : id ∈ all_beacons g) (hne : newname ≠ get_name g id) :
    id ∈ all_beacons (change_beacon_name g id newname).2 ∧
    get_coordinates (change_beacon_name g id newname).2 id = get_coordinates g id ∧
    get_color (change_beacon_name g id newname).2 id = get_color g id ∧
    id ∉ find_beacons (change_beacon_name g id newname).2 (get_name g id) ∧
    id ∈ find_beacons (change_beacon_name g id newname).2 newname ∧
    ∀ name, (find_beacons (change_beacon_name g id newname).2 name).Sorted strLe := by
  have hinv : RegInv g := RegReach.inv hr
  have hinv' := hinv.change_name_inv id newname
  obtain ⟨b, hb⟩ := Option.isSome_iff_exists.mp ((mem_all_beacons g id).mp hp)
  have hfind : findB (change_beacon_name g id newname).2.beacons_ id =
      some { b with name := newname } := by
    rw [change_beacon_name_beacons, findB_modifyB_same, hb]
    rfl
  have hold : get_name g id = b.name := by
    unfold get_name
    rw [hb]
  refine ⟨?_, ?_, ?_, ?_, ?_, fun name => find_beacons_sorted _ name⟩
  · rw [mem_all_beacons, hfind]
    rfl
  · unfold get_coordinates
    rw [hfind, hb]
  · unfold get_color
    rw [hfind, hb]
  · rw [mem_find_beacons _ hinv'.keys_nodup hinv'.id_eq, hfind, hold]
    rintro ⟨b', h1, h2⟩
    injection h1 with h1
    rw [← h1] at h2
    rw [hold] at hne
    exact hne h2
  · rw [mem_find_beacons _ hinv'.keys_nodup hinv'.id_eq, hfind]
    exact ⟨_, rfl, rfl⟩

theorem twins_reachable : RegReachable twins :=
  RegReach.add_beacon _ _ _ _ _ (RegReach.add_beacon _ _ _ _ _ RegReach.init trivial) trivial

/-- Instance of C16: in the registry `twins`, whose beacons `a` and `b` are both named `x`,
the beacon `b` is renamed to `y`. -/
theorem C16_rename_keeps_beacon_witness :
    find_beacons (change_beacon_name twins "b" "y").2 "x" = ["a"] ∧
    ("b" ∈ all_beacons (change_beacon_name twins "b" "y").2 ∧
    get_coordinates (change_beacon_name twins "b" "y").2 "b" = get_coordinates twins "b" ∧
    get_color (change_beacon_name twins "b" "y").2 "b" = get_color twins "b" ∧
    "b" ∉ find_beacons (change_beacon_name twins "b" "y").2 (get_name twins "b") ∧
    "b" ∈ find_beacons (change_beacon_name twins "b" "y").2 "y" ∧
    ∀ name, (find_beacons (change_beacon_name twins "b" "y").2 name).Sorted strLe) :=
  ⟨by decide, C16_rename_keeps_beacon twins twins_reachable "b" "y" (by decide) (by decide)⟩

/-! ### Sources mirror targets when no beacon has the id `NO_ID` -/

theorem RegInvP.empty_regP : RegInvP Registry.empty := by
  refine ⟨RegInv.empty_reg, rfl, ?_, ?_⟩
  · intro t bt s h
    simp [Registry.empty, findB] at h
  · intro t bt h
    simp [Registry.empty, findB] at h

theorem RegInvP.add_beacon_invP {g : Registry} (h : RegInvP g) (id : BeaconID)
    (hid : id ≠ NO_ID) (name : String) (xy : Coord) (color : Color) :
    RegInvP (add_beacon g id name xy color).2 := by
  have hbase := h.base.add_beacon_inv id name xy color
  cases hf : findB g.beacons_ id with
  | some b =>
    rw [add_beacon_of_present g id name xy color (by rw [hf]; rfl)]
    exact h
  | none =>
    rw [add_beacon_of_absent g id name xy color hf] at hbase ⊢
    refine ⟨hbase, ?_, ?_, ?_⟩
    · simp only [findB]
      rw [if_neg hid]
      exact h.no_id
    · intro t bt s ht hmem
      simp only [findB] at ht ⊢
      by_cases hc : id = t
      · rw [if_pos hc] at ht
        injection ht with ht
        rw [← ht] at hmem
        simp at hmem
      · rw [if_neg hc] at ht
        obtain ⟨bs, hbs, htg⟩ := h.src t bt s ht hmem
        have hne : ¬ id = s := by
          intro e
          rw [← e, hf] at hbs
          exact absurd hbs (by simp)
        rw [if_neg hne]
        exact ⟨bs, hbs, htg⟩
    · intro t bt ht
      simp only [findB] at ht
      by_cases hc : id = t
      · rw [if_pos hc] at ht
        injection ht with ht
        rw [← ht]
        exact List.nodup_nil
      · rw [if_neg hc] at ht
        exact h.src_nodup t bt ht

theorem RegInvP.add_lightbeam_invP {g : Registry} (h : RegInvP g) (s t : BeaconID) :
    RegInvP (add_lightbeam g s t).2 := by
  have hbase := h.base.add_lightbeam_inv s t
  cases hr : (add_lightbeam g s t).1 with
  | false =>
    rw [add_lightbeam_false g s t hr]
    exact h
  | true =>
    obtain ⟨⟨bs, hbs, hn⟩, ht, he⟩ := add_lightbeam_true g s t hr
    obtain ⟨bt, hbt⟩ := Option.isSome_iff_exists.mp ht
    have htne : t ≠ NO_ID := by
      intro e
      rw [e, h.no_id] at hbt
      exact absurd hbt (by simp)
    have hnotin : s ∉ bt.sources := by
      intro hmem
      obtain ⟨bs', hbs', htg⟩ := h.src t bt s hbt hmem
      rw [hbs] at hbs'
      injection hbs' with hbs'
      rw [← hbs', hn] at htg
      exact htne htg.symm
    rw [he] at hbase ⊢
    refine ⟨hbase, ?_, ?_, ?_⟩
    · simp only [findB_wire, h.no_id, Option.map_none']
    · intro t' bt' s' ht' hmem
      simp only [findB_wire] at ht' ⊢
      cases hf : findB g.beacons_ t' with
      | none => simp [hf] at ht'
      | some bt0 =>
        rw [hf] at ht'
        simp only [Option.map_some', Option.some.injEq] at ht'
        subst ht'
        simp only at hmem
        have hold : s' ∈ bt0.sources → ∃ bs', findB g.beacons_ s' = some bs' ∧
            bs'.target = t' ∧ s' ≠ s := by
          intro hm
          obtain ⟨bs', hbs', htg⟩ := h.src t' bt0 s' hf hm
          refine ⟨bs', hbs', htg, ?_⟩
          intro e
          rw [e, hbs] at hbs'
          injection hbs' with hbs'
          rw [← hbs', hn] at htg
          rw [← htg, h.no_id] at hf
          exact absurd hf (by simp)
        have hfin : s' ∈ bt0.sources → ∃ bs, Option.map (fun b : Beacon =>
            { b with target := if s' = s then t else b.target,
                     sources := if s' = t then b.sources ++ [s] else b.sources })
            (findB g.beacons_ s') = some bs ∧ bs.target = t' := by
          intro hm
          obtain ⟨bs', hbs', htg, hne⟩ := hold hm
          rw [hbs']
          refine ⟨_, rfl, ?_⟩
          simp only [hne, if_false]
          exact htg
        by_cases hc : t' = t
        · rw [if_pos hc] at hmem
          rcases List.mem_append.mp hmem with hm | hm
          · exact hfin hm
          · rw [List.mem_singleton] at hm
            subst hm
            rw [hbs]
            refine ⟨_, rfl, ?_⟩
            simp only [if_true]
            exact hc.symm
        · rw [if_neg hc] at hmem
          exact hfin hmem
    · intro t' bt' ht'
      simp only [findB_wire] at ht'
      cases hf : findB g.beacons_ t' with
      | none => simp [hf] at ht'
      | some bt0 =>
        rw [hf] at ht'
        simp only [Option.map_some', Option.some.injEq] at ht'
        subst ht'
        simp only
        by_cases hc : t' = t
        · rw [if_pos hc]
          subst hc
          rw [hbt] at hf
          injection hf with hf
          subst hf
          rw [List.nodup_append]
          refine ⟨h.src_nodup t' bt hbt, List.nodup_singleton _, ?_⟩
          intro x hx hx'
          rw [List.mem_singleton] at hx'
          subst hx'
          exact hnotin hx
        · rw [if_neg hc]
          exact h.src_nodup t' bt0 hf

theorem RegInvP.ne_no_id {g : Registry} (h : RegInvP g) {k : BeaconID} {b : Beacon}
    (hk : findB g.beacons_ k = some b) : k ≠ NO_ID := by
  intro e
  rw [e, h.no_id] at hk
  exact absurd hk (by simp)

/-- With no beacon of id `NO_ID`, the sources of `t` are the beacons whose target is `t`. -/
theorem RegInvP.mem_sources_iff {g : Registry} (h : RegInvP g) {t : BeaconID} {bt : Beacon}
    (ht : findB g.beacons_ t = some bt) (s : BeaconID) :
    s ∈ bt.sources ↔ ∃ bs, findB g.beacons_ s = some bs ∧ bs.target = t := by
  constructor
  · exact h.src t bt s ht
  · rintro ⟨bs, hbs, htg⟩
    have hne : bs.target ≠ NO_ID := by
      rw [htg]
      exact h.ne_no_id ht
    obtain ⟨t0, ht0, hmem⟩ := h.base.tgt s bs hbs hne
    rw [htg, ht] at ht0
    injection ht0 with ht0
    rw [ht0]
    exact hmem

theorem RegInvP.remove_beacon_invP {g g' : Registry} (h : RegInvP g) (id : BeaconID)
    (b : Bool) (hr : remove_beacon g id = some (b, g')) : RegInvP g' := by
  have hbase := h.base.remove_beacon_inv id b hr
  cases hx : findB g.beacons_ id with
  | none =>
    rw [remove_beacon_absent g id hx] at hr
    simp only [Option.some.injEq, Prod.mk.injEq] at hr
    rw [← hr.2]
    exact h
  | some bx =>
    obtain ⟨_, _, _, _, _, _, hfind⟩ := remove_beacon_some g g' id bx b hx hr
    have hget : ∀ k bk, findB g'.beacons_ k = some bk →
        k ≠ id ∧ ∃ b0, findB g.beacons_ k = some b0 ∧ bk = unlinkB bx id k b0 := by
      intro k bk hk
      rw [hfind] at hk
      by_cases hc : id = k
      · rw [if_pos hc] at hk
        exact absurd hk (by simp)
      · rw [if_neg hc] at hk
        cases hf : findB g.beacons_ k with
        | none => simp [hf] at hk
        | some b0 =>
          rw [hf] at hk
          simp only [Option.map_some', Option.some.injEq] at hk
          exact ⟨fun e => hc e.symm, b0, rfl, hk.symm⟩
    refine ⟨hbase, ?_, ?_, ?_⟩
    · rw [hfind]
      split
      · rfl
      · rw [h.no_id]
        rfl
    · intro t bt s ht hmem
      obtain ⟨htne, bt0, hbt0, e⟩ := hget t bt ht
      subst e
      have hmem0 : s ∈ bt0.sources ∧ (bx.target ≠ NO_ID ∧ t = bx.target → s ≠ id) := by
        simp only [unlinkB] at hmem
        split at hmem
        · rename_i hc
          unfold withoutId at hmem
          rw [List.mem_filter] at hmem
          exact ⟨hmem.1, fun _ => by simpa using hmem.2⟩
        · rename_i hc
          exact ⟨hmem, fun hc' => absurd hc' hc⟩
      obtain ⟨bs, hbs, htg⟩ := h.src t bt0 s hbt0 hmem0.1
      have hsne : s ≠ id := by
        intro e
        subst e
        rw [hx] at hbs
        injection hbs with hbs
        subst hbs
        exact hmem0.2 ⟨by rw [htg]; exact h.ne_no_id hbt0, htg.symm⟩ rfl
      have hnotL : s ∉ sourcesAfterUnlink bx id := by
        intro hL
        obtain ⟨bs', hbs', htg'⟩ := h.src id bx s hx (sourcesAfterUnlink_subset hL)
        rw [hbs] at hbs'
        injection hbs' with hbs'
        rw [← hbs', htg] at htg'
        exact htne htg'
      rw [hfind, if_neg (fun e => hsne e.symm), hbs]
      refine ⟨_, rfl, ?_⟩
      simp only [unlinkB, if_neg hnotL]
      exact htg
    · intro t bt ht
      obtain ⟨_, bt0, hbt0, e⟩ := hget t bt ht
      subst e
      simp only [unlinkB]
      split
      · exact (h.src_nodup t bt0 hbt0).filter _
      · exact h.src_nodup t bt0 hbt0

theorem RegInvP.reorder_invP {g g' : Registry} (h : RegInvP g) (hr : RegReorder g g') :
    RegInvP g' :=
  h.transfer_linksP (SameLinks.of_perm h.base.keys_nodup hr.1) (by rw [hr.2.1])
    (by rw [hr.2.2])

/-- In every reachable state in which no beacon was given the id `NO_ID`, sources mirror
targets. -/
theorem RegReach.invP {q : Registry → BeaconID → BeaconID → Prop} {g : Registry}
    (h : RegReach (fun id => id ≠ NO_ID) q g) : RegInvP g := by
  induction h with
  | init => exact RegInvP.empty_regP
  | add_beacon g id name xy color _ hid ih => exact ih.add_beacon_invP id hid name xy color
  | change_beacon_name g id n _ ih =>
    exact ih.transfer_linksP (change_beacon_name_links g id n) (change_beacon_name_alpha g id n)
      (by rw [change_beacon_name_bright])
  | change_beacon_color g id c _ ih =>
    exact ih.transfer_linksP (change_beacon_color_links g id c)
      (by rw [change_beacon_color_alpha]) (change_beacon_color_bright g id c)
  | add_lightbeam g s t _ _ ih => exact ih.add_lightbeam_invP s t
  | remove_beacon g g' id b _ hrm ih => exact ih.remove_beacon_invP id b hrm
  | clear_beacons g _ _ => exact RegInvP.empty_regP
  | reorder g g' _ hro ih => exact ih.reorder_invP hro

/-! ### Removing a beacon -/

theorem target_of_eq {g : Registry} {s t : BeaconID} (h : target_of g s = t) (ht : t ≠ NO_ID) :
    ∃ bs, findB g.beacons_ s = some bs ∧ bs.target = t := by
  unfold target_of at h
  cases hf : findB g.beacons_ s with
  | none =>
    rw [hf] at h
    exact absurd h.symm ht
  | some bs =>
    rw [hf] at h
    exact ⟨bs, rfl, h⟩

theorem target_of_find {g : Registry} {s : BeaconID} {bs : Beacon}
    (h : findB g.beacons_ s = some bs) : target_of g s = bs.target := by
  unfold target_of
  rw [h]

theorem path_outbeam_no_target (g : Registry) (s : BeaconID) (bs : Beacon)
    (h : findB g.beacons_ s = some bs) (ht : bs.target = NO_ID) :
    path_outbeam g s = some [s] := by
  unfold path_outbeam
  rw [h]
  simp only [path_outbeam_loop, ht, ne_eq, not_true_eq_false, if_false]

/-- **C17.** In every reachable state of the registry in which no beacon was given the
reserved id `NO_ID`: `remove_beacon(X)` of a present `X` returns `true`, and afterwards every
other beacon whose target was `X` has no target and its `path_outbeam` is just itself, `X` is
not in `get_lightsources` of its former target, `X` is absent from `all_beacons`,
`beacons_alphabetically` and `beacons_brightness_increasing`, and `get_name(X)` is `NO_NAME`;
`remove_beacon` of an absent id returns `false` and changes nothing. -/
theorem C17_remove_beacon_unlinks (g : Registry) (hr : RegProper g) (X : BeaconID) :
    (X ∈ all_beacons g →
      ∃ g', remove_beacon g X = some (true, g') ∧
        (∀ S, S ≠ X → target_of g S = X →
          S ∈ all_beacons g' ∧ target_of g' S = NO_ID ∧ path_outbeam g' S = some [S]) ∧
        X ∉ get_lightsources g' (target_of g X) ∧
        X ∉ all_beacons g' ∧ X ∉ beacons_alphabetically g' ∧
        X ∉ beacons_brightness_increasing g' ∧ get_name g' X = NO_NAME) ∧
    (X ∉ all_beacons g → remove_beacon g X = some (false, g)) := by
  have hinv : RegInvP g := RegReach.invP hr
  constructor
  · intro hp
    obtain ⟨bx, hx⟩ := Option.isSome_iff_exists.mp ((mem_all_beacons g X).mp hp)
    have hXne : X ≠ NO_ID := hinv.ne_no_id hx
    have hT : bx.target ≠ NO_ID →
        ∃ t, findB g.beacons_ bx.target = some t ∧ t.sources.count X = 1 := by
      intro hne
      obtain ⟨t, ht, hmem⟩ := hinv.base.tgt X bx hx hne
      exact ⟨t, ht, count_eq_one_of_nodup_mem X t.sources (hinv.src_nodup _ t ht) hmem⟩
    have hL : ∀ s ∈ sourcesAfterUnlink bx X, (findB g.beacons_ s).isSome = true := by
      intro s hs
      obtain ⟨bs, hbs, _⟩ := hinv.src X bx s hx (sourcesAfterUnlink_subset hs)
      rw [hbs]
      rfl
    obtain ⟨g', hg'⟩ := remove_beacon_ok g X bx hx hT hL
    have hinv' : RegInvP g' := hinv.remove_beacon_invP X true hg'
    obtain ⟨_, _, _, _, _, _, hfind⟩ := remove_beacon_some g g' X bx true hx hg'
    have hXabs : findB g'.beacons_ X = none := by
      rw [hfind, if_pos rfl]
    have hXkeys : X ∉ g'.beacons_.map Prod.fst := (findB_eq_none_iff _ _).mp hXabs
    refine ⟨g', hg', ?_, ?_, hXkeys, ?_, ?_, ?_⟩
    · intro S hSne hSt
      obtain ⟨bS, hbS, htg⟩ := target_of_eq hSt hXne
      have hmem : S ∈ bx.sources := (hinv.mem_sources_iff hx S).mpr ⟨bS, hbS, htg⟩
      have hin := mem_sourcesAfterUnlink hmem hSne
      have hS' : findB g'.beacons_ S = some (unlinkB bx X S bS) := by
        rw [hfind, if_neg (fun e => hSne e.symm), hbS]
        rfl
      have htg' : (unlinkB bx X S bS).target = NO_ID := by
        simp only [unlinkB, if_pos hin]
      refine ⟨?_, ?_, path_outbeam_no_target g' S _ hS' htg'⟩
      · rw [mem_all_beacons, hS']
        rfl
      · rw [target_of_find hS', htg']
    · unfold get_lightsources
      cases hf : findB g'.beacons_ (target_of g X) with
      | none =>
        simp only [List.mem_singleton]
        exact hXne
      | some bt =>
        simp only
        rw [(List.perm_insertionSort strLe _).mem_iff]
        intro hmem
        obtain ⟨bs, hbs, _⟩ := hinv'.src _ bt X hf hmem
        rw [hXabs] at hbs
        exact absurd hbs (by simp)
    · unfold beacons_alphabetically
      intro hmem
      exact hXkeys (hinv'.base.alpha.mem_iff.mp hmem)
    · unfold beacons_brightness_increasing
      intro hmem
      exact hXkeys (hinv'.base.bright.mem_iff.mp hmem)
    · unfold get_name
      rw [hXabs]
  · intro hp
    apply remove_beacon_absent
    cases hf : findB g.beacons_ X with
    | none => rfl
    | some b =>
      exfalso
      apply hp
      rw [mem_all_beacons, hf]
      rfl

theorem beamChain_proper : RegProper beamChain :=
  RegReach.add_lightbeam _ _ _ (RegReach.add_lightbeam _ _ _
    (RegReach.add_beacon _ _ _ _ _ (RegReach.add_beacon _ _ _ _ _
      (RegReach.add_beacon _ _ _ _ _ RegReach.init (by decide)) (by decide)) (by decide))
    (fun _ => trivial)) (fun _ => trivial)

/-- Instance of C17: in the chain `A → B → C`, the beacon `B` is removed. -/
theorem C17_remove_beacon_unlinks_witness :
    "B" ∈ all_beacons beamChain ∧ target_of beamChain "A" = "B" ∧
    ((remove_beacon beamChain "B").map
        (fun r => (r.1, path_outbeam r.2 "A", get_lightsources r.2 "C", get_name r.2 "B"))) =
      some (true, some ["A"], [], NO_NAME) ∧
    (("B" ∈ all_beacons beamChain →
      ∃ g', remove_beacon beamChain "B" = some (true, g') ∧
        (∀ S, S ≠ "B" → target_of beamChain S = "B" →
          S ∈ all_beacons g' ∧ target_of g' S = NO_ID ∧ path_outbeam g' S = some [S]) ∧
        "B" ∉ get_lightsources g' (target_of beamChain "B") ∧
        "B" ∉ all_beacons g' ∧ "B" ∉ beacons_alphabetically g' ∧
        "B" ∉ beacons_brightness_increasing g' ∧ get_name g' "B" = NO_NAME) ∧
    ("B" ∉ all_beacons beamChain → remove_beacon beamChain "B" = some (false, beamChain))) :=
  ⟨by decide, by decide, by decide, C17_remove_beacon_unlinks beamChain beamChain_proper "B"⟩

/-! ### Chains of targets -/

theorem TargetStep.present {g : Registry} {a b : BeaconID} (h : TargetStep g a b) :
    ∃ ba, findB g.beacons_ a = some ba ∧ ba.target = b :=
  target_of_eq h.1 h.2

theorem TargetStep.target_present {g : Registry} (hinv : RegInv g) {a b : BeaconID}
    (h : TargetStep g a b) : ∃ bb, findB g.beacons_ b = some bb ∧ a ∈ bb.sources := by
  obtain ⟨ba, hba, htg⟩ := h.present
  have hne : ba.target ≠ NO_ID := by
    rw [htg]
    exact h.2
  obtain ⟨t, ht, hmem⟩ := hinv.tgt a ba hba hne
  rw [htg] at ht
  exact ⟨t, ht, hmem⟩

/-- In an acyclic state a chain of targets does not repeat a beacon. -/
theorem chain_nodup {g : Registry} (hac : Acyclic g) {l : List BeaconID}
    (h : List.Chain' (TargetStep g) l) : l.Nodup := by
  have h1 : List.Chain' (Relation.TransGen (TargetStep g)) l :=
    h.imp (fun _ _ hab => Relation.TransGen.single hab)
  have h2 : List.Pairwise (Relation.TransGen (TargetStep g)) l :=
    List.chain'_iff_pairwise.mp h1
  refine h2.imp ?_
  intro a b hab e
  subst e
  exact hac a hab

theorem length_le_of_nodup_present {g : Registry} {l : List BeaconID} (hnd : l.Nodup)
    (hp : ∀ x ∈ l, (findB g.beacons_ x).isSome = true) : l.length ≤ g.beacons_.length := by
  have hsub : l ⊆ g.beacons_.map Prod.fst := by
    intro x hx
    exact (findB_isSome_iff _ _).mp (hp x hx)
  have := (List.subperm_of_subset hnd hsub).length_le
  simpa using this

/-- The loop of `path_outbeam` in an acyclic state: it ends, and extends the list to a chain
of targets whose last beacon has no target. -/
theorem path_outbeam_loop_spec {g : Registry} (hinv : RegInv g) (hac : Acyclic g) :
    ∀ (fuel : Nat) (target : BeaconID) (ids : List BeaconID) (last : BeaconID),
      ids.getLast? = some last → target_of g last = target →
      List.Chain' (TargetStep g) ids → (∀ x ∈ ids, (findB g.beacons_ x).isSome = true) →
      g.beacons_.length + 1 ≤ fuel + ids.length →
      ∃ rest last', path_outbeam_loop g.beacons_ fuel target ids = some (ids ++ rest) ∧
        (ids ++ rest).getLast? = some last' ∧ target_of g last' = NO_ID ∧
        List.Chain' (TargetStep g) (ids ++ rest) := by
  intro fuel
  induction fuel with
  | zero =>
    intro target ids last _ _ hch hp hf
    have := length_le_of_nodup_present (chain_nodup hac hch) hp
    omega
  | succ n ih =>
    intro target ids last hlast htg hch hp hf
    by_cases hT : target ≠ NO_ID
    · have hstep : TargetStep g last target := ⟨htg, hT⟩
      obtain ⟨bt, hbt, _⟩ := hstep.target_present hinv
      have hch' : List.Chain' (TargetStep g) (ids ++ [target]) := by
        rw [List.chain'_append]
        refine ⟨hch, List.chain'_singleton _, ?_⟩
        intro x hx y hy
        rw [hlast] at hx
        simp only [Option.mem_def, Option.some.injEq, List.head?_cons] at hx hy
        subst hx hy
        exact hstep
      have hp' : ∀ x ∈ ids ++ [target], (findB g.beacons_ x).isSome = true := by
        intro x hx
        rcases List.mem_append.mp hx with h1 | h1
        · exact hp x h1
        · rw [List.mem_singleton] at h1
          rw [h1, hbt]
          rfl
      obtain ⟨rest, last', h1, h2, h3, h4⟩ := ih bt.target (ids ++ [target]) target
        (by simp) (target_of_find hbt) hch' hp'
        (by simp only [List.length_append, List.length_singleton]; omega)
      refine ⟨target :: rest, last', ?_, ?_, h3, ?_⟩
      · rw [path_outbeam_loop, if_pos hT, hbt]
        simp only
        rw [h1]
        simp
      · simpa using h2
      · simpa using h4
    · have hT' : target = NO_ID := not_not.mp hT
      refine ⟨[], last, ?_, ?_, ?_, ?_⟩
      · rw [path_outbeam_loop, if_neg hT, List.append_nil]
      · simpa using hlast
      · rw [htg, hT']
      · simpa using hch

/-- **C18.** In every reachable state of the registry whose target relation is acyclic:
for a present `id`, `path_outbeam(id)` returns the list that starts with `id`, in which each
later element is the target of the element before it, and whose last element has no target;
for an absent `id` it returns the one-element list `[NO_ID]`. -/
theorem C18_path_outbeam_chain (g : Registry) (hr : RegReachable g) (hac : Acyclic g)
    (id : BeaconID) :
    (id ∈ all_beacons g →
      ∃ l last, path_outbeam g id = some l ∧ l.head? = some id ∧
        List.Chain' (TargetStep g) l ∧ l.getLast? = some last ∧ target_of g last = NO_ID) ∧
    (id ∉ all_beacons g → path_outbeam g id = some [NO_ID]) := by
  have hinv : RegInv g := RegReach.inv hr
  constructor
  · intro hp
    obtain ⟨b, hb⟩ := Option.isSome_iff_exists.mp ((mem_all_beacons g id).mp hp)
    obtain ⟨rest, last, h1, h2, h3, h4⟩ := path_outbeam_loop_spec hinv hac
      (g.beacons_.length + 1) b.target [id] id rfl (target_of_find hb)
      (List.chain'_singleton _)
      (by
        intro x hx
        rw [List.mem_singleton] at hx
        rw [hx, hb]
        rfl)
      (by simp)
    refine ⟨[id] ++ rest, last, ?_, rfl, h4, h2, h3⟩
    unfold path_outbeam
    rw [hb]
    exact h1
  · intro hp
    unfold path_outbeam
    cases hf : findB g.beacons_ id with
    | none => rfl
    | some b =>
      exfalso
      apply hp
      rw [mem_all_beacons, hf]
      rfl

/-- A rank that decreases along every target shows that the target relation is acyclic. -/
theorem acyclic_of_rank (g : Registry) (rk : BeaconID → Nat)
    (h : ∀ e ∈ g.beacons_, e.2.target ≠ NO_ID → rk e.2.target < rk e.1) : Acyclic g := by
  have hstep : ∀ a b, TargetStep g a b → rk b < rk a := by
    intro a b hab
    obtain ⟨ba, hba, htg⟩ := hab.present
    have := h (a, ba) (mem_of_findB _ _ _ hba) (by rw [htg]; exact hab.2)
    rw [htg] at this
    exact this
  have htrans : ∀ a b, Relation.TransGen (TargetStep g) a b → rk b < rk a := by
    intro a b hab
    induction hab with
    | single h1 => exact hstep _ _ h1
    | tail _ h2 ih => exact lt_trans (hstep _ _ h2) ih
  intro a ha
  exact absurd (htrans a a ha) (lt_irrefl _)

theorem beamChain_acyclic : Acyclic beamChain :=
  acyclic_of_rank beamChain (fun id => if id = "A" then 2 else if id = "B" then 1 else 0)
    (by decide)

/-- Instance of C18, the scenario of the specification: with `A` wired to `B` and `B` wired
to `C`, `path_outbeam(A)` is `[A, B, C]` and `get_lightsources(C)` is `[B]`. -/
theorem C18_path_outbeam_chain_witness :
    path_outbeam beamChain "A" = some ["A", "B", "C"] ∧
    get_lightsources beamChain "C" = ["B"] ∧
    (("A" ∈ all_beacons beamChain →
      ∃ l last, path_outbeam beamChain "A" = some l ∧ l.head? = some "A" ∧
        List.Chain' (TargetStep beamChain) l ∧ l.getLast? = some last ∧
        target_of beamChain last = NO_ID) ∧
    ("A" ∉ all_beacons beamChain → path_outbeam beamChain "A" = some [NO_ID])) :=
  ⟨by decide, by decide,
    C18_path_outbeam_chain beamChain beamChain_proper.reachable beamChain_acyclic "A"⟩

/-! ### When the target relation stays acyclic -/

theorem target_of_sameLinks {g g' : Registry} (h : SameLinks g.beacons_ g'.beacons_)
    (k : BeaconID) : target_of g' k = target_of g k := by
  unfold target_of
  rcases h.2 k with ⟨h1, h2⟩ | ⟨b, b', h1, h2, _, h4, _⟩
  · rw [h1, h2]
  · rw [h1, h2]
    exact h4

theorem acyclic_congr {g g' : Registry} (h : ∀ k, target_of g' k = target_of g k)
    (hac : Acyclic g) : Acyclic g' := by
  intro a ha
  apply hac a
  refine Relation.TransGen.mono ?_ ha
  intro x y hxy
  exact ⟨by rw [← h x]; exact hxy.1, hxy.2⟩

theorem acyclic_of_sub {g g' : Registry}
    (h : ∀ k, target_of g' k = target_of g k ∨ target_of g' k = NO_ID)
    (hac : Acyclic g) : Acyclic g' := by
  intro a ha
  apply hac a
  refine Relation.TransGen.mono ?_ ha
  intro x y hxy
  rcases h x with e | e
  · exact ⟨by rw [← e]; exact hxy.1, hxy.2⟩
  · exact absurd (e.symm.trans hxy.1).symm hxy.2

theorem target_of_add_beacon (g : Registry) (id : BeaconID) (name : String) (xy : Coord)
    (color : Color) (k : BeaconID) :
    target_of (add_beacon g id name xy color).2 k = target_of g k := by
  cases hf : findB g.beacons_ id with
  | some b => rw [add_beacon_of_present g id name xy color (by rw [hf]; rfl)]
  | none =>
    rw [add_beacon_of_absent g id name xy color hf]
    unfold target_of
    simp only [findB]
    by_cases hc : id = k
    · rw [if_pos hc, ← hc, hf]
    · rw [if_neg hc]

theorem target_of_remove_beacon {g g' : Registry} (id : BeaconID) (b : Bool)
    (hr : remove_beacon g id = some (b, g')) (k : BeaconID) :
    target_of g' k = target_of g k ∨ target_of g' k = NO_ID := by
  cases hx : findB g.beacons_ id with
  | none =>
    rw [remove_beacon_absent g id hx] at hr
    simp only [Option.some.injEq, Prod.mk.injEq] at hr
    rw [← hr.2]
    exact Or.inl rfl
  | some bx =>
    obtain ⟨_, _, _, _, _, _, hfind⟩ := remove_beacon_some g g' id bx b hx hr
    unfold target_of
    rw [hfind]
    by_cases hc : id = k
    · rw [if_pos hc]
      exact Or.inr rfl
    · rw [if_neg hc]
      cases hf : findB g.beacons_ k with
      | none => exact Or.inl rfl
      | some bk =>
        simp only [Option.map_some', unlinkB]
        by_cases hL : k ∈ sourcesAfterUnlink bx id
        · rw [if_pos hL]
          exact Or.inr rfl
        · rw [if_neg hL]
          exact Or.inl rfl

theorem target_of_wire (g : Registry) (s t : BeaconID)
    (hs : (findB g.beacons_ s).isSome = true) (k : BeaconID) :
    target_of { g with beacons_ := wire g.beacons_ s t } k =
      if k = s then t else target_of g k := by
  unfold target_of
  simp only [findB_wire]
  by_cases hc : k = s
  · subst hc
    obtain ⟨bs, hbs⟩ := Option.isSome_iff_exists.mp hs
    rw [hbs]
    simp
  · cases hf : findB g.beacons_ k with
    | none => simp [hc]
    | some bk => simp [hc]

/-- Adding one edge `s → t` to an acyclic relation keeps it acyclic when `t` does not lead
to `s`. -/
theorem acyclic_add_edge {α : Type} (R R' : α → α → Prop) (s t : α)
    (hsub : ∀ a b, R' a b → R a b ∨ (a = s ∧ b = t))
    (hg : ¬ Relation.ReflTransGen R t s) (hac : ∀ a, ¬ Relation.TransGen R a a) :
    ∀ a, ¬ Relation.TransGen R' a a := by
  have key : ∀ a b, Relation.TransGen R' a b →
      Relation.TransGen R a b ∨ (Relation.ReflTransGen R a s ∧ Relation.ReflTransGen R t b) := by
    intro a b hab
    induction hab with
    | single h1 =>
      rcases hsub _ _ h1 with e | ⟨e1, e2⟩
      · exact Or.inl (Relation.TransGen.single e)
      · right
        rw [e1, e2]
        exact ⟨Relation.ReflTransGen.refl, Relation.ReflTransGen.refl⟩
    | tail _ h2 ih =>
      rcases ih with i1 | ⟨i1, i2⟩
      · rcases hsub _ _ h2 with e | ⟨e1, e2⟩
        · exact Or.inl (Relation.TransGen.tail i1 e)
        · right
          rw [e2]
          rw [e1] at i1
          exact ⟨i1.to_reflTransGen, Relation.ReflTransGen.refl⟩
      · rcases hsub _ _ h2 with e | ⟨e1, _⟩
        · exact Or.inr ⟨i1, Relation.ReflTransGen.tail i2 e⟩
        · rw [e1] at i2
          exact absurd i2 hg
  intro a ha
  rcases key a a ha with h1 | ⟨h1, h2⟩
  · exact hac a h1
  · exact hg (h2.trans h1)

/-- In every state reachable with guarded calls of `add_lightbeam` the target relation is
acyclic. -/
theorem acyclic_of_guarded {p : BeaconID → Prop} {g : Registry} (h : RegReach p BeamGuard g) :
    Acyclic g := by
  induction h with
  | init =>
    intro a ha
    have : ∀ x y, ¬ TargetStep Registry.empty x y := by
      intro x y hxy
      exact hxy.2 hxy.1.symm
    cases ha with
    | single h1 => exact this _ _ h1
    | tail _ h2 => exact this _ _ h2
  | add_beacon g id name xy color _ _ ih =>
    exact acyclic_congr (target_of_add_beacon g id name xy color) ih
  | change_beacon_name g id n _ ih =>
    exact acyclic_congr (target_of_sameLinks (change_beacon_name_links g id n)) ih
  | change_beacon_color g id c _ ih =>
    exact acyclic_congr (target_of_sameLinks (change_beacon_color_links g id c)) ih
  | add_lightbeam g s t hreach hb ih =>
    cases hr : (add_lightbeam g s t).1 with
    | false =>
      rw [add_lightbeam_false g s t hr]
      exact ih
    | true =>
      obtain ⟨⟨bs, hbs, _⟩, _, he⟩ := add_lightbeam_true g s t hr
      rw [he]
      apply acyclic_add_edge (TargetStep g) _ s t _ (hb hr) ih
      intro a b hab
      have htw := target_of_wire g s t (by rw [hbs]; rfl) a
      by_cases hc : a = s
      · right
        rw [if_pos hc] at htw
        exact ⟨hc, by rw [← hab.1, htw]⟩
      · left
        rw [if_neg hc] at htw
        exact ⟨by rw [← htw]; exact hab.1, hab.2⟩
  | remove_beacon g g' id b _ hrm ih => exact acyclic_of_sub (target_of_remove_beacon id b hrm) ih
  | clear_beacons g _ _ =>
    intro a ha
    have : ∀ x y, ¬ TargetStep (clear_beacons g) x y := by
      intro x y hxy
      exact hxy.2 hxy.1.symm
    cases ha with
    | single h1 => exact this _ _ h1
    | tail _ h2 => exact this _ _ h2
  | reorder g g' hreach hro ih =>
    exact acyclic_congr
      (target_of_sameLinks (SameLinks.of_perm (RegReach.inv hreach).keys_nodup hro.1)) ih

theorem beamGuard_of_no_target (g : Registry) (s t : BeaconID) (hne : s ≠ t)
    (ht : target_of g t = NO_ID) : BeamGuard g s t := by
  intro h
  rcases h.cases_head with e | ⟨c, hc, _⟩
  · exact hne e.symm
  · exact hc.2 (hc.1.symm.trans ht)

theorem beamChain_guarded : RegGuarded beamChain :=
  RegReach.add_lightbeam _ _ _ (RegReach.add_lightbeam _ _ _
    (RegReach.add_beacon _ _ _ _ _ (RegReach.add_beacon _ _ _ _ _
      (RegReach.add_beacon _ _ _ _ _ RegReach.init trivial) trivial) trivial)
    (fun _ => beamGuard_of_no_target _ _ _ (by decide) (by decide)))
    (fun _ => beamGuard_of_no_target _ _ _ (by decide) (by decide))

/-- **C12**, as stated, fails: `add_lightbeam` checks only that both ids are present and that
the source has no target, so after `add_beacon` of `A` the call `add_lightbeam(A, A)` returns
`true` and leaves the reachable state `selfBeam`, in which the target of `A` is `A`. -/
theorem C12_self_target_counterexample :
    RegReachable selfBeam ∧
    (add_lightbeam (add_beacon Registry.empty "A" "first" ⟨0, 0⟩ ⟨10, 20, 30⟩).2 "A" "A").1 =
      true ∧
    "A" ∈ all_beacons selfBeam ∧ target_of selfBeam "A" = "A" ∧ ¬ Acyclic selfBeam :=
  ⟨RegReach.add_lightbeam _ _ _ (RegReach.add_beacon _ _ _ _ _ RegReach.init trivial)
      (fun _ => trivial),
    by decide, by decide, by decide,
    fun h => h "A" (Relation.TransGen.single ⟨by decide, by decide⟩)⟩

/-- **C12**, amended. In every state reachable from the empty registry by the public beacon
operations in which each successful `add_lightbeam(s, t)` was called while following targets
from `t` did not lead to `s`, the target relation is acyclic: no beacon's target is itself,
and following targets from a beacon never returns to it. -/
theorem C12_guarded_target_relation_acyclic (g : Registry) (h : RegGuarded g) :
    (∀ a, ¬ TargetStep g a a) ∧ Acyclic g :=
  ⟨fun a ha => acyclic_of_guarded h a (Relation.TransGen.single ha), acyclic_of_guarded h⟩

/-- Instance of the amended C12: the chain `A → B → C` was wired with guarded calls. -/
theorem C12_guarded_target_relation_acyclic_witness :
    (∀ a, ¬ TargetStep beamChain a a) ∧ Acyclic beamChain :=
  C12_guarded_target_relation_acyclic beamChain beamChain_guarded

/-! ### The order indexes after `change_beacon_name` and `change_beacon_color`

Both mutators look for the index entry of `id` among the entries of the old key, and then
call `extract` with the key of the entry found, not with its position: the entry taken out
and re-inserted is the first one with that key.  On the registry `twins`, whose beacons `a`
and `b` share the name `x` and the brightness 10, a change of `b` moves the entry of `a`. -/

theorem twins_renamed_reachable : RegReachable (change_beacon_name twins "b" "y").2 :=
  RegReach.change_beacon_name _ _ _ twins_reachable

theorem twins_recolored_reachable : RegReachable (change_beacon_color twins "b" ⟨2, 2, 2⟩).2 :=
  RegReach.change_beacon_color _ _ _ twins_reachable

/-- **C13.** The ids returned by `beacons_alphabetically` need not be ordered by their
current names: after `change_beacon_name(b, y)` on `twins`, which returns `true`, the list
is `[b, a]` while `get_name(b)` is `y` and `get_name(a)` is `x`, and `x < y`. -/
theorem C13_alphabetical_order_broken :
    RegReachable (change_beacon_name twins "b" "y").2 ∧
    (change_beacon_name twins "b" "y").1 = true ∧
    beacons_alphabetically (change_beacon_name twins "b" "y").2 = ["b", "a"] ∧
    get_name (change_beacon_name twins "b" "y").2 "b" = "y" ∧
    get_name (change_beacon_name twins "b" "y").2 "a" = "x" ∧
    strLt "x" "y" = true :=
  ⟨twins_renamed_reachable, by decide, by decide, by decide, by decide, by decide⟩

/-- **C14.** The beacon returned by `min_brightness` need not be the least bright: after
`change_beacon_color(b, (2,2,2))` on `twins`, which returns `true`, `min_brightness` is `b`
(still the first id of `beacons_brightness_increasing`) and `max_brightness` is `a`, while
the colour of `b` gives the brightness 20 and the colour of `a` the brightness 10. -/
theorem C14_min_brightness_not_least :
    RegReachable (change_beacon_color twins "b" ⟨2, 2, 2⟩).2 ∧
    (change_beacon_color twins "b" ⟨2, 2, 2⟩).1 = true ∧
    beacons_brightness_increasing (change_beacon_color twins "b" ⟨2, 2, 2⟩).2 = ["b", "a"] ∧
    min_brightness (change_beacon_color twins "b" ⟨2, 2, 2⟩).2 = "b" ∧
    max_brightness (change_beacon_color twins "b" ⟨2, 2, 2⟩).2 = "a" ∧
    get_brightness (get_color (change_beacon_color twins "b" ⟨2, 2, 2⟩).2 "b") = 20 ∧
    get_brightness (get_color (change_beacon_color twins "b" ⟨2, 2, 2⟩).2 "a") = 10 :=
  ⟨twins_recolored_reachable, by decide, by decide, by decide, by decide, by decide, by decide⟩

/-- **C15.** `change_beacon_name` and `change_beacon_color` can return `false` for a present
id: after `change_beacon_name(b, y)` on `twins` the beacon `a` is present but
`change_beacon_name(a, z)` returns `false`, and after `change_beacon_color(b, (2,2,2))` the
call `change_beacon_color(a, (3,3,3))` returns `false`. -/
theorem C15_change_returns_false_for_present_id :
    RegReachable (change_beacon_name twins "b" "y").2 ∧
    "a" ∈ all_beacons (change_beacon_name twins "b" "y").2 ∧
    (change_beacon_name (change_beacon_name twins "b" "y").2 "a" "z").1 = false ∧
    RegReachable (change_beacon_color twins "b" ⟨2, 2, 2⟩).2 ∧
    "a" ∈ all_beacons (change_beacon_color twins "b" ⟨2, 2, 2⟩).2 ∧
    (change_beacon_color (change_beacon_color twins "b" ⟨2, 2, 2⟩).2 "a" ⟨3, 3, 3⟩).1 = false :=
  ⟨twins_renamed_reachable, by decide, by decide, twins_recolored_reachable, by decide,
    by decide⟩

/-! ### The longest chain of sources -/

theorem InChain.single (g : Registry) (id : BeaconID) : InChain g id [id] :=
  ⟨rfl, List.chain'_singleton _⟩

theorem InChain.snoc {g : Registry} {s id : BeaconID} {c : List BeaconID} (h : InChain g s c)
    (hs : TargetStep g s id) : InChain g id (c ++ [id]) := by
  refine ⟨by simp, ?_⟩
  rw [List.chain'_append]
  refine ⟨h.2, List.chain'_singleton _, ?_⟩
  intro x hx y hy
  rw [h.1] at hx
  simp only [Option.mem_def, Option.some.injEq, List.head?_cons] at hx hy
  subst hx hy
  exact hs

/-- A chain that ends with `id` is `[id]` or a chain that ends with a source of `id`,
followed by `id`. -/
theorem InChain.cases {g : Registry} {id : BeaconID} {c : List BeaconID} (h : InChain g id c) :
    c = [id] ∨ ∃ s c', TargetStep g s id ∧ InChain g s c' ∧ c = c' ++ [id] := by
  obtain ⟨h1, h2⟩ := h
  have hne : c ≠ [] := by
    intro e
    rw [e] at h1
    simp at h1
  obtain ⟨c0, x, e⟩ : ∃ c0 x, c = c0 ++ [x] := by
    have := List.dropLast_append_getLast hne
    exact ⟨_, _, this.symm⟩
  subst e
  rw [List.getLast?_concat] at h1
  injection h1 with h1
  subst h1
  by_cases hc0 : c0 = []
  · left
    rw [hc0]
    rfl
  · right
    obtain ⟨s, hs⟩ : ∃ s, c0.getLast? = some s := by
      cases hl : c0.getLast? with
      | none => exact absurd (List.getLast?_eq_none_iff.mp hl) hc0
      | some s => exact ⟨s, rfl⟩
    rw [List.chain'_append] at h2
    exact ⟨s, c0, h2.2.2 s hs x rfl, ⟨hs, h2.1⟩, rfl⟩

theorem chain_present {g : Registry} (hinv : RegInv g) :
    ∀ (l : List BeaconID) (a : BeaconID), (findB g.beacons_ a).isSome = true →
      List.Chain' (TargetStep g) (a :: l) →
      ∀ x ∈ a :: l, (findB g.beacons_ x).isSome = true := by
  intro l
  induction l with
  | nil =>
    intro a ha _ x hx
    rw [List.mem_singleton] at hx
    rw [hx]
    exact ha
  | cons b t ih =>
    intro a ha hch x hx
    rw [List.chain'_cons] at hch
    rcases List.mem_cons.mp hx with e | e
    · rw [e]
      exact ha
    · obtain ⟨bb, hbb, _⟩ := hch.1.target_present hinv
      exact ih b (by rw [hbb]; rfl) hch.2 x e

/-- The loop of `path_inbeam_recursive` over the sources. -/
theorem inbeam_fold (g : Registry) (atm1 : List BeaconID)
    (f : List BeaconID → BeaconID → Option (List BeaconID)) (S : List BeaconID)
    (H : ∀ s ∈ S, ∀ l, ∃ L, f l s = some L ∧ l.length ≤ L.length ∧
      (L = l ∨ ∃ c', InChain g s c' ∧ L = c' ++ atm1) ∧
      ∀ c', InChain g s c' → (c' ++ atm1).length ≤ L.length) :
    ∀ l0, ∃ L, S.foldlM f l0 = some L ∧ l0.length ≤ L.length ∧
      (L = l0 ∨ ∃ s ∈ S, ∃ c', InChain g s c' ∧ L = c' ++ atm1) ∧
      ∀ s ∈ S, ∀ c', InChain g s c' → (c' ++ atm1).length ≤ L.length := by
  induction S with
  | nil =>
    intro l0
    exact ⟨l0, rfl, le_refl _, Or.inl rfl, fun s hs => absurd hs (List.not_mem_nil s)⟩
  | cons s rest ih =>
    intro l0
    obtain ⟨L1, h1, h2, h3, h4⟩ := H s (List.mem_cons_self _ _) l0
    obtain ⟨L, k1, k2, k3, k4⟩ :=
      ih (fun x hx => H x (List.mem_cons_of_mem _ hx)) L1
    refine ⟨L, ?_, le_trans h2 k2, ?_, ?_⟩
    · rw [List.foldlM_cons, h1]
      exact k1
    · rcases k3 with e | ⟨x, hx, c', hc', e⟩
      · rcases h3 with e' | ⟨c', hc', e'⟩
        · left
          rw [e, e']
        · right
          exact ⟨s, List.mem_cons_self _ _, c', hc', by rw [e, e']⟩
      · right
        exact ⟨x, List.mem_cons_of_mem _ hx, c', hc', e⟩
    · intro x hx c' hc'
      rcases List.mem_cons.mp hx with e | e
      · subst e
        exact le_trans (h4 c' hc') k2
      · exact k4 x e c' hc'

/-- The recursion `path_inbeam_recursive(id, atm, longest)` in an acyclic state without the id
`NO_ID`: it returns; `longest` is kept or replaced by a longer chain that ends with `id`,
followed by `atm`; and afterwards no such chain is longer than `longest`. -/
theorem path_inbeam_recursive_spec {g : Registry} (hinv : RegInvP g) (hac : Acyclic g) :
    ∀ (fuel : Nat) (id : BeaconID) (atm longest : List BeaconID),
      (findB g.beacons_ id).isSome = true → List.Chain' (TargetStep g) (id :: atm) →
      g.beacons_.length + 1 ≤ fuel + atm.length →
      ∃ L, path_inbeam_recursive g.beacons_ fuel id atm longest = some L ∧
        longest.length ≤ L.length ∧
        (L = longest ∨ ∃ c, InChain g id c ∧ L = c ++ atm) ∧
        ∀ c, InChain g id c → (c ++ atm).length ≤ L.length := by
  intro fuel
  induction fuel with
  | zero =>
    intro id atm longest hp hch hf
    have hnd := chain_nodup hac hch
    have := length_le_of_nodup_present hnd (chain_present hinv.base atm id hp hch)
    simp only [List.length_cons] at this
    omega
  | succ n ih =>
    intro id atm longest hp hch hf
    obtain ⟨b, hb⟩ := Option.isSome_iff_exists.mp hp
    have hidne : id ≠ NO_ID := hinv.ne_no_id hb
    have hsrc : ∀ s ∈ b.sources, (findB g.beacons_ s).isSome = true ∧ TargetStep g s id := by
      intro s hs
      obtain ⟨bs, hbs, htg⟩ := hinv.src id b s hb hs
      exact ⟨by rw [hbs]; rfl, ⟨by rw [target_of_find hbs, htg], hidne⟩⟩
    have H : ∀ s ∈ b.sources, ∀ l, ∃ L,
        path_inbeam_recursive g.beacons_ n s (id :: atm) l = some L ∧ l.length ≤ L.length ∧
        (L = l ∨ ∃ c', InChain g s c' ∧ L = c' ++ (id :: atm)) ∧
        ∀ c', InChain g s c' → (c' ++ (id :: atm)).length ≤ L.length := by
      intro s hs l
      exact ih s (id :: atm) l (hsrc s hs).1 (List.Chain'.cons (hsrc s hs).2 hch)
        (by simp only [List.length_cons]; omega)
    obtain ⟨L, h1, h2, h3, h4⟩ := inbeam_fold g (id :: atm)
      (fun l source => path_inbeam_recursive g.beacons_ n source (id :: atm) l) b.sources H
      (if (id :: atm).length > longest.length then id :: atm else longest)
    have hl1 : longest.length ≤
        (if (id :: atm).length > longest.length then id :: atm else longest).length := by
      split
      · omega
      · exact le_refl _
    have hl2 : (id :: atm).length ≤
        (if (id :: atm).length > longest.length then id :: atm else longest).length := by
      split
      · exact le_refl _
      · omega
    refine ⟨L, ?_, le_trans hl1 h2, ?_, ?_⟩
    · simp only [path_inbeam_recursive, hb]
      exact h1
    · rcases h3 with e | ⟨s, hs, c', hc', e⟩
      · by_cases hc : (id :: atm).length > longest.length
        · right
          rw [if_pos hc] at e
          exact ⟨[id], InChain.single g id, by rw [e]; rfl⟩
        · left
          rw [if_neg hc] at e
          exact e
      · right
        exact ⟨c' ++ [id], hc'.snoc (hsrc s hs).2, by rw [e]; simp⟩
    · intro c hc
      rcases hc.cases with e | ⟨s, c', hs, hc', e⟩
      · rw [e]
        exact le_trans hl2 h2
      · obtain ⟨bb, hbb, hmem⟩ := hs.target_present hinv.base
        rw [hb] at hbb
        injection hbb with hbb
        subst hbb
        have := h4 s hmem c' hc'
        rw [e]
        simpa using this

/-- **C19**, amended. In every reachable state of the registry in which no beacon was given
the reserved id `NO_ID` and whose target relation is acyclic, for every present `id`:
`path_inbeam_longest(id)` returns a chain that ends with `id` and in which the target of
each element is the next element, and no chain of that form ending with `id` has more
elements. -/
theorem C19_path_inbeam_longest_chain (g : Registry) (hr : RegProper g) (hac : Acyclic g)
    (id : BeaconID) (hp : id ∈ all_beacons g) :
    ∃ l, path_inbeam_longest g id = some l ∧ l.getLast? = some id ∧
      List.Chain' (TargetStep g) l ∧
      ∀ c, c.getLast? = some id → List.Chain' (TargetStep g) c → c.length ≤ l.length := by
  have hinv : RegInvP g := RegReach.invP hr
  have hpres := (mem_all_beacons g id).mp hp
  obtain ⟨b, hb⟩ := Option.isSome_iff_exists.mp hpres
  obtain ⟨L, h1, _, h3, h4⟩ := path_inbeam_recursive_spec hinv hac (g.beacons_.length + 1) id
    [] [] hpres (List.chain'_singleton _) (by simp)
  have hlen : 1 ≤ L.length := by
    have := h4 [id] (InChain.single g id)
    simpa using this
  refine ⟨L, ?_, ?_, ?_, ?_⟩
  · unfold path_inbeam_longest
    rw [hb]
    exact h1
  · rcases h3 with e | ⟨c, hc, e⟩
    · rw [e] at hlen
      simp at hlen
    · rw [e, List.append_nil]
      exact hc.1
  · rcases h3 with e | ⟨c, hc, e⟩
    · rw [e] at hlen
      simp at hlen
    · rw [e, List.append_nil]
      exact hc.2
  · intro c hc1 hc2
    have := h4 c ⟨hc1, hc2⟩
    simpa using this

/-- Instance of the amended C19, the scenario of the specification: with `A` wired to `B`
wired to `C`, `path_inbeam_longest(C)` is `[A, B, C]`. -/
theorem C19_path_inbeam_longest_chain_witness :
    path_inbeam_longest beamChain "C" = some ["A", "B", "C"] ∧
    ∃ l, path_inbeam_longest beamChain "C" = some l ∧ l.getLast? = some "C" ∧
      List.Chain' (TargetStep beamChain) l ∧
      ∀ c, c.getLast? = some "C" → List.Chain' (TargetStep beamChain) c →
        c.length ≤ l.length :=
  ⟨by decide,
    C19_path_inbeam_longest_chain beamChain beamChain_proper beamChain_acyclic "C" (by decide)⟩

theorem staleSource_reachable : RegReachable staleSource :=
  RegReach.add_lightbeam _ _ _ (RegReach.add_lightbeam _ _ _
    (RegReach.add_beacon _ _ _ _ _ (RegReach.add_beacon _ _ _ _ _
      (RegReach.add_beacon _ _ _ _ _ RegReach.init trivial) trivial) trivial)
    (fun _ => trivial)) (fun _ => trivial)

/-- **C19**, as stated, fails in a reachable state that has a beacon with the id `NO_ID`: in
`staleSource`, whose target relation is acyclic, `path_inbeam_longest(NO_ID)` returns
`[s, NO_ID]`, but the target of `s` is `t`. -/
theorem C19_stale_source_counterexample :
    RegReachable staleSource ∧ Acyclic staleSource ∧ NO_ID ∈ all_beacons staleSource ∧
    path_inbeam_longest staleSource NO_ID = some ["s", NO_ID] ∧
    target_of staleSource "s" = "t" ∧
    ¬ ∃ l, path_inbeam_longest staleSource NO_ID = some l ∧
      List.Chain' (fun a b => target_of staleSource a = b) l := by
  have hval : path_inbeam_longest staleSource NO_ID = some ["s", NO_ID] := by decide
  refine ⟨staleSource_reachable,
    acyclic_of_rank staleSource (fun id => if id = "s" then 1 else 0) (by decide),
    by decide, hval, by decide, ?_⟩
  rintro ⟨l, h1, h2⟩
  rw [hval] at h1
  injection h1 with h1
  subst h1
  have h3 : target_of staleSource "s" = NO_ID := (List.chain'_cons.mp h2).1
  exact absurd h3 (by decide)

/-! ### The aggregated colour -/

theorem foldlM_option_mono {α β : Type} (f f' : β → α → Option β) (S : List α)
    (H : ∀ s ∈ S, ∀ acc r, f acc s = some r → f' acc s = some r) :
    ∀ init r, S.foldlM f init = some r → S.foldlM f' init = some r := by
  induction S with
  | nil =>
    intro init r h
    exact h
  | cons s rest ih =>
    intro init r h
    rw [List.foldlM_cons] at h ⊢
    cases hf : f init s with
    | none =>
      rw [hf] at h
      exact absurd h (by simp)
    | some x =>
      rw [hf] at h
      rw [H s (List.mem_cons_self _ _) init x hf]
      exact ih (fun y hy => H y (List.mem_cons_of_mem _ hy)) x r h

/-- More fuel does not change a result of `total_color_rec`. -/
theorem total_color_rec_mono (m : List (BeaconID × Beacon)) :
    ∀ (fuel : Nat) (id : BeaconID) (c : Color),
      total_color_rec m fuel id = some c → total_color_rec m (fuel + 1) id = some c := by
  intro fuel
  induction fuel with
  | zero =>
    intro id c h
    simp [total_color_rec] at h
  | succ n ih =>
    intro id c h
    rw [total_color_rec] at h ⊢
    cases hf : findB m id with
    | none =>
      rw [hf] at h
      exact h
    | some b =>
      rw [hf] at h
      simp only at h ⊢
      by_cases hs : b.sources.length > 0
      · rw [if_pos hs] at h ⊢
        rw [Option.map_eq_some'] at h ⊢
        obtain ⟨acc, hacc, he⟩ := h
        refine ⟨acc, ?_, he⟩
        refine foldlM_option_mono _ _ b.sources ?_ b.color acc hacc
        intro s _ a r hr
        rw [Option.map_eq_some'] at hr ⊢
        obtain ⟨sc, hsc, e⟩ := hr
        exact ⟨sc, ih s sc hsc, e⟩
      · rw [if_neg hs] at h ⊢
        exact h

/-- Adding the `int`s of a non-empty list one after the other to `init` gives the `int` that
holds the exact total. -/
theorem foldl_addInt (L : List Int) :
    ∀ init : Int, L ≠ [] → L.foldl addInt init = wrapInt (init + L.sum) := by
  induction L with
  | nil =>
    intro init h
    exact absurd rfl h
  | cons x rest ih =>
    intro init _
    rw [List.foldl_cons]
    by_cases hr : rest = []
    · subst hr
      simp only [List.foldl_nil, List.sum_cons, List.sum_nil, add_zero]
      rfl
    · rw [ih (addInt init x) hr, List.sum_cons]
      unfold addInt
      rw [wrapInt_add_left, add_assoc]

/-- The loop of `total_color` over the sources adds their aggregated colours, one after the
other, to the colour it starts with. -/
theorem color_fold (rec : BeaconID → Option Color) (tc : BeaconID → Color)
    (S : List BeaconID) (H : ∀ s ∈ S, rec s = some (tc s)) :
    ∀ init : Color,
      S.foldlM (fun (acc : Color) source => (rec source).map
        (fun source_color => { r := addInt acc.r source_color.r,
                               g := addInt acc.g source_color.g,
                               b := addInt acc.b source_color.b })) init =
      some { r := (S.map (fun s => (tc s).r)).foldl addInt init.r,
             g := (S.map (fun s => (tc s).g)).foldl addInt init.g,
             b := (S.map (fun s => (tc s).b)).foldl addInt init.b } := by
  induction S with
  | nil =>
    intro init
    simp
  | cons s rest ih =>
    intro init
    rw [List.foldlM_cons, H s (List.mem_cons_self _ _)]
    simp only [Option.map_some', Option.some_bind, Option.bind_eq_bind]
    rw [ih (fun y hy => H y (List.mem_cons_of_mem _ hy))]
    simp only [List.map_cons, List.foldl_cons]

/-- In an acyclic state without the id `NO_ID` the recursion of `total_color` returns. -/
theorem total_color_rec_total {g : Registry} (hinv : RegInvP g) (hac : Acyclic g) :
    ∀ (fuel : Nat) (id : BeaconID) (atm : List BeaconID),
      (findB g.beacons_ id).isSome = true → List.Chain' (TargetStep g) (id :: atm) →
      g.beacons_.length + 1 ≤ fuel + atm.length →
      ∃ c, total_color_rec g.beacons_ fuel id = some c := by
  intro fuel
  induction fuel with
  | zero =>
    intro id atm hp hch hf
    have hnd := chain_nodup hac hch
    have := length_le_of_nodup_present hnd (chain_present hinv.base atm id hp hch)
    simp only [List.length_cons] at this
    omega
  | succ n ih =>
    intro id atm hp hch hf
    obtain ⟨b, hb⟩ := Option.isSome_iff_exists.mp hp
    have hidne : id ≠ NO_ID := hinv.ne_no_id hb
    have H : ∀ s ∈ b.sources, total_color_rec g.beacons_ n s =
        some ((total_color_rec g.beacons_ n s).getD NO_COLOR) := by
      intro s hs
      obtain ⟨bs, hbs, htg⟩ := hinv.src id b s hb hs
      obtain ⟨c, hc⟩ := ih s (id :: atm) (by rw [hbs]; rfl)
        (List.Chain'.cons ⟨by rw [target_of_find hbs, htg], hidne⟩ hch)
        (by simp only [List.length_cons]; omega)
      rw [hc]
      rfl
    rw [total_color_rec, hb]
    simp only
    by_cases hs : b.sources.length > 0
    · rw [if_pos hs, color_fold _ _ b.sources H b.color]
      exact ⟨_, rfl⟩
    · rw [if_neg hs]
      exact ⟨_, rfl⟩

theorem total_color_present {g : Registry} (hinv : RegInvP g) (hac : Acyclic g)
    {id : BeaconID} {b : Beacon} (hb : findB g.beacons_ id = some b)
    (hs : b.sources.length > 0) :
    ∃ tc : BeaconID → Color, (∀ s ∈ b.sources, total_color g s = some (tc s)) ∧
      total_color g id = some
        { r := Int.tdiv (wrapInt (b.color.r + (b.sources.map (fun s => (tc s).r)).sum))
                 ((b.sources.length : Int) + 1),
          g := Int.tdiv (wrapInt (b.color.g + (b.sources.map (fun s => (tc s).g)).sum))
                 ((b.sources.length : Int) + 1),
          b := Int.tdiv (wrapInt (b.color.b + (b.sources.map (fun s => (tc s).b)).sum))
                 ((b.sources.length : Int) + 1) } := by
  have hidne : id ≠ NO_ID := hinv.ne_no_id hb
  have H : ∀ s ∈ b.sources, total_color_rec g.beacons_ g.beacons_.length s =
      some ((total_color_rec g.beacons_ g.beacons_.length s).getD NO_COLOR) := by
    intro s hs'
    obtain ⟨bs, hbs, htg⟩ := hinv.src id b s hb hs'
    obtain ⟨c, hc⟩ := total_color_rec_total hinv hac g.beacons_.length s [id]
      (by rw [hbs]; rfl)
      (List.Chain'.cons ⟨by rw [target_of_find hbs, htg], hidne⟩ (List.chain'_singleton _))
      (by simp)
    rw [hc]
    rfl
  have hne : ∀ f : BeaconID → Int, b.sources.map f ≠ [] := by
    intro f hf
    rw [List.map_eq_nil_iff] at hf
    rw [hf] at hs
    exact absurd hs (by simp)
  refine ⟨fun s => (total_color_rec g.beacons_ g.beacons_.length s).getD NO_COLOR, ?_, ?_⟩
  · intro s hs'
    unfold total_color
    exact total_color_rec_mono _ _ _ _ (H s hs')
  · unfold total_color
    rw [total_color_rec, hb]
    simp only
    rw [if_pos hs, color_fold _ _ b.sources H b.color]
    simp only [Option.map_some']
    rw [foldl_addInt _ _ (hne _), foldl_addInt _ _ (hne _), foldl_addInt _ _ (hne _)]

/-- **C20**, amended. In every reachable state of the registry in which no beacon was given
the reserved id `NO_ID` and whose target relation is acyclic: `total_color` of an absent id
is `NO_COLOR`; `total_color` of a present beacon with no sources is its own colour; and
`total_color` of a present beacon with the direct sources `s_1 .. s_n` (`n ≥ 1`) is, for each
of the channels `r`, `g`, `b` independently, the truncating quotient by `n + 1` of the `int`
sum (reduced modulo `2^32` into the range of `int`) of the own channel and that channel of
every `total_color(s_i)`; it is the truncating quotient of the exact sum whenever that sum
lies in the range of `int`. -/
theorem C20_total_color_average (g : Registry) (hr : RegProper g) (hac : Acyclic g)
    (id : BeaconID) :
    (id ∉ all_beacons g → total_color g id = some NO_COLOR) ∧
    (id ∈ all_beacons g → get_lightsources g id = [] →
      total_color g id = some (get_color g id)) ∧
    (id ∈ all_beacons g → get_lightsources g id ≠ [] →
      ∃ (tc : BeaconID → Color) (c : Color),
        (∀ s ∈ get_lightsources g id, total_color g s = some (tc s)) ∧
        total_color g id = some c ∧
        c.r = Int.tdiv (wrapInt ((get_color g id).r +
                ((get_lightsources g id).map (fun s => (tc s).r)).sum))
                (((get_lightsources g id).length : Int) + 1) ∧
        c.g = Int.tdiv (wrapInt ((get_color g id).g +
                ((get_lightsources g id).map (fun s => (tc s).g)).sum))
                (((get_lightsources g id).length : Int) + 1) ∧
        c.b = Int.tdiv (wrapInt ((get_color g id).b +
                ((get_lightsources g id).map (fun s => (tc s).b)).sum))
                (((get_lightsources g id).length : Int) + 1) ∧
        (INT_MIN ≤ (get_color g id).r + ((get_lightsources g id).map (fun s => (tc s).r)).sum →
          (get_color g id).r + ((get_lightsources g id).map (fun s => (tc s).r)).sum ≤ INT_MAX →
          c.r = Int.tdiv ((get_color g id).r +
                  ((get_lightsources g id).map (fun s => (tc s).r)).sum)
                  (((get_lightsources g id).length : Int) + 1)) ∧
        (INT_MIN ≤ (get_color g id).g + ((get_lightsources g id).map (fun s => (tc s).g)).sum →
          (get_color g id).g + ((get_lightsources g id).map (fun s => (tc s).g)).sum ≤ INT_MAX →
          c.g = Int.tdiv ((get_color g id).g +
                  ((get_lightsources g id).map (fun s => (tc s).g)).sum)
                  (((get_lightsources g id).length : Int) + 1)) ∧
        (INT_MIN ≤ (get_color g id).b + ((get_lightsources g id).map (fun s => (tc s).b)).sum →
          (get_color g id).b + ((get_lightsources g id).map (fun s => (tc s).b)).sum ≤ INT_MAX →
          c.b = Int.tdiv ((get_color g id).b +
                  ((get_lightsources g id).map (fun s => (tc s).b)).sum)
                  (((get_lightsources g id).length : Int) + 1))) := by
  have hinv : RegInvP g := RegReach.invP hr
  refine ⟨?_, ?_, ?_⟩
  · intro hp
    have hf : findB g.beacons_ id = none := by
      cases hf : findB g.beacons_ id with
      | none => rfl
      | some b =>
        exfalso
        apply hp
        rw [mem_all_beacons, hf]
        rfl
    unfold total_color
    rw [total_color_rec, hf]
  · intro hp hs
    obtain ⟨b, hb⟩ := Option.isSome_iff_exists.mp ((mem_all_beacons g id).mp hp)
    have hperm : (get_lightsources g id).Perm b.sources := by
      unfold get_lightsources
      rw [hb]
      exact List.perm_insertionSort strLe _
    rw [hs] at hperm
    have hnil : b.sources = [] := List.nil_perm.mp hperm
    unfold total_color get_color
    rw [total_color_rec, hb]
    simp [hnil]
  · intro hp hs
    obtain ⟨b, hb⟩ := Option.isSome_iff_exists.mp ((mem_all_beacons g id).mp hp)
    have hperm : (get_lightsources g id).Perm b.sources := by
      unfold get_lightsources
      rw [hb]
      exact List.perm_insertionSort strLe _
    have hpos : b.sources.length > 0 := by
      rw [← hperm.length_eq]
      exact List.length_pos.mpr hs
    obtain ⟨tc, h1, h2⟩ := total_color_present hinv hac hb hpos
    have hcol : get_color g id = b.color := by
      unfold get_color
      rw [hb]
    have er := (hperm.map (fun s => (tc s).r)).sum_eq
    have eg := (hperm.map (fun s => (tc s).g)).sum_eq
    have eb := (hperm.map (fun s => (tc s).b)).sum_eq
    have el := hperm.length_eq
    refine ⟨tc, _, fun s hs' => h1 s (hperm.mem_iff.mp hs'), h2, ?_, ?_, ?_, ?_, ?_, ?_⟩
    · rw [hcol, el, er]
    · rw [hcol, el, eg]
    · rw [hcol, el, eb]
    · rw [hcol, el, er]
      intro l u
      show Int.tdiv (wrapInt _) _ = _
      rw [wrapInt_of_range l u]
    · rw [hcol, el, eg]
      intro l u
      show Int.tdiv (wrapInt _) _ = _
      rw [wrapInt_of_range l u]
    · rw [hcol, el, eb]
      intro l u
      show Int.tdiv (wrapInt _) _ = _
      rw [wrapInt_of_range l u]

/-- Instance of the amended C20 on the chain `A → B → C`: `total_color(C)` averages the
colour of `C` with `total_color(B)`, which averages the colours of `B` and `A`. -/
theorem C20_total_color_average_witness :
    total_color beamChain "A" = some ⟨10, 20, 30⟩ ∧
    total_color beamChain "B" = some ⟨25, 35, 45⟩ ∧
    total_color beamChain "C" = some ⟨47, 57, 67⟩ ∧
    "C" ∈ all_beacons beamChain ∧ get_lightsources beamChain "C" = ["B"] ∧
    ∃ (tc : BeaconID → Color) (c : Color),
      (∀ s ∈ get_lightsources beamChain "C", total_color beamChain s = some (tc s)) ∧
      total_color beamChain "C" = some c ∧
      c.r = Int.tdiv (wrapInt ((get_color beamChain "C").r +
              ((get_lightsources beamChain "C").map (fun s => (tc s).r)).sum))
              (((get_lightsources beamChain "C").length : Int) + 1) :=
  ⟨by decide, by decide, by decide, by decide, by decide,
    match (C20_total_color_average beamChain beamChain_proper beamChain_acyclic "C").2.2
      (by decide) (by decide) with
    | ⟨tc, c, h1, h2, h3, _⟩ => ⟨tc, c, h1, h2, h3⟩⟩

theorem glare_proper : RegProper glare :=
  RegReach.add_lightbeam _ _ _ (RegReach.add_beacon _ _ _ _ _
    (RegReach.add_beacon _ _ _ _ _ RegReach.init (by decide)) (by decide)) (fun _ => trivial)

/-- **C20**, as stated, fails in two ways.  First, in a reachable state that has a beacon
with the id `NO_ID`: in `staleLoop` the targets are `NO_ID → s → t`, so the target relation is
acyclic, but `s` is a source of `NO_ID` and `NO_ID` is a source of `s`, and the recursion of
`total_color(NO_ID)` has no result with any amount of fuel: the call does not return.
Second, when a sum of channels leaves the range of `int`: in `glare`, where no beacon has the
id `NO_ID` and the target relation is acyclic, `t` has the one source `u`, both of colour
`(2000000000, 0, 0)`, and `total_color(t)` is `(-147483648, 0, 0)`, while the quotient
`(2000000000 + 2000000000) / 2` is `2000000000`. -/
theorem C20_total_color_counterexample :
    (RegReachable staleLoop ∧ Acyclic staleLoop ∧ NO_ID ∈ all_beacons staleLoop ∧
      target_of staleLoop NO_ID = "s" ∧ target_of staleLoop "s" = "t" ∧
      target_of staleLoop "t" = NO_ID ∧
      get_lightsources staleLoop NO_ID = ["s"] ∧ get_lightsources staleLoop "s" = [NO_ID] ∧
      total_color staleLoop NO_ID = none ∧
      ∀ fuel, total_color_rec staleLoop.beacons_ fuel NO_ID = none) ∧
    (RegProper glare ∧ Acyclic glare ∧ get_lightsources glare "t" = ["u"] ∧
      get_color glare "t" = ⟨2000000000, 0, 0⟩ ∧
      total_color glare "u" = some ⟨2000000000, 0, 0⟩ ∧
      total_color glare "t" = some ⟨-147483648, 0, 0⟩ ∧
      Int.tdiv (2000000000 + 2000000000) (1 + 1) = 2000000000) := by
  refine ⟨?_, glare_proper,
    acyclic_of_rank glare (fun id => if id = "u" then 1 else 0) (by decide),
    by decide, by decide, by decide, by decide, by decide⟩
  refine ⟨RegReach.add_lightbeam _ _ _ staleSource_reachable (fun _ => trivial),
    acyclic_of_rank staleLoop
      (fun id => if id = NO_ID then 2 else if id = "s" then 1 else 0) (by decide),
    by decide, by decide, by decide, by decide, by decide, by decide, by decide, ?_⟩
  have h1 : ∃ b, findB staleLoop.beacons_ NO_ID = some b ∧ b.sources = ["s"] :=
    ⟨_, rfl, rfl⟩
  have h2 : ∃ b, findB staleLoop.beacons_ "s" = some b ∧ b.sources = [NO_ID] :=
    ⟨_, rfl, rfl⟩
  obtain ⟨b1, hb1, hs1⟩ := h1
  obtain ⟨b2, hb2, hs2⟩ := h2
  have key : ∀ fuel, total_color_rec staleLoop.beacons_ fuel NO_ID = none ∧
      total_color_rec staleLoop.beacons_ fuel "s" = none := by
    intro fuel
    induction fuel with
    | zero => exact ⟨rfl, rfl⟩
    | succ n ih =>
      constructor
      · rw [total_color_rec, hb1]
        simp [hs1, ih.2]
      · rw [total_color_rec, hb2]
        simp [hs2, ih.1]
  exact fun fuel => (key fuel).1

/-! ### Consistency of the registry -/

/-- **C24.** In every state reachable from the empty registry by the public beacon
operations, `beacons_alphabetically()` and `beacons_brightness_increasing()` are
permutations of `all_beacons()`, and no id occurs twice in any of the three lists: every live
beacon id occurs exactly once in each index and no other id occurs. -/
theorem C24_indexes_list_live_beacons (g : Registry) (hr : RegReachable g) :
    (beacons_alphabetically g).Perm (all_beacons g) ∧
    (beacons_brightness_increasing g).Perm (all_beacons g) ∧
    (all_beacons g).Nodup ∧ (beacons_alphabetically g).Nodup ∧
    (beacons_brightness_increasing g).Nodup ∧
    (∀ id, id ∈ all_beacons g → (beacons_alphabetically g).count id = 1 ∧
      (beacons_brightness_increasing g).count id = 1) ∧
    (∀ id, id ∉ all_beacons g → id ∉ beacons_alphabetically g ∧
      id ∉ beacons_brightness_increasing g) := by
  have hinv : RegInv g := RegReach.inv hr
  have ha : (beacons_alphabetically g).Perm (all_beacons g) := hinv.alpha
  have hb : (beacons_brightness_increasing g).Perm (all_beacons g) := hinv.bright
  have hn : (all_beacons g).Nodup := hinv.keys_nodup
  have hna := ha.nodup_iff.mpr hn
  have hnb := hb.nodup_iff.mpr hn
  refine ⟨ha, hb, hn, hna, hnb, ?_, ?_⟩
  · intro id hid
    exact ⟨count_eq_one_of_nodup_mem id _ hna (ha.mem_iff.mpr hid),
      count_eq_one_of_nodup_mem id _ hnb (hb.mem_iff.mpr hid)⟩
  · intro id hid
    exact ⟨fun h => hid (ha.mem_iff.mp h), fun h => hid (hb.mem_iff.mp h)⟩

/-- Instance of C24 on the registry `twins` after `change_beacon_name(b, y)`, which moves the
index entry of `a`: both indexes still list `a` and `b` once. -/
theorem C24_indexes_list_live_beacons_witness :
    beacons_alphabetically (change_beacon_name twins "b" "y").2 = ["b", "a"] ∧
    ((beacons_alphabetically (change_beacon_name twins "b" "y").2).Perm
      (all_beacons (change_beacon_name twins "b" "y").2) ∧
    (beacons_brightness_increasing (change_beacon_name twins "b" "y").2).Perm
      (all_beacons (change_beacon_name twins "b" "y").2) ∧
    (all_beacons (change_beacon_name twins "b" "y").2).Nodup ∧
    (beacons_alphabetically (change_beacon_name twins "b" "y").2).Nodup ∧
    (beacons_brightness_increasing (change_beacon_name twins "b" "y").2).Nodup ∧
    (∀ id, id ∈ all_beacons (change_beacon_name twins "b" "y").2 →
      (beacons_alphabetically (change_beacon_name twins "b" "y").2).count id = 1 ∧
      (beacons_brightness_increasing (change_beacon_name twins "b" "y").2).count id = 1) ∧
    (∀ id, id ∉ all_beacons (change_beacon_name twins "b" "y").2 →
      id ∉ beacons_alphabetically (change_beacon_name twins "b" "y").2 ∧
      id ∉ beacons_brightness_increasing (change_beacon_name twins "b" "y").2)) :=
  ⟨by decide, C24_indexes_list_live_beacons _ twins_renamed_reachable⟩

/-- **C23.** In every state reachable from the empty registry by the public beacon
operations with beacon ids different from `NO_ID`: the target of beacon `A` is `B` if and
only if `B` is a live beacon whose `get_lightsources` contains `A`, and `A` then occurs in
that list exactly once. -/
theorem C23_targets_mirror_sources (g : Registry) (hr : RegProper g) (A B : BeaconID) :
    (TargetStep g A B ↔ (B ∈ all_beacons g ∧ A ∈ get_lightsources g B)) ∧
    (TargetStep g A B → (get_lightsources g B).count A = 1) := by
  have hinv : RegInvP g := RegReach.invP hr
  have hsrc : ∀ bB, findB g.beacons_ B = some bB →
      (get_lightsources g B).Perm bB.sources := by
    intro bB hB
    unfold get_lightsources
    rw [hB]
    exact List.perm_insertionSort strLe _
  have hfwd : TargetStep g A B →
      ∃ bB, findB g.beacons_ B = some bB ∧ A ∈ bB.sources := fun h =>
    h.target_present hinv.base
  refine ⟨⟨?_, ?_⟩, ?_⟩
  · intro h
    obtain ⟨bB, hB, hmem⟩ := hfwd h
    refine ⟨?_, (hsrc bB hB).mem_iff.mpr hmem⟩
    rw [mem_all_beacons, hB]
    rfl
  · rintro ⟨hB, hmem⟩
    obtain ⟨bB, hB'⟩ := Option.isSome_iff_exists.mp ((mem_all_beacons g B).mp hB)
    obtain ⟨bA, hA, htg⟩ := hinv.src B bB A hB' ((hsrc bB hB').mem_iff.mp hmem)
    exact ⟨by rw [target_of_find hA, htg], hinv.ne_no_id hB'⟩
  · intro h
    obtain ⟨bB, hB, hmem⟩ := hfwd h
    have hp := hsrc bB hB
    exact count_eq_one_of_nodup_mem A _ (hp.nodup_iff.mpr (hinv.src_nodup B bB hB))
      (hp.mem_iff.mpr hmem)

/-- Instance of C23 on the chain `A → B → C`: the target of `A` is `B`. -/
theorem C23_targets_mirror_sources_witness :
    target_of beamChain "A" = "B" ∧ get_lightsources beamChain "B" = ["A"] ∧
    ((TargetStep beamChain "A" "B" ↔
      ("B" ∈ all_beacons beamChain ∧ "A" ∈ get_lightsources beamChain "B")) ∧
    (TargetStep beamChain "A" "B" → (get_lightsources beamChain "B").count "A" = 1)) :=
  ⟨by decide, by decide, C23_targets_mirror_sources beamChain beamChain_proper "A" "B"⟩

/-! ### Queries on a key that is absent -/

theorem find_of_not_mem_all_xpoints {n : Network} {c : Coord} (h : c ∉ all_xpoints n) :
    find n.xpoints_ c = none := by
  cases hf : find n.xpoints_ c with
  | none => rfl
  | some xp =>
    exfalso
    apply h
    rw [mem_all_xpoints]
    unfold stored
    rw [hf]
    rfl

/-- **C21**, as stated, fails: `path_inbeam_longest` of an absent id returns the one-element
list `[NO_ID]`, like `get_lightsources` and `path_outbeam`, and not the empty list. -/
theorem C21_path_inbeam_longest_sentinel_counterexample :
    "A" ∉ all_beacons Registry.empty ∧
    path_inbeam_longest Registry.empty "A" = some [NO_ID] ∧
    path_inbeam_longest Registry.empty "A" ≠ some [] :=
  ⟨by decide, by decide, by decide⟩

/-- **C21**, amended. For an id that is not in the registry, `get_lightsources`,
`path_outbeam` and `path_inbeam_longest` return the one-element list `[NO_ID]`; the other
list-returning queries return the empty list on a key that is absent: `find_beacons` of a name
that no beacon has, and `get_fibres_from`, `route_any`, `route_least_xpoints`,
`route_fastest` and `route_fibre_cycle` of a coordinate that is not stored. -/
theorem C21_absent_key_results (g : Registry) (hr : RegReachable g) (id : BeaconID)
    (hid : id ∉ all_beacons g) (name : String)
    (hname : ∀ b ∈ all_beacons g, get_name g b ≠ name)
    (n : Network) (c d : Coord) (hc : c ∉ all_xpoints n) :
    get_lightsources g id = [NO_ID] ∧ path_outbeam g id = some [NO_ID] ∧
    path_inbeam_longest g id = some [NO_ID] ∧
    find_beacons g name = [] ∧
    get_fibres_from n c = [] ∧
    (route_any n c d).map Prod.fst = some [] ∧ (route_any n d c).map Prod.fst = some [] ∧
    (route_least_xpoints n c d).map Prod.fst = some [] ∧
    (route_least_xpoints n d c).map Prod.fst = some [] ∧
    (route_fastest n c d).map Prod.fst = some [] ∧
    (route_fastest n d c).map Prod.fst = some [] ∧
    (route_fibre_cycle n c).map Prod.fst = some [] := by
  have hinv : RegInv g := RegReach.inv hr
  have hf : findB g.beacons_ id = none := by
    cases hf : findB g.beacons_ id with
    | none => rfl
    | some b =>
      exfalso
      apply hid
      rw [mem_all_beacons, hf]
      rfl
  have hcf := find_of_not_mem_all_xpoints hc
  refine ⟨?_, ?_, ?_, ?_, ?_, ?_, ?_, ?_, ?_, ?_, ?_, ?_⟩
  · unfold get_lightsources
    rw [hf]
  · unfold path_outbeam
    rw [hf]
  · unfold path_inbeam_longest
    rw [hf]
  · rw [List.eq_nil_iff_forall_not_mem]
    intro x hx
    obtain ⟨b, hb, hn⟩ := (mem_find_beacons g hinv.keys_nodup hinv.id_eq name x).mp hx
    apply hname x
    · rw [mem_all_beacons, hb]
      rfl
    · unfold get_name
      rw [hb]
      exact hn
  · unfold get_fibres_from
    rw [hcf]
  · unfold route_any
    rw [if_pos (Or.inl (by rw [hcf]; rfl))]
    rfl
  · unfold route_any
    rw [if_pos (Or.inr (by rw [hcf]; rfl))]
    rfl
  · unfold route_least_xpoints
    rw [if_pos (Or.inl (by rw [hcf]; rfl))]
    rfl
  · unfold route_least_xpoints
    rw [if_pos (Or.inr (by rw [hcf]; rfl))]
    rfl
  · unfold route_fastest
    rw [if_pos (Or.inl (by rw [hcf]; rfl))]
    rfl
  · unfold route_fastest
    rw [if_pos (Or.inr (by rw [hcf]; rfl))]
    rfl
  · unfold route_fibre_cycle
    rw [if_pos (by rw [hcf]; rfl)]
    rfl

/-- Instance of the amended C21 on the chain `A → B → C` and the scenario network. -/
theorem C21_absent_key_results_witness :
    get_lightsources beamChain "Z" = [NO_ID] ∧ path_outbeam beamChain "Z" = some [NO_ID] ∧
    path_inbeam_longest beamChain "Z" = some [NO_ID] ∧
    find_beacons beamChain "fourth" = [] ∧
    get_fibres_from scenario ⟨5, 5⟩ = [] ∧
    (route_any scenario ⟨5, 5⟩ ⟨0, 0⟩).map Prod.fst = some [] ∧
    (route_any scenario ⟨0, 0⟩ ⟨5, 5⟩).map Prod.fst = some [] ∧
    (route_least_xpoints scenario ⟨5, 5⟩ ⟨0, 0⟩).map Prod.fst = some [] ∧
    (route_least_xpoints scenario ⟨0, 0⟩ ⟨5, 5⟩).map Prod.fst = some [] ∧
    (route_fastest scenario ⟨5, 5⟩ ⟨0, 0⟩).map Prod.fst = some [] ∧
    (route_fastest scenario ⟨0, 0⟩ ⟨5, 5⟩).map Prod.fst = some [] ∧
    (route_fibre_cycle scenario ⟨5, 5⟩).map Prod.fst = some [] :=
  C21_absent_key_results beamChain beamChain_proper.reachable "Z" (by decide) "fourth"
    (by decide) scenario ⟨5, 5⟩ ⟨0, 0⟩ (by decide)

/-! ### The fibre catalogue lists every fibre once -/

theorem setInsert_perm_of_not_mem (p : Coord × Coord) (s : List (Coord × Coord))
    (h : p ∉ s) : (setInsert p s).Perm (p :: s) := by
  induction s with
  | nil => exact List.Perm.refl _
  | cons q t ih =>
    have hq : p ≠ q := fun e => h (e ▸ List.mem_cons_self _ _)
    have ht : p ∉ t := fun m => h (List.mem_cons_of_mem _ m)
    unfold setInsert
    by_cases h1 : pairLt p q = true
    · rw [if_pos h1]
    · rw [if_neg h1]
      by_cases h2 : pairLt q p = true
      · rw [if_pos h2]
        exact ((ih ht).cons q).trans (List.Perm.swap p q t)
      · exact absurd (pair_eq_of_not_lt (Bool.not_eq_true _ ▸ h1) (Bool.not_eq_true _ ▸ h2)) hq

theorem add_fibre_same (g : Network) (a : Coord) (cost : Cost) :
    add_fibre g a a cost = (false, g) := by
  unfold add_fibre
  rw [if_pos rfl]

theorem WF.catKey_not_mem {g : Network} (h : WF g) {a b : Coord}
    (hn : nb g.xpoints_ a b = none) : catKey a b ∉ g.fibres_ := by
  intro hm
  rcases catKey_nb a b with e | e
  · rw [e, h.cat_iff] at hm
    rw [hn] at hm
    exact absurd hm.2 (by simp)
  · rw [e, h.cat_iff] at hm
    cases hb : nb g.xpoints_ b a with
    | none =>
      rw [hb] at hm
      exact absurd hm.2 (by simp)
    | some w =>
      rw [h.map.sym b a w hb] at hn
      exact absurd hn (by simp)

theorem WF.add_fibre_catalogue {g : Network} (h : WF g) (hn : g.fibres_.Nodup)
    (a b : Coord) (cost : Cost) : (add_fibre g a b cost).2.fibres_.Nodup := by
  by_cases hab : a = b
  · subst hab
    rw [add_fibre_same]
    exact hn
  · cases hnb : nb g.xpoints_ a b with
    | none =>
      rw [add_fibre_eq g a b cost hab hnb, addCat_eq]
      have hp := setInsert_perm_of_not_mem (catKey a b) g.fibres_ (h.catKey_not_mem hnb)
      rw [hp.nodup_iff]
      exact List.nodup_cons.mpr ⟨h.catKey_not_mem hnb, hn⟩
    | some w =>
      rw [add_fibre_of_nb g h.map a b cost w hnb]
      exact hn

theorem WF.remove_fibre_catalogue {g : Network} (h : WF g) (hn : g.fibres_.Nodup)
    (a b : Coord) : (remove_fibre g a b).2.fibres_.Nodup := by
  cases hnb : nb g.xpoints_ a b with
  | none =>
    have hj : ¬ Joined g a b := by
      intro hj
      obtain ⟨w, hw⟩ := (joined_iff g h.map a b).mp hj
      rw [hnb] at hw
      exact absurd hw (by simp)
    have hf := (remove_fibre_false_iff g h.map a b).mpr hj
    rw [remove_fibre_snd_of_not g a b (by rw [hf]; simp)]
    exact hn
  | some w =>
    rw [remove_fibre_eq g a b w w hnb (h.map.sym a b w hnb)]
    exact hn.filter _

/-- In every reachable state the set `fibres_` has no repeated element. -/
theorem Reachable.fibres_nodup {g : Network} (h : Reachable g) : g.fibres_.Nodup := by
  induction h with
  | init => exact List.nodup_nil
  | add_fibre g a b c hg ih => exact hg.wf.add_fibre_catalogue ih a b c
  | remove_fibre g a b hg ih => exact hg.wf.remove_fibre_catalogue ih a b
  | clear_fibres g _ _ => exact List.nodup_nil
  | route_any g g' a b r _ hq ih =>
    rw [(route_any_sameNet g g' a b r hq).1]
    exact ih
  | route_least_xpoints g g' a b r _ hq ih =>
    rw [(route_least_xpoints_sameNet g g' a b r hq).1]
    exact ih
  | route_fastest g g' a b r _ hq ih =>
    rw [(route_fastest_sameNet g g' a b r hq).1]
    exact ih
  | route_fibre_cycle g g' a r _ hq ih =>
    rw [(route_fibre_cycle_sameNet g g' a r hq).1]
    exact ih
  | reorder g g' _ hr ih =>
    rw [hr.1]
    exact ih

/-- **C22.** In every state reachable from the empty graph by `add_fibre`, `remove_fibre`,
`clear_fibres` and the route queries, the representation is well formed: the neighbour map of
each point has no repeated key and is what `get_fibres_from` lists; `b` is in the neighbour map
of `a` with cost `c` exactly when `a` is in the neighbour map of `b` with the same cost; no
point is its own neighbour; every stored point has a neighbour; and `all_fibres` has no
repetition, holds exactly the pairs `(p, q)` of adjacent points with `p` the lesser one in the
`Coord` ordering, and so holds exactly one of `(a, b)`, `(b, a)` for adjacent `a`, `b`. -/
theorem C22_graph_representation_well_formed (g : Network) (hr : Reachable g) :
    (∀ a, ((deref g.xpoints_ a).fibres.map Prod.fst).Nodup) ∧
    (∀ a b c, (b, c) ∈ get_fibres_from g a ↔ nb g.xpoints_ a b = some c) ∧
    (∀ a b c, nb g.xpoints_ a b = some c ↔ nb g.xpoints_ b a = some c) ∧
    (∀ a, nb g.xpoints_ a a = none) ∧
    (∀ a, a ∈ all_xpoints g → ∃ b c, nb g.xpoints_ a b = some c) ∧
    (all_fibres g).Nodup ∧
    (∀ p q, (p, q) ∈ all_fibres g ↔
      (Coord.lt p q = true ∧ ∃ c, nb g.xpoints_ p q = some c)) ∧
    (∀ a b c, nb g.xpoints_ a b = some c →
      ((a, b) ∈ all_fibres g ∧ (b, a) ∉ all_fibres g) ∨
      ((b, a) ∈ all_fibres g ∧ (a, b) ∉ all_fibres g)) := by
  have hwf := hr.wf
  have hcat : ∀ p q, (p, q) ∈ all_fibres g ↔
      (Coord.lt p q = true ∧ ∃ c, nb g.xpoints_ p q = some c) := by
    intro p q
    unfold all_fibres
    rw [hwf.cat_iff, Option.isSome_iff_exists]
  refine ⟨fun a => hwf.map.deref_fib_nodup a, fun a b c => mem_get_fibres_from g hwf.map a b c,
    fun a b c => ⟨hwf.map.sym a b c, hwf.map.sym b a c⟩, hwf.map.no_loop, ?_,
    hr.fibres_nodup, hcat, ?_⟩
  · intro a ha
    exact (hwf.map.stored_iff a).mp ((mem_all_xpoints g a).mp ha)
  · intro a b c hab
    have hba := hwf.map.sym a b c hab
    have hne := hwf.map.ne_of_nb hab
    by_cases hl : Coord.lt a b = true
    · left
      refine ⟨(hcat a b).mpr ⟨hl, c, hab⟩, fun hm => ?_⟩
      have := ((hcat b a).mp hm).1
      rw [Coord.lt_asymm hl] at this
      exact absurd this (by simp)
    · right
      have hl' : Coord.lt a b = false := by simpa using hl
      have hl2 : Coord.lt b a = true := by
        cases hx : Coord.lt b a with
        | true => rfl
        | false => exact absurd (Coord.eq_of_not_lt hl' hx) hne
      refine ⟨(hcat b a).mpr ⟨hl2, c, hba⟩, fun hm => ?_⟩
      have := ((hcat a b).mp hm).1
      rw [hl'] at this
      exact absurd this (by simp)

/-- Instance of C22 on the scenario network. -/
theorem C22_graph_representation_well_formed_witness :
    (∀ a, ((deref scenario.xpoints_ a).fibres.map Prod.fst).Nodup) ∧
    (∀ a b c, (b, c) ∈ get_fibres_from scenario a ↔ nb scenario.xpoints_ a b = some c) ∧
    (∀ a b c, nb scenario.xpoints_ a b = some c ↔ nb scenario.xpoints_ b a = some c) ∧
    (∀ a, nb scenario.xpoints_ a a = none) ∧
    (∀ a, a ∈ all_xpoints scenario → ∃ b c, nb scenario.xpoints_ a b = some c) ∧
    (all_fibres scenario).Nodup ∧
    (∀ p q, (p, q) ∈ all_fibres scenario ↔
      (Coord.lt p q = true ∧ ∃ c, nb scenario.xpoints_ p q = some c)) ∧
    (∀ a b c, nb scenario.xpoints_ a b = some c →
      ((a, b) ∈ all_fibres scenario ∧ (b, a) ∉ all_fibres scenario) ∨
      ((b, a) ∈ all_fibres scenario ∧ (a, b) ∉ all_fibres scenario)) :=
  C22_graph_representation_well_formed scenario scenario_reachable

/-! ### The priority queue: sizes -/

theorem length_push_heap_loop (comp : Coord → Coord → Bool) (value : Coord) :
    ∀ (fuel : Nat) (c : List Coord) (holeIndex topIndex : Nat),
      (push_heap_loop comp value fuel c holeIndex topIndex).length = c.length := by
  intro fuel
  induction fuel with
  | zero =>
    intro c holeIndex topIndex
    simp only [push_heap_loop, List.length_set]
  | succ n ih =>
    intro c holeIndex topIndex
    simp only [push_heap_loop]
    split
    · rw [ih, List.length_set]
    · rw [List.length_set]

theorem length_adjust_heap_loop (comp : Coord → Coord → Bool) (len : Nat) (dflt : Coord) :
    ∀ (fuel : Nat) (c : List Coord) (holeIndex : Nat),
      (adjust_heap_loop comp len dflt fuel c holeIndex).1.length = c.length := by
  intro fuel
  induction fuel with
  | zero =>
    intro c holeIndex
    rfl
  | succ n ih =>
    intro c holeIndex
    simp only [adjust_heap_loop]
    split
    · rw [ih, List.length_set]
    · rfl

theorem length_adjust_heap (comp : Coord → Coord → Bool) (c : List Coord) (holeIndex len : Nat)
    (value : Coord) : (adjust_heap comp c holeIndex len value).length = c.length := by
  unfold adjust_heap
  simp only
  rw [length_push_heap_loop]
  split
  · rw [List.length_set, length_adjust_heap_loop]
  · rw [length_adjust_heap_loop]

theorem length_pq_push (comp : Coord → Coord → Bool) (c : List Coord) (x : Coord) :
    (pq_push comp c x).length = c.length + 1 := by
  unfold pq_push
  rw [length_push_heap_loop, List.length_append, List.length_singleton]

theorem length_pq_pop (comp : Coord → Coord → Bool) (c : List Coord) :
    (pq_pop comp c).length = c.length - 1 := by
  unfold pq_pop
  cases c with
  | nil => rfl
  | cons first rest =>
    simp only
    split
    · rw [List.length_dropLast, length_adjust_heap, List.length_set]
    · rw [List.length_dropLast]

/-! ### The priority queue: members -/

theorem getD_eq_or_mem (c : List Coord) (i : Nat) (d : Coord) :
    c.getD i d = d ∨ c.getD i d ∈ c := by
  by_cases h : i < c.length
  · right
    rw [List.getD_eq_getElem c d h]
    exact List.getElem_mem h
  · left
    exact List.getD_eq_default c d (not_lt.mp h)

theorem mem_push_heap_loop (comp : Coord → Coord → Bool) (value : Coord) :
    ∀ (fuel : Nat) (c : List Coord) (holeIndex topIndex : Nat) (x : Coord),
      x ∈ push_heap_loop comp value fuel c holeIndex topIndex → x = value ∨ x ∈ c := by
  intro fuel
  induction fuel with
  | zero =>
    intro c holeIndex topIndex x hx
    simp only [push_heap_loop] at hx
    exact (List.mem_or_eq_of_mem_set hx).symm
  | succ n ih =>
    intro c holeIndex topIndex x hx
    simp only [push_heap_loop] at hx
    split at hx
    · rcases ih _ _ _ x hx with h | h
      · exact Or.inl h
      · rcases List.mem_or_eq_of_mem_set h with h' | h'
        · exact Or.inr h'
        · rw [h']
          exact getD_eq_or_mem c _ value
    · exact (List.mem_or_eq_of_mem_set hx).symm

theorem mem_adjust_heap_loop (comp : Coord → Coord → Bool) (len : Nat) (dflt : Coord) :
    ∀ (fuel : Nat) (c : List Coord) (holeIndex : Nat) (x : Coord),
      x ∈ (adjust_heap_loop comp len dflt fuel c holeIndex).1 → x = dflt ∨ x ∈ c := by
  intro fuel
  induction fuel with
  | zero =>
    intro c holeIndex x hx
    exact Or.inr hx
  | succ n ih =>
    intro c holeIndex x hx
    simp only [adjust_heap_loop] at hx
    split at hx
    · rcases ih _ _ x hx with h | h
      · exact Or.inl h
      · rcases List.mem_or_eq_of_mem_set h with h' | h'
        · exact Or.inr h'
        · rw [h']
          exact getD_eq_or_mem c _ dflt
    · exact Or.inr hx

theorem mem_adjust_heap (comp : Coord → Coord → Bool) (c : List Coord) (holeIndex len : Nat)
    (value x : Coord) (hx : x ∈ adjust_heap comp c holeIndex len value) :
    x = value ∨ x ∈ c := by
  unfold adjust_heap at hx
  simp only at hx
  rcases mem_push_heap_loop comp value _ _ _ _ x hx with h | h
  · exact Or.inl h
  · split at h
    · rcases List.mem_or_eq_of_mem_set h with h' | h'
      · exact mem_adjust_heap_loop comp len value _ _ _ x h'
      · rw [h']
        rcases getD_eq_or_mem (adjust_heap_loop comp len value len c holeIndex).1
          (2 * ((adjust_heap_loop comp len value len c holeIndex).2 + 1) - 1) value with e | e
        · exact Or.inl e
        · exact mem_adjust_heap_loop comp len value _ _ _ _ e
    · exact mem_adjust_heap_loop comp len value _ _ _ x h

theorem mem_pq_push (comp : Coord → Coord → Bool) (c : List Coord) (v x : Coord)
    (hx : x ∈ pq_push comp c v) : x = v ∨ x ∈ c := by
  unfold pq_push at hx
  rcases mem_push_heap_loop comp v _ _ _ _ x hx with h | h
  · exact Or.inl h
  · rcases List.mem_append.mp h with h' | h'
    · exact Or.inr h'
    · exact Or.inl (List.mem_singleton.mp h')

theorem mem_pq_pop (comp : Coord → Coord → Bool) (c : List Coord) (x : Coord)
    (hx : x ∈ pq_pop comp c) : x ∈ c := by
  unfold pq_pop at hx
  cases c with
  | nil => exact hx
  | cons first rest =>
    simp only at hx
    split at hx
    · have h1 := List.mem_of_mem_dropLast hx
      have hset : ∀ y, y ∈ (first :: rest).set ((first :: rest).length - 1) first →
          y ∈ first :: rest := by
        intro y hy
        rcases List.mem_or_eq_of_mem_set hy with h | h
        · exact h
        · rw [h]
          exact List.mem_cons_self _ _
      rcases mem_adjust_heap comp _ _ _ _ x h1 with h | h
      · rw [h]
        rcases getD_eq_or_mem (first :: rest) ((first :: rest).length - 1) first with e | e
        · rw [e]
          exact List.mem_cons_self _ _
        · exact e
      · exact hset x h
    · exact List.mem_of_mem_dropLast hx

/-! ### Fields of a modified cross-point -/

theorem deref_modify_cases (f : Xpoint → Xpoint) (m : XMap) (c c' : Coord) :
    deref (modify f m c) c' = deref m c' ∨
      (c' = c ∧ stored m c ∧ deref (modify f m c) c' = f (deref m c)) := by
  by_cases hc : c = c'
  · subst hc
    by_cases hs : stored m c
    · exact Or.inr ⟨rfl, hs, deref_modify_same f m hs⟩
    · left
      have hn : find m c = none := by
        unfold stored at hs
        cases hf : find m c with
        | none => rfl
        | some xp =>
          rw [hf] at hs
          exact absurd rfl hs
      rw [modify_of_find_none f m c hn]
  · exact Or.inl (deref_modify_ne f m hc)

theorem deref_modify_d (f : Xpoint → Xpoint) (m : XMap) (c c' : Coord)
    (hf : ∀ xp, (f xp).d = xp.d) : (deref (modify f m c) c').d = (deref m c').d := by
  rcases deref_modify_cases f m c c' with h | ⟨h1, _, h3⟩
  · rw [h]
  · rw [h3, hf, h1]

theorem deref_modify_pi (f : Xpoint → Xpoint) (m : XMap) (c c' : Coord)
    (hf : ∀ xp, (f xp).pi = xp.pi) : (deref (modify f m c) c').pi = (deref m c').pi := by
  rcases deref_modify_cases f m c c' with h | ⟨h1, _, h3⟩
  · rw [h]
  · rw [h3, hf, h1]

/-! ### `dijkstra` returns and leaves the start without a predecessor -/

theorem DjInv.mono_bound {m0 m : XMap} {frm : Coord} {B B' : Int} (h : DjInv m0 frm B m)
    (hB : B ≤ B') : DjInv m0 frm B' m :=
  ⟨h.same, h.d_nonneg, fun v hv => le_trans (h.d_le v hv) hB, h.frm_d, h.frm_pi⟩

theorem deref_modify_state (f : Xpoint → Xpoint) (m : XMap) (c c' : Coord)
    (hf : ∀ xp, (f xp).state = xp.state) :
    (deref (modify f m c) c').state = (deref m c').state := by
  rcases deref_modify_cases f m c c' with h | ⟨h1, _, h3⟩
  · rw [h]
  · rw [h3, hf, h1]

theorem state_modify_ne_white (f : Xpoint → Xpoint) (m : XMap) (c c' : Coord)
    (hf : ∀ xp, (f xp).state = xp.state ∨ (f xp).state ≠ State.WHITE)
    (h : (deref m c').state ≠ State.WHITE) :
    (deref (modify f m c) c').state ≠ State.WHITE := by
  rcases deref_modify_cases f m c c' with e | ⟨e1, _, e3⟩
  · rw [e]
    exact h
  · rw [e3]
    rcases hf (deref m c) with e | e
    · rw [e, ← e1]
      exact h
    · exact e

theorem DjInv.modify_inv {m0 m : XMap} {frm : Coord} {B : Int} (h : DjInv m0 frm B m)
    (f : Xpoint → Xpoint) (c : Coord) (hstat : ∀ xp, (f xp).static = xp.static)
    (hd : 0 ≤ (f (deref m c)).d)
    (hle : (f (deref m c)).state ≠ State.WHITE → (f (deref m c)).d ≤ B)
    (hfrm : c = frm → (f (deref m c)).d = (deref m c).d ∧ (f (deref m c)).pi = (deref m c).pi) :
    DjInv m0 frm B (modify f m c) := by
  constructor
  · exact SameNet.after (SameNet.modify_same m c f hstat) h.same
  · intro v
    rcases deref_modify_cases f m c v with e | ⟨_, _, e⟩
    · rw [e]
      exact h.d_nonneg v
    · rw [e]
      exact hd
  · intro v
    rcases deref_modify_cases f m c v with e | ⟨_, _, e⟩
    · rw [e]
      exact h.d_le v
    · rw [e]
      exact hle
  · rcases deref_modify_cases f m c frm with e | ⟨e1, _, e⟩
    · rw [e]
      exact h.frm_d
    · rw [e, (hfrm e1.symm).1, ← e1]
      exact h.frm_d
  · rcases deref_modify_cases f m c frm with e | ⟨e1, _, e⟩
    · rw [e]
      exact h.frm_pi
    · rw [e, (hfrm e1.symm).2, ← e1]
      exact h.frm_pi

/-- One call of `relax(u, v, w)` for a cost `0 ≤ w` with `u->d + w` in the range of `int`. -/
theorem DjInv.relax_inv {m0 m : XMap} {frm : Coord} {B : Int} (h : DjInv m0 frm B m)
    (u v : Coord) (w : Cost) (hw : 0 ≤ w) (hu : (deref m u).d + w ≤ B) (hB : B ≤ INT_MAX)
    (hs : stored m v) :
    DjInv m0 frm B (relax m u v w) ∧ (deref (relax m u v w) v).d ≤ B ∧
      (∀ c, (deref (relax m u v w) c).state = (deref m c).state) ∧
      (deref (relax m u v w) u).d = (deref m u).d := by
  have h0 := h.d_nonneg u
  have hadd : addInt (deref m u).d w = (deref m u).d + w := by
    apply addInt_of_range
    · have : INT_MIN ≤ 0 := by decide
      linarith
    · linarith
  unfold relax
  rw [hadd]
  split
  · rename_i hlt
    have hv : v ≠ frm := by
      rintro rfl
      rw [h.frm_d] at hlt
      linarith
    refine ⟨?_, ?_, ?_, ?_⟩
    · refine h.modify_inv _ v (fun _ => rfl) ?_ (fun _ => hu) (fun e => absurd e hv)
      show 0 ≤ (deref m u).d + w
      linarith
    · rw [deref_modify_same _ m hs]
      exact hu
    · intro c
      exact deref_modify_state _ m v c (fun _ => rfl)
    · by_cases hvu : v = u
      · subst hvu
        linarith
      · rw [deref_modify_ne _ m hvu]
  · rename_i hlt
    exact ⟨h, by linarith, fun _ => rfl, rfl⟩

theorem whites_relax (m : XMap) (u v : Coord) (w : Cost) : whites (relax m u v w) ≤ whites m := by
  unfold relax
  split
  · exact whites_modify_le m v _ (fun _ => Or.inl rfl)
  · exact le_refl _

theorem dijkstra_for_inv {m0 : XMap} {frm : Coord} (u : Coord) (B W : Int)
    (hB : B + W ≤ INT_MAX) :
    ∀ (fs : List (Coord × Cost)) (m : XMap) (q : List Coord),
      DjInv m0 frm (B + W) m → (deref m u).d ≤ B →
      (∀ x ∈ q, (deref m x).state ≠ State.WHITE) →
      (∀ e ∈ fs, stored m0 e.1 ∧ 0 ≤ e.2 ∧ e.2 ≤ W) →
      DjInv m0 frm (B + W) (dijkstra_for u fs m q).1 ∧
        (deref (dijkstra_for u fs m q).1 u).d ≤ B ∧
        (∀ x ∈ (dijkstra_for u fs m q).2,
          (deref (dijkstra_for u fs m q).1 x).state ≠ State.WHITE) ∧
        (dijkstra_for u fs m q).2.length + whites (dijkstra_for u fs m q).1 ≤
          q.length + whites m := by
  intro fs
  induction fs with
  | nil =>
    intro m q h hu hq _
    exact ⟨h, hu, hq, le_refl _⟩
  | cons e rest ih =>
    intro m q h hu hq hfs
    obtain ⟨v, w⟩ := e
    obtain ⟨hsv, hw0, hwW⟩ := hfs (v, w) (List.mem_cons_self _ _)
    have hrest : ∀ e ∈ rest, stored m0 e.1 ∧ 0 ≤ e.2 ∧ e.2 ≤ W :=
      fun e he => hfs e (List.mem_cons_of_mem _ he)
    have hsm : stored m v := (h.same.stored_same v).mpr hsv
    have hsum : (deref m u).d + w ≤ B + W := by
      have : w ≤ W := hwW
      linarith
    obtain ⟨h1, hd1, hst, hdu⟩ := h.relax_inv u v w hw0 hsum hB hsm
    have hw1 := whites_relax m u v w
    simp only [dijkstra_for]
    split
    · rename_i hwhite
      have hs1 : stored (relax m u v w) v := (h1.same.stored_same v).mpr hsv
      have hwm := whites_modify (relax m u v w) v (fun xv => { xv with state := State.GRAY })
        hs1 hwhite (fun _ => by simp)
      have h2 : DjInv m0 frm (B + W)
          (modify (fun xv => { xv with state := State.GRAY }) (relax m u v w) v) :=
        h1.modify_inv _ v (fun _ => rfl) (h1.d_nonneg v) (fun _ => hd1) (fun _ => ⟨rfl, rfl⟩)
      have hu2 : (deref (modify (fun xv => { xv with state := State.GRAY })
          (relax m u v w) v) u).d ≤ B := by
        rw [deref_modify_d (fun xv => { xv with state := State.GRAY }) _ v u (fun _ => rfl),
          hdu]
        exact hu
      have hq2 : ∀ x ∈ pq_push (Prio_que_op (modify (fun xv =>
          { xv with state := State.GRAY }) (relax m u v w) v)) q v,
          (deref (modify (fun xv => { xv with state := State.GRAY })
            (relax m u v w) v) x).state ≠ State.WHITE := by
        intro x hx
        rcases mem_pq_push _ q v x hx with e | e
        · rw [e, deref_modify_same _ _ hs1]
          simp
        · apply state_modify_ne_white _ _ v x (fun _ => Or.inr (by simp))
          rw [hst x]
          exact hq x e
      obtain ⟨i1, i2, i3, i4⟩ := ih _ _ h2 hu2 hq2 hrest
      refine ⟨i1, i2, i3, ?_⟩
      rw [length_pq_push] at i4
      omega
    · have hq1 : ∀ x ∈ q, (deref (relax m u v w) x).state ≠ State.WHITE := by
        intro x hx
        rw [hst x]
        exact hq x hx
      obtain ⟨i1, i2, i3, i4⟩ := ih (relax m u v w) q h1 (by rw [hdu]; exact hu) hq1 hrest
      exact ⟨i1, i2, i3, by omega⟩

theorem dijkstra_while_inv {m0 : XMap} {frm : Coord} (hwf : WFMap m0) (W : Int) (hW : 0 ≤ W)
    (hcost : ∀ a b w, nb m0 a b = some w → 0 ≤ w ∧ w ≤ W)
    (hn : (m0.length : Int) * W ≤ INT_MAX) :
    ∀ (fuel : Nat) (m : XMap) (q : List Coord) (k : Nat), DjInv m0 frm ((k : Int) * W) m →
      (∀ x ∈ q, (deref m x).state ≠ State.WHITE) →
      q.length + whites m + k ≤ m0.length → q.length + whites m < fuel →
      ∃ m' B, dijkstra_while fuel m q = some m' ∧ DjInv m0 frm B m' := by
  intro fuel
  induction fuel with
  | zero =>
    intro m q k _ _ _ hlt
    omega
  | succ n ih =>
    intro m q k h hq hk hlt
    cases q with
    | nil => exact ⟨m, _, rfl, h⟩
    | cons u rest =>
      simp only [dijkstra_while]
      simp only [List.length_cons] at hk hlt
      have hk1 : k + 1 ≤ m0.length := by omega
      have hcast : ((k + 1 : Nat) : Int) * W = (k : Int) * W + W := by
        push_cast
        ring
      have hB : (k : Int) * W + W ≤ INT_MAX := by
        rw [← hcast]
        refine le_trans (mul_le_mul_of_nonneg_right ?_ hW) hn
        exact_mod_cast hk1
      have hfs : ∀ e ∈ (deref m u).fibres, stored m0 e.1 ∧ 0 ≤ e.2 ∧ e.2 ≤ W := by
        intro e he
        rw [h.same.fibres u] at he
        have hnb := (hwf.mem_fibres_iff u e.1 e.2).mp he
        exact ⟨hwf.stored_nb hnb, hcost u e.1 e.2 hnb⟩
      have hpop : ∀ x ∈ pq_pop (Prio_que_op m) (u :: rest),
          (deref m x).state ≠ State.WHITE :=
        fun x hx => hq x (mem_pq_pop _ _ x hx)
      obtain ⟨i1, i2, i3, i4⟩ := dijkstra_for_inv u ((k : Int) * W) W hB (deref m u).fibres m
        (pq_pop (Prio_que_op m) (u :: rest)) (h.mono_bound (by linarith))
        (h.d_le u (hq u (List.mem_cons_self _ _))) hpop hfs
      rw [length_pq_pop] at i4
      simp only [List.length_cons] at i4
      have hb := whites_modify_le (dijkstra_for u (deref m u).fibres m
        (pq_pop (Prio_que_op m) (u :: rest))).1 u (fun xu => { xu with state := State.BLACK })
        (fun _ => Or.inr (by simp))
      have i5 : DjInv m0 frm (((k + 1 : Nat) : Int) * W)
          (modify (fun xu => { xu with state := State.BLACK }) (dijkstra_for u
            (deref m u).fibres m (pq_pop (Prio_que_op m) (u :: rest))).1 u) := by
        rw [hcast]
        refine i1.modify_inv _ u (fun _ => rfl) (i1.d_nonneg u) (fun _ => ?_)
          (fun _ => ⟨rfl, rfl⟩)
        show (deref _ u).d ≤ _
        linarith
      refine ih _ _ (k + 1) i5 ?_ ?_ ?_
      · intro x hx
        exact state_modify_ne_white _ _ u x (fun _ => Or.inr (by simp)) (i3 x hx)
      · omega
      · omega

/-- From a stored start, in a well-formed network whose costs lie between `0` and `W`, with
`W` times the number of points at most `INT_MAX`, `dijkstra` returns and the start has no
predecessor afterwards. -/
theorem dijkstra_returns {m0 : XMap} {frm : Coord} (hwf : WFMap m0) (hs : stored m0 frm)
    (W : Int) (hW : 0 ≤ W) (hcost : ∀ a b w, nb m0 a b = some w → 0 ≤ w ∧ w ≤ W)
    (hn : (m0.length : Int) * W ≤ INT_MAX) :
    ∃ m', dijkstra m0 frm = some m' ∧ (deref m' frm).pi = none := by
  have hsr : stored (reset_xpoints m0) frm := ((SameNet.reset_same m0).stored_same frm).mpr hs
  have hwhite : (deref (reset_xpoints m0) frm).state = State.WHITE := by rw [deref_reset]
  have hm := whites_modify (reset_xpoints m0) frm
    (fun xf => { xf with state := State.GRAY, d := 0 }) hsr hwhite (fun _ => by simp)
  rw [whites_reset] at hm
  have hinit : DjInv m0 frm (((0 : Nat) : Int) * W)
      (modify (fun xf => { xf with state := State.GRAY, d := 0 }) (reset_xpoints m0) frm) := by
    constructor
    · exact SameNet.after (SameNet.modify_same _ frm _ (fun _ => rfl)) (SameNet.reset_same m0)
    · intro v
      rcases deref_modify_cases (fun xf => { xf with state := State.GRAY, d := 0 })
          (reset_xpoints m0) frm v with e | ⟨_, _, e⟩
      · rw [e, deref_reset]
        show (0 : Int) ≤ INT_MAX
        decide
      · rw [e]
    · intro v hv
      rcases deref_modify_cases (fun xf => { xf with state := State.GRAY, d := 0 })
          (reset_xpoints m0) frm v with e | ⟨_, _, e⟩
      · rw [e, deref_reset] at hv
        exact absurd rfl hv
      · rw [e]
        simp
    · rw [deref_modify_same _ _ hsr]
    · rw [deref_modify_pi (fun xf => { xf with state := State.GRAY, d := 0 }) _ frm frm
        (fun _ => rfl), deref_reset]
  unfold dijkstra
  obtain ⟨m', B, h1, h2⟩ := dijkstra_while_inv hwf W hW hcost hn (m0.length + 1) _
    (pq_push (Prio_que_op (modify (fun xf => { xf with state := State.GRAY, d := 0 })
      (reset_xpoints m0) frm)) [] frm) 0 hinit
    (by
      intro x hx
      rcases mem_pq_push _ [] frm x hx with e | e
      · rw [e, deref_modify_same _ _ hsr]
        simp
      · exact absurd e (List.not_mem_nil x))
    (by
      rw [length_pq_push]
      simp only [List.length_nil]
      omega)
    (by
      rw [length_pq_push]
      simp only [List.length_nil]
      omega)
  exact ⟨m', h1, h2.frm_pi⟩

theorem length_all_xpoints (g : Network) : (all_xpoints g).length = g.xpoints_.length := by
  unfold all_xpoints
  rw [List.length_insertionSort, List.length_map]

/-- **C25**, as stated, fails when a sum of costs leaves the range of `int`: in `farPair`,
whose only cost is positive, `dijkstra` from `(0,0)` gives `(1,0)` the distance `2^30`, and
`relax` from `(1,0)` back to `(0,0)` compares `0` with the `int` sum `2^30 + 2^30`, which is
`-2^31`; so the start `(0,0)` gets the predecessor `(1,0)`, whose predecessor is `(0,0)`, and
`collect_route` follows the predecessors without end: `route_fastest((0,0), (0,0))` does not
return the empty list. -/
theorem C25_route_fastest_overflow_counterexample :
    Reachable farPair ∧
    (∀ p ∈ all_xpoints farPair, ∀ e ∈ get_fibres_from farPair p, 0 ≤ e.2) ∧
    (⟨0, 0⟩ : Coord) ∈ all_xpoints farPair ∧
    addInt 1073741824 1073741824 = -2147483648 ∧
    (dijkstra farPair.xpoints_ ⟨0, 0⟩).map
        (fun m => ((deref m ⟨0, 0⟩).pi, (deref m ⟨0, 0⟩).d, (deref m ⟨1, 0⟩).pi)) =
      some (some ⟨1, 0⟩, -2147483648, some ⟨0, 0⟩) ∧
    route_fastest farPair ⟨0, 0⟩ ⟨0, 0⟩ = none ∧
    (route_fastest farPair ⟨0, 0⟩ ⟨0, 0⟩).map Prod.fst ≠ some [] :=
  ⟨Reachable.add_fibre _ _ _ _ Reachable.init, by decide, by decide, by decide, by decide,
    by decide, by decide⟩

/-- **C25**, amended. In every reachable state and for every stored point `a`,
`route_any(a, a)` and `route_least_xpoints(a, a)` return the empty list (and so not the
one-element route `[(a, 0)]`); and when every fibre cost lies between `0` and a bound `W`
such that `W` times the number of stored points is at most `INT_MAX`, `route_fastest(a, a)`
returns the empty list as well. -/
theorem C25_equal_endpoints_empty_route (g : Network) (hr : Reachable g)
    (a : Coord) (ha : a ∈ all_xpoints g) :
    (route_any g a a).map Prod.fst = some [] ∧
    (route_least_xpoints g a a).map Prod.fst = some [] ∧
    (route_any g a a).map Prod.fst ≠ some [(a, 0)] ∧
    (route_least_xpoints g a a).map Prod.fst ≠ some [(a, 0)] ∧
    (∀ W : Int, ((all_xpoints g).length : Int) * W ≤ INT_MAX →
      (∀ p ∈ all_xpoints g, ∀ e ∈ get_fibres_from g p, 0 ≤ e.2 ∧ e.2 ≤ W) →
      (route_fastest g a a).map Prod.fst = some [] ∧
      (route_fastest g a a).map Prod.fst ≠ some [(a, 0)]) := by
  have hwf := hr.wf
  have hs : stored g.xpoints_ a := (mem_all_xpoints g a).mp ha
  have h1 : (route_any g a a).map Prod.fst = some [] := by
    obtain ⟨b, cyc, m2, hD, hT, _⟩ := DFS_spec (some a) false hwf.map hs
    unfold route_any
    rw [if_neg (route_cond_of_stored hs hs), hD]
    cases b with
    | false => rfl
    | true =>
      exfalso
      obtain ⟨_, hpost⟩ := hT rfl
      cases cyc with
      | some ab =>
        obtain ⟨x, y⟩ := ab
        simp only at hpost
        exact absurd hpost.1 (by simp)
      | none =>
        simp only at hpost
        obtain ⟨t, γ, ht, _, _, _, hne⟩ := hpost
        injection ht with ht
        exact hne ht.symm
  have h2 : (route_least_xpoints g a a).map Prod.fst = some [] := by
    obtain ⟨m', lev, hB, hinv⟩ := BFS_spec hwf.map hs
    unfold route_least_xpoints
    rw [if_neg (route_cond_of_stored hs hs), hB]
    simp only
    rw [if_pos hinv.frm_pi]
    rfl
  refine ⟨h1, h2, ?_, ?_, ?_⟩
  · rw [h1]
    simp
  · rw [h2]
    simp
  · intro W hn hcost
    have hcost' : ∀ x y w, nb g.xpoints_ x y = some w → 0 ≤ w ∧ w ≤ W := by
      intro x y w h
      exact hcost x ((mem_all_xpoints g x).mpr (stored_of_nb h)) (y, w)
        ((mem_get_fibres_from g hwf.map x y w).mpr h)
    have hW : 0 ≤ W := by
      obtain ⟨d, w, hd⟩ := (hwf.map.stored_iff a).mp hs
      exact le_trans (hcost' a d w hd).1 (hcost' a d w hd).2
    rw [length_all_xpoints] at hn
    have h3 : (route_fastest g a a).map Prod.fst = some [] := by
      obtain ⟨m', hD, hpi⟩ := dijkstra_returns hwf.map hs W hW hcost' hn
      unfold route_fastest
      rw [if_neg (route_cond_of_stored hs hs), hD]
      simp only
      rw [if_pos hpi]
      rfl
    refine ⟨h3, ?_⟩
    rw [h3]
    simp

/-- Instance of the amended C25 on the scenario network at the point `(0,0)`: three stored
points and costs of at most 10. -/
theorem C25_equal_endpoints_empty_route_witness :
    (route_any scenario ⟨0, 0⟩ ⟨0, 0⟩).map Prod.fst = some [] ∧
    (route_least_xpoints scenario ⟨0, 0⟩ ⟨0, 0⟩).map Prod.fst = some [] ∧
    (route_fastest scenario ⟨0, 0⟩ ⟨0, 0⟩).map Prod.fst = some [] ∧
    (route_fastest scenario ⟨0, 0⟩ ⟨0, 0⟩).map Prod.fst ≠ some [(⟨0, 0⟩, 0)] :=
  ⟨(C25_equal_endpoints_empty_route scenario scenario_reachable ⟨0, 0⟩ (by decide)).1,
    (C25_equal_endpoints_empty_route scenario scenario_reachable ⟨0, 0⟩ (by decide)).2.1,
    (C25_equal_endpoints_empty_route scenario scenario_reachable ⟨0, 0⟩ (by decide)).2.2.2.2
      10 (by decide) (by decide)⟩

end Datastructures
